import Mathlib

/-!
Gazelle Python extension: in-package dependency graph and import extraction.

A shallow embedding of `python/module.go` (`ProcessImports`, `findInPkgImport`,
`DepsClosure`, `depsClosureHelper`, `GenerateRule`), of `python/parser/parse.go` (`Parse`,
`visitor`, `isTypeCheckingConditional`, `isMainNameCheck`), of `python/resolver.go`
(`Resolve`, `transitiveImports`, `findRuleByImportFuzzy`, `findRuleByImport`), of
`internal/modules.go` (`ModuleName`, `ImportSpec`), of `python/configuration.go`
(`readExternalModuleMapTSV`, `readExternalModuleMapYaml`, `readInternalModuleList`,
`CheckFlags`, `Configure`), of `python/analyzer.go` (`analyzePythonPackage`), of
`python/language.go` (`GenerateRules`) and of `manifest/wheel.go` (`moduleForFilename`),
with the properties of the dependency closure, of the import walk, of the resolution, of
the generated rules, of the tables of the configuration and of the manifest proved over it.

Modelling conventions.

* A `*Module` pointer is an index (`ModId`) into the list of the package's modules (`Pkg`),
  which plays the role of the heap. A method that mutates its receiver becomes a function
  that returns the updated `Pkg`.
* A Go `map[K]struct{}` used as a set is a list of keys; the list order is not observable,
  and an insertion of a key that is already present changes nothing.
* Go does not specify the order in which `range` produces the entries of a map, and an entry
  created during the iteration may be produced or skipped. A `range` over a set of module
  pointers is therefore driven by a schedule `order`: the loop runs over `order keys`, and an
  element of the schedule is produced only if it is an entry of the map at that moment. The
  theorems hold for every schedule that lists at least the entries present when the loop
  starts.
* Strings are Lean strings read as lists of characters. The Go library functions used here
  (`path.Ext`, `strings.TrimSuffix`, `strings.ReplaceAll` with one-byte arguments) search for
  the ASCII bytes `.` and `/`, which is the same search on the characters of valid UTF-8.
* The recursion of `depsClosureHelper` is bounded by a fuel argument; running out of fuel
  yields `none`; `fuelBound` units always suffice.
* The syntax tree of the `gpython` library is reduced to what the visitor inspects:
  `Import`, `ImportFrom`, `If`, and `Other` for every other statement, with its nested
  statements. `ast.Walk` visits a node and then, if the visitor returns true, its children;
  it is bounded by fuel as well, and the depth of nesting suffices.
* The order of strings is the lexicographic order of their characters, which on valid UTF-8
  is the byte order that Go uses.
* A Go panic is a result of its own: `none` for `ImportSpec`, a constructor of the result
  type for the functions that call it. An error that a function returns is a constructor of
  its result type as well.
* What a function reads from the file system or from a library reader is an argument: the
  syntax trees of the files of a package, the records that the CSV reader returns, the lines
  that the scanner yields, the container that the YAML decoder fills, the file that
  `os.Open` returns for a path.
* `strings.ToLower` and `filepath.Rel` are arguments as well; `path.Clean`, `path.Join`,
  `strings.Split`, `strings.TrimSpace` and `bufio.ScanLines` are modelled on characters.
  `log.Fatal` ends a call with the error it is given.
-/

namespace GazellePython

/-! ## Go library functions on strings -/

/-- Backwards scan of `path.Ext`: the argument is the reversed path still to be scanned,
the accumulator holds the characters already passed. The scan stops without a result at a
slash and returns the suffix starting at the first dot met. -/
def extScan : List Char → List Char → List Char
  | [], _ => []
  | c :: rest, acc =>
    if c = '/' then []
    else if c = '.' then '.' :: acc
    else extScan rest (c :: acc)

/-- Go `path.Ext`: the suffix beginning at the final dot in the final slash-separated
element of the path, empty if there is no dot. -/
def pathExt (p : String) : String := ⟨extScan p.data.reverse []⟩

/-- Go `strings.TrimSuffix`. -/
def trimSuffix (s suffix : String) : String :=
  if suffix.data <:+ s.data then ⟨s.data.take (s.data.length - suffix.data.length)⟩ else s

/-- Go `strings.ReplaceAll(s, "/", ".")`. -/
def slashesToDots (s : String) : String :=
  ⟨s.data.map (fun c => if c = '/' then '.' else c)⟩

/-! ## Modules and packages (`python/module.go`) -/

/-- A pointer to a module: its index in the package. -/
abbrev ModId := Nat

/-- Go `Module`, with the embedded `parser.Result` flattened into its two fields. -/
structure Module where
  Imports : List String
  HasMainNameCheck : Bool
  ImportSpec : String
  PkgPath : String
  Name : String
  Filename : String
  InPkgDeps : List ModId
  ExPkgImports : List String
deriving DecidableEq, Inhabited

/-- The modules of one package; a `ModId` points into this list. -/
abbrev Pkg := List Module

/-- Go `moduleMap map[string]*Module`, as an association list read by `List.lookup`. -/
abbrev ModuleMap := List (String × ModId)

/-- Insertion of a key into a Go map used as a set. -/
def setInsert {α : Type} [DecidableEq α] (s : List α) (a : α) : List α :=
  if a ∈ s then s else s ++ [a]

/-- Go `findInPkgImport`. -/
def findInPkgImport (module : Module) (imp : String) (moduleMap : ModuleMap)
    (subPackages : List String) : Option ModId :=
  let ext := pathExt imp
  let impParent := trimSuffix imp ext
  if ext ≠ "" ∧ impParent = slashesToDots module.PkgPath ∧
      (⟨ext.data.drop 1⟩ : String) ∈ subPackages then
    none
  else
    match moduleMap.lookup imp with
    | some dep => some dep
    | none =>
      match moduleMap.lookup impParent with
      | some dep => some dep
      | none => none

/-- Go `ProcessImports`, on the receiver alone: nothing else is written. -/
def ProcessImportsModule (module : Module) (moduleMap : ModuleMap)
    (subPackages : List String) : Module :=
  module.Imports.foldl
    (fun md imp =>
      match findInPkgImport md imp moduleMap subPackages with
      | some dep => { md with InPkgDeps := setInsert md.InPkgDeps dep }
      | none => { md with ExPkgImports := md.ExPkgImports ++ [imp] })
    module

/-- Go `ProcessImports` called on the module that `m` points to. -/
def ProcessImports (pkg : Pkg) (m : ModId) (moduleMap : ModuleMap)
    (subPackages : List String) : Pkg :=
  pkg.modify (fun md => ProcessImportsModule md moduleMap subPackages) m

/-- The `InPkgDeps` of the module that `p` points to. -/
def depsOf (pkg : Pkg) (p : ModId) : List ModId :=
  match pkg[p]? with
  | some md => md.InPkgDeps
  | none => []

/-- The statement `module.InPkgDeps[dep] = struct{}{}` for the module that `m` points to. -/
def addDep (pkg : Pkg) (m dep : ModId) : Pkg :=
  pkg.modify (fun md => { md with InPkgDeps := setInsert md.InPkgDeps dep }) m

/-- Go `depsClosureHelper` with receiver `m`. One unit of fuel is spent per call. -/
def depsClosureHelper (order : List ModId → List ModId) (m : ModId) :
    Nat → Pkg → ModId → Option Pkg
  | 0, _, _ => none
  | fuel + 1, pkg, dep =>
    (order (depsOf pkg dep)).foldlM
      (fun cur depdep =>
        if depdep ∉ depsOf cur dep then some cur
        else if depdep ∈ depsOf cur m ∨ depdep = m then some cur
        else depsClosureHelper order m fuel (addDep cur m depdep) depdep)
      pkg

/-- Go `DepsClosure` with receiver `m`. -/
def DepsClosure (order : List ModId → List ModId) (fuel : Nat) (pkg : Pkg) (m : ModId) :
    Option Pkg :=
  (order (depsOf pkg m)).foldlM
    (fun cur dep =>
      if dep ∉ depsOf cur m then some cur
      else depsClosureHelper order m fuel cur dep)
    pkg

/-- Every module pointer held in some `InPkgDeps` of the package. -/
def allDeps (pkg : Pkg) : List ModId :=
  (pkg.map (fun md => md.InPkgDeps)).flatten

/-- Fuel that always suffices for `DepsClosure`: one more than the number of distinct
modules that occur in some `InPkgDeps` of the package. -/
def fuelBound (pkg : Pkg) : Nat :=
  ((allDeps pkg).dedup).length + 1

/-- The first loop of `analyzePythonPackage`: `ProcessImports` on the modules in `ps`. -/
def processAll (pkg : Pkg) (moduleMap : ModuleMap) (subPackages : List String)
    (ps : List ModId) : Pkg :=
  ps.foldl (fun cur m => ProcessImports cur m moduleMap subPackages) pkg

/-- The second loop of `analyzePythonPackage`: `DepsClosure` on the modules in `qs`. -/
def closeAll (order : List ModId → List ModId) (fuel : Nat) (pkg : Pkg) (qs : List ModId) :
    Option Pkg :=
  qs.foldlM (fun cur m => DepsClosure order fuel cur m) pkg

/-! ## Test data of `TestModuleInPkgDeps` -/

/-- A module as `analyzePythonPackage` creates it, before `ProcessImports`. -/
def mkModule (pkgPath name spec : String) (imports : List String) : Module :=
  { Imports := imports, HasMainNameCheck := false, ImportSpec := spec, PkgPath := pkgPath,
    Name := name, Filename := "", InPkgDeps := [], ExPkgImports := [] }

def testPkg : Pkg :=
  [ mkModule "pkg1/pkg2" "" "pkg1.pkg2" ["pkg1", "pkg1.pkg2.subpkg1", "pkg1.pkg2.mod1"],
    mkModule "pkg1/pkg2" "mod1" "pkg1.pkg2.mod1"
      ["pkg1", "pkg1.pkg2.subpkg1", "pkg1.pkg2.mod2", "pkg1.pkg2.sym1", "pkg1.pkg2.mod2.sym2"],
    mkModule "pkg1/pkg2" "mod2" "pkg1.pkg2.mod2" ["pkg1.pkg2.subpkg2"] ]

def testModuleMap : ModuleMap :=
  [("pkg1.pkg2", 0), ("pkg1.pkg2.mod1", 1), ("pkg1.pkg2.mod2", 2)]

def testSubPackages : List String := ["subpkg1", "subpkg2"]

/-- The package with `added` appended to the `InPkgDeps` of the module that `m` points to. -/
def growDeps (pkg : Pkg) (m : ModId) (added : List ModId) : Pkg :=
  pkg.modify (fun md => { md with InPkgDeps := md.InPkgDeps ++ added }) m

/-- The in-package dependency edges stored in a package: `a` holds `b` in its `InPkgDeps`. -/
def depEdge (pkg : Pkg) (a b : ModId) : Prop := b ∈ depsOf pkg a

/-- The stored edges whose source is not `m`. -/
def depEdgeAway (pkg : Pkg) (m a b : ModId) : Prop := a ≠ m ∧ b ∈ depsOf pkg a

/-! ## Invariants of the closure -/

/-- What holds of the pointers `added` to the `InPkgDeps` of `m` while `depsClosureHelper`
runs on `dep`: none is `m`, none was there before, each is reached from `dep` along stored
edges that do not leave `m`, and the stored dependencies of each are in the enlarged set (or
are `m`). -/
structure InProgress (pkg : Pkg) (m dep : ModId) (added : List ModId) : Prop where
  ne : ∀ y ∈ added, y ≠ m
  fresh : ∀ y ∈ added, y ∉ depsOf pkg m
  nodup : added.Nodup
  reach : ∀ y ∈ added, Relation.TransGen (depEdgeAway pkg m) dep y
  closed : ∀ y ∈ added, ∀ z ∈ depsOf pkg y, z ∈ depsOf pkg m ++ added ∨ z = m

/-- What holds once `depsClosureHelper` has returned from `dep`: in addition, the stored
dependencies of `dep` itself are in the enlarged set (or are `m`). -/
structure Explored (pkg : Pkg) (m dep : ModId) (added : List ModId) : Prop where
  part : InProgress pkg m dep added
  done : ∀ z ∈ depsOf pkg dep, z ∈ depsOf pkg m ++ added ∨ z = m

/-- The statement proved of `depsClosureHelper` for a given amount of fuel. -/
def HelperSpec (order : List ModId → List ModId) (m : ModId) (U : Finset ModId)
    (fuel : Nat) : Prop :=
  ∀ (pkg : Pkg) (dep : ModId), m < pkg.length → (∀ i, ∀ x ∈ depsOf pkg i, x ∈ U) →
    (U \ insert m (depsOf pkg m).toFinset).card < fuel →
    ∃ added, depsClosureHelper order m fuel pkg dep = some (growDeps pkg m added) ∧
      Explored pkg m dep added

/-- What holds of the pointers `added` to the `InPkgDeps` of `m` by `DepsClosure`: none is
`m`, none was there before, each is reached from `m` along stored edges, and the enlarged
set holds the stored dependencies (other than `m`) of each of its members. -/
structure ClosedBy (pkg : Pkg) (m : ModId) (added : List ModId) : Prop where
  ne : ∀ y ∈ added, y ≠ m
  fresh : ∀ y ∈ added, y ∉ depsOf pkg m
  nodup : added.Nodup
  reach : ∀ y ∈ added, Relation.TransGen (depEdge pkg) m y
  closed : ∀ y ∈ added, ∀ z ∈ depsOf pkg y, z ∈ depsOf pkg m ++ added ∨ z = m

/-! ## Direct dependencies -/

/-- Module `a` imports module `b`: some import specifier of `a` is resolved by
`findInPkgImport` to `b`. -/
def directDep (pkg : Pkg) (moduleMap : ModuleMap) (subPackages : List String)
    (a b : ModId) : Prop :=
  ∃ md, pkg[a]? = some md ∧ ∃ imp ∈ md.Imports,
    findInPkgImport md imp moduleMap subPackages = some b

/-! ## A package with an import cycle -/

/-- Two modules of package `pkg` that import each other. -/
def cyclePkg : Pkg :=
  [ mkModule "pkg" "a" "pkg.a" ["pkg.b"], mkModule "pkg" "b" "pkg.b" ["pkg.a"] ]

def cycleModuleMap : ModuleMap := [("pkg.a", 0), ("pkg.b", 1)]

/-! ## Classification of import specifiers -/

/-- The specifier cut at its last dot: the part before the dot and the segment after it;
`none` when the specifier has no dot. -/
def splitLastDot (imp : String) : Option (String × String) :=
  let r := imp.data.reverse
  if '.' ∈ r then
    some (⟨((r.dropWhile (fun c => c != '.')).drop 1).reverse⟩,
          ⟨(r.takeWhile (fun c => c != '.')).reverse⟩)
  else none

/-- The classification of an import specifier in the words of the specification: external
(`none`) if the specifier with its last dot-segment removed is the dotted path of the
package and the removed segment names a known subpackage; else the module whose specifier is
the import, if the module map has one; else the module whose specifier is the import with
its last dot-segment removed, if the module map has one; else external. -/
def classifyImport (pkgDotted : String) (moduleMap : ModuleMap) (subPackages : List String)
    (imp : String) : Option ModId :=
  match splitLastDot imp with
  | some (parent, seg) =>
    if parent = pkgDotted ∧ seg ∈ subPackages then none
    else
      match moduleMap.lookup imp with
      | some dep => some dep
      | none => moduleMap.lookup parent
  | none => moduleMap.lookup imp

/-! ## The import walk (`python/parser/parse.go`) -/

/-- Go `ast.UnaryOpNumber`. -/
inductive UnaryOpNumber
  | Invert | Not | UAdd | USub
deriving DecidableEq

/-- Go `ast.CmpOp`. -/
inductive CmpOp
  | Eq | NotEq | Lt | LtE | Gt | GtE | Is | IsNot | In | NotIn
deriving DecidableEq

/-- The expressions of the syntax tree that the code inspects; every other expression is
`Other`. No expression of Python 3.4 holds a statement. -/
inductive Expr
  | Name (Id : String)
  | Attribute (Value : Expr) (Attr : String)
  | UnaryOp (Op : UnaryOpNumber) (Operand : Expr)
  | Compare (Left : Expr) (Ops : List CmpOp) (Comparators : List Expr)
  | Str (S : String)
  | Other

/-- The statements of the syntax tree. `Import` and `ImportFrom` carry the names of their
aliases. `Other` is any other statement (function and class definitions, loops, `with`,
`try`, simple statements), with the statements nested in it in the order in which
`ast.Walk` reaches them. -/
inductive Stmt
  | Import (Names : List String)
  | ImportFrom (Module : String) (Names : List String)
  | If (Test : Expr) (Body Orelse : List Stmt)
  | Other (Children : List Stmt)

/-- Go `parser.Result`. -/
structure Result where
  Imports : List String
  HasMainNameCheck : Bool
deriving DecidableEq

/-- What the walk of `Parse` holds: the map `importedSet`, the field of `res` that the
visitor writes, and a ghost list, read by no branch of the code, of the statements handed
to `visitor` so far. -/
structure WalkState where
  importedSet : List String
  HasMainNameCheck : Bool
  visited : List Stmt

/-- Go `isTypeCheckingConditional`, on the three fields of the `ast.If` it is given. -/
def isTypeCheckingConditional (imported : List String) :
    Expr → List Stmt → List Stmt → Bool × List Stmt
  | .UnaryOp op operand, body, orelse =>
    if op = .Not then isTypeCheckingConditional imported operand orelse body
    else (false, [])
  | .Attribute value attr, _, orelse =>
    if "typing" ∉ imported then (false, [])
    else
      match value with
      | .Name id =>
        if id = "typing" ∧ attr = "TYPE_CHECKING" then (true, orelse) else (false, [])
      | _ => (false, [])
  | .Name id, _, orelse =>
    if "typing.TYPE_CHECKING" ∉ imported then (false, [])
    else if id = "TYPE_CHECKING" then (true, orelse)
    else (false, [])
  | _, _, _ => (false, [])

/-- Go `isMainNameCheck`, on the test of the `ast.If` it is given. -/
def isMainNameCheck : Expr → Bool
  | .Compare left ops comparators =>
    match ops, comparators with
    | [op], [right] =>
      if op ≠ .Eq then false
      else
        match left with
        | .Name id =>
          if id ≠ "__name__" then false
          else
            match right with
            | .Str s => if s ≠ "__main__" then false else true
            | _ => false
        | _ => false
    | _, _ => false
  | _ => false

/-- Go `visitor` on a statement; `walk stmt` stands for
`ast.Walk(stmt, func(tree) { return visitor(tree, importedSet, res) })`. Nodes that are not
statements are not modelled: on them the visitor does nothing and returns true. -/
def visitor (walk : Stmt → WalkState → Option WalkState) (tree : Stmt) (st0 : WalkState) :
    Option (WalkState × Bool) :=
  let st : WalkState := { st0 with visited := st0.visited ++ [tree] }
  match tree with
  | .Import names =>
    some ({ st with importedSet := names.foldl setInsert st.importedSet }, true)
  | .ImportFrom module names =>
    some ({ st with importedSet :=
              (names.foldl (fun cur name => setInsert cur (module ++ "." ++ name))
                st.importedSet) }, true)
  | .If test body orelse =>
    match isTypeCheckingConditional st.importedSet test body orelse with
    | (true, safeBody) =>
      match safeBody.foldlM (fun cur stmt => walk stmt cur) st with
      | some st' => some (st', false)
      | none => none
    | (false, _) =>
      if !st.HasMainNameCheck && isMainNameCheck test then
        some ({ st with HasMainNameCheck := true }, true)
      else some (st, true)
  | .Other _ => some (st, true)

/-- The statements that `ast.Walk` walks after a statement for which the visitor has
returned true, in its order: for `If`, the body and then the else branch. -/
def childStmts : Stmt → List Stmt
  | .Import _ => []
  | .ImportFrom _ _ => []
  | .If _ body orelse => body ++ orelse
  | .Other children => children

/-- Go `ast.Walk(node, visitor)` on a statement: the node is visited first, and its
children are walked if the visitor returns true. One unit of fuel is spent per level of
nesting. -/
def Walk : Nat → Stmt → WalkState → Option WalkState
  | 0, _, _ => none
  | fuel + 1, node, st =>
    match visitor (Walk fuel) node st with
    | none => none
    | some (st', false) => some st'
    | some (st', true) => (childStmts node).foldlM (fun cur child => Walk fuel child cur) st'

/-- The walk of a list of statements, as `ast.Walk` does for the body of the module. -/
def walkStmts (fuel : Nat) (stmts : List Stmt) (st : WalkState) : Option WalkState :=
  stmts.foldlM (fun cur stmt => Walk fuel stmt cur) st

/-- The order of Go strings on lists of characters. -/
def charsLt : List Char → List Char → Bool
  | _, [] => false
  | [], _ :: _ => true
  | a :: as, b :: bs => if a < b then true else if b < a then false else charsLt as bs

/-- Go `<` on strings. -/
def strLt (a b : String) : Bool := charsLt a.data b.data

/-- Go `sort.Strings`: the result is the sorted permutation of its argument. -/
def sortStrings (l : List String) : List String :=
  l.insertionSort (fun a b => strLt b a = false)

/-- Go `Parse`, from the syntax tree of the module (the list of its top-level statements).
`order` is the order in which `range importedSet` produces the keys. -/
def Parse (order : List String → List String) (fuel : Nat) (tree : List Stmt) :
    Option Result :=
  match walkStmts fuel tree { importedSet := [], HasMainNameCheck := false, visited := [] } with
  | none => none
  | some st =>
    some { Imports := sortStrings (order st.importedSet),
           HasMainNameCheck := st.HasMainNameCheck }

mutual
/-- The depth of nesting of a statement. -/
def Stmt.depth : Stmt → Nat
  | .Import _ => 1
  | .ImportFrom _ _ => 1
  | .If _ body orelse => 1 + max (depthList body) (depthList orelse)
  | .Other children => 1 + depthList children
/-- The depth of nesting of a list of statements: fuel that suffices for its walk. -/
def depthList : List Stmt → Nat
  | [] => 0
  | stmt :: rest => max stmt.depth (depthList rest)
end

mutual
/-- The statements nested in a statement at any depth, itself included, in pre-order. -/
def Stmt.subs : Stmt → List Stmt
  | .Import names => [.Import names]
  | .ImportFrom module names => [.ImportFrom module names]
  | .If test body orelse => .If test body orelse :: (subsList body ++ subsList orelse)
  | .Other children => .Other children :: subsList children
/-- The statements nested in a list of statements at any depth, in pre-order. -/
def subsList : List Stmt → List Stmt
  | [] => []
  | stmt :: rest => stmt.subs ++ subsList rest
end

/-- The specifiers an import statement contributes: the dotted name of each alias of
`import`, and the module joined by a dot with each name of `from ... import`. -/
def contributes : Stmt → List String
  | .Import names => names
  | .ImportFrom module names => names.map (fun name => module ++ "." ++ name)
  | _ => []

/-- The source `from typing import TYPE_CHECKING`, `if TYPE_CHECKING:`, `import mod1`. -/
def typeCheckingSource : List Stmt :=
  [ .ImportFrom "typing" ["TYPE_CHECKING"],
    .If (.Name "TYPE_CHECKING") [.Import ["mod1"]] [] ]

/-! ## Predicates on the walk -/

/-- The shape of a test in which `isTypeCheckingConditional` can recognise a check of
`typing.TYPE_CHECKING`, whatever has been imported: under any number of `not`, the name
`TYPE_CHECKING` or the attribute `typing.TYPE_CHECKING`. -/
def mayBeTypeChecking : Expr → Bool
  | .UnaryOp op operand => if op = .Not then mayBeTypeChecking operand else false
  | .Attribute (.Name id) attr => decide (id = "typing" ∧ attr = "TYPE_CHECKING")
  | .Name id => decide (id = "TYPE_CHECKING")
  | _ => false

/-- A conditional whose test has the shape of a check of `typing.TYPE_CHECKING`. -/
def tcShaped : Stmt → Bool
  | .If test _ _ => mayBeTypeChecking test
  | _ => false

/-- A conditional whose test is `__name__ == "__main__"`. -/
def mainGuard : Stmt → Bool
  | .If test _ _ => isMainNameCheck test
  | _ => false

/-- The effect of a walk that started in `st`, ended in `st'` and handed the statements
`new` to the visitor, all of them among `cands`. -/
structure Walked (cands : List Stmt) (st st' : WalkState) (new : List Stmt) : Prop where
  visited : st'.visited = st.visited ++ new
  sub : ∀ x ∈ new, x ∈ cands
  full : (∀ x ∈ cands, tcShaped x = false) → new = cands
  imported : ∀ spec, spec ∈ st'.importedSet ↔
    spec ∈ st.importedSet ∨ ∃ x ∈ new, spec ∈ contributes x
  nodup : st.importedSet.Nodup → st'.importedSet.Nodup
  main : st'.HasMainNameCheck = (st.HasMainNameCheck || new.any mainGuard)

/-- The state in which the visitor continues after it has been handed `node`. -/
def noteVisit (st : WalkState) (node : Stmt) : WalkState :=
  { st with visited := st.visited ++ [node] }

/-- The statement proved of `Walk` for a given amount of fuel. -/
def WalkSpec (fuel : Nat) : Prop :=
  ∀ (s : Stmt) (st : WalkState), s.depth ≤ fuel →
    ∃ st' new, Walk fuel s st = some st' ∧ Walked s.subs st st' new

/-! ## The branches of a conditional, and further test data -/

/-- The branch of a conditional that runs when `TYPE_CHECKING` is false, for a test that
checks `TYPE_CHECKING` under some number of `not`: each `not` swaps the two branches, and
under none it is the else branch. -/
def branchOutsideTypeChecking : Expr → List Stmt → List Stmt → List Stmt
  | .UnaryOp op operand, body, orelse =>
    if op = .Not then branchOutsideTypeChecking operand orelse body else orelse
  | _, _, orelse => orelse

/-- The start of the walk in `Parse`: an empty `importedSet` and an empty `Result`. -/
def initialState : WalkState :=
  { importedSet := [], HasMainNameCheck := false, visited := [] }

/-- A module with imports at several depths: `from mod1 import foo, bar; import mod2.baz`,
a function whose body imports `foo`, and `if False: import mod1` with an else branch that
imports `mod2.baz` again. -/
def nestedSource : List Stmt :=
  [ .ImportFrom "mod1" ["foo", "bar"],
    .Import ["mod2.baz"],
    .Other [.Import ["foo"]],
    .If .Other [.Import ["mod1"]] [.Import ["mod2.baz"]] ]

/-- A package root that imports a name from its own package:
`from pkg1.pkg2 import sym1` in `pkg1/pkg2/__init__.py`. -/
def selfImportPkg : Pkg :=
  [ mkModule "pkg1/pkg2" "" "pkg1.pkg2" ["pkg1.pkg2.sym1"] ]

def selfImportModuleMap : ModuleMap := [("pkg1.pkg2", 0)]

/-! ## Resolution of imports (`python/resolver.go`)

The rule index, the labels and their rendering belong to the Gazelle library. The index is
the function that `ix.FindRulesByImport` computes for the Python language, and the
rendering `label.Label.String` is a parameter `labelString` of the definitions. A nil map
and an empty map answer every lookup alike, so both are the empty list. -/

/-- Go `path.Base`: the last element of a slash-separated path, after removal of trailing
slashes; `.` for the empty path and `/` for a path of slashes only. -/
def pathBase (p : String) : String :=
  if p.data = [] then "."
  else
    let last :=
      ((p.data.reverse.dropWhile (fun c => c == '/')).takeWhile (fun c => c != '/')).reverse
    if last = [] then "/" else ⟨last⟩

/-- Gazelle `label.Label`. -/
structure Label where
  Repo : String
  Pkg : String
  Name : String
  Relative : Bool
deriving DecidableEq

/-- Gazelle `resolve.FindResult`. -/
structure FindResult where
  Label : Label
  Embeds : List GazellePython.Label
deriving DecidableEq

/-- What `ix.FindRulesByImport(resolve.ImportSpec{Lang: languageName, Imp: imp},
languageName)` returns for each `imp`. -/
abbrev RuleIndex := String → List FindResult

/-- Go `ExternalModule`. -/
structure ExternalModule where
  Dist : String
  PkgPath : String
  Module : String
  BazelTarget : String
  ModuleType : String
deriving DecidableEq

/-- Go `map[string]ExternalModule`, read by `List.lookup`. -/
abbrev ExternalModuleMap := List (String × ExternalModule)

/-- The test `res.Label.Name == path.Base(res.Label.Pkg)` of `findRuleByImport`. -/
def isPackageRoot (res : FindResult) : Bool :=
  decide (res.Label.Name = pathBase res.Label.Pkg)

/-- Go `findRuleByImport`. -/
def findRuleByImport (labelString : Label → String) (imp : String) (ix : RuleIndex)
    (externalModuleMap : ExternalModuleMap) (internalModuleList : List String) :
    String × Bool :=
  let results := ix imp
  match results.find? isPackageRoot with
  | some res => (labelString res.Label, true)
  | none =>
    match results with
    | res :: _ => (labelString res.Label, true)
    | [] =>
      match externalModuleMap.lookup imp with
      | some dep => (dep.BazelTarget, true)
      | none =>
        if imp ∈ internalModuleList then ("", true)
        else ("", false)

/-- Go `findRuleByImportFuzzy`. -/
def findRuleByImportFuzzy (labelString : Label → String) (imp : String) (ix : RuleIndex)
    (externalModuleMap : ExternalModuleMap) (internalModuleList : List String) :
    String × Bool :=
  match findRuleByImport labelString imp ix externalModuleMap internalModuleList with
  | (target, true) => (target, true)
  | (_, false) =>
    let ext := pathExt imp
    if ext = "" then ("", false)
    else
      findRuleByImport labelString (trimSuffix imp ext) ix externalModuleMap
        internalModuleList

/-- The module that a pointer points to. -/
def deref (pkg : Pkg) (p : ModId) : Module := (pkg[p]?).getD default

/-- Go `transitiveImports`; `order` is the order in which `range module.InPkgDeps` produces
the pointers. -/
def transitiveImports (order : List ModId → List ModId) (pkg : Pkg) (module : ModId) :
    List String :=
  let modules := [module] ++ order (depsOf pkg module)
  modules.foldl (fun res m => res ++ (deref pkg m).ExPkgImports) []

/-- What `Resolve` builds: the map `deps`, and the specifiers it has handed to `log.Printf`
as unresolved. -/
structure ResolveState where
  deps : List String
  log : List String
deriving DecidableEq

/-- The body of the first loop of `Resolve`, for one import specifier. -/
def resolveImport (labelString : Label → String) (ix : RuleIndex)
    (externalModuleMap : ExternalModuleMap) (internalModuleList : List String)
    (st : ResolveState) (imp : String) : ResolveState :=
  match findRuleByImportFuzzy labelString imp ix externalModuleMap internalModuleList with
  | (target, ok) =>
    if target ≠ "" then { st with deps := setInsert st.deps target }
    else if !ok then { st with log := st.log ++ [imp] }
    else st

/-- The second loop of `Resolve`, `for ext != ""`, with its two variables `imp` and `ext`:
the target found for the parent package, if any. One unit of fuel is spent per iteration,
and `none` is the lack of fuel. -/
def ancestorLoop (labelString : Label → String) (ix : RuleIndex) :
    Nat → String → String → Option (Option String)
  | 0, _, ext => if ext = "" then some none else none
  | fuel + 1, imp, ext =>
    if ext = "" then some none
    else
      let imp1 := trimSuffix imp ext
      let ext1 := pathExt imp1
      match findRuleByImport labelString imp1 ix [] [] with
      | (target, ok) =>
        if ok = true ∧ target ≠ "" then some (some target)
        else ancestorLoop labelString ix fuel imp1 ext1

/-- Go `Resolve`: the value of the `deps` attribute it sets on the rule, and the
specifiers it reports. `orderDeps` is the order in which `range deps` produces the
targets. -/
def Resolve (labelString : Label → String) (orderMods : List ModId → List ModId)
    (orderDeps : List String → List String) (fuel : Nat) (ix : RuleIndex)
    (externalModuleMap : ExternalModuleMap) (internalModuleList : List String)
    (pkg : Pkg) (module : ModId) : Option ResolveState :=
  let st := (transitiveImports orderMods pkg module).foldl
    (resolveImport labelString ix externalModuleMap internalModuleList)
    { deps := [], log := [] }
  let imp := (deref pkg module).ImportSpec
  match ancestorLoop labelString ix fuel imp (pathExt imp) with
  | none => none
  | some none => some { deps := orderDeps st.deps, log := st.log }
  | some (some target) =>
    some { deps := orderDeps (setInsert st.deps target), log := st.log }

/-- The rendering of labels in Gazelle, `label.Label.String`. -/
def gazelleLabelString (l : Label) : String :=
  if l.Relative then ":" ++ l.Name
  else
    let repo := if l.Repo ≠ "" ∧ l.Repo ≠ "@" then "@" ++ l.Repo else l.Repo
    if pathBase l.Pkg = l.Name then repo ++ "//" ++ l.Pkg
    else repo ++ "//" ++ l.Pkg ++ ":" ++ l.Name

/-- The index entry of a rule `name` in package `pkg` of the main repository. -/
def mkResult (pkg name : String) : FindResult :=
  { Label := { Repo := "", Pkg := pkg, Name := name, Relative := false }, Embeds := [] }

/-- An index that knows the package `pkg.sub` (its `__init__.py`) and the package `pkg`. -/
def testIndex : RuleIndex := fun imp =>
  if imp = "pkg.sub" then [mkResult "pkg/sub" "other", mkResult "pkg/sub" "sub"]
  else if imp = "pkg" then [mkResult "pkg" "pkg"]
  else []

/-- An external module of distribution `numpy`. -/
def testExternalModuleMap : ExternalModuleMap :=
  [ ("numpy",
      { Dist := "numpy", PkgPath := "numpy", Module := "",
        BazelTarget := "@pip_numpy//:pkg", ModuleType := "py" }),
    ("pkg.sub.ext",
      { Dist := "ext", PkgPath := "pkg/sub", Module := "ext",
        BazelTarget := "@pip_ext//:pkg", ModuleType := "py" }) ]

def testInternalModuleList : List String := ["os", "os.path", "pkg.sub.builtin"]

/-! ## Further test data for the walk -/

/-- The source `from typing import TYPE_CHECKING`, `if not TYPE_CHECKING:` with body
`import mod1` and else branch `import mod2`. -/
def negatedSource : List Stmt :=
  [ .ImportFrom "typing" ["TYPE_CHECKING"],
    .If (.UnaryOp .Not (.Name "TYPE_CHECKING")) [.Import ["mod1"]] [.Import ["mod2"]] ]

/-- The test `__name__ == "__main__"`. -/
def mainTest : Expr := .Compare (.Name "__name__") [.Eq] [.Str "__main__"]

/-- The source `if __name__ == "__main__": main()`. -/
def mainSource : List Stmt := [ .If mainTest [.Other []] [] ]

/-- A main guard inside the body of a `TYPE_CHECKING` conditional:
`from typing import TYPE_CHECKING`, `if TYPE_CHECKING:`, `if __name__ == "__main__": main()`. -/
def guardedMainSource : List Stmt :=
  [ .ImportFrom "typing" ["TYPE_CHECKING"],
    .If (.Name "TYPE_CHECKING") [.If mainTest [.Other []] []] [] ]

/-! ## The order of resolution, in the words of the specification -/

/-- The target that the index gives for a specifier: that of the first candidate whose name
is the last segment of its package path, else that of the first candidate; `none` when the
index returns no candidate. -/
def indexMatch (labelString : Label → String) (ix : RuleIndex) (imp : String) :
    Option String :=
  match (ix imp).find? isPackageRoot with
  | some res => some (labelString res.Label)
  | none => (ix imp).head?.map (fun res => labelString res.Label)

/-- The target of the entry of the external module map for a specifier, if there is one. -/
def externalEntry (externalModuleMap : ExternalModuleMap) (imp : String) : Option String :=
  (externalModuleMap.lookup imp).map (fun dep => dep.BazelTarget)

/-- The empty target if the specifier is in the internal module set. -/
def internalEntry (internalModuleList : List String) (imp : String) : Option String :=
  if imp ∈ internalModuleList then some "" else none

/-- The first success of a list of attempts, with `ok = true`; not found if none succeeds. -/
def firstSuccess (attempts : List (Option String)) : String × Bool :=
  match attempts.findSome? id with
  | some target => (target, true)
  | none => ("", false)

/-- The specifier with its trailing dot-segment stripped, as the code strips it; `none` if
`path.Ext` finds no trailing segment. -/
def strippedForm (imp : String) : Option String :=
  if pathExt imp = "" then none else some (trimSuffix imp (pathExt imp))

/-- The attempts in the order of the claim: the index for the specifier and for its
stripped form, then the external map for both, then the internal set for both. -/
def claimedAttempts (labelString : Label → String) (imp : String) (ix : RuleIndex)
    (externalModuleMap : ExternalModuleMap) (internalModuleList : List String) :
    List (Option String) :=
  match strippedForm imp with
  | some parent =>
    [ indexMatch labelString ix imp, indexMatch labelString ix parent,
      externalEntry externalModuleMap imp, externalEntry externalModuleMap parent,
      internalEntry internalModuleList imp, internalEntry internalModuleList parent ]
  | none =>
    [ indexMatch labelString ix imp, externalEntry externalModuleMap imp,
      internalEntry internalModuleList imp ]

/-- The attempts in the order of the code: the index, the external map and the internal set
for the specifier, then the three for its stripped form. -/
def actualAttempts (labelString : Label → String) (imp : String) (ix : RuleIndex)
    (externalModuleMap : ExternalModuleMap) (internalModuleList : List String) :
    List (Option String) :=
  match strippedForm imp with
  | some parent =>
    [ indexMatch labelString ix imp, externalEntry externalModuleMap imp,
      internalEntry internalModuleList imp,
      indexMatch labelString ix parent, externalEntry externalModuleMap parent,
      internalEntry internalModuleList parent ]
  | none =>
    [ indexMatch labelString ix imp, externalEntry externalModuleMap imp,
      internalEntry internalModuleList imp ]

/-- A specifier that is in none of the three tables. -/
def unknownImport (ix : RuleIndex) (externalModuleMap : ExternalModuleMap)
    (internalModuleList : List String) (imp : String) : Prop :=
  ix imp = [] ∧ externalModuleMap.lookup imp = none ∧ imp ∉ internalModuleList

/-- The proper dotted prefixes of a specifier, the shortest first: the parts before each of
its dots. -/
def dotPrefixes : List Char → List (List Char)
  | [] => []
  | c :: cs => (if c = '.' then [[]] else []) ++ (dotPrefixes cs).map (fun p => c :: p)

/-- The proper dotted prefixes of a specifier, the nearest (longest) first. -/
def dottedPrefixes (spec : String) : List String :=
  (dotPrefixes spec.data).reverse.map String.mk

/-- The nearest proper dotted prefix of a specifier for which the index returns a
candidate. -/
def nearestIndexed (ix : RuleIndex) (spec : String) : Option String :=
  (dottedPrefixes spec).find? (fun p => decide (ix p ≠ []))

/-- The specifiers that `Resolve` resolves for a module: its own `ExPkgImports` and those of
every module in its `InPkgDeps`. -/
def importsToResolve (pkg : Pkg) (module : ModId) (imp : String) : Prop :=
  imp ∈ (deref pkg module).ExPkgImports ∨
    ∃ dep ∈ depsOf pkg module, imp ∈ (deref pkg dep).ExPkgImports

/-- A module `pkg.sub.mod` that imports `numpy` and a name of `pkg.sub`, with a sibling
that imports `os.path` and an unknown `zzz`. -/
def resolvePkg : Pkg :=
  [ { Imports := [], HasMainNameCheck := false, ImportSpec := "pkg.sub.mod",
      PkgPath := "pkg/sub", Name := "mod", Filename := "mod.py", InPkgDeps := [1],
      ExPkgImports := ["numpy", "pkg.sub.Class"] },
    { Imports := [], HasMainNameCheck := false, ImportSpec := "pkg.sub.util",
      PkgPath := "pkg/sub", Name := "util", Filename := "util.py", InPkgDeps := [],
      ExPkgImports := ["os.path", "zzz", "numpy"] } ]

/-! ## Module names and import specifiers (`internal/modules.go`) -/

/-- The loop `for ext != ""` of `ModuleName`, with its two variables `filename` and `ext`:
the file name once no extension is left. One unit of fuel is spent per iteration, and
`none` is the lack of fuel. -/
def stripExts : Nat → String → String → Option String
  | 0, filename, ext => if ext = "" then some filename else none
  | fuel + 1, filename, ext =>
    if ext = "" then some filename
    else
      let filename1 := trimSuffix filename ext
      stripExts fuel filename1 (pathExt filename1)

/-- Go `ModuleName`: the module name, the type and `ok`. The fuel is that of the loop of the
`.so` case. -/
def ModuleName (fuel : Nat) (filename : String) : Option (String × String × Bool) :=
  let ext := pathExt filename
  if ext = ".py" then
    if filename = "__init__.py" then some ("", "py", true)
    else some (trimSuffix filename ext, "py", true)
  else if ext = ".so" then
    match stripExts fuel filename ext with
    | some name => some (name, "so", true)
    | none => none
  else some ("", "", false)

/-- Go `ImportSpec`; `none` is the panic. -/
def ImportSpec (pkgPath moduleName : String) : Option String :=
  if pkgPath = "" ∧ moduleName = "" then none
  else
    let res0 := if pkgPath ≠ "" then slashesToDots pkgPath else ""
    if moduleName ≠ "" then
      let res1 := if res0 ≠ "" then res0 ++ "." else res0
      some (res1 ++ moduleName)
    else some res0

/-! ## Rules (`python/module.go`, `python/kinds.go`)

A rule of the Gazelle library is its kind, its name and its attributes. -/

/-- Go `strings.HasPrefix`. -/
def HasPrefix (s p : String) : Bool := p.data.isPrefixOf s.data

/-- Go `strings.HasSuffix`. -/
def HasSuffix (s p : String) : Bool := p.data.isSuffixOf s.data

/-- The scan of `strings.ReplaceAll` over the characters still to be read; the counter is
the number of characters of an occurrence just replaced that are still to be skipped.
Occurrences are found from the left and do not overlap. With an empty `old` the replacement
is inserted before every character and at the end. -/
def replaceScan (old new : List Char) : Nat → List Char → List Char
  | _, [] => if old = [] then new else []
  | skip + 1, _ :: rest => replaceScan old new skip rest
  | 0, c :: rest =>
    if old = [] then new ++ c :: replaceScan old new 0 rest
    else if old.isPrefixOf (c :: rest) then new ++ replaceScan old new (old.length - 1) rest
    else c :: replaceScan old new 0 rest

/-- Go `strings.ReplaceAll`. -/
def ReplaceAll (s old new : String) : String := ⟨replaceScan old.data new.data 0 s.data⟩

def visibilityPublic : String := "//visibility:public"

def tagGazelleManaged : String := "py-gazelle-managed"

def kindPyLibrary : String := "py_library"

def kindPyBinary : String := "py_binary"

def kindPyTest : String := "py_test"

/-- The value of an attribute of a rule: a string or a list of strings. -/
inductive AttrValue
  | str (s : String)
  | strs (l : List String)
deriving DecidableEq

/-- Gazelle `rule.Rule`: kind, name and the attributes by key. -/
structure Rule where
  Kind : String
  Name : String
  Attrs : List (String × AttrValue)
deriving DecidableEq

/-- Gazelle `rule.NewRule`. -/
def NewRule (kind name : String) : Rule := { Kind := kind, Name := name, Attrs := [] }

/-- Gazelle `Rule.SetAttr`: the value of the key is set or replaced. -/
def Rule.SetAttr (r : Rule) (key : String) (value : AttrValue) : Rule :=
  if (r.Attrs.lookup key).isSome then
    { r with Attrs := r.Attrs.map (fun e => if e.1 = key then (key, value) else e) }
  else { r with Attrs := r.Attrs ++ [(key, value)] }

/-- Gazelle `Rule.AttrStrings`: the list of strings under a key, empty if there is none. -/
def Rule.AttrStrings (r : Rule) (key : String) : List String :=
  match r.Attrs.lookup key with
  | some (.strs l) => l
  | _ => []

/-- Gazelle `Rule.AttrString`: the string under a key, empty if there is none. -/
def Rule.AttrString (r : Rule) (key : String) : String :=
  match r.Attrs.lookup key with
  | some (.str s) => s
  | _ => ""

/-- The kind that `GenerateRule` picks. -/
def ruleKind (module : Module) : String :=
  if module.Name = "__test__" ∨ HasPrefix module.Name "test_" = true ∨
      HasSuffix module.Name "_test" = true then kindPyTest
  else if module.Name = "__main__" ∨ module.HasMainNameCheck = true then kindPyBinary
  else kindPyLibrary

/-- The name that `GenerateRule` puts in place of the placeholder: the `switch name`. -/
def ruleBaseName (module : Module) : String :=
  let pkgName := pathBase module.PkgPath
  if module.Name = "" then pkgName
  else if module.Name = "__main__" then pkgName ++ "_bin"
  else if module.Name = "__test__" then pkgName ++ "_test"
  else module.Name

/-- The loop of `GenerateRule` over `module.InPkgDeps`; `order` is the order in which
`range` produces the pointers, and `pkg` the heap they point into. -/
def ruleSrcs (order : List ModId → List ModId) (pkg : Pkg) (module : Module) : List String :=
  (order module.InPkgDeps).foldl (fun srcs dep => srcs ++ [(deref pkg dep).Filename])
    [module.Filename]

/-- Go `GenerateRule`. -/
def GenerateRule (order : List ModId → List ModId) (pkg : Pkg) (module : Module)
    (nameTemplate relPythonRoot : String) : Rule :=
  let kind := ruleKind module
  let name := ReplaceAll nameTemplate "\x7bmodule_name\x7d" (ruleBaseName module)
  let rule0 := NewRule kind name
  let rule1 := if kind = kindPyBinary then rule0.SetAttr "main" (.str module.Filename) else rule0
  let rule2 := rule1.SetAttr "tags" (.strs [tagGazelleManaged])
  let rule3 :=
    if HasPrefix module.Name "_" = false ∧ kind ≠ kindPyTest then
      rule2.SetAttr "visibility" (.strs [visibilityPublic])
    else rule2
  let rule4 := rule3.SetAttr "srcs" (.strs (sortStrings (ruleSrcs order pkg module)))
  rule4.SetAttr "imports" (.str relPythonRoot)

/-! ## The external module map (`python/configuration.go`) -/

/-- Go `strings.ReplaceAll(s, ".", "/")`. -/
def dotsToSlashes (s : String) : String :=
  ⟨s.data.map (fun c => if c = '.' then '/' else c)⟩

/-- How `readExternalModuleMapTSV` ends: with a map, with the error of the CSV reader, with
the error on duplicate entries (given by the three values its message is formatted from), or
in a Go panic. -/
inductive Loaded
  | ok (res : ExternalModuleMap)
  | csvError (err : String)
  | duplicate (importSpec dist1 dist2 : String)
  | panic
deriving DecidableEq

/-- The entry that `readExternalModuleMapTSV` builds from the four columns of a record. -/
def tsvEntry (namePrefix dist pkg moduleName typ : String) : ExternalModule :=
  { Dist := dist,
    PkgPath := dotsToSlashes pkg,
    Module := moduleName,
    BazelTarget := "@" ++ namePrefix ++ dist ++ "//:pkg",
    ModuleType := typ }

/-- The body of the loop of `readExternalModuleMapTSV` for one record. Indexing a record of
fewer than four columns panics, and so does `ImportSpec` on two blank columns. -/
def tsvStep (namePrefix : String) (res : ExternalModuleMap) (records : List String) :
    Loaded :=
  match records with
  | dist :: pkg :: moduleName :: typ :: _ =>
    match ImportSpec pkg moduleName with
    | none => .panic
    | some importSpec =>
      match res.lookup importSpec with
      | some val =>
        if val.ModuleType = typ then .duplicate importSpec val.Dist dist
        else .ok res
      | none => .ok (res ++ [(importSpec, tsvEntry namePrefix dist pkg moduleName typ)])
  | _ => .panic

/-- The loop of `readExternalModuleMapTSV` over the records. -/
def tsvLoop (namePrefix : String) : List (List String) → ExternalModuleMap → Loaded
  | [], res => .ok res
  | records :: rest, res =>
    match tsvStep namePrefix res records with
    | .ok res1 => tsvLoop namePrefix rest res1
    | failure => failure

/-- Go `readExternalModuleMapTSV`. `readAll` is what `csvR.ReadAll()` returns for the
reader: the records, each the list of its columns, or an error. -/
def readExternalModuleMapTSV (readAll : Except String (List (List String)))
    (namePrefix : String) : Loaded :=
  match readAll with
  | .error err => .csvError err
  | .ok allRecords => tsvLoop namePrefix allRecords []

/-! ## Kind and name of a rule, in the words of the specification -/

/-- A bare name that starts with `test_`, ends with `_test` or is `__test__`. -/
def isTestName (name : String) : Prop :=
  "test_".data <+: name.data ∨ "_test".data <:+ name.data ∨ name = "__test__"

/-- A module whose bare name is `__main__` or whose source has a main guard. -/
def isMainModule (module : Module) : Prop :=
  module.Name = "__main__" ∨ module.HasMainNameCheck = true

instance (name : String) : Decidable (isTestName name) := by
  unfold isTestName; infer_instance

instance (module : Module) : Decidable (isMainModule module) := by
  unfold isMainModule; infer_instance

/-- The kind in the order of the claim: binary first, then test, else library. -/
def claimedKind (module : Module) : String :=
  if isMainModule module then "py_binary"
  else if isTestName module.Name then "py_test"
  else "py_library"

/-- The characters after the last slash of a path: its last segment. -/
def lastSegment (p : String) : String :=
  ⟨(p.data.reverse.takeWhile (fun c => c != '/')).reverse⟩

/-- The name that replaces the placeholder, given the name that stands for the package. -/
def nameFor (segment : String) (module : Module) : String :=
  if module.Name = "" then segment
  else if module.Name = "__main__" then segment ++ "_bin"
  else if module.Name = "__test__" then segment ++ "_test"
  else module.Name

/-- The name that stands for a package path in the code: its last segment, and a dot for
the empty path, which is the package at the Python root. -/
def segmentOrDot (p : String) : String :=
  if p = "" then "." else lastSegment p

/-- The module `foo_test` of `pkg1`, with a main guard in its source. -/
def guardedTestModule : Module :=
  { Imports := [], HasMainNameCheck := true, ImportSpec := "pkg1.foo_test",
    PkgPath := "pkg1", Name := "foo_test", Filename := "foo_test.py", InPkgDeps := [],
    ExPkgImports := [] }

/-- The module `__main__` of the package at the Python root. -/
def rootMainModule : Module :=
  { Imports := [], HasMainNameCheck := false, ImportSpec := "__main__",
    PkgPath := "", Name := "__main__", Filename := "__main__.py", InPkgDeps := [],
    ExPkgImports := [] }

/-- The modules `bar` and `baz` of `pkg1/subpkg1`; `bar` holds `baz` in its `InPkgDeps`. -/
def srcsPkg : Pkg :=
  [ { Imports := [], HasMainNameCheck := false, ImportSpec := "pkg1.subpkg1.bar",
      PkgPath := "pkg1/subpkg1", Name := "bar", Filename := "bar.py", InPkgDeps := [1, 2],
      ExPkgImports := [] },
    { Imports := [], HasMainNameCheck := false, ImportSpec := "pkg1.subpkg1.baz",
      PkgPath := "pkg1/subpkg1", Name := "baz", Filename := "baz.py", InPkgDeps := [],
      ExPkgImports := [] },
    { Imports := [], HasMainNameCheck := false, ImportSpec := "pkg1.subpkg1",
      PkgPath := "pkg1/subpkg1", Name := "", Filename := "__init__.py", InPkgDeps := [],
      ExPkgImports := [] } ]

/-! ## Module names, in the words of the specification -/

/-- The part of a path up to its last slash, the slash included; empty if there is none. -/
def dirPart (p : List Char) : List Char :=
  (p.reverse.dropWhile (fun c => c != '/')).reverse

/-- The file name cut at the first dot of its last path element. -/
def cutAtFirstDot (filename : String) : String :=
  ⟨dirPart filename.data ++ (lastSegment filename).data.takeWhile (fun c => c != '.')⟩

/-! ## The records of a manifest, in the words of the specification -/

/-- The import specifier that a record yields: `ImportSpec` of its second and third
columns; `none` if the record has fewer than four columns or both columns are blank. -/
def recordSpec (record : List String) : Option String :=
  match record with
  | _ :: pkg :: moduleName :: _ :: _ => ImportSpec pkg moduleName
  | _ => none

/-- The module kind of a record: its fourth column. -/
def recordKind (record : List String) : Option String :=
  match record with
  | _ :: _ :: _ :: typ :: _ => some typ
  | _ => none

/-- The entry made of the columns of a record. -/
def recordEntry (namePrefix : String) (record : List String) : Option ExternalModule :=
  match record with
  | dist :: pkg :: moduleName :: typ :: _ => some (tsvEntry namePrefix dist pkg moduleName typ)
  | _ => none

/-- The first of the records that yields the specifier `key`. -/
def firstRecord (records : List (List String)) (key : String) : Option (List String) :=
  records.find? (fun record => decide (recordSpec record = some key))

/-- Some record of `records` has the specifier and the kind of the first record, among
those of `pre` and those before it in `records`, that yields its specifier. -/
def clashIn (pre records : List (List String)) : Prop :=
  ∃ before record after key first, records = before ++ record :: after ∧
    recordSpec record = some key ∧ firstRecord (pre ++ before) key = some first ∧
    recordKind first = recordKind record

/-- The map holds, under every key, the entry of the first of the records that yields the
key. -/
def holdsFirsts (namePrefix : String) (records : List (List String))
    (res : ExternalModuleMap) : Prop :=
  ∀ key, res.lookup key = (firstRecord records key).bind (recordEntry namePrefix)

/-- Three records for the specifier `pkg`: the first of kind `py`, the two others of kind
`so`. -/
def mixedKindRecords : List (List String) :=
  [["d1", "pkg", "", "py"], ["d2", "pkg", "", "so"], ["d3", "pkg", "", "so"]]

/-- The records of `TestReadManifest`. -/
def testRecords : List (List String) :=
  [["dist1", "pkg1.pkg2", "mod", "py"], ["dist2", "", "mod", "so"], ["dist3", "pkg", "", "py"]]

/-! ## The analysis of a package (`python/analyzer.go`, `python/language.go`) -/

/-- How a run of the analysis ends: with a result, in a Go panic, or for lack of fuel. -/
inductive Ran (α : Type)
  | ok (a : α)
  | panic
  | noFuel
deriving DecidableEq

/-- Go map assignment `m[key] = value`. -/
def mapSet {β : Type} (m : List (String × β)) (key : String) (value : β) :
    List (String × β) :=
  if (m.lookup key).isSome then m.map (fun e => if e.1 = key then (key, value) else e)
  else m ++ [(key, value)]

/-- What the analysis reads from the directory `absPath`: for a file name, the syntax tree
of the file, or `none` when `parser.ParsePath` returns an error (the file cannot be opened
or does not parse); for a subdirectory, whether `os.Stat` finds an `__init__.py` in it. -/
structure Files where
  source : String → Option (List Stmt)
  hasInit : String → Bool

/-- The orders in which the `range` loops over maps produce their keys: over `importedSet`
in `Parse`, over `moduleMap` in the two loops of `analyzePythonPackage`, and over
`InPkgDeps` in the closure and in `GenerateRule`. -/
structure Ranges where
  imports : List String → List String
  process : List ModId → List ModId
  close : List ModId → List ModId
  deps : List ModId → List ModId
  srcs : List ModId → List ModId

/-- What the first loop of `analyzePythonPackage` builds: `importSpecs`, `moduleMap`, and
the modules allocated, in the order of their allocation. -/
structure Collected where
  importSpecs : List String
  moduleMap : ModuleMap
  pkg : Pkg

/-- The body of the first loop of `analyzePythonPackage`, for one file name. -/
def collectFile (ranges : Ranges) (fuel : Nat) (files : Files) (pkgPath : String)
    (st : Collected) (filename : String) : Ran Collected :=
  match ModuleName fuel filename with
  | none => .noFuel
  | some (moduleName, moduleType, ok) =>
    if ok = false ∨ moduleType ≠ "py" then .ok st
    else
      match files.source filename with
      | none => .ok st
      | some tree =>
        match Parse ranges.imports fuel tree with
        | none => .noFuel
        | some res =>
          match ImportSpec pkgPath moduleName with
          | none => .panic
          | some importSpec =>
            .ok { importSpecs := st.importSpecs ++ [importSpec],
                  moduleMap := mapSet st.moduleMap importSpec st.pkg.length,
                  pkg := st.pkg ++
                    [{ Imports := res.Imports, HasMainNameCheck := res.HasMainNameCheck,
                       ImportSpec := importSpec, PkgPath := pkgPath, Name := moduleName,
                       Filename := filename, InPkgDeps := [], ExPkgImports := [] }] }

/-- The first loop of `analyzePythonPackage`. -/
def collectFiles (ranges : Ranges) (fuel : Nat) (files : Files) (pkgPath : String) :
    List String → Collected → Ran Collected
  | [], st => .ok st
  | filename :: rest, st =>
    match collectFile ranges fuel files pkgPath st filename with
    | .ok st1 => collectFiles ranges fuel files pkgPath rest st1
    | .panic => .panic
    | .noFuel => .noFuel

/-- Go `analyzePythonPackage`: the heap of the modules and the pointers returned, sorted
by import specifier. Every specifier of `importSpecs` is a key of `moduleMap`, so that the
last loop finds a module for each. -/
def analyzePythonPackage (ranges : Ranges) (fuel : Nat) (files : Files) (pkgPath : String)
    (subDirs filenames : List String) : Ran (Pkg × List ModId) :=
  match collectFiles ranges fuel files pkgPath filenames
      { importSpecs := [], moduleMap := [], pkg := [] } with
  | .panic => .panic
  | .noFuel => .noFuel
  | .ok st =>
    let subPackages :=
      subDirs.foldl (fun set subdir => if files.hasInit subdir then setInsert set subdir else set)
        []
    let pkg1 := processAll st.pkg st.moduleMap subPackages
      (ranges.process (st.moduleMap.map Prod.snd))
    match closeAll ranges.deps fuel pkg1 (ranges.close (st.moduleMap.map Prod.snd)) with
    | none => .noFuel
    | some pkg2 =>
      .ok (pkg2, (sortStrings st.importSpecs).filterMap (fun spec => st.moduleMap.lookup spec))

/-- Go `GenerateRules`, up to the rules generated (`res.Gen`) and their modules
(`res.Imports`); the rules to delete (`res.Empty`) are not modelled. `pkgPath` is
`config.PythonPackagePath`, `relRoot` the path that `filepath.Rel` returns. -/
def GenerateRules (ranges : Ranges) (fuel : Nat) (files : Files)
    (pkgPath nameTemplate relRoot : String) (subDirs regularFiles genFiles : List String) :
    Ran (List Rule × Pkg × List ModId) :=
  if HasPrefix pkgPath ".." = true then .ok ([], [], [])
  else
    match analyzePythonPackage ranges fuel files pkgPath subDirs (regularFiles ++ genFiles) with
    | .panic => .panic
    | .noFuel => .noFuel
    | .ok (pkg, modules) =>
      .ok (modules.map (fun module =>
            GenerateRule ranges.srcs pkg (deref pkg module) nameTemplate relRoot),
          pkg, modules)

/-- The files `a.py` with `import b` and `b.py` with `import a`. -/
def cycleFiles : Files :=
  { source := fun filename =>
      if filename = "a.py" then some [.Import ["b"]]
      else if filename = "b.py" then some [.Import ["a"]]
      else none,
    hasInit := fun _ => false }

/-- Every `range` in the order of insertion. -/
def insertionRanges : Ranges :=
  { imports := id, process := id, close := id, deps := id, srcs := id }

/-- Every `range` in the reverse of the order of insertion. -/
def reverseRanges : Ranges :=
  { imports := List.reverse, process := List.reverse, close := List.reverse,
    deps := List.reverse, srcs := List.reverse }

/-- The module of the file `name.py` at the Python root that imports `imp`, with its
`InPkgDeps` as `ProcessImports` and `DepsClosure` leave them. -/
def rootModule (name imp : String) (deps : List ModId) (exPkgImports : List String) : Module :=
  { Imports := [imp], HasMainNameCheck := false, ImportSpec := name, PkgPath := "",
    Name := name, Filename := name ++ ".py", InPkgDeps := deps, ExPkgImports := exPkgImports }

/-! ## Loading the tables of the configuration (`python/configuration.go`) -/

/-- The errors that the loaders return and that `Configure` hands to `log.Fatal`, each given
by the values its message is formatted from. -/
inductive Failure
  | opening (err : String)
  | parsing (path : String) (cause : Failure)
  | scan (err : String)
  | csv (err : String)
  | duplicate (importSpec dist1 dist2 : String)
  | yaml (err : String)
  | invalidDirective (value key rel : String)
  | packagePath (rel rootDir : String)
deriving DecidableEq

/-- How a call ends: with a value, with an error (returned, or handed to `log.Fatal`), or in
a Go panic. -/
inductive Outcome (α : Type)
  | value (a : α)
  | error (err : Failure)
  | panic
deriving DecidableEq

/-- Go `unicode.IsSpace`, on the code point of the character. -/
def isSpace (c : Char) : Bool :=
  let n := c.toNat
  n = 0x09 || n = 0x0A || n = 0x0B || n = 0x0C || n = 0x0D || n = 0x20 || n = 0x85 ||
    n = 0xA0 || n = 0x1680 || (0x2000 ≤ n && n ≤ 0x200A) || n = 0x2028 || n = 0x2029 ||
    n = 0x202F || n = 0x205F || n = 0x3000

/-- Go `strings.TrimSpace`. -/
def TrimSpace (s : String) : String :=
  ⟨((s.data.dropWhile isSpace).reverse.dropWhile isSpace).reverse⟩

/-- The function `dropCR` of `bufio`: a line without its trailing carriage return. -/
def dropCR (line : List Char) : List Char :=
  if line.getLast? = some '\r' then line.dropLast else line

/-- The tokens of `bufio.ScanLines` over the characters still to be read; the accumulator
holds, reversed, the characters of the line begun. A last line without a newline is a
token unless it is empty. -/
def scanLinesFrom : List Char → List Char → List String
  | cur, [] => if cur = [] then [] else [⟨dropCR cur.reverse⟩]
  | cur, c :: rest =>
    if c = '\n' then ⟨dropCR cur.reverse⟩ :: scanLinesFrom [] rest
    else scanLinesFrom (c :: cur) rest

/-- The lines that `scanner.Scan` and `scanner.Text` yield for a text each of whose lines
fits the buffer of the scanner. -/
def ScanLines (text : String) : List String := scanLinesFrom [] text.data

/-- Go `readInternalModuleList`. `lines` are the lines that the scanner yields before it
stops and `scanErr` is what `scanner.Err()` returns then. -/
def readInternalModuleList (lines : List String) (scanErr : Option String) :
    List String × Option String :=
  (lines.foldl
      (fun res line => if HasPrefix line "#" = true then res else setInsert res (TrimSpace line))
      [],
    scanErr)

/-- The value that `yaml.Decode` leaves in the `container` of `readExternalModuleMapYaml`:
the pointer `Manifest` is nil, or points to a manifest with its map `ModulesMapping`. -/
structure Container where
  Manifest : Option (List (String × String))
deriving DecidableEq

/-- Go `readExternalModuleMapYaml`. `decode` is what `decoder.Decode(&c)` does: it fills the
container or returns an error; `order` is the order in which `range` produces the entries
of `ModulesMapping`. Reading the map through a nil `Manifest` panics. -/
def readExternalModuleMapYaml (order : List (String × String) → List (String × String))
    (decode : Except String Container) (_namePrefix : String) : Outcome ExternalModuleMap :=
  match decode with
  | .error err => .error (.yaml err)
  | .ok c =>
    match c.Manifest with
    | none => .panic
    | some modulesMapping =>
      .value ((order modulesMapping).foldl
        (fun res kv =>
          mapSet res kv.1
            { Dist := kv.2, PkgPath := "", Module := "", BazelTarget := "", ModuleType := "" })
        [])

/-- What `os.Open` gives access to: the file as the scanner, the CSV reader and the YAML
decoder read it. -/
structure File where
  scan : List String × Option String
  readAll : Except String (List (List String))
  decode : Except String Container

/-- What the configuration reads from the system: `os.Open` on a path, `filepath.Rel`, and
the order of `range` over the map of a YAML manifest. -/
structure System where
  Open : String → Except String File
  Rel : String → String → Except String String
  mapOrder : List (String × String) → List (String × String)

/-- Go `readInternalModuleListPath`. -/
def readInternalModuleListPath (sys : System) (path : String) : Outcome (List String) :=
  match sys.Open path with
  | .error err => .error (.opening err)
  | .ok f =>
    match readInternalModuleList f.scan.1 f.scan.2 with
    | (res, none) => .value res
    | (_, some err) => .error (.parsing path (.scan err))

/-- The result of `readExternalModuleMapTSV` as an `Outcome`. -/
def Loaded.toOutcome : Loaded → Outcome ExternalModuleMap
  | .ok res => .value res
  | .csvError err => .error (.csv err)
  | .duplicate importSpec dist1 dist2 => .error (.duplicate importSpec dist1 dist2)
  | .panic => .panic

/-- Go `readExternalModuleMapPath`. -/
def readExternalModuleMapPath (sys : System) (path namePrefix : String) :
    Outcome ExternalModuleMap :=
  match sys.Open path with
  | .error err => .error (.opening err)
  | .ok f =>
    let ext := pathExt path
    let res :=
      if ext = ".yaml" ∨ ext = ".yml" then
        readExternalModuleMapYaml sys.mapOrder f.decode namePrefix
      else (readExternalModuleMapTSV f.readAll namePrefix).toOutcome
    match res with
    | .value m => .value m
    | .error err => .error (.parsing path err)
    | .panic => .panic

/-! ## Paths (`path`, `strings`) -/

/-- Go `strings.Split(s, "/")` on the characters of `s`: the parts between the slashes,
one part more than there are slashes. -/
def splitSlash : List Char → List (List Char)
  | [] => [[]]
  | c :: rest =>
    if c = '/' then [] :: splitSlash rest
    else
      match splitSlash rest with
      | [] => [[c]]
      | part :: parts => (c :: part) :: parts

/-- Go `strings.Split(s, "/")`. -/
def Split (s : String) : List String := (splitSlash s.data).map String.mk

/-- Go `strings.Join`. -/
def Join (elems : List String) (sep : String) : String := sep.intercalate elems

/-- One element of a path in `path.Clean`; the stack holds the elements kept so far, the
last one first. An empty element and `.` are dropped, `..` removes the element before it
if that is not a `..` itself, and is kept at the start of a path that is not rooted. -/
def cleanStep (rooted : Bool) (stack : List String) (elem : String) : List String :=
  if elem = "" ∨ elem = "." then stack
  else if elem = ".." then
    match stack with
    | top :: below => if top = ".." then (if rooted then stack else ".." :: stack) else below
    | [] => if rooted then [] else [".."]
  else elem :: stack

/-- Go `path.Clean`. -/
def pathClean (p : String) : String :=
  if p = "" then "."
  else
    let rooted := p.data.head? = some '/'
    let stack := (Split p).foldl (cleanStep rooted) []
    if rooted then "/" ++ Join stack.reverse "/"
    else if stack = [] then "."
    else Join stack.reverse "/"

/-- Go `path.Join`: the non-empty elements joined by slashes and cleaned; the empty string
if there is no non-empty element. -/
def pathJoin (elems : List String) : String :=
  let kept := elems.filter (fun e => e ≠ "")
  if kept = [] then "" else pathClean (Join kept "/")

/-! ## The configuration (`python/configuration.go`) -/

def directiveExtension : String := "py_extension"

def directiveRoot : String := "py_root_dir"

def directiveInternalModuleListPath : String := "py_internal_module_list_path"

def directiveExternalModuleMapPath : String := "py_external_module_map_path"

def directiveExternalRepoNamePrefix : String := "py_external_repo_name_prefix"

def directiveNameTemplate : String := "py_name_template"

/-- Go `Configuration`. A nil map and an empty map are both the empty list. -/
structure Configuration where
  Enable : Bool
  RootDir : String
  PythonPackagePath : String
  InternalModuleList : List String
  InternalModuleListPath : String
  ExternalModuleMap : GazellePython.ExternalModuleMap
  ExternalModuleMapPath : String
  ExternalRepoNamePrefix : String
  NameTemplate : String
deriving DecidableEq

/-- The zero value `Configuration{}`. -/
def Configuration.zero : Configuration :=
  { Enable := false, RootDir := "", PythonPackagePath := "", InternalModuleList := [],
    InternalModuleListPath := "", ExternalModuleMap := [], ExternalModuleMapPath := "",
    ExternalRepoNamePrefix := "", NameTemplate := "" }

/-- What `RegisterFlags` and the parsing of the command line leave in `pc.initial`: the
values of the six flags, each its default if the flag is not given. -/
def RegisterFlags (enable : Bool)
    (rootDir internalModulesPath externalModulesPath externalRepoNamePrefix nameTemplate :
      String) : Configuration :=
  { Configuration.zero with
    Enable := enable, RootDir := rootDir, InternalModuleListPath := internalModulesPath,
    ExternalModuleMapPath := externalModulesPath,
    ExternalRepoNamePrefix := externalRepoNamePrefix, NameTemplate := nameTemplate }

/-- Go `CheckFlags`, with receiver field `pc.initial`: the configuration it stores in
`c.Exts`. The first statement swaps `pc.initial` out, so that `pc.initial` is the zero
value from then on. -/
def CheckFlags (sys : System) (repoRoot : String) (initial0 : Configuration) :
    Outcome Configuration :=
  let config := initial0
  let initial := Configuration.zero
  let step1 : Outcome Configuration :=
    if config.InternalModuleListPath ≠ "" then
      match readInternalModuleListPath sys (pathJoin [repoRoot, config.InternalModuleListPath]) with
      | .value l => .value { config with InternalModuleList := l }
      | .error err => .error err
      | .panic => .panic
    else .value config
  match step1 with
  | .error err => .error err
  | .panic => .panic
  | .value config1 =>
    if config1.ExternalModuleMapPath ≠ "" then
      match readExternalModuleMapPath sys (pathJoin [repoRoot, config1.ExternalModuleMapPath])
          initial.ExternalRepoNamePrefix with
      | .value m => .value { config1 with ExternalModuleMap := m }
      | .error err => .error err
      | .panic => .panic
    else .value config1

/-- Gazelle `rule.Directive`. -/
structure Directive where
  Key : String
  Value : String
deriving DecidableEq

/-- Go `strconv.ParseBool`. -/
def ParseBool (str : String) : Option Bool :=
  if str ∈ ["1", "t", "T", "TRUE", "true", "True"] then some true
  else if str ∈ ["0", "f", "F", "FALSE", "false", "False"] then some false
  else none

/-- The variables of the loop of `Configure` over the directives. -/
structure Configuring where
  config : Configuration
  readInternalModuleList : Bool
  readExternalModuleMap : Bool
deriving DecidableEq

/-- The body of the loop of `Configure`, for one directive. -/
def configureStep (rel : String) (st : Configuring) (d : Directive) : Outcome Configuring :=
  if d.Key = directiveExtension then
    match ParseBool d.Value with
    | some b => .value { st with config := { st.config with Enable := b } }
    | none => .error (.invalidDirective d.Value d.Key rel)
  else if d.Key = directiveRoot then
    .value { st with config := { st.config with RootDir := pathJoin [rel, d.Value] } }
  else if d.Key = directiveInternalModuleListPath then
    let st1 : Configuring :=
      if st.config.InternalModuleListPath ≠ d.Value then
        if st.config.InternalModuleListPath ≠ "" then { st with readInternalModuleList := true }
        else { st with config := { st.config with InternalModuleList := [] } }
      else st
    .value { st1 with config := { st1.config with InternalModuleListPath := d.Value } }
  else if d.Key = directiveExternalModuleMapPath then
    let st1 : Configuring :=
      if st.config.ExternalModuleMapPath ≠ d.Value then
        if st.config.ExternalModuleMapPath ≠ "" then { st with readExternalModuleMap := true }
        else { st with config := { st.config with ExternalModuleMap := [] } }
      else st
    .value { st1 with config := { st1.config with ExternalModuleMapPath := d.Value } }
  else if d.Key = directiveExternalRepoNamePrefix then
    .value { st with config := { st.config with ExternalRepoNamePrefix := d.Value } }
  else if d.Key = directiveNameTemplate then
    .value { st with config := { st.config with NameTemplate := d.Value } }
  else .value st

/-- The loop of `Configure` over the directives. -/
def configureLoop (rel : String) : List Directive → Configuring → Outcome Configuring
  | [], st => .value st
  | d :: rest, st =>
    match configureStep rel st d with
    | .value st1 => configureLoop rel rest st1
    | .error err => .error err
    | .panic => .panic

/-- Go `Configure`: the configuration it stores in `c.Exts` for the directory `rel`, from
the configuration `config0` found there (that of the parent directory) and the directives
of the build file (none if there is no build file). An error is a call of `log.Fatal`. -/
def Configure (sys : System) (repoRoot : String) (config0 : Configuration) (rel : String)
    (directives : List Directive) : Outcome Configuration :=
  match configureLoop rel directives
      { config := config0, readInternalModuleList := false, readExternalModuleMap := false } with
  | .error err => .error err
  | .panic => .panic
  | .value st =>
    let step1 : Outcome Configuration :=
      if st.readInternalModuleList = true then
        match readInternalModuleListPath sys
            (pathJoin [repoRoot, st.config.InternalModuleListPath]) with
        | .value l => .value { st.config with InternalModuleList := l }
        | .error err => .error err
        | .panic => .panic
      else .value st.config
    match step1 with
    | .error err => .error err
    | .panic => .panic
    | .value config1 =>
      let step2 : Outcome Configuration :=
        if st.readExternalModuleMap = true then
          match readExternalModuleMapPath sys
              (pathJoin [repoRoot, config1.ExternalModuleMapPath])
              config1.ExternalRepoNamePrefix with
          | .value m => .value { config1 with ExternalModuleMap := m }
          | .error err => .error err
          | .panic => .panic
        else .value config1
      match step2 with
      | .error err => .error err
      | .panic => .panic
      | .value config2 =>
        match sys.Rel config2.RootDir rel with
        | .error _ => .error (.packagePath rel config2.RootDir)
        | .ok rootRel =>
          .value { config2 with PythonPackagePath := if rootRel = "." then "" else rootRel }

/-! ## Modules of a wheel (`manifest/wheel.go`) -/

/-- Go `moduleForFilename`: the package, the module, the type and the import specifier.
`toLower` is `strings.ToLower`, and the fuel is that of `ModuleName`. Indexing or slicing
`components` out of range panics, and so does `ImportSpec` on a blank package path with a
blank module name. -/
def moduleForFilename (toLower : String → String) (fuel : Nat)
    (name distInfoDir dataDir : String) : Ran (String × String × String × String) :=
  let components := Split name
  let switched : Ran (Option (List String)) :=
    match components with
    | [] => .panic
    | first :: rest =>
      if toLower first = distInfoDir then .ok none
      else if toLower first = dataDir then
        match rest with
        | [] => .panic
        | second :: rest2 =>
          if toLower second ≠ "purelib" ∧ toLower second ≠ "platlib" then .ok none
          else .ok (some rest2)
      else .ok (some components)
  match switched with
  | .panic => .panic
  | .noFuel => .noFuel
  | .ok none => .ok ("", "", "", "")
  | .ok (some components1) =>
    match components1.getLast? with
    | none => .panic
    | some last =>
      let dirs := components1.dropLast
      let pkgPath := pathJoin dirs
      let pkg := Join dirs "."
      match ModuleName fuel last with
      | none => .noFuel
      | some (module, typ, ok) =>
        if ok = true then
          match ImportSpec pkgPath module with
          | none => .panic
          | some importSpec => .ok (pkg, module, typ, importSpec)
        else .ok ("", "", "", "")

/-! ## The test of a conditional, in the words of the specification -/

/-- The test and the two branches of a conditional once the leading `not` operators of the
test are removed, each of them swapping the body and the else branch. -/
def stripNots : Expr → List Stmt → List Stmt → Expr × List Stmt × List Stmt
  | .UnaryOp op operand, body, orelse =>
    if op = .Not then stripNots operand orelse body else (.UnaryOp op operand, body, orelse)
  | test, body, orelse => (test, body, orelse)

/-- The two spellings of the check: the attribute `typing.TYPE_CHECKING` with the specifier
`typing` in the imported set, or the bare name `TYPE_CHECKING` with the specifier
`typing.TYPE_CHECKING` in the imported set. -/
def typeCheckingTest (imported : List String) : Expr → Bool
  | .Attribute (.Name id) attr =>
    decide (id = "typing" ∧ attr = "TYPE_CHECKING" ∧ "typing" ∈ imported)
  | .Name id => decide (id = "TYPE_CHECKING" ∧ "typing.TYPE_CHECKING" ∈ imported)
  | _ => false

/-- The source `import typing`, `if not not typing.TYPE_CHECKING:` with body `import mod1`
and else branch `import mod2`. -/
def doubleNegationTest : Expr :=
  .UnaryOp .Not (.UnaryOp .Not (.Attribute (.Name "typing") "TYPE_CHECKING"))

/-! ## Imports found in the external module map, in the words of the specification -/

/-- An import that resolves through an entry of the external module map: the index has no
rule for the specifier and the map has an entry for it, or index, map and internal list
have nothing for the specifier, and the index has no rule for the specifier without its
last segment while the map has an entry for it. -/
def resolvesThroughMap (ix : RuleIndex) (externalModuleMap : ExternalModuleMap)
    (internalModuleList : List String) (imp : String) : Prop :=
  (ix imp = [] ∧ (externalModuleMap.lookup imp).isSome = true) ∨
  (ix imp = [] ∧ externalModuleMap.lookup imp = none ∧ imp ∉ internalModuleList ∧
    pathExt imp ≠ "" ∧ ix (trimSuffix imp (pathExt imp)) = [] ∧
    (externalModuleMap.lookup (trimSuffix imp (pathExt imp))).isSome = true)

/-- The manifest `modules_mapping: {numpy: numpy, yaml: PyYAML}` once decoded. -/
def testContainer : Container :=
  { Manifest := some [("numpy", "numpy"), ("yaml", "PyYAML")] }

/-! ## Test data for the configuration -/

/-- A file with the lines `os` and `sys`, and with the record of `numpy` as a manifest. -/
def testFile : File :=
  { scan := (["os", "sys"], none),
    readAll := .ok [["numpy", "numpy", "", "py"]],
    decode := .error "not a YAML manifest" }

/-- A system with the file `testFile` at `repo/modules.txt` and nothing else. -/
def testSystem : System :=
  { Open := fun path =>
      if path = "repo/modules.txt" then .ok testFile else .error "no such file or directory",
    Rel := fun basepath targpath => if basepath = targpath then .ok "." else .ok targpath,
    mapOrder := id }

/-- The configuration that `CheckFlags` stores when no flag is given. -/
def defaultConfiguration : Configuration := RegisterFlags true "" "" "" "" "\x7bmodule_name\x7d"

/-! ## Test data of `TestModuleForFilename` -/

/-- Go `strings.ToLower` on a string of ASCII characters: the capital letters `A` to `Z`
are lowered and every other character is kept. -/
def lowerASCII (s : String) : String := ⟨s.data.map Char.toLower⟩

/-- The cases of `TestModuleForFilename`: the file name, `distInfoDir` and `dataDir`. -/
def wheelTestCases : List (String × String × String) :=
  [ ("", "", ""),
    ("__init__.py", "", ""),
    ("a.py", "", ""),
    ("a.so", "", ""),
    ("pkg/__init__.py", "", ""),
    ("pkg1/pkg2/__init__.py", "", ""),
    ("pkg/a.py", "", ""),
    ("pkg/a.so", "", ""),
    ("pkg/a.build.so", "", ""),
    ("pkg1/pkg2/a.py", "", ""),
    ("pkg1/pkg2/a.so", "", ""),
    ("dist-info/a.py", "dist-info", ""),
    ("data/a.py", "", "data"),
    ("data/purelib/a.py", "", "data"),
    ("data/platlib/a.py", "", "data"),
    ("data/platlib/pkg/a.py", "", "data"),
    ("data/platlib/__init__.py", "", "data") ]

/-- The package, the module and the type of a result of `moduleForFilename`; `none` is
the panic. -/
def wheelModule : Ran (String × String × String × String) → Option (String × String × String)
  | .ok (pkg, module, typ, _) => some (pkg, module, typ)
  | _ => none

/-! ## Rule names within a package, in the words of the specification -/

/-- The rule name that a module takes from its package: the name of the package for the
package-root module, that name followed by `_bin` for `__main__` and by `_test` for
`__test__`; `none` for a module of any other bare name, which keeps its bare name. -/
def packageDerivedName (module : Module) : Option String :=
  if module.Name = "" then some (pathBase module.PkgPath)
  else if module.Name = "__main__" then some (pathBase module.PkgPath ++ "_bin")
  else if module.Name = "__test__" then some (pathBase module.PkgPath ++ "_test")
  else none

/-- The module `a` takes from its package the name that is the bare name of `b`, a module
that keeps its bare name. -/
def takesNameOf (a b : Module) : Prop :=
  packageDerivedName b = none ∧ packageDerivedName a = some b.Name

/-- The files `__init__.py` and `foo.py`, both empty. -/
def initAndFooFiles : Files :=
  { source := fun filename =>
      if filename = "__init__.py" ∨ filename = "foo.py" then some [] else none,
    hasInit := fun _ => false }

/-! ## The files of a package, in the words of the specification -/

/-- The bare module name of a Python source file: empty for `__init__.py`, and the file
name without its final `.py` otherwise. -/
def pyModuleName (filename : String) : String :=
  if filename = "__init__.py" then "" else trimSuffix filename ".py"

/-- A file of which the analysis makes a module: its final extension is `.py` and its
parse succeeds. -/
def acceptedFile (files : Files) (filename : String) : Bool :=
  decide (pathExt filename = ".py") && (files.source filename).isSome

/-- The import specifier of a Python source file of a package; `none` if the package path
and the module name are both blank. -/
def fileSpec (pkgPath filename : String) : Option String :=
  ImportSpec pkgPath (pyModuleName filename)

/-- What the analysis never changes of a module: its import specifier, its package path,
its name and its file name. -/
def Module.core (md : Module) : String × String × String × String :=
  (md.ImportSpec, md.PkgPath, md.Name, md.Filename)

/-- A directory with an `__init__.py` that parses, and nothing else. -/
def initOnlyFiles : Files :=
  { source := fun filename => if filename = "__init__.py" then some [] else none,
    hasInit := fun _ => false }

/-- A directory with the files `.py` and `__init__.py`, both empty, and a file `broken.py`
that does not parse. -/
def dotPyFiles : Files :=
  { source := fun filename =>
      if filename = ".py" ∨ filename = "__init__.py" then some [] else none,
    hasInit := fun _ => false }

/-- The state of the first loop of `analyzePythonPackage` once it has made modules of the
files `done`, in this order, each with an import specifier of its own: the specifiers, the
map from each specifier to the pointer of its module, the cores of the modules, and no
module with an `InPkgDeps` yet. -/
structure CollectedFrom (pkgPath : String) (done : List String) (st : Collected) : Prop where
  specs : st.importSpecs = done.map (fun f => (fileSpec pkgPath f).getD "")
  map : st.moduleMap =
    (done.map (fun f => (fileSpec pkgPath f).getD "")).zip (List.range done.length)
  cores : st.pkg.map Module.core =
    done.map (fun f => ((fileSpec pkgPath f).getD "", pkgPath, pyModuleName f, f))
  fresh : ∀ md ∈ st.pkg, md.InPkgDeps = []

/-! ## The statements that the walk visits, described on the tree -/

/-- Whether the leading `not` operators of a test are odd in number: of a recognised
conditional the body is then the branch outside type checking, and the else branch
otherwise. -/
def swapsBranches : Expr → Bool
  | .UnaryOp op operand => if op = .Not then !swapsBranches operand else false
  | _ => false

mutual
/-- The statements that the walk visits in a statement, in its order, and the imported set
behind them, from the imported set before the statement: the statement itself, then what
it holds; of a conditional on `TYPE_CHECKING`, recognised with the imported set before it,
only the branch outside type checking, and of every other conditional the body and then
the else branch. -/
def Stmt.visits : Stmt → List String → List Stmt × List String
  | .Import names, imported => ([.Import names], names.foldl setInsert imported)
  | .ImportFrom module names, imported =>
    ([.ImportFrom module names],
      (names.map (fun name => module ++ "." ++ name)).foldl setInsert imported)
  | .If test body orelse, imported =>
    if typeCheckingTest imported (stripNots test body orelse).1 = true then
      if swapsBranches test = true then
        (.If test body orelse :: (visitsList body imported).1, (visitsList body imported).2)
      else
        (.If test body orelse :: (visitsList orelse imported).1,
          (visitsList orelse imported).2)
    else
      (.If test body orelse ::
          ((visitsList body imported).1 ++
            (visitsList orelse (visitsList body imported).2).1),
        (visitsList orelse (visitsList body imported).2).2)
  | .Other children, imported =>
    (.Other children :: (visitsList children imported).1, (visitsList children imported).2)
/-- The statements that the walk visits in a list of statements, and the imported set
behind them. -/
def visitsList : List Stmt → List String → List Stmt × List String
  | [], imported => ([], imported)
  | stmt :: rest, imported =>
    ((stmt.visits imported).1 ++ (visitsList rest (stmt.visits imported).2).1,
      (visitsList rest (stmt.visits imported).2).2)
end

mutual
/-- The statements of a statement that lie in no branch of a conditional whose test has the
shape of a check of `TYPE_CHECKING`, itself included. -/
def Stmt.outer : Stmt → List Stmt
  | .Import names => [.Import names]
  | .ImportFrom module names => [.ImportFrom module names]
  | .If test body orelse =>
    if mayBeTypeChecking test = true then [.If test body orelse]
    else .If test body orelse :: (outerList body ++ outerList orelse)
  | .Other children => .Other children :: outerList children
/-- The statements of a list of statements that lie in no branch of a conditional whose
test has the shape of a check of `TYPE_CHECKING`. -/
def outerList : List Stmt → List Stmt
  | [] => []
  | stmt :: rest => stmt.outer ++ outerList rest
end

/-- A `TYPE_CHECKING` conditional with an import in its body, followed by a main guard at
top level: `from typing import TYPE_CHECKING`, `if TYPE_CHECKING: import mod1`,
`if __name__ == "__main__": main()`. -/
def typeCheckingThenMain : List Stmt :=
  [ .ImportFrom "typing" ["TYPE_CHECKING"],
    .If (.Name "TYPE_CHECKING") [.Import ["mod1"]] [],
    .If mainTest [.Other []] [] ]

/-- Each module made by the first loop holds what `Parse` returns for its file, and no
external imports yet. -/
def Parsed (ranges : Ranges) (fuel : Nat) (files : Files) (pkg : Pkg) : Prop :=
  ∀ md ∈ pkg, md.ExPkgImports = [] ∧ ∃ tree, files.source md.Filename = some tree ∧
    Parse ranges.imports fuel tree = some ⟨md.Imports, md.HasMainNameCheck⟩

/-- A directory with `a.py`, which imports `numpy`, `pkg.b` and `pkg.sub`, with `b.py`,
which imports `pkg.c`, with an empty `c.py`, with a file `broken.py` that does not parse,
and with a subdirectory `sub` that holds an `__init__.py`. -/
def analysisFiles : Files :=
  { source := fun filename =>
      if filename = "a.py" then some [.Import ["numpy"], .Import ["pkg.b"], .Import ["pkg.sub"]]
      else if filename = "b.py" then some [.Import ["pkg.c"]]
      else if filename = "c.py" then some []
      else none,
    hasInit := fun subdir => decide (subdir = "sub") }

/-! ## Basic facts about the heap operations -/

theorem depsOf_growDeps_ne (pkg : Pkg) (m x : ModId) (added : List ModId) (h : x ≠ m) :
    depsOf (growDeps pkg m added) x = depsOf pkg x := by
  unfold depsOf growDeps
  rw [List.getElem?_modify_ne _ _ (Ne.symm h)]

theorem depsOf_growDeps_self (pkg : Pkg) (m : ModId) (added : List ModId)
    (hm : m < pkg.length) : depsOf (growDeps pkg m added) m = depsOf pkg m ++ added := by
  unfold depsOf growDeps
  rw [List.getElem?_modify_eq, List.getElem?_eq_getElem hm]
  rfl

theorem length_growDeps (pkg : Pkg) (m : ModId) (added : List ModId) :
    (growDeps pkg m added).length = pkg.length := by
  simp [growDeps]

theorem growDeps_nil (pkg : Pkg) (m : ModId) : growDeps pkg m [] = pkg := by
  unfold growDeps
  have : (fun md : Module => { md with InPkgDeps := md.InPkgDeps ++ [] }) = id := by
    funext md; simp
  rw [this, List.modify_id]

theorem growDeps_growDeps (pkg : Pkg) (m : ModId) (a b : List ModId) :
    growDeps (growDeps pkg m a) m b = growDeps pkg m (a ++ b) := by
  unfold growDeps
  rw [List.modify_modify_eq]
  congr 1
  funext md
  simp [Function.comp, List.append_assoc]

theorem addDep_of_not_mem (pkg : Pkg) (m d : ModId) (hm : m < pkg.length)
    (h : d ∉ depsOf pkg m) : addDep pkg m d = growDeps pkg m [d] := by
  unfold addDep growDeps
  rw [List.modify_eq_take_cons_drop hm, List.modify_eq_take_cons_drop hm]
  have : pkg[m].InPkgDeps = depsOf pkg m := by
    unfold depsOf; rw [List.getElem?_eq_getElem hm]
  have h2 : d ∉ pkg[m].InPkgDeps := by rw [this]; exact h
  simp [setInsert, h2]

theorem depsOf_of_le (pkg : Pkg) (m : ModId) (hm : pkg.length ≤ m) : depsOf pkg m = [] := by
  unfold depsOf
  rw [List.getElem?_eq_none hm]

theorem depsOf_subset_growDeps (pkg : Pkg) (m x : ModId) (added : List ModId) :
    depsOf pkg x ⊆ depsOf (growDeps pkg m added) x := by
  by_cases hx : x = m
  · subst hx
    by_cases hm : x < pkg.length
    · rw [depsOf_growDeps_self _ _ _ hm]; exact List.subset_append_left _ _
    · rw [depsOf_of_le pkg x (Nat.le_of_not_lt hm)]; exact List.nil_subset _
  · rw [depsOf_growDeps_ne _ _ _ _ hx]; exact List.Subset.refl _

theorem mem_allDeps (pkg : Pkg) (x : ModId) : x ∈ allDeps pkg ↔ ∃ i, x ∈ depsOf pkg i := by
  unfold allDeps
  simp only [List.mem_flatten, List.mem_map]
  constructor
  · rintro ⟨l, ⟨md, hmd, rfl⟩, hx⟩
    obtain ⟨i, hi, hget⟩ := List.getElem_of_mem hmd
    refine ⟨i, ?_⟩
    unfold depsOf
    rw [List.getElem?_eq_getElem hi, hget]
    exact hx
  · rintro ⟨i, hx⟩
    unfold depsOf at hx
    cases hget : pkg[i]? with
    | none => rw [hget] at hx; simp at hx
    | some md =>
      rw [hget] at hx
      exact ⟨md.InPkgDeps, ⟨md, List.getElem?_mem hget, rfl⟩, hx⟩

/-! ## The closure as a depth-first search -/

theorem inProgress_nil (pkg : Pkg) (m dep : ModId) : InProgress pkg m dep [] :=
  ⟨by simp, by simp, List.nodup_nil, by simp, by simp⟩

theorem depEdgeAway_target {pkg : Pkg} {m a b : ModId}
    (h : Relation.TransGen (depEdgeAway pkg m) a b) : ∃ i, b ∈ depsOf pkg i := by
  cases h with
  | single h => exact ⟨_, h.2⟩
  | tail _ h => exact ⟨_, h.2⟩

theorem depEdgeAway_growDeps (pkg : Pkg) (m : ModId) (added : List ModId) :
    depEdgeAway (growDeps pkg m added) m = depEdgeAway pkg m := by
  funext a b
  unfold depEdgeAway
  by_cases h : a = m
  · simp [h]
  · rw [depsOf_growDeps_ne _ _ _ _ h]

theorem card_sdiff_insert_lt (U : Finset ModId) (m d : ModId) (S : List ModId)
    (hd : d ∈ U) (hdm : d ≠ m) (hdS : d ∉ S) (n : Nat)
    (h : (U \ insert m S.toFinset).card < n + 1) :
    (U \ insert m (S ++ [d]).toFinset).card < n := by
  have hss : U \ insert m (S ++ [d]).toFinset ⊂ U \ insert m S.toFinset := by
    rw [Finset.ssubset_iff_of_subset]
    · refine ⟨d, ?_, ?_⟩
      · simp [hd, hdm, hdS]
      · simp
    · intro x hx
      simp only [Finset.mem_sdiff, Finset.mem_insert, List.mem_toFinset, List.mem_append,
        List.mem_singleton] at hx ⊢
      exact ⟨hx.1, fun h => hx.2 (h.elim Or.inl (fun h => Or.inr (Or.inl h)))⟩
  have := Finset.card_lt_card hss
  omega

theorem card_sdiff_insert_mono (U : Finset ModId) (m : ModId) (S T : List ModId)
    (hST : S ⊆ T) : (U \ insert m T.toFinset).card ≤ (U \ insert m S.toFinset).card := by
  apply Finset.card_le_card
  intro x hx
  simp only [Finset.mem_sdiff, Finset.mem_insert, List.mem_toFinset] at hx ⊢
  exact ⟨hx.1, fun h => hx.2 (h.elim Or.inl (fun h => Or.inr (hST h)))⟩

theorem helperLoop_spec (order : List ModId → List ModId) (m : ModId) (U : Finset ModId)
    (fuel : Nat) (ih : HelperSpec order m U fuel)
    (pkg : Pkg) (dep : ModId) (hm : m < pkg.length)
    (hU : ∀ i, ∀ x ∈ depsOf pkg i, x ∈ U) :
    ∀ (l acc : List ModId), InProgress pkg m dep acc →
      (U \ insert m (depsOf pkg m ++ acc).toFinset).card < fuel + 1 →
      ∃ acc', List.foldlM
          (fun cur depdep =>
            if depdep ∉ depsOf cur dep then some cur
            else if depdep ∈ depsOf cur m ∨ depdep = m then some cur
            else depsClosureHelper order m fuel (addDep cur m depdep) depdep)
          (growDeps pkg m acc) l = some (growDeps pkg m acc') ∧
        InProgress pkg m dep acc' ∧ acc ⊆ acc' ∧
        ∀ z ∈ l, z ∈ depsOf pkg dep → z ∈ depsOf pkg m ++ acc' ∨ z = m := by
  intro l
  induction l with
  | nil =>
    intro acc hacc _
    exact ⟨acc, by simp, hacc, List.Subset.refl _, by simp⟩
  | cons depdep rest ihl =>
    intro acc hacc hcard
    have hself : depsOf (growDeps pkg m acc) m = depsOf pkg m ++ acc :=
      depsOf_growDeps_self _ _ _ hm
    rw [List.foldlM_cons]
    by_cases h1 : depdep ∉ depsOf (growDeps pkg m acc) dep
    · -- not an entry of the map being ranged over
      rw [if_pos h1]
      obtain ⟨acc', hrun, hp, hsub, hall⟩ := ihl acc hacc hcard
      refine ⟨acc', by simpa using hrun, hp, hsub, ?_⟩
      intro z hz hzdep
      rcases List.mem_cons.1 hz with rfl | hz
      · by_cases hdm : dep = m
        · subst hdm
          exact Or.inl (List.mem_append_left _ hzdep)
        · rw [depsOf_growDeps_ne _ _ _ _ hdm] at h1
          exact absurd hzdep h1
      · exact hall z hz hzdep
    · rw [if_neg h1]
      have h1' : depdep ∈ depsOf (growDeps pkg m acc) dep := not_not.1 h1
      clear h1
      by_cases h2 : depdep ∈ depsOf (growDeps pkg m acc) m ∨ depdep = m
      · -- already present, or the origin itself
        rw [if_pos h2]
        obtain ⟨acc', hrun, hp, hsub, hall⟩ := ihl acc hacc hcard
        refine ⟨acc', by simpa using hrun, hp, hsub, ?_⟩
        intro z hz hzdep
        rcases List.mem_cons.1 hz with rfl | hz
        · rcases h2 with h2 | h2
          · rw [hself] at h2
            rcases List.mem_append.1 h2 with h2 | h2
            · exact Or.inl (List.mem_append_left _ h2)
            · exact Or.inl (List.mem_append_right _ (hsub h2))
          · exact Or.inr h2
        · exact hall z hz hzdep
      · -- a new dependency: add it and descend
        rw [if_neg h2]
        have h2a : depdep ∉ depsOf pkg m ++ acc := by
          rw [← hself]; exact fun h => h2 (Or.inl h)
        have h2b : depdep ≠ m := fun h => h2 (Or.inr h)
        have hdm : dep ≠ m := by
          intro h; subst h; exact h2 (Or.inl h1')
        have h1 : depdep ∈ depsOf pkg dep := by
          rw [depsOf_growDeps_ne _ _ _ _ hdm] at h1'; exact h1'
        clear h1'
        have hlen : m < (growDeps pkg m acc).length := by rw [length_growDeps]; exact hm
        have hadd : addDep (growDeps pkg m acc) m depdep = growDeps pkg m (acc ++ [depdep]) := by
          rw [addDep_of_not_mem _ _ _ hlen (by rw [hself]; exact h2a), growDeps_growDeps]
        rw [hadd]
        have hlen1 : m < (growDeps pkg m (acc ++ [depdep])).length := by
          rw [length_growDeps]; exact hm
        have hself1 : depsOf (growDeps pkg m (acc ++ [depdep])) m
            = depsOf pkg m ++ (acc ++ [depdep]) := depsOf_growDeps_self _ _ _ hm
        have haccU : ∀ y ∈ acc, y ∈ U := fun y hy => by
          obtain ⟨i, hi⟩ := depEdgeAway_target (hacc.reach y hy)
          exact hU i y hi
        have hU1 : ∀ i, ∀ x ∈ depsOf (growDeps pkg m (acc ++ [depdep])) i, x ∈ U := by
          intro i x hx
          by_cases him : i = m
          · subst him
            rw [hself1] at hx
            rcases List.mem_append.1 hx with hx | hx
            · exact hU _ x hx
            · rcases List.mem_append.1 hx with hx | hx
              · exact haccU x hx
              · rw [List.mem_singleton.1 hx]; exact hU dep depdep h1
          · rw [depsOf_growDeps_ne _ _ _ _ him] at hx
            exact hU i x hx
        have hcard1 : (U \ insert m
            (depsOf (growDeps pkg m (acc ++ [depdep])) m).toFinset).card < fuel := by
          rw [hself1, ← List.append_assoc]
          exact card_sdiff_insert_lt U m depdep _ (hU dep depdep h1) h2b h2a fuel hcard
        obtain ⟨added1, hrun1, hex1⟩ := ih _ depdep hlen1 hU1 hcard1
        rw [hrun1, growDeps_growDeps]
        have hp1 : InProgress pkg m dep (acc ++ [depdep] ++ added1) := by
          refine ⟨?_, ?_, ?_, ?_, ?_⟩
          · intro y hy
            rcases List.mem_append.1 hy with hy | hy
            · rcases List.mem_append.1 hy with hy | hy
              · exact hacc.ne y hy
              · rw [List.mem_singleton.1 hy]; exact h2b
            · exact hex1.part.ne y hy
          · intro y hy
            rcases List.mem_append.1 hy with hy | hy
            · rcases List.mem_append.1 hy with hy | hy
              · exact hacc.fresh y hy
              · rw [List.mem_singleton.1 hy]
                exact fun h => h2a (List.mem_append_left _ h)
            · have := hex1.part.fresh y hy
              rw [hself1] at this
              exact fun h => this (List.mem_append_left _ h)
          · rw [List.nodup_append]
            refine ⟨?_, hex1.part.nodup, ?_⟩
            · rw [List.nodup_append]
              refine ⟨hacc.nodup, List.nodup_singleton _, ?_⟩
              intro a ha hb
              rw [List.mem_singleton.1 hb] at ha
              exact h2a (List.mem_append_right _ ha)
            · intro a ha hb
              have := hex1.part.fresh a hb
              rw [hself1] at this
              exact this (List.mem_append_right _ ha)
          · intro y hy
            have hstep : Relation.TransGen (depEdgeAway pkg m) dep depdep :=
              Relation.TransGen.single ⟨hdm, h1⟩
            rcases List.mem_append.1 hy with hy | hy
            · rcases List.mem_append.1 hy with hy | hy
              · exact hacc.reach y hy
              · rw [List.mem_singleton.1 hy]; exact hstep
            · have := hex1.part.reach y hy
              rw [depEdgeAway_growDeps] at this
              exact hstep.trans this
          · intro y hy z hz
            rcases List.mem_append.1 hy with hy | hy
            · rcases List.mem_append.1 hy with hy | hy
              · rcases hacc.closed y hy z hz with h | h
                · left
                  rcases List.mem_append.1 h with h | h
                  · exact List.mem_append_left _ h
                  · exact List.mem_append_right _
                      (List.mem_append_left _ (List.mem_append_left _ h))
                · exact Or.inr h
              · rw [List.mem_singleton.1 hy] at hz
                have := hex1.done z (by rw [depsOf_growDeps_ne _ _ _ _ h2b]; exact hz)
                rw [hself1, List.append_assoc] at this
                exact this
            · have := hex1.part.closed y hy z
                (by rw [depsOf_growDeps_ne _ _ _ _ (hex1.part.ne y hy)]; exact hz)
              rw [hself1, List.append_assoc] at this
              exact this
        have hcard2 : (U \ insert m
            (depsOf pkg m ++ (acc ++ [depdep] ++ added1)).toFinset).card < fuel + 1 :=
          lt_of_le_of_lt
            (card_sdiff_insert_mono U m _ _ (by
              intro x hx
              rcases List.mem_append.1 hx with hx | hx
              · exact List.mem_append_left _ hx
              · exact List.mem_append_right _
                  (List.mem_append_left _ (List.mem_append_left _ hx))))
            hcard
        obtain ⟨acc', hrun, hp, hsub, hall⟩ := ihl _ hp1 hcard2
        refine ⟨acc', by simpa using hrun, hp, ?_, ?_⟩
        · intro y hy
          exact hsub (List.mem_append_left _ (List.mem_append_left _ hy))
        · intro z hz hzdep
          rcases List.mem_cons.1 hz with rfl | hz
          · exact Or.inl (List.mem_append_right _
              (hsub (List.mem_append_left _ (List.mem_append_right _ (List.mem_singleton_self _)))))
          · exact hall z hz hzdep

theorem helper_spec (order : List ModId → List ModId)
    (hord : ∀ l x, x ∈ l → x ∈ order l) (m : ModId) (U : Finset ModId) :
    ∀ fuel, HelperSpec order m U fuel := by
  intro fuel
  induction fuel with
  | zero => intro pkg dep _ _ h; exact absurd h (Nat.not_lt_zero _)
  | succ fuel ih =>
    intro pkg dep hm hU hcard
    have hcard0 : (U \ insert m (depsOf pkg m ++ []).toFinset).card < fuel + 1 := by
      simpa using hcard
    obtain ⟨acc', hrun, hp, _, hall⟩ :=
      helperLoop_spec order m U fuel ih pkg dep hm hU (order (depsOf pkg dep)) []
        (inProgress_nil pkg m dep) hcard0
    rw [growDeps_nil] at hrun
    refine ⟨acc', ?_, hp, ?_⟩
    · rw [depsClosureHelper]; exact hrun
    · intro z hz
      exact hall z (hord _ z hz) hz

theorem depEdgeAway_le_depEdge {pkg : Pkg} {m a b : ModId}
    (h : Relation.TransGen (depEdgeAway pkg m) a b) : Relation.TransGen (depEdge pkg) a b :=
  Relation.TransGen.mono (fun _ _ h => h.2) h

theorem closureLoop_spec (order : List ModId → List ModId) (m : ModId) (U : Finset ModId)
    (fuel : Nat) (ih : HelperSpec order m U fuel)
    (pkg : Pkg) (hm : m < pkg.length) (hU : ∀ i, ∀ x ∈ depsOf pkg i, x ∈ U)
    (hcard : (U \ insert m (depsOf pkg m).toFinset).card < fuel) :
    ∀ (l acc : List ModId), ClosedBy pkg m acc →
      ∃ acc', List.foldlM
          (fun cur dep =>
            if dep ∉ depsOf cur m then some cur
            else depsClosureHelper order m fuel cur dep)
          (growDeps pkg m acc) l = some (growDeps pkg m acc') ∧
        ClosedBy pkg m acc' ∧ acc ⊆ acc' ∧
        ∀ y ∈ l, y ∈ depsOf pkg m →
          ∀ z ∈ depsOf pkg y, z ∈ depsOf pkg m ++ acc' ∨ z = m := by
  intro l
  induction l with
  | nil =>
    intro acc hacc
    exact ⟨acc, by simp, hacc, List.Subset.refl _, by simp⟩
  | cons dep rest ihl =>
    intro acc hacc
    have hself : depsOf (growDeps pkg m acc) m = depsOf pkg m ++ acc :=
      depsOf_growDeps_self _ _ _ hm
    rw [List.foldlM_cons]
    by_cases h1 : dep ∉ depsOf (growDeps pkg m acc) m
    · rw [if_pos h1]
      obtain ⟨acc', hrun, hp, hsub, hall⟩ := ihl acc hacc
      refine ⟨acc', by simpa using hrun, hp, hsub, ?_⟩
      intro y hy hyS
      rcases List.mem_cons.1 hy with rfl | hy
      · rw [hself] at h1
        exact absurd (List.mem_append_left _ hyS) h1
      · exact hall y hy hyS
    · rw [if_neg h1]
      have h1' : dep ∈ depsOf pkg m ++ acc := by
        rw [← hself]; exact not_not.1 h1
      clear h1
      have hlen : m < (growDeps pkg m acc).length := by rw [length_growDeps]; exact hm
      have haccU : ∀ y ∈ acc, y ∈ U := fun y hy => by
        cases hacc.reach y hy with
        | single h => exact hU _ y h
        | tail _ h => exact hU _ y h
      have hU1 : ∀ i, ∀ x ∈ depsOf (growDeps pkg m acc) i, x ∈ U := by
        intro i x hx
        by_cases him : i = m
        · rw [him, hself] at hx
          rcases List.mem_append.1 hx with hx | hx
          · exact hU _ x hx
          · exact haccU x hx
        · rw [depsOf_growDeps_ne _ _ _ _ him] at hx
          exact hU i x hx
      have hcard1 : (U \ insert m (depsOf (growDeps pkg m acc) m).toFinset).card < fuel := by
        rw [hself]
        exact lt_of_le_of_lt
          (card_sdiff_insert_mono U m _ _ (List.subset_append_left _ _)) hcard
      obtain ⟨added1, hrun1, hex1⟩ := ih _ dep hlen hU1 hcard1
      rw [hrun1, growDeps_growDeps]
      have hdep : dep = m ∨ Relation.TransGen (depEdge pkg) m dep := by
        rcases List.mem_append.1 h1' with h | h
        · exact Or.inr (Relation.TransGen.single h)
        · exact Or.inr (hacc.reach dep h)
      have hp1 : ClosedBy pkg m (acc ++ added1) := by
        refine ⟨?_, ?_, ?_, ?_, ?_⟩
        · intro y hy
          rcases List.mem_append.1 hy with hy | hy
          · exact hacc.ne y hy
          · exact hex1.part.ne y hy
        · intro y hy
          rcases List.mem_append.1 hy with hy | hy
          · exact hacc.fresh y hy
          · have := hex1.part.fresh y hy
            rw [hself] at this
            exact fun h => this (List.mem_append_left _ h)
        · rw [List.nodup_append]
          refine ⟨hacc.nodup, hex1.part.nodup, ?_⟩
          intro a ha hb
          have := hex1.part.fresh a hb
          rw [hself] at this
          exact this (List.mem_append_right _ ha)
        · intro y hy
          rcases List.mem_append.1 hy with hy | hy
          · exact hacc.reach y hy
          · have := hex1.part.reach y hy
            rw [depEdgeAway_growDeps] at this
            rcases hdep with h | h
            · rw [h] at this; exact depEdgeAway_le_depEdge this
            · exact h.trans (depEdgeAway_le_depEdge this)
        · intro y hy z hz
          rcases List.mem_append.1 hy with hy | hy
          · rcases hacc.closed y hy z hz with h | h
            · left
              rcases List.mem_append.1 h with h | h
              · exact List.mem_append_left _ h
              · exact List.mem_append_right _ (List.mem_append_left _ h)
            · exact Or.inr h
          · have := hex1.part.closed y hy z
              (by rw [depsOf_growDeps_ne _ _ _ _ (hex1.part.ne y hy)]; exact hz)
            rw [hself, List.append_assoc] at this
            exact this
      obtain ⟨acc', hrun, hp, hsub, hall⟩ := ihl _ hp1
      refine ⟨acc', by simpa using hrun, hp, ?_, ?_⟩
      · intro y hy
        exact hsub (List.mem_append_left _ hy)
      · intro y hy hyS
        rcases List.mem_cons.1 hy with rfl | hy
        · intro z hz
          by_cases hym : y = m
          · rw [hym] at hz
            exact Or.inl (List.mem_append_left _ hz)
          · have := hex1.done z (by rw [depsOf_growDeps_ne _ _ _ _ hym]; exact hz)
            rw [hself, List.append_assoc] at this
            rcases this with h | h
            · left
              rcases List.mem_append.1 h with h | h
              · exact List.mem_append_left _ h
              · exact List.mem_append_right _ (hsub h)
            · exact Or.inr h
        · exact hall y hy hyS

theorem closureLoop_skip (order : List ModId → List ModId) (m : ModId) (fuel : Nat)
    (pkg : Pkg) (hm : pkg.length ≤ m) :
    ∀ l : List ModId, List.foldlM
        (fun cur dep =>
          if dep ∉ depsOf cur m then some cur
          else depsClosureHelper order m fuel cur dep) pkg l = some pkg := by
  intro l
  induction l with
  | nil => simp
  | cons dep rest ihl =>
    rw [List.foldlM_cons, if_pos (by rw [depsOf_of_le pkg m hm]; simp)]
    simpa using ihl

theorem card_sdiff_lt_fuelBound (pkg : Pkg) (m : ModId) (fuel : Nat)
    (hfuel : fuelBound pkg ≤ fuel) :
    ((allDeps pkg).toFinset \ insert m (depsOf pkg m).toFinset).card < fuel := by
  have h1 : ((allDeps pkg).toFinset \ insert m (depsOf pkg m).toFinset).card
      ≤ (allDeps pkg).toFinset.card := Finset.card_le_card Finset.sdiff_subset
  rw [List.card_toFinset] at h1
  unfold fuelBound at hfuel
  omega

/-- Total correctness of `DepsClosure`: with `fuelBound` units of fuel it returns, the
result is the package with some pointers appended to the `InPkgDeps` of `m`, and the
enlarged set is closed under the stored edges. -/
theorem DepsClosure_spec (order : List ModId → List ModId)
    (hord : ∀ l x, x ∈ l → x ∈ order l) (fuel : Nat) (pkg : Pkg) (m : ModId)
    (hfuel : fuelBound pkg ≤ fuel) :
    ∃ added, DepsClosure order fuel pkg m = some (growDeps pkg m added) ∧
      ClosedBy pkg m added ∧
      ∀ y ∈ depsOf pkg m ++ added, ∀ z ∈ depsOf pkg y, z ∈ depsOf pkg m ++ added ∨ z = m := by
  by_cases hm : m < pkg.length
  · have hU : ∀ i, ∀ x ∈ depsOf pkg i, x ∈ (allDeps pkg).toFinset := fun i x hx =>
      List.mem_toFinset.2 ((mem_allDeps pkg x).2 ⟨i, hx⟩)
    obtain ⟨acc', hrun, hp, _, hall⟩ :=
      closureLoop_spec order m _ fuel (helper_spec order hord m _ fuel) pkg hm hU
        (card_sdiff_lt_fuelBound pkg m fuel hfuel) (order (depsOf pkg m)) []
        ⟨by simp, by simp, List.nodup_nil, by simp, by simp⟩
    rw [growDeps_nil] at hrun
    refine ⟨acc', hrun, hp, ?_⟩
    intro y hy z hz
    rcases List.mem_append.1 hy with hy | hy
    · exact hall y (hord _ y hy) hy z hz
    · exact hp.closed y hy z hz
  · have hm : pkg.length ≤ m := Nat.le_of_not_lt hm
    refine ⟨[], ?_, ⟨by simp, by simp, List.nodup_nil, by simp, by simp⟩, ?_⟩
    · rw [growDeps_nil]
      exact closureLoop_skip order m fuel pkg hm _
    · intro y hy
      rw [depsOf_of_le pkg m hm] at hy
      simp at hy

/-! ## Fuel -/

theorem foldlM_option_mono {σ α : Type} (f g : σ → α → Option σ)
    (h : ∀ s a r, f s a = some r → g s a = some r) :
    ∀ (l : List α) (s r : σ), l.foldlM f s = some r → l.foldlM g s = some r := by
  intro l
  induction l with
  | nil => intro s r hr; simpa using hr
  | cons a rest ih =>
    intro s r hr
    rw [List.foldlM_cons] at hr ⊢
    cases hfa : f s a with
    | none => rw [hfa] at hr; simp at hr
    | some s1 =>
      rw [hfa] at hr
      rw [h s a s1 hfa]
      exact ih s1 r (by simpa using hr)

theorem foldlM_option_const {σ α : Type} (f : σ → α → Option σ) (s : σ) :
    ∀ (l : List α), (∀ a ∈ l, f s a = some s) → l.foldlM f s = some s := by
  intro l
  induction l with
  | nil => intro _; simp
  | cons a rest ih =>
    intro h
    rw [List.foldlM_cons, h a (List.mem_cons_self _ _)]
    simpa using ih (fun b hb => h b (List.mem_cons_of_mem _ hb))

theorem helper_fuel_succ (order : List ModId → List ModId) (m : ModId) :
    ∀ (fuel : Nat) (pkg : Pkg) (dep : ModId) (r : Pkg),
      depsClosureHelper order m fuel pkg dep = some r →
      depsClosureHelper order m (fuel + 1) pkg dep = some r := by
  intro fuel
  induction fuel with
  | zero => intro pkg dep r h; simp [depsClosureHelper] at h
  | succ fuel ih =>
    intro pkg dep r h
    rw [depsClosureHelper] at h ⊢
    refine foldlM_option_mono _ _ ?_ _ _ _ h
    intro cur depdep r1 h1
    by_cases c1 : depdep ∉ depsOf cur dep
    · rw [if_pos c1] at h1 ⊢; exact h1
    · rw [if_neg c1] at h1 ⊢
      by_cases c2 : depdep ∈ depsOf cur m ∨ depdep = m
      · rw [if_pos c2] at h1 ⊢; exact h1
      · rw [if_neg c2] at h1 ⊢
        exact ih _ _ _ h1

theorem helper_fuel_mono (order : List ModId → List ModId) (m : ModId)
    (fuel fuel' : Nat) (hle : fuel ≤ fuel') (pkg : Pkg) (dep : ModId) (r : Pkg)
    (h : depsClosureHelper order m fuel pkg dep = some r) :
    depsClosureHelper order m fuel' pkg dep = some r := by
  induction fuel', hle using Nat.le_induction with
  | base => exact h
  | succ n _ ih => exact helper_fuel_succ order m n pkg dep r ih

theorem DepsClosure_fuel_mono (order : List ModId → List ModId) (m : ModId)
    (fuel fuel' : Nat) (hle : fuel ≤ fuel') (pkg : Pkg) (r : Pkg)
    (h : DepsClosure order fuel pkg m = some r) :
    DepsClosure order fuel' pkg m = some r := by
  unfold DepsClosure at h ⊢
  refine foldlM_option_mono _ _ ?_ _ _ _ h
  intro cur dep r1 h1
  by_cases c1 : dep ∉ depsOf cur m
  · rw [if_pos c1] at h1 ⊢; exact h1
  · rw [if_neg c1] at h1 ⊢
    exact helper_fuel_mono order m fuel fuel' hle _ _ _ h1

/-- On a package whose `InPkgDeps` of `m` already holds the stored dependencies of each of
its members, `DepsClosure` on `m` changes nothing. -/
theorem DepsClosure_of_closed (order : List ModId → List ModId) (fuel : Nat) (pkg : Pkg)
    (m : ModId)
    (hcl : ∀ y ∈ depsOf pkg m, ∀ z ∈ depsOf pkg y, z ∈ depsOf pkg m ∨ z = m) :
    DepsClosure order (fuel + 1) pkg m = some pkg := by
  unfold DepsClosure
  apply foldlM_option_const
  intro dep _
  by_cases c1 : dep ∉ depsOf pkg m
  · rw [if_pos c1]
  · rw [if_neg c1, depsClosureHelper]
    apply foldlM_option_const
    intro depdep _
    by_cases c2 : depdep ∉ depsOf pkg dep
    · rw [if_pos c2]
    · rw [if_neg c2, if_pos (hcl dep (not_not.1 c1) depdep (not_not.1 c2))]

theorem closed_growDeps (pkg : Pkg) (m : ModId) (added : List ModId)
    (h : ∀ y ∈ depsOf pkg m ++ added, ∀ z ∈ depsOf pkg y, z ∈ depsOf pkg m ++ added ∨ z = m) :
    ∀ y ∈ depsOf (growDeps pkg m added) m, ∀ z ∈ depsOf (growDeps pkg m added) y,
      z ∈ depsOf (growDeps pkg m added) m ∨ z = m := by
  intro y hy z hz
  by_cases hm : m < pkg.length
  · rw [depsOf_growDeps_self _ _ _ hm] at hy ⊢
    by_cases hym : y = m
    · rw [hym, depsOf_growDeps_self _ _ _ hm] at hz
      exact Or.inl hz
    · rw [depsOf_growDeps_ne _ _ _ _ hym] at hz
      exact h y hy z hz
  · have hle : (growDeps pkg m added).length ≤ m := by
      rw [length_growDeps]; exact Nat.le_of_not_lt hm
    rw [depsOf_of_le _ m hle] at hy
    simp at hy

/-! ## `ProcessImports` -/

theorem findInPkgImport_congr (md md' : Module) (h : md'.PkgPath = md.PkgPath)
    (imp : String) (moduleMap : ModuleMap) (subPackages : List String) :
    findInPkgImport md' imp moduleMap subPackages
      = findInPkgImport md imp moduleMap subPackages := by
  unfold findInPkgImport
  rw [h]

theorem mem_foldl_setInsert {α : Type} [DecidableEq α] (w : α) :
    ∀ (l s : List α), w ∈ l.foldl setInsert s ↔ w ∈ s ∨ w ∈ l := by
  intro l
  induction l with
  | nil => intro s; simp
  | cons a rest ih =>
    intro s
    rw [List.foldl_cons, ih]
    unfold setInsert
    by_cases ha : a ∈ s
    · rw [if_pos ha]
      constructor
      · rintro (h | h)
        · exact Or.inl h
        · exact Or.inr (List.mem_cons_of_mem _ h)
      · rintro (h | h)
        · exact Or.inl h
        · rcases List.mem_cons.1 h with rfl | h
          · exact Or.inl ha
          · exact Or.inr h
    · rw [if_neg ha]
      simp only [List.mem_append, List.mem_singleton, List.mem_cons]
      tauto

theorem nodup_foldl_setInsert {α : Type} [DecidableEq α] :
    ∀ (l s : List α), s.Nodup → (l.foldl setInsert s).Nodup := by
  intro l
  induction l with
  | nil => intro s hs; simpa using hs
  | cons a rest ih =>
    intro s hs
    rw [List.foldl_cons]
    apply ih
    unfold setInsert
    by_cases ha : a ∈ s
    · rw [if_pos ha]; exact hs
    · rw [if_neg ha]
      rw [List.nodup_append]
      exact ⟨hs, List.nodup_singleton _, by
        intro x hx hx'
        rw [List.mem_singleton.1 hx'] at hx
        exact ha hx⟩

/-- `ProcessImports` in closed form: the in-package dependencies found are inserted into
`InPkgDeps`, the other imports are appended to `ExPkgImports` in their order. -/
theorem ProcessImportsModule_eq (moduleMap : ModuleMap) (subPackages : List String)
    (md0 : Module) :
    ∀ (l : List String) (md : Module), md.PkgPath = md0.PkgPath →
      l.foldl
        (fun md imp =>
          match findInPkgImport md imp moduleMap subPackages with
          | some dep => { md with InPkgDeps := setInsert md.InPkgDeps dep }
          | none => { md with ExPkgImports := md.ExPkgImports ++ [imp] })
        md =
      { md with
        InPkgDeps := (l.filterMap
          (fun imp => findInPkgImport md0 imp moduleMap subPackages)).foldl setInsert
            md.InPkgDeps
        ExPkgImports := md.ExPkgImports ++ l.filter
          (fun imp => (findInPkgImport md0 imp moduleMap subPackages).isNone) } := by
  intro l
  induction l with
  | nil => intro md _; simp
  | cons imp rest ih =>
    intro md hmd
    rw [List.foldl_cons, findInPkgImport_congr md0 md hmd]
    cases hf : findInPkgImport md0 imp moduleMap subPackages with
    | none =>
      rw [ih _ (by simpa using hmd)]
      simp [List.filterMap_cons, List.filter_cons, hf]
    | some dep =>
      rw [ih _ (by simpa using hmd)]
      simp [List.filterMap_cons, List.filter_cons, hf]

theorem ProcessImportsModule_closed (md : Module) (moduleMap : ModuleMap)
    (subPackages : List String) :
    ProcessImportsModule md moduleMap subPackages =
      { md with
        InPkgDeps := (md.Imports.filterMap
          (fun imp => findInPkgImport md imp moduleMap subPackages)).foldl setInsert
            md.InPkgDeps
        ExPkgImports := md.ExPkgImports ++ md.Imports.filter
          (fun imp => (findInPkgImport md imp moduleMap subPackages).isNone) } :=
  ProcessImportsModule_eq moduleMap subPackages md md.Imports md rfl

theorem getElem?_ProcessImports (pkg : Pkg) (m x : ModId) (moduleMap : ModuleMap)
    (subPackages : List String) :
    (ProcessImports pkg m moduleMap subPackages)[x]? =
      if x = m then (pkg[x]?).map (fun md => ProcessImportsModule md moduleMap subPackages)
      else pkg[x]? := by
  unfold ProcessImports
  by_cases h : x = m
  · rw [if_pos h, h, List.getElem?_modify_eq]; rfl
  · rw [if_neg h, List.getElem?_modify_ne _ _ (Ne.symm h)]

theorem directDep_ProcessImports (pkg : Pkg) (m : ModId) (moduleMap : ModuleMap)
    (subPackages : List String) (a b : ModId) :
    directDep (ProcessImports pkg m moduleMap subPackages) moduleMap subPackages a b ↔
      directDep pkg moduleMap subPackages a b := by
  unfold directDep
  rw [getElem?_ProcessImports]
  by_cases h : a = m
  · rw [if_pos h]
    cases hget : pkg[a]? with
    | none => simp
    | some md =>
      simp only [Option.map_some', Option.some.injEq, exists_eq_left']
      rw [ProcessImportsModule_closed]
      constructor
      · rintro ⟨imp, himp, hf⟩
        exact ⟨imp, himp, by rw [← hf]; exact (findInPkgImport_congr _ _ rfl _ _ _).symm⟩
      · rintro ⟨imp, himp, hf⟩
        exact ⟨imp, himp, by rw [← hf]; exact findInPkgImport_congr _ _ rfl _ _ _⟩
  · rw [if_neg h]

theorem mem_depsOf_ProcessImports (pkg : Pkg) (m x w : ModId) (moduleMap : ModuleMap)
    (subPackages : List String) :
    w ∈ depsOf (ProcessImports pkg m moduleMap subPackages) x ↔
      w ∈ depsOf pkg x ∨ (x = m ∧ directDep pkg moduleMap subPackages x w) := by
  unfold depsOf directDep
  rw [getElem?_ProcessImports]
  by_cases h : x = m
  · rw [if_pos h]
    cases hget : pkg[x]? with
    | none => simp
    | some md =>
      simp only [Option.map_some', Option.some.injEq, exists_eq_left', h, true_and]
      rw [ProcessImportsModule_closed]
      simp only [mem_foldl_setInsert, List.mem_filterMap]
  · rw [if_neg h]
    simp [h]

theorem mem_depsOf_processAll (moduleMap : ModuleMap) (subPackages : List String)
    (x w : ModId) :
    ∀ (ps : List ModId) (pkg : Pkg),
      w ∈ depsOf (processAll pkg moduleMap subPackages ps) x ↔
        w ∈ depsOf pkg x ∨ (x ∈ ps ∧ directDep pkg moduleMap subPackages x w) := by
  intro ps
  induction ps with
  | nil => intro pkg; simp [processAll]
  | cons p rest ih =>
    intro pkg
    unfold processAll at ih ⊢
    rw [List.foldl_cons, ih, mem_depsOf_ProcessImports, directDep_ProcessImports]
    simp only [List.mem_cons]
    constructor
    · rintro ((h | ⟨h1, h2⟩) | ⟨h1, h2⟩)
      · exact Or.inl h
      · exact Or.inr ⟨Or.inl h1, h2⟩
      · exact Or.inr ⟨Or.inr h1, h2⟩
    · rintro (h | ⟨h1 | h1, h2⟩)
      · exact Or.inl (Or.inl h)
      · exact Or.inl (Or.inr ⟨h1, h2⟩)
      · exact Or.inr ⟨h1, h2⟩

theorem depEdge_processAll (pkg : Pkg) (moduleMap : ModuleMap) (subPackages : List String)
    (ps : List ModId) (hfresh : ∀ md ∈ pkg, md.InPkgDeps = [])
    (hps : ∀ m, m < pkg.length → m ∈ ps) (a b : ModId) :
    depEdge (processAll pkg moduleMap subPackages ps) a b ↔
      directDep pkg moduleMap subPackages a b := by
  unfold depEdge
  rw [mem_depsOf_processAll]
  have hnil : depsOf pkg a = [] := by
    unfold depsOf
    cases hget : pkg[a]? with
    | none => rfl
    | some md => exact hfresh md (List.getElem?_mem hget)
  rw [hnil]
  constructor
  · rintro (h | ⟨_, h⟩)
    · simp at h
    · exact h
  · intro h
    refine Or.inr ⟨hps a ?_, h⟩
    obtain ⟨md, hmd, _⟩ := h
    by_contra hlt
    rw [List.getElem?_eq_none (Nat.le_of_not_lt hlt)] at hmd
    simp at hmd

/-! ## Closing every module of a package -/

theorem fuelBound_growDeps_le (pkg : Pkg) (m : ModId) (added : List ModId)
    (hadd : ∀ y ∈ added, y ∈ allDeps pkg) :
    fuelBound (growDeps pkg m added) ≤ fuelBound pkg := by
  unfold fuelBound
  rw [← List.card_toFinset, ← List.card_toFinset]
  apply Nat.succ_le_succ
  apply Finset.card_le_card
  intro x hx
  rw [List.mem_toFinset, mem_allDeps] at hx
  rw [List.mem_toFinset]
  obtain ⟨i, hi⟩ := hx
  by_cases him : i = m
  · by_cases hm : m < pkg.length
    · rw [him, depsOf_growDeps_self _ _ _ hm] at hi
      rcases List.mem_append.1 hi with hi | hi
      · exact (mem_allDeps pkg x).2 ⟨m, hi⟩
      · exact hadd x hi
    · have hle : (growDeps pkg m added).length ≤ m := by
        rw [length_growDeps]; exact Nat.le_of_not_lt hm
      rw [him, depsOf_of_le _ m hle] at hi
      simp at hi
  · rw [depsOf_growDeps_ne _ _ _ _ him] at hi
    exact (mem_allDeps pkg x).2 ⟨i, hi⟩

theorem closedBy_mem_allDeps {pkg : Pkg} {m : ModId} {added : List ModId}
    (h : ClosedBy pkg m added) : ∀ y ∈ added, y ∈ allDeps pkg := by
  intro y hy
  rw [mem_allDeps]
  cases h.reach y hy with
  | single h => exact ⟨_, h⟩
  | tail _ h => exact ⟨_, h⟩

theorem transGen_of_sound {E : ModId → ModId → Prop} {pkg : Pkg}
    (hsound : ∀ x y, y ∈ depsOf pkg x → Relation.TransGen E x y) {a b : ModId}
    (h : Relation.TransGen (depEdge pkg) a b) : Relation.TransGen E a b := by
  induction h with
  | single h => exact hsound _ _ h
  | tail _ h ih => exact ih.trans (hsound _ _ h)

/-- Running `DepsClosure` on the modules `qs` of a package whose stored edges lie between
a relation `E` and its transitive closure: the run returns, the stored edges still lie
between the two, and the `InPkgDeps` of every module of `qs` holds all that `E` reaches from
it, the module itself possibly excepted. -/
theorem closeAll_spec (order : List ModId → List ModId)
    (hord : ∀ l x, x ∈ l → x ∈ order l) (fuel : Nat) (E : ModId → ModId → Prop) :
    ∀ (qs : List ModId) (pkg : Pkg),
      (∀ x y, E x y → y ∈ depsOf pkg x) →
      (∀ x y, y ∈ depsOf pkg x → Relation.TransGen E x y) →
      fuelBound pkg ≤ fuel →
      ∃ pkg', closeAll order fuel pkg qs = some pkg' ∧
        (∀ x, depsOf pkg x ⊆ depsOf pkg' x) ∧
        (∀ x y, y ∈ depsOf pkg' x → Relation.TransGen E x y) ∧
        ∀ m ∈ qs, ∀ w, Relation.TransGen E m w → w ∈ depsOf pkg' m ∨ w = m := by
  intro qs
  induction qs with
  | nil =>
    intro pkg _ hsound _
    exact ⟨pkg, by simp [closeAll], fun x => List.Subset.refl _, hsound, by simp⟩
  | cons q rest ih =>
    intro pkg hcomp hsound hfuel
    obtain ⟨added, hrun, hcl, hall⟩ := DepsClosure_spec order hord fuel pkg q hfuel
    have hsub1 : ∀ x, depsOf pkg x ⊆ depsOf (growDeps pkg q added) x :=
      fun x => depsOf_subset_growDeps pkg q x added
    have hcomp1 : ∀ x y, E x y → y ∈ depsOf (growDeps pkg q added) x :=
      fun x y h => hsub1 x (hcomp x y h)
    have hsound1 : ∀ x y, y ∈ depsOf (growDeps pkg q added) x → Relation.TransGen E x y := by
      intro x y hy
      by_cases hxq : x = q
      · by_cases hq : q < pkg.length
        · rw [hxq, depsOf_growDeps_self _ _ _ hq] at hy
          rw [hxq]
          rcases List.mem_append.1 hy with hy | hy
          · exact hsound _ _ hy
          · exact transGen_of_sound hsound (hcl.reach y hy)
        · have hle : (growDeps pkg q added).length ≤ q := by
            rw [length_growDeps]; exact Nat.le_of_not_lt hq
          rw [hxq, depsOf_of_le _ q hle] at hy
          simp at hy
      · rw [depsOf_growDeps_ne _ _ _ _ hxq] at hy
        exact hsound _ _ hy
    have hfuel1 : fuelBound (growDeps pkg q added) ≤ fuel :=
      le_trans (fuelBound_growDeps_le pkg q added (closedBy_mem_allDeps hcl)) hfuel
    have hdone : ∀ w, Relation.TransGen E q w →
        w ∈ depsOf (growDeps pkg q added) q ∨ w = q := by
      intro w hw
      induction hw with
      | single h => exact Or.inl (hcomp1 _ _ h)
      | @tail b c _ h ihw =>
        rcases ihw with hb | hb
        · by_cases hq : q < pkg.length
          · rw [depsOf_growDeps_self _ _ _ hq] at hb ⊢
            exact hall b hb c (hcomp _ _ h)
          · have hle : (growDeps pkg q added).length ≤ q := by
              rw [length_growDeps]; exact Nat.le_of_not_lt hq
            rw [depsOf_of_le _ q hle] at hb
            simp at hb
        · rw [hb] at h
          exact Or.inl (hcomp1 _ _ h)
    obtain ⟨pkg', hrun', hsub', hsound', hdone'⟩ := ih _ hcomp1 hsound1 hfuel1
    refine ⟨pkg', ?_, ?_, hsound', ?_⟩
    · unfold closeAll at hrun' ⊢
      rw [List.foldlM_cons, hrun]
      simpa using hrun'
    · exact fun x => List.Subset.trans (hsub1 x) (hsub' x)
    · intro m hm w hw
      rcases List.mem_cons.1 hm with rfl | hm
      · rcases hdone w hw with h | h
        · exact Or.inl (hsub' _ h)
        · exact Or.inr h
      · exact hdone' m hm w hw

/-! ## The dependency closure: main results -/

/-- C1. After `ProcessImports` has run on every module of a freshly analysed package and
`DepsClosure` has then run on every module, in place and in any order, the `InPkgDeps` of a
module `m` holds a module `w` other than `m` exactly when `w` is reached from `m` by a
non-empty chain of direct in-package dependencies. -/
theorem closure_iff_reachable (order : List ModId → List ModId)
    (hord : ∀ l x, x ∈ l → x ∈ order l) (pkg : Pkg) (moduleMap : ModuleMap)
    (subPackages : List String) (ps qs : List ModId) (fuel : Nat)
    (hfresh : ∀ md ∈ pkg, md.InPkgDeps = [])
    (hps : ∀ m, m < pkg.length → m ∈ ps) (hqs : ∀ m, m < pkg.length → m ∈ qs)
    (hfuel : fuelBound (processAll pkg moduleMap subPackages ps) ≤ fuel) :
    ∃ pkg', closeAll order fuel (processAll pkg moduleMap subPackages ps) qs = some pkg' ∧
      ∀ m w, m < pkg.length → w ≠ m →
        (w ∈ depsOf pkg' m ↔
          Relation.TransGen (directDep pkg moduleMap subPackages) m w) := by
  have hE : ∀ a b, depEdge (processAll pkg moduleMap subPackages ps) a b ↔
      directDep pkg moduleMap subPackages a b :=
    depEdge_processAll pkg moduleMap subPackages ps hfresh hps
  obtain ⟨pkg', hrun, _, hsound, hdone⟩ :=
    closeAll_spec order hord fuel (directDep pkg moduleMap subPackages) qs
      (processAll pkg moduleMap subPackages ps)
      (fun x y h => (hE x y).2 h)
      (fun x y h => Relation.TransGen.single ((hE x y).1 h))
      hfuel
  refine ⟨pkg', hrun, ?_⟩
  intro m w hm hw
  constructor
  · exact hsound m w
  · intro h
    rcases hdone m (hqs m hm) w h with h | h
    · exact h
    · exact absurd h hw

/-- The package of `TestModuleInPkgDeps`: the root imports `mod1`, `mod1` imports `mod2`,
and the closure of the root is `{mod1, mod2}`. -/
theorem closure_iff_reachable_witness :
    (closeAll id 4 (processAll testPkg testModuleMap testSubPackages [0, 1, 2])
        [0, 1, 2]).map (fun p => depsOf p 0) = some [1, 2] ∧
    ∃ pkg', closeAll id 4 (processAll testPkg testModuleMap testSubPackages [0, 1, 2])
        [0, 1, 2] = some pkg' ∧
      ∀ m w, m < testPkg.length → w ≠ m →
        (w ∈ depsOf pkg' m ↔
          Relation.TransGen (directDep testPkg testModuleMap testSubPackages) m w) :=
  ⟨by decide,
   closure_iff_reachable id (fun _ _ h => h) testPkg testModuleMap testSubPackages
    [0, 1, 2] [0, 1, 2] 4 (by decide) (by decide) (by decide) (by decide)⟩

/-- C3. `DepsClosure` terminates on every package, cyclic or not: with `fuelBound` units of
fuel or more it returns one and the same package. The modules it adds to the `InPkgDeps` of
`m` are pairwise distinct, none was there before and none is `m`; each recursive call of
`depsClosureHelper` follows one such addition, so there are fewer calls in a chain than
`fuelBound`. -/
theorem DepsClosure_terminates (order : List ModId → List ModId)
    (hord : ∀ l x, x ∈ l → x ∈ order l) (pkg : Pkg) (m : ModId) :
    ∃ added : List ModId,
      (∀ fuel, fuelBound pkg ≤ fuel →
        DepsClosure order fuel pkg m = some (growDeps pkg m added)) ∧
      added.Nodup ∧ (∀ y ∈ added, y ∉ depsOf pkg m ∧ y ≠ m) ∧
      added.length < fuelBound pkg := by
  obtain ⟨added, hrun, hcl, _⟩ :=
    DepsClosure_spec order hord (fuelBound pkg) pkg m (le_refl _)
  refine ⟨added, ?_, hcl.nodup, fun y hy => ⟨hcl.fresh y hy, hcl.ne y hy⟩, ?_⟩
  · intro fuel hfuel
    exact DepsClosure_fuel_mono order m _ fuel hfuel pkg _ hrun
  · unfold fuelBound
    rw [← List.card_toFinset, ← List.toFinset_card_of_nodup hcl.nodup]
    apply Nat.lt_succ_of_le
    apply Finset.card_le_card
    intro y hy
    rw [List.mem_toFinset] at hy ⊢
    exact closedBy_mem_allDeps hcl y hy

/-- Modules `A` and `B` that import each other end with `InPkgDeps(A) = {B}` and
`InPkgDeps(B) = {A}`. -/
theorem DepsClosure_terminates_witness :
    (closeAll id 3 (processAll cyclePkg cycleModuleMap [] [0, 1]) [0, 1]).map
        (fun p => p.map (fun md => md.InPkgDeps)) = some [[1], [0]] ∧
    ∃ added : List ModId,
      (∀ fuel, fuelBound (processAll cyclePkg cycleModuleMap [] [0, 1]) ≤ fuel →
        DepsClosure id fuel (processAll cyclePkg cycleModuleMap [] [0, 1]) 0
          = some (growDeps (processAll cyclePkg cycleModuleMap [] [0, 1]) 0 added)) ∧
      added.Nodup ∧
      (∀ y ∈ added, y ∉ depsOf (processAll cyclePkg cycleModuleMap [] [0, 1]) 0 ∧ y ≠ 0) ∧
      added.length < fuelBound (processAll cyclePkg cycleModuleMap [] [0, 1]) :=
  ⟨by decide,
   DepsClosure_terminates id (fun _ _ h => h)
    (processAll cyclePkg cycleModuleMap [] [0, 1]) 0⟩

/-- C4. `DepsClosure` is idempotent: a second run on the same module returns the package
that the first run returned, so `InPkgDeps(m)` after two runs is what one run leaves. -/
theorem DepsClosure_idempotent (order : List ModId → List ModId)
    (hord : ∀ l x, x ∈ l → x ∈ order l) (fuel : Nat) (pkg : Pkg) (m : ModId)
    (hfuel : fuelBound pkg ≤ fuel) :
    ∃ pkg', DepsClosure order fuel pkg m = some pkg' ∧
      DepsClosure order fuel pkg' m = some pkg' := by
  obtain ⟨added, hrun, _, hall⟩ := DepsClosure_spec order hord fuel pkg m hfuel
  refine ⟨_, hrun, ?_⟩
  have hpos : fuel = (fuel - 1) + 1 := by
    unfold fuelBound at hfuel; omega
  rw [hpos]
  exact DepsClosure_of_closed order _ _ m (closed_growDeps pkg m added hall)

theorem DepsClosure_idempotent_witness :
    fuelBound (processAll testPkg testModuleMap testSubPackages [0, 1, 2]) ≤ 4 ∧
    ∃ pkg', DepsClosure id 4
        (processAll testPkg testModuleMap testSubPackages [0, 1, 2]) 0 = some pkg' ∧
      DepsClosure id 4 pkg' 0 = some pkg' :=
  ⟨by decide,
   DepsClosure_idempotent id (fun _ _ h => h) 4
    (processAll testPkg testModuleMap testSubPackages [0, 1, 2]) 0 (by decide)⟩

/-- C5. `DepsClosure` on `m` changes nothing but `InPkgDeps(m)`, which it only enlarges:
every other module is left as it was, and the module `m` keeps all its fields, its
`ExPkgImports` included, except for `InPkgDeps`, which keeps every member it had. -/
theorem DepsClosure_frame (order : List ModId → List ModId)
    (hord : ∀ l x, x ∈ l → x ∈ order l) (fuel : Nat) (pkg : Pkg) (m : ModId)
    (hfuel : fuelBound pkg ≤ fuel) :
    ∃ pkg', DepsClosure order fuel pkg m = some pkg' ∧
      pkg'.length = pkg.length ∧
      (∀ i, i ≠ m → pkg'[i]? = pkg[i]?) ∧
      ∀ md, pkg[m]? = some md →
        ∃ deps, pkg'[m]? = some { md with InPkgDeps := deps } ∧
          ∀ d ∈ md.InPkgDeps, d ∈ deps := by
  obtain ⟨added, hrun, _, _⟩ := DepsClosure_spec order hord fuel pkg m hfuel
  refine ⟨_, hrun, length_growDeps pkg m added, ?_, ?_⟩
  · intro i hi
    unfold growDeps
    rw [List.getElem?_modify_ne _ _ (Ne.symm hi)]
  · intro md hmd
    refine ⟨md.InPkgDeps ++ added, ?_, fun d hd => List.mem_append_left _ hd⟩
    unfold growDeps
    rw [List.getElem?_modify_eq, hmd]
    rfl

theorem DepsClosure_frame_witness :
    fuelBound (processAll testPkg testModuleMap testSubPackages [0, 1, 2]) ≤ 4 ∧
    ∃ pkg', DepsClosure id 4
        (processAll testPkg testModuleMap testSubPackages [0, 1, 2]) 0 = some pkg' ∧
      pkg'.length = (processAll testPkg testModuleMap testSubPackages [0, 1, 2]).length ∧
      (∀ i, i ≠ 0 →
        pkg'[i]? = (processAll testPkg testModuleMap testSubPackages [0, 1, 2])[i]?) ∧
      ∀ md, (processAll testPkg testModuleMap testSubPackages [0, 1, 2])[0]? = some md →
        ∃ deps, pkg'[0]? = some { md with InPkgDeps := deps } ∧
          ∀ d ∈ md.InPkgDeps, d ∈ deps :=
  ⟨by decide,
   DepsClosure_frame id (fun _ _ h => h) 4
    (processAll testPkg testModuleMap testSubPackages [0, 1, 2]) 0 (by decide)⟩

/-! ## Classification of import specifiers -/

theorem extScan_dot (rest : List Char) :
    ∀ (t acc : List Char), (∀ c ∈ t, c ≠ '.' ∧ c ≠ '/') →
      extScan (t ++ '.' :: rest) acc = '.' :: (t.reverse ++ acc) := by
  intro t
  induction t with
  | nil => intro acc _; simp [extScan]
  | cons c t ih =>
    intro acc h
    have hc := h c (List.mem_cons_self _ _)
    rw [List.cons_append, extScan, if_neg hc.2, if_neg hc.1,
      ih _ (fun d hd => h d (List.mem_cons_of_mem _ hd))]
    simp

theorem extScan_no_dot :
    ∀ (t acc : List Char), (∀ c ∈ t, c ≠ '.') → extScan t acc = [] := by
  intro t
  induction t with
  | nil => intro acc _; rfl
  | cons c t ih =>
    intro acc h
    rw [extScan]
    by_cases hs : c = '/'
    · rw [if_pos hs]
    · rw [if_neg hs, if_neg (h c (List.mem_cons_self _ _))]
      exact ih _ (fun d hd => h d (List.mem_cons_of_mem _ hd))

/-- The three quantities `findInPkgImport` computes from a specifier whose part after the
last dot is `seg`: `path.Ext` returns the dot and `seg`, trimming it leaves `parent`. -/
theorem ext_of_parts (parent seg : List Char) (hseg : ∀ c ∈ seg, c ≠ '.' ∧ c ≠ '/') :
    pathExt ⟨parent ++ '.' :: seg⟩ = ⟨'.' :: seg⟩ ∧
    trimSuffix ⟨parent ++ '.' :: seg⟩ ⟨'.' :: seg⟩ = ⟨parent⟩ := by
  constructor
  · unfold pathExt
    have : (parent ++ '.' :: seg).reverse = seg.reverse ++ '.' :: parent.reverse := by simp
    simp only [this]
    rw [extScan_dot _ _ _ (fun c hc => hseg c (List.mem_reverse.1 hc))]
    simp
  · unfold trimSuffix
    rw [if_pos (List.suffix_append _ _)]
    simp

theorem ext_of_no_dot (imp : String) (h : ∀ c ∈ imp.data, c ≠ '.') :
    pathExt imp = "" := by
  unfold pathExt
  rw [extScan_no_dot _ _ (fun c hc => h c (List.mem_reverse.1 hc))]

theorem trimSuffix_empty (imp : String) : trimSuffix imp "" = imp := by
  unfold trimSuffix
  rw [if_pos List.nil_suffix]
  apply String.ext
  show imp.data.take (imp.data.length - 0) = imp.data
  rw [Nat.sub_zero, List.take_length]

theorem data_parts (imp : String) (h : '.' ∈ imp.data.reverse) :
    imp = ⟨((imp.data.reverse.dropWhile (fun c => c != '.')).drop 1).reverse ++
      '.' :: (imp.data.reverse.takeWhile (fun c => c != '.')).reverse⟩ := by
  have hsplit := List.takeWhile_append_dropWhile (fun c => c != '.') imp.data.reverse
  have hdrop : imp.data.reverse.dropWhile (fun c => c != '.')
      = '.' :: (imp.data.reverse.dropWhile (fun c => c != '.')).drop 1 := by
    cases hd : imp.data.reverse.dropWhile (fun c => c != '.') with
    | nil =>
      rw [List.dropWhile_eq_nil_iff] at hd
      have := hd '.' h
      simp at this
    | cons a rest =>
      have ha := List.head_dropWhile_not (fun c => c != '.') imp.data.reverse
        (by rw [hd]; simp)
      simp only [hd, List.head_cons] at ha
      have : a = '.' := by simpa using ha
      rw [this]; rfl
  have key : ∀ (t d r : List Char), t ++ d = r → d = '.' :: d.drop 1 →
      r.reverse = (d.drop 1).reverse ++ '.' :: t.reverse := by
    intro t d r h1 h2
    rw [← h1, List.reverse_append]
    conv_lhs => rw [h2]
    simp
  apply String.ext
  have := key _ _ _ hsplit hdrop
  rw [List.reverse_reverse] at this
  exact this

/-- On a specifier without a slash, `findInPkgImport` is the classification of the
specification. -/
theorem findInPkgImport_eq_classify (md : Module) (imp : String) (moduleMap : ModuleMap)
    (subPackages : List String) (hslash : '/' ∉ imp.data) :
    findInPkgImport md imp moduleMap subPackages
      = classifyImport (slashesToDots md.PkgPath) moduleMap subPackages imp := by
  by_cases hdot : '.' ∈ imp.data.reverse
  · have hseg : ∀ c ∈ (imp.data.reverse.takeWhile (fun c => c != '.')).reverse,
        c ≠ '.' ∧ c ≠ '/' := by
      intro c hc
      rw [List.mem_reverse] at hc
      constructor
      · have := List.mem_takeWhile_imp hc
        simpa using this
      · intro hcs
        rw [hcs] at hc
        exact hslash (List.mem_reverse.1 ((List.takeWhile_sublist _).subset hc))
    have hparts := ext_of_parts
      ((imp.data.reverse.dropWhile (fun c => c != '.')).drop 1).reverse _ hseg
    rw [← data_parts imp hdot] at hparts
    obtain ⟨hext, htrim⟩ := hparts
    unfold findInPkgImport classifyImport splitLastDot
    simp only [hext, htrim, if_pos hdot]
    have hne : (⟨'.' :: (imp.data.reverse.takeWhile (fun c => c != '.')).reverse⟩ : String)
        ≠ "" := by
      intro h
      have := congrArg String.data h
      simp at this
    simp only [hne, ne_eq, not_false_eq_true, true_and, List.drop_succ_cons, List.drop_zero]
    by_cases hc : (⟨((imp.data.reverse.dropWhile (fun c => c != '.')).drop 1).reverse⟩ : String)
        = slashesToDots md.PkgPath ∧
        (⟨(imp.data.reverse.takeWhile (fun c => c != '.')).reverse⟩ : String) ∈ subPackages
    · rw [if_pos hc, if_pos hc]
    · rw [if_neg hc, if_neg hc]
      cases List.lookup imp moduleMap with
      | some dep => rfl
      | none =>
        cases List.lookup
          (⟨((imp.data.reverse.dropWhile (fun c => c != '.')).drop 1).reverse⟩ : String)
          moduleMap <;> rfl
  · have hext : pathExt imp = "" :=
      ext_of_no_dot imp (fun c hc hcd => hdot (by rw [← hcd]; exact List.mem_reverse.2 hc))
    unfold findInPkgImport classifyImport splitLastDot
    simp only [hext, trimSuffix_empty, if_neg hdot]
    simp only [ne_eq, not_true_eq_false, false_and, if_false]
    cases List.lookup imp moduleMap <;> rfl

/-- C7. For a module whose `InPkgDeps` and `ExPkgImports` start empty and whose import
specifiers hold no slash, `ProcessImports` classifies each import as the specification
says: after it `InPkgDeps` is exactly the set of modules found, without repetition,
`ExPkgImports` is exactly the list of the imports classified external, in their original
order, and no other field has changed. -/
theorem ProcessImports_classifies (md : Module) (moduleMap : ModuleMap)
    (subPackages : List String) (hdeps : md.InPkgDeps = []) (hex : md.ExPkgImports = [])
    (hslash : ∀ imp ∈ md.Imports, '/' ∉ imp.data) :
    (∀ w, w ∈ (ProcessImportsModule md moduleMap subPackages).InPkgDeps ↔
      ∃ imp ∈ md.Imports,
        classifyImport (slashesToDots md.PkgPath) moduleMap subPackages imp = some w) ∧
    (ProcessImportsModule md moduleMap subPackages).InPkgDeps.Nodup ∧
    (ProcessImportsModule md moduleMap subPackages).ExPkgImports =
      md.Imports.filter (fun imp =>
        (classifyImport (slashesToDots md.PkgPath) moduleMap subPackages imp).isNone) ∧
    ProcessImportsModule md moduleMap subPackages =
      { md with
        InPkgDeps := (ProcessImportsModule md moduleMap subPackages).InPkgDeps
        ExPkgImports := (ProcessImportsModule md moduleMap subPackages).ExPkgImports } := by
  rw [ProcessImportsModule_closed]
  refine ⟨?_, ?_, ?_, rfl⟩
  · intro w
    simp only [mem_foldl_setInsert, hdeps, List.not_mem_nil, false_or, List.mem_filterMap]
    constructor
    · rintro ⟨imp, himp, hf⟩
      exact ⟨imp, himp, by rw [← findInPkgImport_eq_classify _ _ _ _ (hslash imp himp)]; exact hf⟩
    · rintro ⟨imp, himp, hf⟩
      exact ⟨imp, himp, by rw [findInPkgImport_eq_classify _ _ _ _ (hslash imp himp)]; exact hf⟩
  · exact nodup_foldl_setInsert _ _ (by rw [hdeps]; exact List.nodup_nil)
  · simp only [hex, List.nil_append]
    apply List.filter_congr
    intro imp himp
    rw [findInPkgImport_eq_classify _ _ _ _ (hslash imp himp)]

/-- The module `mod1` of `TestModuleInPkgDeps`: its in-package dependencies are `mod2` and
the package root, its external imports are `pkg1` and `pkg1.pkg2.subpkg1`. -/
theorem ProcessImports_classifies_witness :
    ((ProcessImportsModule (mkModule "pkg1/pkg2" "mod1" "pkg1.pkg2.mod1"
        ["pkg1", "pkg1.pkg2.subpkg1", "pkg1.pkg2.mod2", "pkg1.pkg2.sym1",
          "pkg1.pkg2.mod2.sym2"]) testModuleMap testSubPackages).InPkgDeps = [2, 0] ∧
     (ProcessImportsModule (mkModule "pkg1/pkg2" "mod1" "pkg1.pkg2.mod1"
        ["pkg1", "pkg1.pkg2.subpkg1", "pkg1.pkg2.mod2", "pkg1.pkg2.sym1",
          "pkg1.pkg2.mod2.sym2"]) testModuleMap testSubPackages).ExPkgImports
        = ["pkg1", "pkg1.pkg2.subpkg1"]) ∧
    (ProcessImportsModule (mkModule "pkg1/pkg2" "mod1" "pkg1.pkg2.mod1"
        ["pkg1", "pkg1.pkg2.subpkg1", "pkg1.pkg2.mod2", "pkg1.pkg2.sym1",
          "pkg1.pkg2.mod2.sym2"]) testModuleMap testSubPackages).InPkgDeps.Nodup :=
  ⟨by decide,
   (ProcessImports_classifies (mkModule "pkg1/pkg2" "mod1" "pkg1.pkg2.mod1"
        ["pkg1", "pkg1.pkg2.subpkg1", "pkg1.pkg2.mod2", "pkg1.pkg2.sym1",
          "pkg1.pkg2.mod2.sym2"]) testModuleMap testSubPackages rfl rfl (by decide)).2.1⟩

/-! ## Facts about the walk -/

theorem isTypeCheckingConditional_safeBody (imported : List String) :
    ∀ (test : Expr) (body orelse : List Stmt),
      (isTypeCheckingConditional imported test body orelse).2 = body ∨
      (isTypeCheckingConditional imported test body orelse).2 = orelse ∨
      (isTypeCheckingConditional imported test body orelse).2 = []
  | .UnaryOp op operand, body, orelse => by
    by_cases hop : op = .Not
    · have := isTypeCheckingConditional_safeBody imported operand orelse body
      simp only [isTypeCheckingConditional, hop, if_true]
      tauto
    · simp [isTypeCheckingConditional, hop]
  | .Attribute value attr, body, orelse => by
    cases value <;> simp only [isTypeCheckingConditional] <;> repeat' split
    all_goals simp
  | .Name id, body, orelse => by
    simp only [isTypeCheckingConditional]
    repeat' split
    all_goals simp
  | .Compare _ _ _, body, orelse => by simp [isTypeCheckingConditional]
  | .Str _, body, orelse => by simp [isTypeCheckingConditional]
  | .Other, body, orelse => by simp [isTypeCheckingConditional]

theorem isTypeCheckingConditional_shape (imported : List String) :
    ∀ (test : Expr) (body orelse : List Stmt),
      (isTypeCheckingConditional imported test body orelse).1 = true →
      mayBeTypeChecking test = true
  | .UnaryOp op operand, body, orelse => by
    by_cases hop : op = .Not
    · have := isTypeCheckingConditional_shape imported operand orelse body
      simpa only [isTypeCheckingConditional, mayBeTypeChecking, hop, if_true] using this
    · simp [isTypeCheckingConditional, hop]
  | .Attribute value attr, body, orelse => by
    cases value <;> simp only [isTypeCheckingConditional, mayBeTypeChecking] <;>
      repeat' split
    all_goals simp_all
  | .Name id, body, orelse => by
    simp only [isTypeCheckingConditional, mayBeTypeChecking]
    repeat' split
    all_goals simp_all
  | .Compare _ _ _, body, orelse => by simp [isTypeCheckingConditional]
  | .Str _, body, orelse => by simp [isTypeCheckingConditional]
  | .Other, body, orelse => by simp [isTypeCheckingConditional]

theorem isTypeCheckingConditional_of_mainCheck (imported : List String) (test : Expr)
    (body orelse : List Stmt) (h : isMainNameCheck test = true) :
    (isTypeCheckingConditional imported test body orelse).1 = false := by
  cases test with
  | Compare l ops cs => simp [isTypeCheckingConditional]
  | Name id => simp [isMainNameCheck] at h
  | Attribute v a => simp [isMainNameCheck] at h
  | UnaryOp op e => simp [isMainNameCheck] at h
  | Str s => simp [isMainNameCheck] at h
  | Other => simp [isMainNameCheck] at h

theorem subsList_append : ∀ (a b : List Stmt), subsList (a ++ b) = subsList a ++ subsList b
  | [], b => by simp [subsList]
  | s :: rest, b => by
    rw [List.cons_append, subsList, subsList, subsList_append rest b, List.append_assoc]

theorem depthList_append : ∀ (a b : List Stmt),
    depthList (a ++ b) = max (depthList a) (depthList b)
  | [], b => by simp [depthList]
  | s :: rest, b => by
    rw [List.cons_append, depthList, depthList, depthList_append rest b, max_assoc]

theorem walked_refl (st : WalkState) : Walked [] st st [] :=
  ⟨by simp, by simp, fun _ => rfl, by simp, fun h => h, by simp⟩

theorem walked_append {c1 c2 n1 n2 : List Stmt} {st st1 st2 : WalkState}
    (h1 : Walked c1 st st1 n1) (h2 : Walked c2 st1 st2 n2) :
    Walked (c1 ++ c2) st st2 (n1 ++ n2) := by
  refine ⟨?_, ?_, ?_, ?_, ?_, ?_⟩
  · rw [h2.visited, h1.visited, List.append_assoc]
  · intro x hx
    rcases List.mem_append.1 hx with hx | hx
    · exact List.mem_append_left _ (h1.sub x hx)
    · exact List.mem_append_right _ (h2.sub x hx)
  · intro h
    rw [h1.full (fun x hx => h x (List.mem_append_left _ hx)),
      h2.full (fun x hx => h x (List.mem_append_right _ hx))]
  · intro spec
    rw [h2.imported, h1.imported]
    simp only [List.mem_append]
    constructor
    · rintro ((h | ⟨x, hx, hs⟩) | ⟨x, hx, hs⟩)
      · exact Or.inl h
      · exact Or.inr ⟨x, Or.inl hx, hs⟩
      · exact Or.inr ⟨x, Or.inr hx, hs⟩
    · rintro (h | ⟨x, hx | hx, hs⟩)
      · exact Or.inl (Or.inl h)
      · exact Or.inl (Or.inr ⟨x, hx, hs⟩)
      · exact Or.inr ⟨x, hx, hs⟩
  · exact fun h => h2.nodup (h1.nodup h)
  · rw [h2.main, h1.main, List.any_append, Bool.or_assoc]

theorem Walk_Import (fuel : Nat) (names : List String) (st : WalkState) :
    Walk (fuel + 1) (.Import names) st =
      some { noteVisit st (.Import names) with
        importedSet := names.foldl setInsert st.importedSet } := by
  simp [Walk, visitor, childStmts, noteVisit]

theorem Walk_ImportFrom (fuel : Nat) (module : String) (names : List String)
    (st : WalkState) :
    Walk (fuel + 1) (.ImportFrom module names) st =
      some { noteVisit st (.ImportFrom module names) with
        importedSet :=
          (names.map (fun name => module ++ "." ++ name)).foldl setInsert st.importedSet } := by
  simp [Walk, visitor, childStmts, noteVisit, List.foldl_map]

theorem Walk_Other (fuel : Nat) (children : List Stmt) (st : WalkState) :
    Walk (fuel + 1) (.Other children) st =
      walkStmts fuel children (noteVisit st (.Other children)) := by
  simp [Walk, visitor, childStmts, noteVisit, walkStmts]

/-- The walk of a conditional that `isTypeCheckingConditional` recognises: the statements
of `safeBody` are walked, and nothing else of the conditional. -/
theorem Walk_If_recognised (fuel : Nat) (test : Expr) (body orelse safeBody : List Stmt)
    (st : WalkState)
    (h : isTypeCheckingConditional st.importedSet test body orelse = (true, safeBody)) :
    Walk (fuel + 1) (.If test body orelse) st =
      walkStmts fuel safeBody (noteVisit st (.If test body orelse)) := by
  simp only [Walk, visitor, h, walkStmts, noteVisit]
  cases List.foldlM (fun cur stmt => Walk fuel stmt cur)
    ({ st with visited := st.visited ++ [Stmt.If test body orelse] } : WalkState) safeBody <;> rfl

/-- The walk of a conditional that `isTypeCheckingConditional` does not recognise: the
main check is made, then the body and the else branch are walked. -/
theorem Walk_If_plain (fuel : Nat) (test : Expr) (body orelse : List Stmt) (st : WalkState)
    (h : (isTypeCheckingConditional st.importedSet test body orelse).1 = false) :
    Walk (fuel + 1) (.If test body orelse) st =
      walkStmts fuel (body ++ orelse)
        { noteVisit st (.If test body orelse) with
          HasMainNameCheck := st.HasMainNameCheck || isMainNameCheck test } := by
  have hres : isTypeCheckingConditional st.importedSet test body orelse
      = (false, (isTypeCheckingConditional st.importedSet test body orelse).2) := by
    rw [← h]
  simp only [Walk, visitor]
  rw [hres]
  cases hm : st.HasMainNameCheck <;> cases hc : isMainNameCheck test <;>
    simp [walkStmts, noteVisit, childStmts, hm]

theorem stmt_depth_pos (s : Stmt) : 1 ≤ s.depth := by
  cases s <;> simp [Stmt.depth]

theorem walkStmts_spec (fuel : Nat) (ih : WalkSpec fuel) :
    ∀ (l : List Stmt) (st : WalkState), depthList l ≤ fuel →
      ∃ st' new, walkStmts fuel l st = some st' ∧ Walked (subsList l) st st' new := by
  intro l
  induction l with
  | nil =>
    intro st _
    exact ⟨st, [], by simp [walkStmts], by rw [subsList]; exact walked_refl st⟩
  | cons s rest ihl =>
    intro st hd
    rw [depthList] at hd
    obtain ⟨st1, n1, hrun1, hw1⟩ := ih s st (le_trans (le_max_left _ _) hd)
    obtain ⟨st2, n2, hrun2, hw2⟩ := ihl st1 (le_trans (le_max_right _ _) hd)
    refine ⟨st2, n1 ++ n2, ?_, ?_⟩
    · unfold walkStmts at hrun2 ⊢
      rw [List.foldlM_cons, hrun1]
      simpa using hrun2
    · rw [subsList]
      exact walked_append hw1 hw2

theorem walked_visit_only (st : WalkState) (node : Stmt) (flag : Bool)
    (hc : contributes node = []) (hf : flag = (st.HasMainNameCheck || mainGuard node)) :
    Walked [node] st { noteVisit st node with HasMainNameCheck := flag } [node] := by
  refine ⟨rfl, fun x hx => hx, fun _ => rfl, ?_, fun h => h, ?_⟩
  · intro spec
    simp [noteVisit, hc]
  · simp [hf]

theorem walked_imports (st : WalkState) (node : Stmt) (hm : mainGuard node = false) :
    Walked [node] st
      { noteVisit st node with
        importedSet := (contributes node).foldl setInsert st.importedSet } [node] := by
  refine ⟨rfl, fun x hx => hx, fun _ => rfl, ?_, ?_, ?_⟩
  · intro spec
    simp [mem_foldl_setInsert]
  · exact fun h => nodup_foldl_setInsert _ _ h
  · simp [noteVisit, hm]

theorem walk_spec : ∀ fuel, WalkSpec fuel := by
  intro fuel
  induction fuel with
  | zero =>
    intro s st h
    have := stmt_depth_pos s
    omega
  | succ fuel ih =>
    intro s st hd
    cases s with
    | Import names =>
      refine ⟨_, [.Import names], Walk_Import fuel names st, ?_⟩
      rw [Stmt.subs]
      exact walked_imports st (.Import names) rfl
    | ImportFrom module names =>
      refine ⟨_, [.ImportFrom module names], Walk_ImportFrom fuel module names st, ?_⟩
      rw [Stmt.subs]
      exact walked_imports st (.ImportFrom module names) rfl
    | Other children =>
      rw [Stmt.depth] at hd
      obtain ⟨st', n, hrun, hw⟩ := walkStmts_spec fuel ih children
        (noteVisit st (.Other children)) (by omega)
      refine ⟨st', [.Other children] ++ n, ?_, ?_⟩
      · rw [Walk_Other]; exact hrun
      · rw [Stmt.subs]
        exact walked_append (walked_visit_only st (.Other children) st.HasMainNameCheck rfl
          (by simp [mainGuard])) hw
    | If test body orelse =>
      rw [Stmt.depth] at hd
      have hb : depthList body ≤ fuel := by
        have := le_max_left (depthList body) (depthList orelse); omega
      have ho : depthList orelse ≤ fuel := by
        have := le_max_right (depthList body) (depthList orelse); omega
      cases hrec : (isTypeCheckingConditional st.importedSet test body orelse).1 with
      | false =>
        obtain ⟨st', n, hrun, hw⟩ := walkStmts_spec fuel ih (body ++ orelse)
          { noteVisit st (.If test body orelse) with
            HasMainNameCheck := st.HasMainNameCheck || isMainNameCheck test }
          (by rw [depthList_append]; exact max_le hb ho)
        refine ⟨st', [.If test body orelse] ++ n, ?_, ?_⟩
        · rw [Walk_If_plain fuel test body orelse st hrec]; exact hrun
        · rw [Stmt.subs, ← subsList_append]
          exact walked_append (walked_visit_only st (.If test body orelse) _ rfl rfl) hw
      | true =>
        have hres : isTypeCheckingConditional st.importedSet test body orelse
            = (true, (isTypeCheckingConditional st.importedSet test body orelse).2) := by
          rw [← hrec]
        have hsafe := isTypeCheckingConditional_safeBody st.importedSet test body orelse
        have hshape := isTypeCheckingConditional_shape st.importedSet test body orelse hrec
        have hmain : isMainNameCheck test = false := by
          cases hm : isMainNameCheck test with
          | false => rfl
          | true =>
            have := isTypeCheckingConditional_of_mainCheck st.importedSet test body orelse hm
            rw [hrec] at this
            exact absurd this (by simp)
        have hsd : depthList (isTypeCheckingConditional st.importedSet test body orelse).2
            ≤ fuel := by
          rcases hsafe with h | h | h <;> rw [h]
          · exact hb
          · exact ho
          · rw [depthList]; exact Nat.zero_le _
        obtain ⟨st', n, hrun, hw⟩ := walkStmts_spec fuel ih _
          (noteVisit st (.If test body orelse)) hsd
        refine ⟨st', .If test body orelse :: n, ?_, ?_⟩
        · rw [Walk_If_recognised fuel test body orelse _ st hres]; exact hrun
        · rw [Stmt.subs]
          refine ⟨?_, ?_, ?_, ?_, hw.nodup, ?_⟩
          · rw [hw.visited]; simp [noteVisit]
          · intro x hx
            rcases List.mem_cons.1 hx with hx | hx
            · rw [hx]; exact List.mem_cons_self _ _
            · apply List.mem_cons_of_mem
              have := hw.sub x hx
              rcases hsafe with h | h | h <;> rw [h] at this
              · exact List.mem_append_left _ this
              · exact List.mem_append_right _ this
              · rw [subsList] at this; simp at this
          · intro h
            have := h (.If test body orelse) (List.mem_cons_self _ _)
            rw [tcShaped, hshape] at this
            exact absurd this (by simp)
          · intro spec
            rw [hw.imported]
            simp [noteVisit, contributes]
          · rw [hw.main]
            simp [noteVisit, mainGuard, hmain]

/-- Total correctness of the walk of a module body: with fuel equal to the depth of nesting
it returns, and its effect is that of visiting statements of the tree. -/
theorem walkStmts_total (fuel : Nat) (tree : List Stmt) (st : WalkState)
    (hfuel : depthList tree ≤ fuel) :
    ∃ st' new, walkStmts fuel tree st = some st' ∧ Walked (subsList tree) st st' new :=
  walkStmts_spec fuel (walk_spec fuel) tree st hfuel

/-! ## The order of strings and `sort.Strings` -/

theorem charsLt_asymm : ∀ (a b : List Char), charsLt a b = true → charsLt b a = false
  | [], [] => by simp [charsLt]
  | [], _ :: _ => by simp [charsLt]
  | _ :: _, [] => by simp [charsLt]
  | x :: as, y :: bs => by
    intro h
    rw [charsLt] at h ⊢
    rcases lt_trichotomy x y with hxy | hxy | hxy
    · rw [if_neg (lt_asymm hxy), if_pos hxy]
    · subst hxy
      rw [if_neg (lt_irrefl x), if_neg (lt_irrefl x)] at h
      rw [if_neg (lt_irrefl x), if_neg (lt_irrefl x)]
      exact charsLt_asymm as bs h
    · rw [if_neg (lt_asymm hxy), if_pos hxy] at h
      exact absurd h (by simp)

theorem charsLt_cotrans : ∀ (a b c : List Char),
    charsLt a c = true → charsLt a b = true ∨ charsLt b c = true
  | _, _, [] => by simp [charsLt]
  | [], [], _ :: _ => by simp [charsLt]
  | [], _ :: _, _ :: _ => by simp [charsLt]
  | _ :: _, [], _ :: _ => by simp [charsLt]
  | x :: as, y :: bs, z :: cs => by
    intro h
    rw [charsLt] at h
    rw [charsLt, charsLt]
    rcases lt_trichotomy x y with hxy | hxy | hxy
    · rw [if_pos hxy]; exact Or.inl rfl
    · subst hxy
      rw [if_neg (lt_irrefl x), if_neg (lt_irrefl x)]
      by_cases hxz : x < z
      · rw [if_pos hxz]; exact Or.inr rfl
      · rw [if_neg hxz] at h ⊢
        by_cases hzx : z < x
        · rw [if_pos hzx] at h; exact absurd h (by simp)
        · rw [if_neg hzx] at h ⊢
          exact charsLt_cotrans as bs cs h
    · right
      by_cases hxz : x < z
      · rw [if_pos (lt_trans hxy hxz)]
      · rw [if_neg hxz] at h
        by_cases hzx : z < x
        · rw [if_pos hzx] at h; exact absurd h (by simp)
        · rw [if_neg hzx] at h
          have hxz' : x = z := le_antisymm (not_lt.1 hzx) (not_lt.1 hxz)
          rw [← hxz', if_pos hxy]

theorem charsLt_connected : ∀ (a b : List Char),
    charsLt a b = false → charsLt b a = false → a = b
  | [], [] => by simp
  | [], _ :: _ => by simp [charsLt]
  | _ :: _, [] => by simp [charsLt]
  | x :: as, y :: bs => by
    intro h1 h2
    rw [charsLt] at h1 h2
    rcases lt_trichotomy x y with hxy | hxy | hxy
    · rw [if_pos hxy] at h1; exact absurd h1 (by simp)
    · subst hxy
      rw [if_neg (lt_irrefl x), if_neg (lt_irrefl x)] at h1 h2
      rw [charsLt_connected as bs h1 h2]
    · rw [if_pos hxy] at h2; exact absurd h2 (by simp)

theorem strLe_total (a b : String) : strLt b a = false ∨ strLt a b = false := by
  cases h : strLt b a with
  | false => exact Or.inl rfl
  | true => exact Or.inr (charsLt_asymm _ _ h)

theorem strLe_trans (a b c : String) (h1 : strLt b a = false) (h2 : strLt c b = false) :
    strLt c a = false := by
  cases h : strLt c a with
  | false => rfl
  | true =>
    rcases charsLt_cotrans c.data b.data a.data h with h' | h'
    · exact absurd h' (by rw [show charsLt c.data b.data = strLt c b from rfl, h2]; simp)
    · exact absurd h' (by rw [show charsLt b.data a.data = strLt b a from rfl, h1]; simp)

theorem strLt_of_le_of_ne (a b : String) (h1 : strLt b a = false) (h2 : a ≠ b) :
    strLt a b = true := by
  cases h : strLt a b with
  | true => rfl
  | false => exact absurd (String.ext (charsLt_connected _ _ h h1)) h2

theorem sortStrings_perm (l : List String) : (sortStrings l).Perm l :=
  List.perm_insertionSort _ l

theorem sortStrings_sorted (l : List String) :
    List.Sorted (fun a b => strLt b a = false) (sortStrings l) := by
  haveI : IsTotal String (fun a b => strLt b a = false) := ⟨strLe_total⟩
  haveI : IsTrans String (fun a b => strLt b a = false) := ⟨strLe_trans⟩
  exact List.sorted_insertionSort _ l

/-- On a list without repetition, `sort.Strings` returns a strictly increasing list. -/
theorem sortStrings_strict (l : List String) (h : l.Nodup) :
    List.Sorted (fun a b => strLt a b = true) (sortStrings l) := by
  have hs := sortStrings_sorted l
  have hn : (sortStrings l).Nodup := (sortStrings_perm l).nodup_iff.2 h
  unfold List.Sorted at hs ⊢
  unfold List.Nodup at hn
  exact (hs.and hn).imp (fun ⟨h1, h2⟩ => strLt_of_le_of_ne _ _ h1 h2)

/-! ## The import walk: main results -/

theorem isTypeCheckingConditional_branch (imported : List String) :
    ∀ (test : Expr) (body orelse : List Stmt),
      (isTypeCheckingConditional imported test body orelse).1 = true →
      (isTypeCheckingConditional imported test body orelse).2
        = branchOutsideTypeChecking test body orelse
  | .UnaryOp op operand, body, orelse => by
    by_cases hop : op = .Not
    · have := isTypeCheckingConditional_branch imported operand orelse body
      simpa only [isTypeCheckingConditional, branchOutsideTypeChecking, hop, if_true]
        using this
    · simp [isTypeCheckingConditional, hop]
  | .Attribute value attr, body, orelse => by
    cases value <;> simp only [isTypeCheckingConditional, branchOutsideTypeChecking] <;>
      repeat' split
    all_goals simp_all
  | .Name id, body, orelse => by
    simp only [isTypeCheckingConditional, branchOutsideTypeChecking]
    repeat' split
    all_goals simp_all
  | .Compare _ _ _, body, orelse => by simp [isTypeCheckingConditional]
  | .Str _, body, orelse => by simp [isTypeCheckingConditional]
  | .Other, body, orelse => by simp [isTypeCheckingConditional]

theorem Parse_eq (order : List String → List String) (fuel : Nat) (tree : List Stmt)
    (st : WalkState) (h : walkStmts fuel tree initialState = some st) :
    Parse order fuel tree =
      some { Imports := sortStrings (order st.importedSet),
             HasMainNameCheck := st.HasMainNameCheck } := by
  unfold Parse
  rw [show ({ importedSet := [], HasMainNameCheck := false, visited := [] } : WalkState)
    = initialState from rfl, h]

/-- C2, at the failing input. A package root that imports a name from its own package ends,
after `ProcessImports` and `DepsClosure`, with itself in its own `InPkgDeps`:
`findInPkgImport` resolves `pkg1.pkg2.sym1` to the module `pkg1.pkg2`, and `ProcessImports`
has no check like the `depdep == module` of `depsClosureHelper`. -/
theorem self_import_in_own_InPkgDeps :
    (closeAll id 2 (processAll selfImportPkg selfImportModuleMap [] [0]) [0]).map
      (fun p => depsOf p 0) = some [0] := by
  decide

/-- C8. The imports that `Parse` returns are, as a set, exactly the specifiers contributed
by the import statements that the walk visits; every statement visited is a statement of
the tree, at whatever depth; and in a tree with no conditional whose test has the shape of
a `TYPE_CHECKING` check, the walk visits every statement, at every depth. -/
theorem Parse_imports_iff (order : List String → List String)
    (hperm : ∀ l, (order l).Perm l) (fuel : Nat) (tree : List Stmt)
    (hfuel : depthList tree ≤ fuel) :
    ∃ r visited, Parse order fuel tree = some r ∧
      (walkStmts fuel tree initialState).map (fun st => st.visited) = some visited ∧
      (∀ spec, spec ∈ r.Imports ↔ ∃ s ∈ visited, spec ∈ contributes s) ∧
      (∀ s ∈ visited, s ∈ subsList tree) ∧
      ((∀ s ∈ subsList tree, tcShaped s = false) → visited = subsList tree) := by
  obtain ⟨st, new, hrun, hw⟩ := walkStmts_total fuel tree initialState hfuel
  have hvis : st.visited = new := by rw [hw.visited]; rfl
  refine ⟨_, st.visited, Parse_eq order fuel tree st hrun, by rw [hrun]; rfl, ?_, ?_, ?_⟩
  · intro spec
    show spec ∈ sortStrings (order st.importedSet) ↔ _
    rw [(sortStrings_perm _).mem_iff, (hperm _).mem_iff, hw.imported, hvis]
    simp [initialState]
  · rw [hvis]; exact hw.sub
  · rw [hvis]; exact hw.full

/-- The imports of `nestedSource`, collected from the top level, from a function body and
from both branches of a conditional. -/
theorem Parse_imports_iff_witness :
    Parse id 2 nestedSource
      = some ⟨["foo", "mod1", "mod1.bar", "mod1.foo", "mod2.baz"], false⟩ ∧
    ∃ r visited, Parse id 2 nestedSource = some r ∧
      (walkStmts 2 nestedSource initialState).map (fun st => st.visited) = some visited ∧
      (∀ spec, spec ∈ r.Imports ↔ ∃ s ∈ visited, spec ∈ contributes s) ∧
      (∀ s ∈ visited, s ∈ subsList nestedSource) ∧
      ((∀ s ∈ subsList nestedSource, tcShaped s = false) →
        visited = subsList nestedSource) :=
  ⟨by decide, Parse_imports_iff id (fun _ => List.Perm.refl _) 2 nestedSource (by decide)⟩

/-- C9. The imports that `Parse` returns are in strictly increasing order: sorted and free
of duplicates, in whatever order `range importedSet` produces the specifiers. -/
theorem Parse_imports_sorted (order : List String → List String)
    (hperm : ∀ l, (order l).Perm l) (fuel : Nat) (tree : List Stmt)
    (hfuel : depthList tree ≤ fuel) :
    ∃ r, Parse order fuel tree = some r ∧
      List.Sorted (fun a b => strLt a b = true) r.Imports ∧ r.Imports.Nodup := by
  obtain ⟨st, new, hrun, hw⟩ := walkStmts_total fuel tree initialState hfuel
  have hn : (order st.importedSet).Nodup :=
    (hperm _).nodup_iff.2 (hw.nodup List.nodup_nil)
  exact ⟨_, Parse_eq order fuel tree st hrun, sortStrings_strict _ hn,
    (sortStrings_perm _).nodup_iff.2 hn⟩

/-- The imports of `nestedSource`, with `range` producing the set in reverse order of
insertion: `mod2.baz`, imported twice, appears once. -/
theorem Parse_imports_sorted_witness :
    Parse List.reverse 2 nestedSource
      = some ⟨["foo", "mod1", "mod1.bar", "mod1.foo", "mod2.baz"], false⟩ ∧
    ∃ r, Parse List.reverse 2 nestedSource = some r ∧
      List.Sorted (fun a b => strLt a b = true) r.Imports ∧ r.Imports.Nodup :=
  ⟨by decide,
   Parse_imports_sorted List.reverse (fun l => List.reverse_perm l) 2 nestedSource
    (by decide)⟩

/-- C10 as stated fails: the source `from typing import TYPE_CHECKING`,
`if TYPE_CHECKING:` with body `import mod1` yields the imports `typing.TYPE_CHECKING`
alone; `mod1` is not among them. -/
theorem typeChecking_body_not_counted :
    Parse id 2 typeCheckingSource = some ⟨["typing.TYPE_CHECKING"], false⟩ ∧
    ¬ ∃ r, Parse id 2 typeCheckingSource = some r ∧ "mod1" ∈ r.Imports := by
  decide

/-- C10, amended. Of a conditional recognised as a `typing.TYPE_CHECKING` check, the walk
visits the statements of the branch that runs when `TYPE_CHECKING` is false (after any swap
by `not`) and nothing else: the branch that runs when `TYPE_CHECKING` is true is not walked.
The source `from typing import TYPE_CHECKING`, `if TYPE_CHECKING:` with body `import mod1`
yields the imports `typing.TYPE_CHECKING` alone and no main guard. -/
theorem typeChecking_branch_not_walked (order : List String → List String)
    (hperm : ∀ l, (order l).Perm l) (fuel : Nat) (test : Expr) (body orelse : List Stmt)
    (st : WalkState)
    (h : (isTypeCheckingConditional st.importedSet test body orelse).1 = true) :
    Walk (fuel + 1) (.If test body orelse) st =
        walkStmts fuel (branchOutsideTypeChecking test body orelse)
          (noteVisit st (.If test body orelse)) ∧
    Parse order (fuel + 2) typeCheckingSource
      = some ⟨["typing.TYPE_CHECKING"], false⟩ := by
  constructor
  · rw [← isTypeCheckingConditional_branch st.importedSet test body orelse h]
    exact Walk_If_recognised fuel test body orelse _ st (by rw [← h])
  · have hrun : walkStmts (fuel + 2) typeCheckingSource initialState =
        some { importedSet := ["typing.TYPE_CHECKING"], HasMainNameCheck := false,
               visited := typeCheckingSource } := by
      unfold walkStmts typeCheckingSource
      rw [List.foldlM_cons, Walk_ImportFrom]
      simp only [Option.bind_eq_bind, Option.some_bind]
      rw [List.foldlM_cons, Walk_If_recognised (fuel + 1) _ _ _ [] _ (by rfl)]
      simp [walkStmts, noteVisit, initialState, setInsert]
    rw [Parse_eq order (fuel + 2) typeCheckingSource _ hrun]
    have hone : order ["typing.TYPE_CHECKING"] = ["typing.TYPE_CHECKING"] :=
      List.perm_singleton.1 (hperm _)
    simp only [hone]
    rfl

theorem typeChecking_branch_not_walked_witness :
    (isTypeCheckingConditional ["typing.TYPE_CHECKING"] (.Name "TYPE_CHECKING")
        [.Import ["mod1"]] [.Import ["mod2"]]).1 = true ∧
    (Walk 2 (.If (.Name "TYPE_CHECKING") [.Import ["mod1"]] [.Import ["mod2"]])
        { importedSet := ["typing.TYPE_CHECKING"], HasMainNameCheck := false,
          visited := [] } =
      walkStmts 1
        (branchOutsideTypeChecking (.Name "TYPE_CHECKING") [.Import ["mod1"]]
          [.Import ["mod2"]])
        (noteVisit { importedSet := ["typing.TYPE_CHECKING"], HasMainNameCheck := false,
                     visited := [] }
          (.If (.Name "TYPE_CHECKING") [.Import ["mod1"]] [.Import ["mod2"]])) ∧
     Parse id (1 + 2) typeCheckingSource = some ⟨["typing.TYPE_CHECKING"], false⟩) :=
  ⟨by decide,
   typeChecking_branch_not_walked id (fun _ => List.Perm.refl _) 1 (.Name "TYPE_CHECKING")
    [.Import ["mod1"]] [.Import ["mod2"]]
    { importedSet := ["typing.TYPE_CHECKING"], HasMainNameCheck := false, visited := [] }
    (by decide)⟩

/-! ## Conditionals on `TYPE_CHECKING` and the main guard -/

theorem isTypeCheckingConditional_positive (imported : List String) (test : Expr)
    (body orelse : List Stmt)
    (htest : (test = .Name "TYPE_CHECKING" ∧ "typing.TYPE_CHECKING" ∈ imported) ∨
      (test = .Attribute (.Name "typing") "TYPE_CHECKING" ∧ "typing" ∈ imported)) :
    isTypeCheckingConditional imported test body orelse = (true, orelse) := by
  rcases htest with ⟨rfl, h⟩ | ⟨rfl, h⟩
  · simp [isTypeCheckingConditional, h]
  · simp [isTypeCheckingConditional, h]

theorem isTypeCheckingConditional_negated (imported : List String) (test : Expr)
    (body orelse : List Stmt)
    (htest : (test = .Name "TYPE_CHECKING" ∧ "typing.TYPE_CHECKING" ∈ imported) ∨
      (test = .Attribute (.Name "typing") "TYPE_CHECKING" ∧ "typing" ∈ imported)) :
    isTypeCheckingConditional imported (.UnaryOp .Not test) body orelse = (true, body) := by
  rw [isTypeCheckingConditional, if_pos rfl]
  exact isTypeCheckingConditional_positive imported test orelse body htest

/-- The walk of a recognised conditional, whose `safeBody` is `branch`: it returns, the
statements it visits after the conditional itself are statements of `branch`, and the
specifiers it adds to the set are contributed by them. -/
theorem walk_recognised (fuel : Nat) (st : WalkState) (test : Expr)
    (body orelse branch : List Stmt)
    (h : isTypeCheckingConditional st.importedSet test body orelse = (true, branch))
    (hfuel : depthList branch ≤ fuel) :
    ∃ st' new, Walk (fuel + 1) (.If test body orelse) st = some st' ∧
      st'.visited = st.visited ++ .If test body orelse :: new ∧
      (∀ x ∈ new, x ∈ subsList branch) ∧
      (∀ spec, spec ∈ st'.importedSet ↔
        spec ∈ st.importedSet ∨ ∃ x ∈ new, spec ∈ contributes x) := by
  obtain ⟨st', new, hrun, hw⟩ :=
    walkStmts_total fuel branch (noteVisit st (.If test body orelse)) hfuel
  refine ⟨st', new, ?_, ?_, hw.sub, ?_⟩
  · rw [Walk_If_recognised fuel test body orelse branch st h]; exact hrun
  · rw [hw.visited]; simp [noteVisit]
  · intro spec
    rw [hw.imported]
    simp [noteVisit]

/-- C11. Of a recognised conditional `if TYPE_CHECKING:` or `if typing.TYPE_CHECKING:` the
walk visits, after the conditional itself, only statements of the else branch, and the
specifiers it collects there are contributed by statements of the else branch: the imports
of the body are not collected. Of the negated form `if not ...:` it visits only statements
of the body, and the imports of the else branch are not collected. -/
theorem typeChecking_walks_other_branch (fuel : Nat) (st : WalkState) (test : Expr)
    (body orelse : List Stmt)
    (htest : (test = .Name "TYPE_CHECKING" ∧ "typing.TYPE_CHECKING" ∈ st.importedSet) ∨
      (test = .Attribute (.Name "typing") "TYPE_CHECKING" ∧ "typing" ∈ st.importedSet))
    (hbody : depthList body ≤ fuel) (horelse : depthList orelse ≤ fuel) :
    (∃ st' new, Walk (fuel + 1) (.If test body orelse) st = some st' ∧
      st'.visited = st.visited ++ .If test body orelse :: new ∧
      (∀ x ∈ new, x ∈ subsList orelse) ∧
      (∀ spec, spec ∈ st'.importedSet ↔
        spec ∈ st.importedSet ∨ ∃ x ∈ new, spec ∈ contributes x)) ∧
    (∃ st' new, Walk (fuel + 1) (.If (.UnaryOp .Not test) body orelse) st = some st' ∧
      st'.visited = st.visited ++ .If (.UnaryOp .Not test) body orelse :: new ∧
      (∀ x ∈ new, x ∈ subsList body) ∧
      (∀ spec, spec ∈ st'.importedSet ↔
        spec ∈ st.importedSet ∨ ∃ x ∈ new, spec ∈ contributes x)) :=
  ⟨walk_recognised fuel st test body orelse orelse
      (isTypeCheckingConditional_positive _ test body orelse htest) horelse,
   walk_recognised fuel st (.UnaryOp .Not test) body orelse body
      (isTypeCheckingConditional_negated _ test body orelse htest) hbody⟩

/-- The two sources of `TestParse`: `if TYPE_CHECKING: import mod1` adds nothing to the
typing import, and `if not TYPE_CHECKING: import mod1`, `else: import mod2` adds `mod1` and
not `mod2`. -/
theorem typeChecking_walks_other_branch_witness :
    (Parse id 2 typeCheckingSource = some ⟨["typing.TYPE_CHECKING"], false⟩ ∧
     Parse id 2 negatedSource = some ⟨["mod1", "typing.TYPE_CHECKING"], false⟩) ∧
    (∃ st' new,
      Walk (1 + 1) (.If (.Name "TYPE_CHECKING") [.Import ["mod1"]] [.Import ["mod2"]])
        { importedSet := ["typing.TYPE_CHECKING"], HasMainNameCheck := false,
          visited := [] } = some st' ∧
      st'.visited = ([] : List Stmt) ++
        .If (.Name "TYPE_CHECKING") [.Import ["mod1"]] [.Import ["mod2"]] :: new ∧
      (∀ x ∈ new, x ∈ subsList [.Import ["mod2"]]) ∧
      (∀ spec, spec ∈ st'.importedSet ↔
        spec ∈ ["typing.TYPE_CHECKING"] ∨ ∃ x ∈ new, spec ∈ contributes x)) :=
  ⟨by decide,
   (typeChecking_walks_other_branch 1
      { importedSet := ["typing.TYPE_CHECKING"], HasMainNameCheck := false, visited := [] }
      (.Name "TYPE_CHECKING") [.Import ["mod1"]] [.Import ["mod2"]]
      (Or.inl ⟨rfl, by decide⟩) (by decide) (by decide)).1⟩

theorem mainGuard_iff (s : Stmt) :
    mainGuard s = true ↔ ∃ body orelse, s = .If mainTest body orelse := by
  constructor
  · intro h
    cases s with
    | If test body orelse =>
      refine ⟨body, orelse, ?_⟩
      rw [mainGuard] at h
      cases test with
      | Compare left ops comparators =>
        rcases ops with _ | ⟨op, _ | ⟨op2, ops'⟩⟩ <;>
          rcases comparators with _ | ⟨right, _ | ⟨c2, cs'⟩⟩ <;>
          try (simp [isMainNameCheck] at h)
        cases left <;> cases right <;> try (simp [isMainNameCheck] at h)
        obtain ⟨h1, h2, h3⟩ := h
        rw [h1, h2, h3]
        rfl
      | Name id => simp [isMainNameCheck] at h
      | Attribute v a => simp [isMainNameCheck] at h
      | UnaryOp op e => simp [isMainNameCheck] at h
      | Str s => simp [isMainNameCheck] at h
      | Other => simp [isMainNameCheck] at h
    | Import names => simp [mainGuard] at h
    | ImportFrom m names => simp [mainGuard] at h
    | Other cs => simp [mainGuard] at h
  · rintro ⟨body, orelse, rfl⟩
    simp [mainGuard, mainTest, isMainNameCheck]

/-- C12 as stated fails: the tree of `guardedMainSource` contains a conditional that tests
`__name__ == "__main__"`, inside the body of a recognised `TYPE_CHECKING` conditional, and
`Parse` returns `HasMainNameCheck = false`. -/
theorem mainGuard_in_skipped_branch :
    Parse id 3 guardedMainSource = some ⟨["typing.TYPE_CHECKING"], false⟩ ∧
    (subsList guardedMainSource).any mainGuard = true := by
  decide

/-! ## `findRuleByImport` and `findRuleByImportFuzzy` -/

theorem findRuleByImport_eq_firstSuccess (labelString : Label → String) (imp : String)
    (ix : RuleIndex) (externalModuleMap : ExternalModuleMap)
    (internalModuleList : List String) :
    findRuleByImport labelString imp ix externalModuleMap internalModuleList =
      firstSuccess [indexMatch labelString ix imp, externalEntry externalModuleMap imp,
        internalEntry internalModuleList imp] := by
  unfold findRuleByImport indexMatch externalEntry internalEntry firstSuccess
  cases hfind : (ix imp).find? isPackageRoot with
  | some res => simp [hfind]
  | none =>
    cases hres : ix imp with
    | cons res rest =>
      rw [hres] at hfind
      simp [hfind]
    | nil =>
      cases hlook : List.lookup imp externalModuleMap with
      | some dep => simp [hlook]
      | none =>
        by_cases hin : imp ∈ internalModuleList
        · simp [hin, hlook]
        · simp [hin, hlook]

theorem findRuleByImport_ok_iff (labelString : Label → String) (imp : String)
    (ix : RuleIndex) (externalModuleMap : ExternalModuleMap)
    (internalModuleList : List String) :
    (findRuleByImport labelString imp ix externalModuleMap internalModuleList).2 = false ↔
      unknownImport ix externalModuleMap internalModuleList imp := by
  unfold findRuleByImport unknownImport
  cases hres : ix imp with
  | cons res rest =>
    cases hfind : (res :: rest).find? isPackageRoot <;> simp [hfind]
  | nil =>
    cases hlook : List.lookup imp externalModuleMap with
    | some dep => simp [hlook]
    | none =>
      by_cases hin : imp ∈ internalModuleList
      · simp [hin, hlook]
      · simp [hin, hlook]

theorem findRuleByImport_not_ok (labelString : Label → String) (imp : String)
    (ix : RuleIndex) (externalModuleMap : ExternalModuleMap)
    (internalModuleList : List String)
    (h : (findRuleByImport labelString imp ix externalModuleMap internalModuleList).2
      = false) :
    findRuleByImport labelString imp ix externalModuleMap internalModuleList
      = ("", false) := by
  have hu := (findRuleByImport_ok_iff labelString imp ix externalModuleMap
    internalModuleList).1 h
  obtain ⟨h1, h2, h3⟩ := hu
  unfold findRuleByImport
  simp [h1, h2, h3]

/-- The two cases of `findRuleByImportFuzzy`. -/
theorem findRuleByImportFuzzy_cases (labelString : Label → String) (imp : String)
    (ix : RuleIndex) (externalModuleMap : ExternalModuleMap)
    (internalModuleList : List String) :
    ((findRuleByImport labelString imp ix externalModuleMap internalModuleList).2 = true →
      findRuleByImportFuzzy labelString imp ix externalModuleMap internalModuleList =
        findRuleByImport labelString imp ix externalModuleMap internalModuleList) ∧
    ((findRuleByImport labelString imp ix externalModuleMap internalModuleList).2 = false →
      findRuleByImportFuzzy labelString imp ix externalModuleMap internalModuleList =
        if pathExt imp = "" then ("", false)
        else findRuleByImport labelString (trimSuffix imp (pathExt imp)) ix
          externalModuleMap internalModuleList) := by
  unfold findRuleByImportFuzzy
  cases hres : findRuleByImport labelString imp ix externalModuleMap internalModuleList with
  | mk target ok =>
    cases ok <;> simp

/-- The choice that `findRuleByImport` makes among the candidates of the index. -/
theorem indexMatch_choice (labelString : Label → String) (ix : RuleIndex) (imp : String)
    (hne : ix imp ≠ []) :
    ∃ res, indexMatch labelString ix imp = some (labelString res.Label) ∧
      ((isPackageRoot res = true ∧ ∃ before after, ix imp = before ++ res :: after ∧
          ∀ x ∈ before, isPackageRoot x = false) ∨
       ((∀ x ∈ ix imp, isPackageRoot x = false) ∧ (ix imp).head? = some res)) := by
  unfold indexMatch
  cases hfind : (ix imp).find? isPackageRoot with
  | some res =>
    refine ⟨res, rfl, Or.inl ?_⟩
    obtain ⟨hp, before, after, hsplit, hbefore⟩ := List.find?_eq_some.1 hfind
    exact ⟨hp, before, after, hsplit, fun x hx => by simpa using hbefore x hx⟩
  | none =>
    cases hres : ix imp with
    | nil => exact absurd hres hne
    | cons res rest =>
      refine ⟨res, rfl, Or.inr ⟨?_, rfl⟩⟩
      intro x hx
      rw [hres] at hfind
      have := List.find?_eq_none.1 hfind x hx
      simpa using this

theorem findRuleByImport_of_index (labelString : Label → String) (imp : String)
    (ix : RuleIndex) (externalModuleMap : ExternalModuleMap)
    (internalModuleList : List String) (hne : ix imp ≠ []) :
    ∃ target, indexMatch labelString ix imp = some target ∧
      findRuleByImport labelString imp ix externalModuleMap internalModuleList
        = (target, true) := by
  obtain ⟨res, hres, _⟩ := indexMatch_choice labelString ix imp hne
  refine ⟨_, hres, ?_⟩
  rw [findRuleByImport_eq_firstSuccess, hres]
  rfl

theorem firstSuccess_append (a b : List (Option String)) :
    firstSuccess (a ++ b) =
      if (firstSuccess a).2 = true then firstSuccess a else firstSuccess b := by
  unfold firstSuccess
  rw [List.findSome?_append]
  cases List.findSome? id a <;> simp

/-- C13 as stated fails: for `pkg.sub.ext`, which has an entry in the external module map
while its stripped form `pkg.sub` is in the index, the code returns the target of the
external map, and the order of the claim gives the index target of `pkg.sub`. -/
theorem fuzzy_order_counterexample :
    findRuleByImportFuzzy gazelleLabelString "pkg.sub.ext" testIndex testExternalModuleMap
      testInternalModuleList = ("@pip_ext//:pkg", true) ∧
    firstSuccess (claimedAttempts gazelleLabelString "pkg.sub.ext" testIndex
      testExternalModuleMap testInternalModuleList) = ("//pkg/sub", true) ∧
    findRuleByImportFuzzy gazelleLabelString "pkg.sub.ext" testIndex testExternalModuleMap
      testInternalModuleList ≠
      firstSuccess (claimedAttempts gazelleLabelString "pkg.sub.ext" testIndex
        testExternalModuleMap testInternalModuleList) := by
  decide

/-- C13, amended. `findRuleByImportFuzzy` returns the first success in this order: an index
match for the specifier, an entry of the external map for it, an entry of the internal set
for it; then, if the specifier has a trailing dot-segment, an index match for its stripped
form, an entry of the external map for the stripped form, an entry of the internal set for
the stripped form; otherwise not found. -/
theorem findRuleByImportFuzzy_order (labelString : Label → String) (imp : String)
    (ix : RuleIndex) (externalModuleMap : ExternalModuleMap)
    (internalModuleList : List String) :
    findRuleByImportFuzzy labelString imp ix externalModuleMap internalModuleList =
      firstSuccess
        (actualAttempts labelString imp ix externalModuleMap internalModuleList) := by
  obtain ⟨hok, hno⟩ :=
    findRuleByImportFuzzy_cases labelString imp ix externalModuleMap internalModuleList
  have hself := findRuleByImport_eq_firstSuccess labelString imp ix externalModuleMap
    internalModuleList
  unfold actualAttempts strippedForm
  by_cases hext : pathExt imp = ""
  · rw [if_pos hext]
    simp only
    rw [← hself]
    cases h : (findRuleByImport labelString imp ix externalModuleMap internalModuleList).2
    · rw [hno h, if_pos hext]
      exact (findRuleByImport_not_ok _ _ _ _ _ h).symm
    · exact hok h
  · rw [if_neg hext]
    simp only
    have hsplit : ∀ a b c d e f : Option String,
        [a, b, c, d, e, f] = [a, b, c] ++ [d, e, f] := fun _ _ _ _ _ _ => rfl
    rw [hsplit, firstSuccess_append, ← hself,
      ← findRuleByImport_eq_firstSuccess labelString (trimSuffix imp (pathExt imp)) ix
        externalModuleMap internalModuleList]
    cases h : (findRuleByImport labelString imp ix externalModuleMap internalModuleList).2
    · rw [hno h, if_neg hext]
      simp
    · rw [hok h]
      simp

/-- C14. When the index returns candidates for a specifier, `findRuleByImport` returns the
target of the first candidate whose name is the last segment of its package path, if there
is one, and of the first candidate otherwise; the result is the same with an empty external
map and an empty internal set, which are not consulted. -/
theorem findRuleByImport_index_choice (labelString : Label → String) (imp : String)
    (ix : RuleIndex) (externalModuleMap : ExternalModuleMap)
    (internalModuleList : List String) (hne : ix imp ≠ []) :
    (∃ res,
      findRuleByImport labelString imp ix externalModuleMap internalModuleList
        = (labelString res.Label, true) ∧
      ((res.Label.Name = pathBase res.Label.Pkg ∧
          ∃ before after, ix imp = before ++ res :: after ∧
            ∀ x ∈ before, x.Label.Name ≠ pathBase x.Label.Pkg) ∨
       ((∀ x ∈ ix imp, x.Label.Name ≠ pathBase x.Label.Pkg) ∧
          (ix imp).head? = some res))) ∧
    findRuleByImport labelString imp ix externalModuleMap internalModuleList =
      findRuleByImport labelString imp ix [] [] := by
  obtain ⟨res, hres, hchoice⟩ := indexMatch_choice labelString ix imp hne
  have hrun : ∀ em il, findRuleByImport labelString imp ix em il
      = (labelString res.Label, true) := by
    intro em il
    rw [findRuleByImport_eq_firstSuccess, hres]
    rfl
  refine ⟨⟨res, hrun _ _, ?_⟩, by rw [hrun, hrun]⟩
  have hroot : ∀ x : FindResult, isPackageRoot x = false ↔
      x.Label.Name ≠ pathBase x.Label.Pkg := by
    intro x; simp [isPackageRoot]
  have hroot' : ∀ x : FindResult, isPackageRoot x = true ↔
      x.Label.Name = pathBase x.Label.Pkg := by
    intro x; simp [isPackageRoot]
  rcases hchoice with ⟨hp, before, after, hsplit, hbefore⟩ | ⟨hnone, hhead⟩
  · exact Or.inl ⟨(hroot' res).1 hp, before, after, hsplit,
      fun x hx => (hroot x).1 (hbefore x hx)⟩
  · exact Or.inr ⟨fun x hx => (hroot x).1 (hnone x hx), hhead⟩

/-- The index of the tests returns two candidates for `pkg.sub`; the second one, named
`sub` like its package, is preferred to the first. -/
theorem findRuleByImport_index_choice_witness :
    findRuleByImport gazelleLabelString "pkg.sub" testIndex testExternalModuleMap
      testInternalModuleList = ("//pkg/sub", true) ∧
    ((∃ res,
      findRuleByImport gazelleLabelString "pkg.sub" testIndex testExternalModuleMap
          testInternalModuleList = (gazelleLabelString res.Label, true) ∧
      ((res.Label.Name = pathBase res.Label.Pkg ∧
          ∃ before after, testIndex "pkg.sub" = before ++ res :: after ∧
            ∀ x ∈ before, x.Label.Name ≠ pathBase x.Label.Pkg) ∨
       ((∀ x ∈ testIndex "pkg.sub", x.Label.Name ≠ pathBase x.Label.Pkg) ∧
          (testIndex "pkg.sub").head? = some res))) ∧
    findRuleByImport gazelleLabelString "pkg.sub" testIndex testExternalModuleMap
        testInternalModuleList =
      findRuleByImport gazelleLabelString "pkg.sub" testIndex [] []) :=
  ⟨by decide,
   findRuleByImport_index_choice gazelleLabelString "pkg.sub" testIndex
    testExternalModuleMap testInternalModuleList (by decide)⟩

/-- C15. A specifier with a trailing dot-segment that is in none of the three tables, while
its stripped form is in the index, is resolved by `findRuleByImportFuzzy` to what
`findRuleByImport` returns for the stripped form: the target that the index gives for the
stripped form, with `ok = true`. -/
theorem fuzzy_strips_segment (labelString : Label → String) (imp : String)
    (ix : RuleIndex) (externalModuleMap : ExternalModuleMap)
    (internalModuleList : List String) (hext : pathExt imp ≠ "")
    (hunknown : unknownImport ix externalModuleMap internalModuleList imp)
    (hparent : ix (trimSuffix imp (pathExt imp)) ≠ []) :
    findRuleByImportFuzzy labelString imp ix externalModuleMap internalModuleList =
      findRuleByImport labelString (trimSuffix imp (pathExt imp)) ix externalModuleMap
        internalModuleList ∧
    ∃ target, indexMatch labelString ix (trimSuffix imp (pathExt imp)) = some target ∧
      findRuleByImportFuzzy labelString imp ix externalModuleMap internalModuleList
        = (target, true) := by
  have hno := (findRuleByImportFuzzy_cases labelString imp ix externalModuleMap
    internalModuleList).2
    ((findRuleByImport_ok_iff labelString imp ix externalModuleMap
      internalModuleList).2 hunknown)
  rw [if_neg hext] at hno
  refine ⟨hno, ?_⟩
  obtain ⟨target, ht, hrun⟩ := findRuleByImport_of_index labelString
    (trimSuffix imp (pathExt imp)) ix externalModuleMap internalModuleList hparent
  exact ⟨target, ht, by rw [hno, hrun]⟩

/-- The specifier `pkg.sub.Class` is not in the index and `pkg.sub` is: it resolves to the
target of `pkg.sub`. -/
theorem fuzzy_strips_segment_witness :
    (findRuleByImportFuzzy gazelleLabelString "pkg.sub.Class" testIndex
        testExternalModuleMap testInternalModuleList = ("//pkg/sub", true) ∧
     findRuleByImport gazelleLabelString "pkg.sub" testIndex testExternalModuleMap
        testInternalModuleList = ("//pkg/sub", true)) ∧
    findRuleByImportFuzzy gazelleLabelString "pkg.sub.Class" testIndex
        testExternalModuleMap testInternalModuleList =
      findRuleByImport gazelleLabelString
        (trimSuffix "pkg.sub.Class" (pathExt "pkg.sub.Class")) testIndex
        testExternalModuleMap testInternalModuleList :=
  ⟨by decide,
   (fuzzy_strips_segment gazelleLabelString "pkg.sub.Class" testIndex
      testExternalModuleMap testInternalModuleList (by decide)
      ⟨by decide, by decide, by decide⟩ (by decide)).1⟩

/-- C16. For a specifier that is in the internal module set, with no index match and no
entry in the external map, `findRuleByImportFuzzy` returns the empty target with
`ok = true`, and the loop of `Resolve` then leaves both the dependencies and the report of
unresolved imports as they are. -/
theorem internal_import_no_edge (labelString : Label → String) (imp : String)
    (ix : RuleIndex) (externalModuleMap : ExternalModuleMap)
    (internalModuleList : List String) (hix : ix imp = [])
    (hext : externalModuleMap.lookup imp = none) (hint : imp ∈ internalModuleList) :
    findRuleByImportFuzzy labelString imp ix externalModuleMap internalModuleList
      = ("", true) ∧
    ∀ st, resolveImport labelString ix externalModuleMap internalModuleList st imp
      = st := by
  have hrun : findRuleByImport labelString imp ix externalModuleMap internalModuleList
      = ("", true) := by
    unfold findRuleByImport
    simp [hix, hext, hint]
  have hfuzzy : findRuleByImportFuzzy labelString imp ix externalModuleMap
      internalModuleList = ("", true) := by
    rw [(findRuleByImportFuzzy_cases labelString imp ix externalModuleMap
      internalModuleList).1 (by rw [hrun]), hrun]
  refine ⟨hfuzzy, ?_⟩
  intro st
  unfold resolveImport
  rw [hfuzzy]
  simp

/-- The specifier `os.path` is in the internal module set alone. -/
theorem internal_import_no_edge_witness :
    findRuleByImportFuzzy gazelleLabelString "os.path" testIndex testExternalModuleMap
      testInternalModuleList = ("", true) ∧
    ∀ st, resolveImport gazelleLabelString testIndex testExternalModuleMap
      testInternalModuleList st "os.path" = st :=
  internal_import_no_edge gazelleLabelString "os.path" testIndex testExternalModuleMap
    testInternalModuleList (by decide) (by decide) (by decide)

/-! ## `Resolve` -/

theorem findRuleByImportFuzzy_not_ok (labelString : Label → String) (imp : String)
    (ix : RuleIndex) (externalModuleMap : ExternalModuleMap)
    (internalModuleList : List String)
    (h : (findRuleByImportFuzzy labelString imp ix externalModuleMap internalModuleList).2
      = false) :
    findRuleByImportFuzzy labelString imp ix externalModuleMap internalModuleList
      = ("", false) := by
  obtain ⟨hok, hno⟩ :=
    findRuleByImportFuzzy_cases labelString imp ix externalModuleMap internalModuleList
  cases h1 : (findRuleByImport labelString imp ix externalModuleMap internalModuleList).2
  · rw [hno h1] at h ⊢
    by_cases hext : pathExt imp = ""
    · rw [if_pos hext]
    · rw [if_neg hext] at h ⊢
      exact findRuleByImport_not_ok _ _ _ _ _ h
  · rw [hok h1] at h
    rw [h1] at h
    exact absurd h (by simp)

theorem mem_foldl_append {α β : Type} (f : β → List α) (x : α) :
    ∀ (l : List β) (acc : List α),
      x ∈ l.foldl (fun res m => res ++ f m) acc ↔ x ∈ acc ∨ ∃ m ∈ l, x ∈ f m := by
  intro l
  induction l with
  | nil => intro acc; simp
  | cons a rest ih =>
    intro acc
    rw [List.foldl_cons, ih]
    simp only [List.mem_append, List.mem_cons]
    constructor
    · rintro ((h | h) | ⟨m, hm, hx⟩)
      · exact Or.inl h
      · exact Or.inr ⟨a, Or.inl rfl, h⟩
      · exact Or.inr ⟨m, Or.inr hm, hx⟩
    · rintro (h | ⟨m, rfl | hm, hx⟩)
      · exact Or.inl (Or.inl h)
      · exact Or.inl (Or.inr hx)
      · exact Or.inr ⟨m, hm, hx⟩

/-- The specifiers that `transitiveImports` returns are those of the module and of the
modules in its `InPkgDeps`. -/
theorem mem_transitiveImports (orderMods : List ModId → List ModId)
    (hmods : ∀ l, (orderMods l).Perm l) (pkg : Pkg) (module : ModId) (imp : String) :
    imp ∈ transitiveImports orderMods pkg module ↔ importsToResolve pkg module imp := by
  unfold transitiveImports importsToResolve
  rw [mem_foldl_append (fun m => (deref pkg m).ExPkgImports)]
  simp only [List.not_mem_nil, false_or, List.singleton_append, List.mem_cons,
    (hmods _).mem_iff]
  constructor
  · rintro ⟨m, rfl | hm, hx⟩
    · exact Or.inl hx
    · exact Or.inr ⟨m, hm, hx⟩
  · rintro (hx | ⟨m, hm, hx⟩)
    · exact ⟨module, Or.inl rfl, hx⟩
    · exact ⟨m, Or.inr hm, hx⟩

theorem mem_setInsert {α : Type} [DecidableEq α] (s : List α) (a x : α) :
    x ∈ setInsert s a ↔ x ∈ s ∨ x = a := by
  unfold setInsert
  by_cases h : a ∈ s
  · rw [if_pos h]
    constructor
    · exact Or.inl
    · rintro (hx | rfl)
      · exact hx
      · exact h
  · rw [if_neg h]
    simp

theorem nodup_setInsert {α : Type} [DecidableEq α] (s : List α) (a : α) (hs : s.Nodup) :
    (setInsert s a).Nodup :=
  nodup_foldl_setInsert [a] s hs

/-- The first loop of `Resolve`: the targets it adds are the non-empty targets found for
the specifiers, without repetition, and the specifiers it reports are those for which
`findRuleByImportFuzzy` returns `ok = false`, in their order. -/
theorem resolveLoop_spec (labelString : Label → String) (ix : RuleIndex)
    (externalModuleMap : ExternalModuleMap) (internalModuleList : List String) :
    ∀ (imps : List String) (st : ResolveState),
      (∀ t, t ∈ (imps.foldl
            (resolveImport labelString ix externalModuleMap internalModuleList) st).deps ↔
          t ∈ st.deps ∨ (t ≠ "" ∧ ∃ imp ∈ imps,
            (findRuleByImportFuzzy labelString imp ix externalModuleMap
              internalModuleList).1 = t)) ∧
      (st.deps.Nodup → (imps.foldl
        (resolveImport labelString ix externalModuleMap internalModuleList) st).deps.Nodup) ∧
      (imps.foldl
        (resolveImport labelString ix externalModuleMap internalModuleList) st).log =
        st.log ++ imps.filter (fun imp =>
          !(findRuleByImportFuzzy labelString imp ix externalModuleMap
            internalModuleList).2) := by
  intro imps
  induction imps with
  | nil => intro st; simp
  | cons imp rest ih =>
    intro st
    rw [List.foldl_cons]
    obtain ⟨ih1, ih2, ih3⟩ :=
      ih (resolveImport labelString ix externalModuleMap internalModuleList st imp)
    have hstep : resolveImport labelString ix externalModuleMap internalModuleList st imp
        = (if (findRuleByImportFuzzy labelString imp ix externalModuleMap
                internalModuleList).1 ≠ "" then
            { st with deps := (setInsert st.deps
                (findRuleByImportFuzzy labelString imp ix externalModuleMap
                  internalModuleList).1) }
          else if (findRuleByImportFuzzy labelString imp ix externalModuleMap
                internalModuleList).2 = false then
            { st with log := st.log ++ [imp] }
          else st) := by
      unfold resolveImport
      cases hres : findRuleByImportFuzzy labelString imp ix externalModuleMap
          internalModuleList with
      | mk target ok => cases ok <;> simp
    by_cases ht : (findRuleByImportFuzzy labelString imp ix externalModuleMap
        internalModuleList).1 ≠ ""
    · have hok : (findRuleByImportFuzzy labelString imp ix externalModuleMap
          internalModuleList).2 = true := by
        cases h : (findRuleByImportFuzzy labelString imp ix externalModuleMap
            internalModuleList).2 with
        | true => rfl
        | false =>
          rw [findRuleByImportFuzzy_not_ok _ _ _ _ _ h] at ht
          exact absurd rfl ht
      rw [if_pos ht] at hstep
      rw [hstep] at ih1 ih2 ih3 ⊢
      refine ⟨?_, ?_, ?_⟩
      · intro t
        rw [ih1 t]
        simp only [mem_setInsert, List.mem_cons]
        constructor
        · rintro ((h | h) | ⟨h1, imp', himp', h2⟩)
          · exact Or.inl h
          · exact Or.inr ⟨by rw [h]; exact ht, imp, Or.inl rfl, h.symm⟩
          · exact Or.inr ⟨h1, imp', Or.inr himp', h2⟩
        · rintro (h | ⟨h1, imp', rfl | himp', h2⟩)
          · exact Or.inl (Or.inl h)
          · exact Or.inl (Or.inr h2.symm)
          · exact Or.inr ⟨h1, imp', himp', h2⟩
      · exact fun hs => ih2 (nodup_setInsert _ _ hs)
      · rw [ih3, List.filter_cons]
        simp [hok]
    · rw [if_neg ht] at hstep
      have ht' : (findRuleByImportFuzzy labelString imp ix externalModuleMap
          internalModuleList).1 = "" := not_not.1 ht
      by_cases hok : (findRuleByImportFuzzy labelString imp ix externalModuleMap
          internalModuleList).2 = false
      · rw [if_pos hok] at hstep
        rw [hstep] at ih1 ih2 ih3 ⊢
        refine ⟨?_, ih2, ?_⟩
        · intro t
          rw [ih1 t]
          simp only [List.mem_cons]
          constructor
          · rintro (h | ⟨h1, imp', himp', h2⟩)
            · exact Or.inl h
            · exact Or.inr ⟨h1, imp', Or.inr himp', h2⟩
          · rintro (h | ⟨h1, imp', rfl | himp', h2⟩)
            · exact Or.inl h
            · exact absurd (h2.symm.trans ht') h1
            · exact Or.inr ⟨h1, imp', himp', h2⟩
        · rw [ih3, List.filter_cons]
          simp [hok]
      · rw [if_neg hok] at hstep
        rw [hstep] at ih1 ih2 ih3 ⊢
        refine ⟨?_, ih2, ?_⟩
        · intro t
          rw [ih1 t]
          simp only [List.mem_cons]
          constructor
          · rintro (h | ⟨h1, imp', himp', h2⟩)
            · exact Or.inl h
            · exact Or.inr ⟨h1, imp', Or.inr himp', h2⟩
          · rintro (h | ⟨h1, imp', rfl | himp', h2⟩)
            · exact Or.inl h
            · exact absurd (h2.symm.trans ht') h1
            · exact Or.inr ⟨h1, imp', himp', h2⟩
        · rw [ih3, List.filter_cons]
          have : (findRuleByImportFuzzy labelString imp ix externalModuleMap
              internalModuleList).2 = true := by simpa using hok
          simp [this]

theorem extScan_suffix :
    ∀ (r acc : List Char), extScan r acc = [] ∨ extScan r acc <:+ r.reverse ++ acc := by
  intro r
  induction r with
  | nil => intro acc; exact Or.inl rfl
  | cons c rest ih =>
    intro acc
    rw [extScan]
    by_cases hs : c = '/'
    · rw [if_pos hs]; exact Or.inl rfl
    · rw [if_neg hs]
      by_cases hd : c = '.'
      · rw [if_pos hd]
        right
        rw [List.reverse_cons, List.append_assoc, hd]
        exact List.suffix_append _ _
      · rw [if_neg hd]
        rcases ih (c :: acc) with h | h
        · exact Or.inl h
        · right
          rw [List.reverse_cons, List.append_assoc]
          exact h

/-- Stripping a trailing segment shortens the specifier. -/
theorem trimSuffix_shorter (imp : String) (hext : pathExt imp ≠ "") :
    (trimSuffix imp (pathExt imp)).length < imp.length := by
  have hsuf : (pathExt imp).data <:+ imp.data := by
    rcases extScan_suffix imp.data.reverse [] with h | h
    · exact absurd (String.ext h) hext
    · simpa [pathExt] using h
  have hpos : 0 < (pathExt imp).data.length := by
    rcases hd : (pathExt imp).data with _ | ⟨c, cs⟩
    · exact absurd (String.ext hd) hext
    · simp
  have hle := hsuf.length_le
  unfold trimSuffix
  rw [if_pos hsuf]
  show (imp.data.take (imp.data.length - (pathExt imp).data.length)).length
    < imp.data.length
  rw [List.length_take]
  omega

/-- The loop over the parent packages returns, with fuel equal to the length of the
specifier. -/
theorem ancestorLoop_total (labelString : Label → String) (ix : RuleIndex) :
    ∀ (fuel : Nat) (imp : String), imp.length ≤ fuel →
      ∃ a, ancestorLoop labelString ix fuel imp (pathExt imp) = some a := by
  intro fuel
  induction fuel with
  | zero =>
    intro imp h
    have hnil : imp.data = [] := List.length_eq_zero.1 (Nat.le_zero.1 h)
    have hext : pathExt imp = "" := by
      unfold pathExt; rw [hnil]; rfl
    exact ⟨none, by rw [hext, ancestorLoop, if_pos rfl]⟩
  | succ fuel ih =>
    intro imp h
    rw [ancestorLoop]
    by_cases hext : pathExt imp = ""
    · exact ⟨none, by rw [if_pos hext]⟩
    · rw [if_neg hext]
      simp only
      by_cases hfound :
          (findRuleByImport labelString (trimSuffix imp (pathExt imp)) ix [] []).2 = true ∧
          (findRuleByImport labelString (trimSuffix imp (pathExt imp)) ix [] []).1 ≠ ""
      · exact ⟨_, by rw [if_pos hfound]⟩
      · rw [if_neg hfound]
        have := trimSuffix_shorter imp hext
        exact ih _ (by omega)

/-- `Resolve`, given what the loop over the parent packages returns: the list it sets has
no repetition and holds the non-empty targets found for the specifiers of
`transitiveImports` and the target of the parent package, and the specifiers it reports are
those for which `findRuleByImportFuzzy` returns `ok = false`. -/
theorem Resolve_spec (labelString : Label → String) (orderMods : List ModId → List ModId)
    (orderDeps : List String → List String) (hdeps : ∀ l, (orderDeps l).Perm l)
    (fuel : Nat) (ix : RuleIndex) (externalModuleMap : ExternalModuleMap)
    (internalModuleList : List String) (pkg : Pkg) (module : ModId) (a : Option String)
    (hanc : ancestorLoop labelString ix fuel (deref pkg module).ImportSpec
      (pathExt (deref pkg module).ImportSpec) = some a) :
    ∃ r, Resolve labelString orderMods orderDeps fuel ix externalModuleMap
        internalModuleList pkg module = some r ∧
      r.deps.Nodup ∧
      r.log = (transitiveImports orderMods pkg module).filter (fun imp =>
        !(findRuleByImportFuzzy labelString imp ix externalModuleMap
          internalModuleList).2) ∧
      ∀ t, t ∈ r.deps ↔
        (t ≠ "" ∧ ∃ imp ∈ transitiveImports orderMods pkg module,
          (findRuleByImportFuzzy labelString imp ix externalModuleMap
            internalModuleList).1 = t) ∨ a = some t := by
  obtain ⟨h1, h2, h3⟩ := resolveLoop_spec labelString ix externalModuleMap
    internalModuleList (transitiveImports orderMods pkg module) { deps := [], log := [] }
  unfold Resolve
  simp only
  rw [hanc]
  cases a with
  | none =>
    refine ⟨_, rfl, (hdeps _).nodup_iff.2 (h2 List.nodup_nil), by simpa using h3, ?_⟩
    intro t
    rw [(hdeps _).mem_iff, h1 t]
    simp
  | some target =>
    refine ⟨_, rfl, (hdeps _).nodup_iff.2 (nodup_setInsert _ _ (h2 List.nodup_nil)),
      by simpa using h3, ?_⟩
    intro t
    rw [(hdeps _).mem_iff, mem_setInsert, h1 t]
    simp only [List.not_mem_nil, false_or, Option.some.injEq]
    constructor
    · rintro (h | h)
      · exact Or.inl h
      · exact Or.inr h.symm
    · rintro (h | h)
      · exact Or.inl h
      · exact Or.inr h.symm

/-- A specifier without a slash either has no dot, or is a parent, a dot and a last
segment without dot. -/
theorem exists_parts (imp : String) (hslash : '/' ∉ imp.data) :
    (∀ c ∈ imp.data, c ≠ '.') ∨
    ∃ parent seg : List Char, imp = ⟨parent ++ '.' :: seg⟩ ∧
      (∀ c ∈ seg, c ≠ '.' ∧ c ≠ '/') ∧ '/' ∉ parent := by
  by_cases hdot : '.' ∈ imp.data.reverse
  · right
    have hp := data_parts imp hdot
    refine ⟨_, _, hp, ?_, ?_⟩
    · intro c hc
      rw [List.mem_reverse] at hc
      constructor
      · have := List.mem_takeWhile_imp hc
        simpa using this
      · intro hcs
        rw [hcs] at hc
        exact hslash (List.mem_reverse.1 ((List.takeWhile_sublist _).subset hc))
    · intro hmem
      apply hslash
      have hd := congrArg String.data hp
      simp only at hd
      rw [hd]
      exact List.mem_append_left _ hmem
  · left
    intro c hc hcd
    exact hdot (by rw [← hcd]; exact List.mem_reverse.2 hc)

theorem dotPrefixes_no_dot : ∀ (s : List Char), (∀ c ∈ s, c ≠ '.') → dotPrefixes s = []
  | [], _ => rfl
  | c :: cs, h => by
    rw [dotPrefixes, if_neg (h c (List.mem_cons_self _ _)),
      dotPrefixes_no_dot cs (fun d hd => h d (List.mem_cons_of_mem _ hd))]
    rfl

theorem dotPrefixes_parts (seg : List Char) (hseg : ∀ c ∈ seg, c ≠ '.') :
    ∀ parent : List Char,
      dotPrefixes (parent ++ '.' :: seg) = dotPrefixes parent ++ [parent]
  | [] => by
    simp [dotPrefixes, dotPrefixes_no_dot seg hseg]
  | c :: cs => by
    rw [List.cons_append, dotPrefixes, dotPrefixes_parts seg hseg cs, dotPrefixes]
    simp

theorem dottedPrefixes_parts (parent seg : List Char) (hseg : ∀ c ∈ seg, c ≠ '.') :
    dottedPrefixes ⟨parent ++ '.' :: seg⟩ = ⟨parent⟩ :: dottedPrefixes ⟨parent⟩ := by
  unfold dottedPrefixes
  simp only
  rw [dotPrefixes_parts seg hseg parent]
  simp

/-- On a specifier without a slash, and with a rendering of labels that is never empty, the
loop over the parent packages returns the index target of the nearest proper dotted prefix
that the index knows. -/
theorem ancestorLoop_nearest (labelString : Label → String)
    (hstr : ∀ l, labelString l ≠ "") (ix : RuleIndex) :
    ∀ (fuel : Nat) (imp : String), '/' ∉ imp.data → imp.length ≤ fuel →
      ancestorLoop labelString ix fuel imp (pathExt imp) =
        some ((nearestIndexed ix imp).bind (indexMatch labelString ix)) := by
  intro fuel
  induction fuel with
  | zero =>
    intro imp _ h
    have hnil : imp.data = [] := List.length_eq_zero.1 (Nat.le_zero.1 h)
    have hext : pathExt imp = "" := by
      unfold pathExt; rw [hnil]; rfl
    rw [hext, ancestorLoop, if_pos rfl]
    unfold nearestIndexed dottedPrefixes
    rw [hnil]
    rfl
  | succ fuel ih =>
    intro imp hslash h
    rcases exists_parts imp hslash with hnodot | ⟨parent, seg, himp, hseg, hpar⟩
    · rw [ext_of_no_dot imp hnodot, ancestorLoop, if_pos rfl]
      unfold nearestIndexed dottedPrefixes
      rw [dotPrefixes_no_dot _ hnodot]
      rfl
    · obtain ⟨hext, htrim⟩ := ext_of_parts parent seg hseg
      rw [← himp] at hext htrim
      have hne : pathExt imp ≠ "" := by
        rw [hext]
        intro hc
        have := congrArg String.data hc
        simp at this
      have hprefixes : dottedPrefixes imp = ⟨parent⟩ :: dottedPrefixes ⟨parent⟩ := by
        conv_lhs => rw [himp]
        exact dottedPrefixes_parts parent seg (fun c hc => (hseg c hc).1)
      have hshort := trimSuffix_shorter imp hne
      rw [ancestorLoop, if_neg hne]
      simp only
      rw [← hext] at htrim
      rw [htrim]
      unfold nearestIndexed
      rw [hprefixes, List.find?_cons]
      by_cases hix : ix ⟨parent⟩ = []
      · have hres : findRuleByImport labelString ⟨parent⟩ ix [] [] = ("", false) :=
          findRuleByImport_not_ok _ _ _ _ _
            ((findRuleByImport_ok_iff _ _ _ _ _).2 ⟨hix, rfl, by simp⟩)
        rw [hres]
        simp only [hix, ne_eq, not_true_eq_false, decide_False, Bool.false_eq_true,
          false_and, if_false]
        rw [htrim] at hshort
        exact ih ⟨parent⟩ hpar (by omega)
      · obtain ⟨res, hres, _⟩ := indexMatch_choice labelString ix ⟨parent⟩ hix
        have hrun : findRuleByImport labelString ⟨parent⟩ ix [] []
            = (labelString res.Label, true) := by
          rw [findRuleByImport_eq_firstSuccess, hres]
          rfl
        rw [hrun]
        simp [hix, hres, hstr]

/-! ## `Resolve`: main results -/

/-- The rendering of labels in Gazelle never yields the empty string. -/
theorem gazelleLabelString_ne_empty (l : Label) : gazelleLabelString l ≠ "" := by
  intro h
  have hlen := congrArg String.length h
  have hcolon : (":" : String).length = 1 := rfl
  have hslashes : ("//" : String).length = 2 := rfl
  unfold gazelleLabelString at hlen
  by_cases h1 : l.Relative = true
  · simp [h1, String.length_append, hcolon] at hlen
  · by_cases h2 : l.Repo ≠ "" ∧ l.Repo ≠ "@" <;>
      by_cases h3 : pathBase l.Pkg = l.Name <;>
      simp [h1, h2, h3, String.length_append, hslashes] at hlen

/-- C17. `findRuleByImportFuzzy` returns `ok = false` exactly when neither the specifier nor
its form with one trailing dot-segment stripped is in the index, the external map or the
internal set, and then the target is empty, so no dependency is added. `Resolve` returns,
reports exactly the specifiers with `ok = false`, and still adds the non-empty target of
every other specifier of the module. -/
theorem Resolve_reports_unresolved (labelString : Label → String)
    (orderMods : List ModId → List ModId) (orderDeps : List String → List String)
    (hmods : ∀ l, (orderMods l).Perm l) (hdeps : ∀ l, (orderDeps l).Perm l)
    (fuel : Nat) (ix : RuleIndex) (externalModuleMap : ExternalModuleMap)
    (internalModuleList : List String) (pkg : Pkg) (module : ModId)
    (hfuel : (deref pkg module).ImportSpec.length ≤ fuel) :
    (∀ imp,
      (findRuleByImportFuzzy labelString imp ix externalModuleMap internalModuleList).2
          = false ↔
        unknownImport ix externalModuleMap internalModuleList imp ∧
        (pathExt imp = "" ∨ unknownImport ix externalModuleMap internalModuleList
          (trimSuffix imp (pathExt imp)))) ∧
    (∀ imp,
      (findRuleByImportFuzzy labelString imp ix externalModuleMap internalModuleList).2
          = false →
      (findRuleByImportFuzzy labelString imp ix externalModuleMap internalModuleList).1
          = "") ∧
    ∃ r, Resolve labelString orderMods orderDeps fuel ix externalModuleMap
        internalModuleList pkg module = some r ∧
      r.log = (transitiveImports orderMods pkg module).filter (fun imp =>
        !(findRuleByImportFuzzy labelString imp ix externalModuleMap
          internalModuleList).2) ∧
      ∀ imp, importsToResolve pkg module imp →
        (findRuleByImportFuzzy labelString imp ix externalModuleMap
          internalModuleList).1 ≠ "" →
        (findRuleByImportFuzzy labelString imp ix externalModuleMap
          internalModuleList).1 ∈ r.deps := by
  refine ⟨?_, ?_, ?_⟩
  · intro imp
    obtain ⟨hok, hno⟩ :=
      findRuleByImportFuzzy_cases labelString imp ix externalModuleMap internalModuleList
    rw [← findRuleByImport_ok_iff labelString imp ix externalModuleMap internalModuleList,
      ← findRuleByImport_ok_iff labelString (trimSuffix imp (pathExt imp)) ix
        externalModuleMap internalModuleList]
    cases h1 : (findRuleByImport labelString imp ix externalModuleMap
        internalModuleList).2
    · rw [hno h1]
      by_cases hext : pathExt imp = ""
      · simp [hext]
      · simp [hext]
    · rw [hok h1, h1]
      simp
  · intro imp h
    rw [findRuleByImportFuzzy_not_ok _ _ _ _ _ h]
  · obtain ⟨a, hanc⟩ := ancestorLoop_total labelString ix fuel _ hfuel
    obtain ⟨r, hrun, _, hlog, hmem⟩ := Resolve_spec labelString orderMods orderDeps hdeps
      fuel ix externalModuleMap internalModuleList pkg module a hanc
    refine ⟨r, hrun, hlog, ?_⟩
    intro imp himp hne
    exact (hmem _).2 (Or.inl ⟨hne,
      imp, (mem_transitiveImports orderMods hmods pkg module imp).2 himp, rfl⟩)

/-- The module `pkg.sub.mod` of `resolvePkg`: the unknown `zzz` of its sibling is reported,
and the other specifiers give the two dependencies. -/
theorem Resolve_reports_unresolved_witness :
    Resolve gazelleLabelString id id 11 testIndex testExternalModuleMap
        testInternalModuleList resolvePkg 0 =
      some { deps := ["@pip_numpy//:pkg", "//pkg/sub"], log := ["zzz"] } ∧
    ∃ r, Resolve gazelleLabelString id id 11 testIndex testExternalModuleMap
        testInternalModuleList resolvePkg 0 = some r ∧
      r.log = (transitiveImports id resolvePkg 0).filter (fun imp =>
        !(findRuleByImportFuzzy gazelleLabelString imp testIndex testExternalModuleMap
          testInternalModuleList).2) ∧
      ∀ imp, importsToResolve resolvePkg 0 imp →
        (findRuleByImportFuzzy gazelleLabelString imp testIndex testExternalModuleMap
          testInternalModuleList).1 ≠ "" →
        (findRuleByImportFuzzy gazelleLabelString imp testIndex testExternalModuleMap
          testInternalModuleList).1 ∈ r.deps :=
  ⟨by decide,
   (Resolve_reports_unresolved gazelleLabelString id id (fun _ => List.Perm.refl _)
      (fun _ => List.Perm.refl _) 11 testIndex testExternalModuleMap
      testInternalModuleList resolvePkg 0 (by decide)).2.2⟩

/-- C18. For a module whose import specifier holds no slash, the loop of `Resolve` over the
parent packages finds the index target of the nearest proper dotted prefix of the specifier
that the index knows, and nothing if the index knows none; neither the external map nor the
internal set enters into it. `Resolve` adds this one target to the dependencies found for
the imports, and no other. -/
theorem Resolve_ancestor (labelString : Label → String) (hstr : ∀ l, labelString l ≠ "")
    (orderMods : List ModId → List ModId) (orderDeps : List String → List String)
    (hdeps : ∀ l, (orderDeps l).Perm l)
    (fuel : Nat) (ix : RuleIndex) (externalModuleMap : ExternalModuleMap)
    (internalModuleList : List String) (pkg : Pkg) (module : ModId)
    (hslash : '/' ∉ (deref pkg module).ImportSpec.data)
    (hfuel : (deref pkg module).ImportSpec.length ≤ fuel) :
    ancestorLoop labelString ix fuel (deref pkg module).ImportSpec
        (pathExt (deref pkg module).ImportSpec) =
      some ((nearestIndexed ix (deref pkg module).ImportSpec).bind
        (indexMatch labelString ix)) ∧
    ∃ r, Resolve labelString orderMods orderDeps fuel ix externalModuleMap
        internalModuleList pkg module = some r ∧
      ∀ t, t ∈ r.deps ↔
        (t ≠ "" ∧ ∃ imp ∈ transitiveImports orderMods pkg module,
          (findRuleByImportFuzzy labelString imp ix externalModuleMap
            internalModuleList).1 = t) ∨
        (nearestIndexed ix (deref pkg module).ImportSpec).bind
          (indexMatch labelString ix) = some t := by
  have hanc := ancestorLoop_nearest labelString hstr ix fuel _ hslash hfuel
  obtain ⟨r, hrun, _, _, hmem⟩ := Resolve_spec labelString orderMods orderDeps hdeps
    fuel ix externalModuleMap internalModuleList pkg module _ hanc
  exact ⟨hanc, r, hrun, hmem⟩

/-- A module `pkg.sub.deep.mod`, with no imports, in an index that knows `pkg.sub` and
`pkg` but not `pkg.sub.deep`: its one dependency is the target of `pkg.sub`. -/
theorem Resolve_ancestor_witness :
    (nearestIndexed testIndex "pkg.sub.deep.mod" = some "pkg.sub" ∧
     Resolve gazelleLabelString id id 16 testIndex testExternalModuleMap
        testInternalModuleList [mkModule "pkg/sub/deep" "mod" "pkg.sub.deep.mod" []] 0 =
      some { deps := ["//pkg/sub"], log := [] }) ∧
    ancestorLoop gazelleLabelString testIndex 16
        (deref [mkModule "pkg/sub/deep" "mod" "pkg.sub.deep.mod" []] 0).ImportSpec
        (pathExt (deref [mkModule "pkg/sub/deep" "mod" "pkg.sub.deep.mod" []] 0).ImportSpec) =
      some ((nearestIndexed testIndex
          (deref [mkModule "pkg/sub/deep" "mod" "pkg.sub.deep.mod" []] 0).ImportSpec).bind
        (indexMatch gazelleLabelString testIndex)) :=
  ⟨by decide,
   (Resolve_ancestor gazelleLabelString gazelleLabelString_ne_empty
      id id (fun _ => List.Perm.refl _) 16 testIndex testExternalModuleMap
      testInternalModuleList [mkModule "pkg/sub/deep" "mod" "pkg.sub.deep.mod" []] 0
      (by decide) (by decide)).1⟩

/-- C19. The list of dependencies that `Resolve` sets has no repetition, and it holds
exactly the non-empty targets that `findRuleByImportFuzzy` returns for the specifiers in the
`ExPkgImports` of the module and of every module in its `InPkgDeps`, together with the
target that the loop over the parent packages finds, if it finds one. -/
theorem Resolve_deps (labelString : Label → String)
    (orderMods : List ModId → List ModId) (orderDeps : List String → List String)
    (hmods : ∀ l, (orderMods l).Perm l) (hdeps : ∀ l, (orderDeps l).Perm l)
    (fuel : Nat) (ix : RuleIndex) (externalModuleMap : ExternalModuleMap)
    (internalModuleList : List String) (pkg : Pkg) (module : ModId)
    (hfuel : (deref pkg module).ImportSpec.length ≤ fuel) :
    ∃ r ancestor, Resolve labelString orderMods orderDeps fuel ix externalModuleMap
        internalModuleList pkg module = some r ∧
      ancestorLoop labelString ix fuel (deref pkg module).ImportSpec
        (pathExt (deref pkg module).ImportSpec) = some ancestor ∧
      r.deps.Nodup ∧
      ∀ t, t ∈ r.deps ↔
        (t ≠ "" ∧ ∃ imp, importsToResolve pkg module imp ∧
          (findRuleByImportFuzzy labelString imp ix externalModuleMap
            internalModuleList).1 = t) ∨ ancestor = some t := by
  obtain ⟨a, hanc⟩ := ancestorLoop_total labelString ix fuel _ hfuel
  obtain ⟨r, hrun, hnodup, _, hmem⟩ := Resolve_spec labelString orderMods orderDeps hdeps
    fuel ix externalModuleMap internalModuleList pkg module a hanc
  refine ⟨r, a, hrun, hanc, hnodup, ?_⟩
  intro t
  rw [hmem t]
  constructor
  · rintro (⟨h1, imp, himp, h2⟩ | h)
    · exact Or.inl ⟨h1, imp,
        (mem_transitiveImports orderMods hmods pkg module imp).1 himp, h2⟩
    · exact Or.inr h
  · rintro (⟨h1, imp, himp, h2⟩ | h)
    · exact Or.inl ⟨h1, imp,
        (mem_transitiveImports orderMods hmods pkg module imp).2 himp, h2⟩
    · exact Or.inr h

/-- The module `pkg.sub.mod` of `resolvePkg`: `numpy` is imported by the module and by its
sibling, and the target of `pkg.sub` is found for an import and for the parent package;
each is listed once. -/
theorem Resolve_deps_witness :
    Resolve gazelleLabelString id id 11 testIndex testExternalModuleMap
        testInternalModuleList resolvePkg 0 =
      some { deps := ["@pip_numpy//:pkg", "//pkg/sub"], log := ["zzz"] } ∧
    ∃ r ancestor, Resolve gazelleLabelString id id 11 testIndex testExternalModuleMap
        testInternalModuleList resolvePkg 0 = some r ∧
      ancestorLoop gazelleLabelString testIndex 11 (deref resolvePkg 0).ImportSpec
        (pathExt (deref resolvePkg 0).ImportSpec) = some ancestor ∧
      r.deps.Nodup ∧
      ∀ t, t ∈ r.deps ↔
        (t ≠ "" ∧ ∃ imp, importsToResolve resolvePkg 0 imp ∧
          (findRuleByImportFuzzy gazelleLabelString imp testIndex testExternalModuleMap
            testInternalModuleList).1 = t) ∨ ancestor = some t :=
  ⟨by decide,
   Resolve_deps gazelleLabelString id id (fun _ => List.Perm.refl _)
    (fun _ => List.Perm.refl _) 11 testIndex testExternalModuleMap
    testInternalModuleList resolvePkg 0 (by decide)⟩

/-- C20 fails. `Resolve` appends the targets in the order in which `range` produces the
keys of the map `deps` and sets the list without sorting it: for the module `pkg.sub.mod`
of `resolvePkg`, a run in which `range` follows the order of insertion sets
`@pip_numpy//:pkg` before `//pkg/sub`, which is not sorted, and a run on the same input in
which `range` follows the reverse order sets another list. -/
theorem Resolve_deps_not_sorted :
    Resolve gazelleLabelString id id 11 testIndex testExternalModuleMap
        testInternalModuleList resolvePkg 0 =
      some { deps := ["@pip_numpy//:pkg", "//pkg/sub"], log := ["zzz"] } ∧
    strLt "//pkg/sub" "@pip_numpy//:pkg" = true ∧
    sortStrings ["@pip_numpy//:pkg", "//pkg/sub"] ≠ ["@pip_numpy//:pkg", "//pkg/sub"] ∧
    Resolve gazelleLabelString id List.reverse 11 testIndex testExternalModuleMap
        testInternalModuleList resolvePkg 0 =
      some { deps := ["//pkg/sub", "@pip_numpy//:pkg"], log := ["zzz"] } := by
  decide

/-- What two runs of `Resolve` on the same input have in common, whatever the orders of
their `range` loops: each sets every target once, and the two lists are permutations of one
another. -/
theorem Resolve_deps_order (labelString : Label → String)
    (orderMods1 orderMods2 : List ModId → List ModId)
    (orderDeps1 orderDeps2 : List String → List String)
    (hmods1 : ∀ l, (orderMods1 l).Perm l) (hmods2 : ∀ l, (orderMods2 l).Perm l)
    (hdeps1 : ∀ l, (orderDeps1 l).Perm l) (hdeps2 : ∀ l, (orderDeps2 l).Perm l)
    (fuel : Nat) (ix : RuleIndex) (externalModuleMap : ExternalModuleMap)
    (internalModuleList : List String) (pkg : Pkg) (module : ModId)
    (hfuel : (deref pkg module).ImportSpec.length ≤ fuel) :
    ∃ r1 r2,
      Resolve labelString orderMods1 orderDeps1 fuel ix externalModuleMap
        internalModuleList pkg module = some r1 ∧
      Resolve labelString orderMods2 orderDeps2 fuel ix externalModuleMap
        internalModuleList pkg module = some r2 ∧
      r1.deps.Nodup ∧ r2.deps.Nodup ∧ r1.deps.Perm r2.deps := by
  obtain ⟨a, hanc⟩ := ancestorLoop_total labelString ix fuel _ hfuel
  obtain ⟨r1, hrun1, hn1, _, hmem1⟩ := Resolve_spec labelString orderMods1 orderDeps1
    hdeps1 fuel ix externalModuleMap internalModuleList pkg module a hanc
  obtain ⟨r2, hrun2, hn2, _, hmem2⟩ := Resolve_spec labelString orderMods2 orderDeps2
    hdeps2 fuel ix externalModuleMap internalModuleList pkg module a hanc
  refine ⟨r1, r2, hrun1, hrun2, hn1, hn2, ?_⟩
  rw [List.perm_ext_iff_of_nodup hn1 hn2]
  intro t
  rw [hmem1 t, hmem2 t]
  simp only [mem_transitiveImports orderMods1 hmods1, mem_transitiveImports orderMods2 hmods2]

/-- Two runs of `Resolve` for the module `pkg.sub.mod` of `resolvePkg`, the second with both
`range` loops in reverse order. -/
theorem Resolve_deps_order_witness :
    ∃ r1 r2,
      Resolve gazelleLabelString id id 11 testIndex testExternalModuleMap
        testInternalModuleList resolvePkg 0 = some r1 ∧
      Resolve gazelleLabelString List.reverse List.reverse 11 testIndex
        testExternalModuleMap testInternalModuleList resolvePkg 0 = some r2 ∧
      r1.deps.Nodup ∧ r2.deps.Nodup ∧ r1.deps.Perm r2.deps :=
  Resolve_deps_order gazelleLabelString id List.reverse id List.reverse
    (fun _ => List.Perm.refl _) (fun l => List.reverse_perm l)
    (fun _ => List.Perm.refl _) (fun l => List.reverse_perm l)
    11 testIndex testExternalModuleMap testInternalModuleList resolvePkg 0 (by decide)

/-! ## `GenerateRule` -/

theorem lookup_map_replace {β : Type} (key key1 : String) (value : β) :
    ∀ l : List (String × β), (l.lookup key).isSome = true →
      (l.map (fun e => if e.1 = key then (key, value) else e)).lookup key1 =
        if key1 = key then some value else l.lookup key1
  | [], h => by simp at h
  | (k, v) :: rest, h => by
    by_cases hk : k = key
    · subst hk
      by_cases h1 : key1 = k
      · subst h1
        simp [List.lookup_cons]
      · have hne : (key1 == k) = false := by simpa using h1
        have hsome : (List.lookup k rest).isSome = true ∨ (List.lookup k rest).isSome = false := by
          cases (List.lookup k rest).isSome <;> simp
        rcases hsome with hs | hs
        · have ih := lookup_map_replace k key1 value rest hs
          simp only [List.map_cons, if_true, List.lookup_cons, hne, if_neg h1] at ih ⊢
          exact ih
        · have hnone : List.lookup k rest = none := by
            cases hl : List.lookup k rest with
            | none => rfl
            | some x => rw [hl] at hs; simp at hs
          have hsame : rest.map (fun e => if e.1 = k then (k, value) else e) = rest := by
            have : ∀ e ∈ rest, e.1 ≠ k := by
              intro e he hek
              have := List.lookup_eq_none_iff.1 hnone e he
              simp [hek] at this
            calc rest.map (fun e => if e.1 = k then (k, value) else e)
                = rest.map id := List.map_congr_left (fun e he => by simp [this e he])
              _ = rest := List.map_id _
          simp only [List.map_cons, if_true, List.lookup_cons, hne, if_neg h1, hsame]
    · have hne : (key == k) = false := by simpa using fun h => hk h.symm
      have hs : (List.lookup key rest).isSome = true := by
        simpa [List.lookup_cons, hne] using h
      have ih := lookup_map_replace key key1 value rest hs
      by_cases h1 : key1 = k
      · subst h1
        have : ¬ key1 = key := hk
        simp [List.lookup_cons, hk]
      · have hne1 : (key1 == k) = false := by simpa using h1
        simp only [List.map_cons, if_neg hk, List.lookup_cons, hne1]
        exact ih

theorem lookup_append_new {β : Type} (key key1 : String) (value : β) :
    ∀ l : List (String × β), (l.lookup key).isSome = false →
      (l ++ [(key, value)]).lookup key1 =
        if key1 = key then some value else l.lookup key1
  | [], _ => by
    by_cases h1 : key1 = key
    · simp [List.lookup_cons, h1]
    · have : (key1 == key) = false := by simpa using h1
      simp [List.lookup_cons, h1, this]
  | (k, v) :: rest, h => by
    have hk : (key == k) = false := by
      cases hb : key == k with
      | false => rfl
      | true => simp [List.lookup_cons, hb] at h
    have hrest : (List.lookup key rest).isSome = false := by
      simpa [List.lookup_cons, hk] using h
    have ih := lookup_append_new key key1 value rest hrest
    by_cases h1 : key1 = k
    · subst h1
      have hne : ¬ key1 = key := by
        intro hc
        rw [hc] at hk
        simp at hk
      simp [List.lookup_cons, hne]
    · have hne1 : (key1 == k) = false := by simpa using h1
      simp only [List.cons_append, List.lookup_cons, hne1]
      exact ih

/-- After `SetAttr`, the key holds the value and every other key what it held. -/
theorem lookup_SetAttr (r : Rule) (key key1 : String) (value : AttrValue) :
    (r.SetAttr key value).Attrs.lookup key1 =
      if key1 = key then some value else r.Attrs.lookup key1 := by
  unfold Rule.SetAttr
  by_cases h : (r.Attrs.lookup key).isSome = true
  · rw [if_pos h]
    exact lookup_map_replace key key1 value r.Attrs h
  · rw [if_neg h]
    exact lookup_append_new key key1 value r.Attrs (by simpa only [Bool.not_eq_true] using h)

theorem Kind_SetAttr (r : Rule) (key : String) (value : AttrValue) :
    (r.SetAttr key value).Kind = r.Kind := by
  unfold Rule.SetAttr
  split <;> rfl

theorem Name_SetAttr (r : Rule) (key : String) (value : AttrValue) :
    (r.SetAttr key value).Name = r.Name := by
  unfold Rule.SetAttr
  split <;> rfl

theorem GenerateRule_Kind (order : List ModId → List ModId) (pkg : Pkg) (module : Module)
    (nameTemplate relPythonRoot : String) :
    (GenerateRule order pkg module nameTemplate relPythonRoot).Kind = ruleKind module := by
  unfold GenerateRule
  simp only [Kind_SetAttr]
  split <;> split <;> simp [Kind_SetAttr, NewRule]

theorem GenerateRule_Name (order : List ModId → List ModId) (pkg : Pkg) (module : Module)
    (nameTemplate relPythonRoot : String) :
    (GenerateRule order pkg module nameTemplate relPythonRoot).Name =
      ReplaceAll nameTemplate "\x7bmodule_name\x7d" (ruleBaseName module) := by
  unfold GenerateRule
  simp only [Name_SetAttr]
  split <;> split <;> simp [Name_SetAttr, NewRule]

theorem GenerateRule_srcs (order : List ModId → List ModId) (pkg : Pkg) (module : Module)
    (nameTemplate relPythonRoot : String) :
    (GenerateRule order pkg module nameTemplate relPythonRoot).AttrStrings "srcs" =
      sortStrings (ruleSrcs order pkg module) := by
  unfold GenerateRule Rule.AttrStrings
  simp only [lookup_SetAttr]
  simp

theorem ruleSrcs_eq (order : List ModId → List ModId) (pkg : Pkg) (module : Module) :
    ruleSrcs order pkg module =
      module.Filename :: (order module.InPkgDeps).map (fun dep => (deref pkg dep).Filename) := by
  unfold ruleSrcs
  have : ∀ (l : List ModId) (init : List String),
      l.foldl (fun srcs dep => srcs ++ [(deref pkg dep).Filename]) init =
        init ++ l.map (fun dep => (deref pkg dep).Filename) := by
    intro l
    induction l with
    | nil => intro init; simp
    | cons d l ih => intro init; simp [ih]
  rw [this]
  rfl

theorem isTestName_iff (module : Module) :
    (module.Name = "__test__" ∨ HasPrefix module.Name "test_" = true ∨
      HasSuffix module.Name "_test" = true) ↔ isTestName module.Name := by
  unfold isTestName HasPrefix HasSuffix
  rw [List.isPrefixOf_iff_prefix, List.isSuffixOf_iff_suffix]
  tauto

/-- C21 as stated fails. The module `foo_test` whose source has a main guard gets the kind
`py_test`, where the claim, which lets the main guard decide first, gives `py_binary`. -/
theorem test_name_with_main_guard :
    (GenerateRule id [] guardedTestModule "\x7bmodule_name\x7d" "..").Kind = "py_test" ∧
    isMainModule guardedTestModule ∧
    claimedKind guardedTestModule = "py_binary" ∧
    (GenerateRule id [] guardedTestModule "\x7bmodule_name\x7d" "..").Kind ≠
      claimedKind guardedTestModule := by
  decide

/-- C21, amended. The test name decides first: the kind that `GenerateRule` picks is
`py_test` exactly when the bare name starts with `test_`, ends with `_test` or is
`__test__`; it is `py_binary` exactly when the name is no such name and is `__main__` or the
source has a main guard; it is `py_library` exactly in the remaining case. Where the name
is no test name the kind is the one the claim gives. -/
theorem GenerateRule_kind (order : List ModId → List ModId) (pkg : Pkg) (module : Module)
    (nameTemplate relPythonRoot : String) :
    ((GenerateRule order pkg module nameTemplate relPythonRoot).Kind = "py_test" ↔
      isTestName module.Name) ∧
    ((GenerateRule order pkg module nameTemplate relPythonRoot).Kind = "py_binary" ↔
      ¬ isTestName module.Name ∧ isMainModule module) ∧
    ((GenerateRule order pkg module nameTemplate relPythonRoot).Kind = "py_library" ↔
      ¬ isTestName module.Name ∧ ¬ isMainModule module) ∧
    (¬ isTestName module.Name →
      (GenerateRule order pkg module nameTemplate relPythonRoot).Kind = claimedKind module) := by
  rw [GenerateRule_Kind]
  unfold ruleKind claimedKind
  by_cases ht : isTestName module.Name
  · rw [if_pos ((isTestName_iff module).2 ht)]
    simp [ht, kindPyTest]
  · rw [if_neg (fun h => ht ((isTestName_iff module).1 h))]
    by_cases hm : isMainModule module
    · have hm1 : module.Name = "__main__" ∨ module.HasMainNameCheck = true := hm
      rw [if_pos hm1]
      simp [ht, hm, kindPyBinary]
    · have hm1 : ¬ (module.Name = "__main__" ∨ module.HasMainNameCheck = true) := hm
      rw [if_neg hm1]
      simp [ht, hm, kindPyLibrary]

theorem replaceScan_skip (old new : List Char) :
    ∀ (xs rest : List Char),
      replaceScan old new xs.length (xs ++ rest) = replaceScan old new 0 rest
  | [], _ => rfl
  | _ :: xs, rest => by
    rw [List.length_cons, List.cons_append, replaceScan]
    exact replaceScan_skip old new xs rest

/-- A text without the first character of `old` holds no occurrence of it. -/
theorem replaceScan_other (b : Char) (t new : List Char) :
    ∀ s : List Char, b ∉ s → replaceScan (b :: t) new 0 s = s
  | [], _ => by simp [replaceScan]
  | c :: s, h => by
    have hc : ¬ b = c := fun hbc => h (by rw [hbc]; exact List.mem_cons_self _ _)
    have hs : b ∉ s := fun hm => h (List.mem_cons_of_mem _ hm)
    rw [replaceScan, if_neg (by simp)]
    simp [List.isPrefixOf, hc, replaceScan_other b t new s hs]

/-- The first occurrence of `old`, after a text without its first character, is replaced,
and the scan goes on behind it. -/
theorem replaceScan_occurrence (b : Char) (t new : List Char) :
    ∀ pre rest : List Char, b ∉ pre →
      replaceScan (b :: t) new 0 (pre ++ (b :: t) ++ rest) =
        pre ++ new ++ replaceScan (b :: t) new 0 rest
  | [], rest, _ => by
    have hp : (b :: t).isPrefixOf (b :: (t ++ rest)) = true := by
      rw [List.isPrefixOf_iff_prefix]
      exact ⟨rest, by simp⟩
    rw [List.nil_append, List.cons_append, replaceScan, if_neg (by simp), if_pos hp]
    simp only [List.length_cons, Nat.add_sub_cancel, List.nil_append]
    rw [replaceScan_skip]
  | c :: pre, rest, h => by
    have hc : ¬ b = c := fun hbc => h (by rw [hbc]; exact List.mem_cons_self _ _)
    have hs : b ∉ pre := fun hm => h (List.mem_cons_of_mem _ hm)
    have ih := replaceScan_occurrence b t new pre rest hs
    have hp : ¬ (b :: t).isPrefixOf (c :: (pre ++ (b :: t) ++ rest)) = true := by
      simp [List.isPrefixOf, hc]
    rw [List.cons_append, List.cons_append, replaceScan, if_neg (by simp), if_neg hp, ih]
    simp

/-- In a text made of parts without the first character of `old`, joined by `old`, the
scan puts `new` in the place of every `old`. -/
theorem replaceScan_intercalate (b : Char) (t new : List Char) :
    ∀ parts : List (List Char), (∀ p ∈ parts, b ∉ p) →
      replaceScan (b :: t) new 0 ((b :: t).intercalate parts) = new.intercalate parts
  | [], _ => by simp [List.intercalate, replaceScan]
  | [p], h => by
    simpa [List.intercalate] using replaceScan_other b t new p (h p (List.mem_singleton_self p))
  | p :: q :: ps, h => by
    have ih := replaceScan_intercalate b t new (q :: ps)
      (fun x hx => h x (List.mem_cons_of_mem _ hx))
    have hcons : ∀ sep : List Char,
        sep.intercalate (p :: q :: ps) = p ++ sep ++ sep.intercalate (q :: ps) := by
      intro sep
      simp [List.intercalate, List.intersperse]
    rw [hcons, hcons, replaceScan_occurrence b t new p _ (h p (List.mem_cons_self _ _)), ih]

/-- On a path that is not empty and does not end in a slash, `path.Base` is the last
segment. -/
theorem pathBase_eq_lastSegment (p : String) (hne : p ≠ "")
    (hclean : HasSuffix p "/" = false) : pathBase p = lastSegment p := by
  have hdata : p.data ≠ [] := fun h => hne (String.ext h)
  unfold pathBase lastSegment
  rw [if_neg hdata]
  rcases hrev : p.data.reverse with _ | ⟨c, r⟩
  · exact absurd (List.reverse_eq_nil_iff.1 hrev) hdata
  · have hp : p.data = r.reverse ++ [c] := by
      have := congrArg List.reverse hrev
      simpa using this
    have hc : c ≠ '/' := by
      intro hcs
      have : HasSuffix p "/" = true := by
        unfold HasSuffix
        rw [List.isSuffixOf_iff_suffix, hp, hcs]
        exact List.suffix_append _ _
      rw [hclean] at this
      exact absurd this (by simp)
    simp [hc]

theorem ruleBaseName_eq (module : Module) (hclean : HasSuffix module.PkgPath "/" = false) :
    ruleBaseName module = nameFor (segmentOrDot module.PkgPath) module := by
  have hseg : pathBase module.PkgPath = segmentOrDot module.PkgPath := by
    unfold segmentOrDot
    by_cases hp : module.PkgPath = ""
    · rw [if_pos hp, hp]; rfl
    · rw [if_neg hp]
      exact pathBase_eq_lastSegment _ hp hclean
  unfold ruleBaseName nameFor
  simp only [hseg]

/-- C22 as stated fails. For the module `__main__` of the package at the Python root, whose
package path is empty, `GenerateRule` gives the name `._bin`: `path.Base` of the empty
path is a dot, where the last segment of the empty path is empty. -/
theorem root_main_rule_name :
    (GenerateRule id [] rootMainModule "\x7bmodule_name\x7d" "").Name = "._bin" ∧
    lastSegment rootMainModule.PkgPath = "" ∧
    ReplaceAll "\x7bmodule_name\x7d" "\x7bmodule_name\x7d"
      (nameFor (lastSegment rootMainModule.PkgPath) rootMainModule) = "_bin" ∧
    (GenerateRule id [] rootMainModule "\x7bmodule_name\x7d" "").Name ≠
      ReplaceAll "\x7bmodule_name\x7d" "\x7bmodule_name\x7d"
        (nameFor (lastSegment rootMainModule.PkgPath) rootMainModule) := by
  decide

/-- C22, amended. For every module whose package path does not end in a slash, and every
name template, the name of the rule is the template with the placeholder `{module_name}`
replaced, by `strings.ReplaceAll`, by: the name of the package for the package-root module,
that name followed by `_bin` for `__main__` and by `_test` for `__test__`, and the bare
module name otherwise; the name of the package is the last segment of the package path,
and a dot for the empty package path. In a template made of parts without an opening brace,
joined by the placeholder, every placeholder is replaced. -/
theorem GenerateRule_name (order : List ModId → List ModId) (pkg : Pkg) (module : Module)
    (nameTemplate relPythonRoot : String)
    (hclean : HasSuffix module.PkgPath "/" = false) :
    (GenerateRule order pkg module nameTemplate relPythonRoot).Name =
      ReplaceAll nameTemplate "\x7bmodule_name\x7d"
        (nameFor (segmentOrDot module.PkgPath) module) ∧
    ∀ parts : List (List Char), (∀ p ∈ parts, '{' ∉ p) →
      nameTemplate.data = "\x7bmodule_name\x7d".data.intercalate parts →
      (GenerateRule order pkg module nameTemplate relPythonRoot).Name.data =
        (nameFor (segmentOrDot module.PkgPath) module).data.intercalate parts := by
  rw [GenerateRule_Name, ruleBaseName_eq module hclean]
  refine ⟨rfl, ?_⟩
  intro parts hparts htemplate
  show replaceScan "\x7bmodule_name\x7d".data _ 0 nameTemplate.data = _
  rw [htemplate]
  exact replaceScan_intercalate '{' "module_name\x7d".data _ parts hparts

/-- The rule of the package-root module of `pkg1/subpkg1`, with the template
`gazelle_{module_name}_lib`. -/
theorem GenerateRule_name_witness :
    (GenerateRule id srcsPkg (deref srcsPkg 2) "gazelle_\x7bmodule_name\x7d_lib" "../..").Name
      = "gazelle_subpkg1_lib" ∧
    ((GenerateRule id srcsPkg (deref srcsPkg 2) "gazelle_\x7bmodule_name\x7d_lib" "../..").Name =
      ReplaceAll "gazelle_\x7bmodule_name\x7d_lib" "\x7bmodule_name\x7d"
        (nameFor (segmentOrDot (deref srcsPkg 2).PkgPath) (deref srcsPkg 2)) ∧
    ∀ parts : List (List Char), (∀ p ∈ parts, '{' ∉ p) →
      "gazelle_\x7bmodule_name\x7d_lib".data = "\x7bmodule_name\x7d".data.intercalate parts →
      (GenerateRule id srcsPkg (deref srcsPkg 2) "gazelle_\x7bmodule_name\x7d_lib"
          "../..").Name.data =
        (nameFor (segmentOrDot (deref srcsPkg 2).PkgPath) (deref srcsPkg 2)).data.intercalate
          parts) :=
  ⟨by decide,
   GenerateRule_name id srcsPkg (deref srcsPkg 2) "gazelle_\x7bmodule_name\x7d_lib" "../.."
    (by decide)⟩

/-- C23. The `srcs` attribute that `GenerateRule` sets is sorted and holds exactly the
filename of the module and the filename of every module in its `InPkgDeps`, each once for
each such module, in whatever order `range` produces the dependencies. -/
theorem GenerateRule_srcs_sorted (order : List ModId → List ModId)
    (hperm : ∀ l, (order l).Perm l) (pkg : Pkg) (module : Module)
    (nameTemplate relPythonRoot : String) :
    List.Sorted (fun a b => strLt b a = false)
      ((GenerateRule order pkg module nameTemplate relPythonRoot).AttrStrings "srcs") ∧
    ((GenerateRule order pkg module nameTemplate relPythonRoot).AttrStrings "srcs").Perm
      (module.Filename :: module.InPkgDeps.map (fun dep => (deref pkg dep).Filename)) ∧
    ∀ file, file ∈ (GenerateRule order pkg module nameTemplate relPythonRoot).AttrStrings "srcs" ↔
      file = module.Filename ∨ ∃ dep ∈ module.InPkgDeps, (deref pkg dep).Filename = file := by
  rw [GenerateRule_srcs, ruleSrcs_eq]
  have hp : (sortStrings
      (module.Filename :: (order module.InPkgDeps).map (fun dep => (deref pkg dep).Filename))).Perm
      (module.Filename :: module.InPkgDeps.map (fun dep => (deref pkg dep).Filename)) :=
    (sortStrings_perm _).trans (((hperm _).map _).cons _)
  refine ⟨sortStrings_sorted _, hp, ?_⟩
  intro file
  rw [hp.mem_iff]
  simp [eq_comm]

/-- The rule of the module `bar` of `srcsPkg`, with `range` producing its two dependencies
`baz.py` and `__init__.py` in reverse order. -/
theorem GenerateRule_srcs_sorted_witness :
    (GenerateRule List.reverse srcsPkg (deref srcsPkg 0) "\x7bmodule_name\x7d"
      "../..").AttrStrings "srcs" = ["__init__.py", "bar.py", "baz.py"] ∧
    (List.Sorted (fun a b => strLt b a = false)
      ((GenerateRule List.reverse srcsPkg (deref srcsPkg 0) "\x7bmodule_name\x7d"
        "../..").AttrStrings "srcs") ∧
    ((GenerateRule List.reverse srcsPkg (deref srcsPkg 0) "\x7bmodule_name\x7d"
        "../..").AttrStrings "srcs").Perm
      ((deref srcsPkg 0).Filename ::
        (deref srcsPkg 0).InPkgDeps.map (fun dep => (deref srcsPkg dep).Filename)) ∧
    ∀ file, file ∈ (GenerateRule List.reverse srcsPkg (deref srcsPkg 0) "\x7bmodule_name\x7d"
        "../..").AttrStrings "srcs" ↔
      file = (deref srcsPkg 0).Filename ∨
        ∃ dep ∈ (deref srcsPkg 0).InPkgDeps, (deref srcsPkg dep).Filename = file) :=
  ⟨by decide,
   GenerateRule_srcs_sorted List.reverse (fun l => List.reverse_perm l) srcsPkg
    (deref srcsPkg 0) "\x7bmodule_name\x7d" "../.."⟩

/-! ## `ModuleName` and `ImportSpec` -/

/-- A scan of `path.Ext` that meets neither a dot nor a slash before the path ends or
a slash comes finds no extension. -/
theorem extScan_stop (r : List Char) (hr : r = [] ∨ ∃ r1, r = '/' :: r1) :
    ∀ (t acc : List Char), (∀ c ∈ t, c ≠ '.' ∧ c ≠ '/') → extScan (t ++ r) acc = [] := by
  intro t
  induction t with
  | nil =>
    intro acc _
    rcases hr with h | ⟨r1, h⟩
    · rw [h]; rfl
    · rw [h]; simp [extScan]
  | cons c t ih =>
    intro acc h
    have hc := h c (List.mem_cons_self _ _)
    rw [List.cons_append, extScan, if_neg hc.2, if_neg hc.1]
    exact ih _ (fun d hd => h d (List.mem_cons_of_mem _ hd))

/-- The statement `path.Ext(p) == ext` for an extension `ext` made of a dot and a segment:
it holds exactly of the paths that end in `ext`. -/
theorem pathExt_eq_iff (p : String) (seg : List Char)
    (hseg : ∀ c ∈ seg, c ≠ '.' ∧ c ≠ '/') :
    pathExt p = ⟨'.' :: seg⟩ ↔ ('.' :: seg) <:+ p.data := by
  constructor
  · intro h
    rcases extScan_suffix p.data.reverse [] with hnil | hsuf
    · have := congrArg String.data h
      unfold pathExt at this
      simp only at this
      rw [hnil] at this
      exact absurd this (by simp)
    · have hd := congrArg String.data h
      unfold pathExt at hd
      simp only at hd
      rw [hd] at hsuf
      simpa using hsuf
  · rintro ⟨parent, hp⟩
    have : p = ⟨parent ++ '.' :: seg⟩ := String.ext hp.symm
    rw [this]
    exact (ext_of_parts parent seg hseg).1

theorem takeWhile_parts (p seg : List Char) :
    (p ++ '.' :: seg).takeWhile (fun c => c != '.') = p.takeWhile (fun c => c != '.') := by
  induction p with
  | nil => simp
  | cons c p ih =>
    by_cases hc : c = '.'
    · simp [hc]
    · simp [List.takeWhile_cons, hc, ih]

/-- The loop of `ModuleName` on a path whose last element is `last`: it returns, and what
it returns is the path with `last` cut at its first dot. -/
theorem stripExts_spec (dir : List Char)
    (hdir : dir.reverse = [] ∨ ∃ r1, dir.reverse = '/' :: r1) :
    ∀ (fuel : Nat) (last : List Char), '/' ∉ last → last.length ≤ fuel →
      stripExts fuel ⟨dir ++ last⟩ (pathExt ⟨dir ++ last⟩) =
        some ⟨dir ++ last.takeWhile (fun c => c != '.')⟩ := by
  have hnodot : ∀ last : List Char, '/' ∉ last → (∀ c ∈ last, c ≠ '.') →
      pathExt ⟨dir ++ last⟩ = "" ∧ last.takeWhile (fun c => c != '.') = last := by
    intro last hslash hdot
    constructor
    · unfold pathExt
      simp only [List.reverse_append]
      rw [extScan_stop _ hdir _ _ (fun c hc => ⟨hdot c (List.mem_reverse.1 hc),
        fun hcs => hslash (by rw [← hcs]; exact List.mem_reverse.1 hc)⟩)]
    · rw [List.takeWhile_eq_self_iff]
      intro c hc
      simpa using hdot c hc
  intro fuel
  induction fuel with
  | zero =>
    intro last hslash hlen
    have hl : last = [] := List.length_eq_zero.1 (Nat.le_zero.1 hlen)
    subst hl
    obtain ⟨hext, _⟩ := hnodot [] hslash (by simp)
    rw [hext, stripExts, if_pos rfl]
    simp
  | succ fuel ih =>
    intro last hslash hlen
    rcases exists_parts ⟨last⟩ hslash with hdot | ⟨p, seg, hp, hseg, hps⟩
    · obtain ⟨hext, htake⟩ := hnodot last hslash hdot
      rw [hext, stripExts, if_pos rfl, htake]
    · have hlast : last = p ++ '.' :: seg := congrArg String.data hp
      subst hlast
      have hparts := ext_of_parts (dir ++ p) seg hseg
      rw [List.append_assoc] at hparts
      have hne : (⟨'.' :: seg⟩ : String) ≠ "" := by
        intro hc
        have := congrArg String.data hc
        simp at this
      rw [hparts.1, stripExts, if_neg hne]
      simp only
      rw [hparts.2, takeWhile_parts]
      apply ih p hps
      simp only [List.length_append, List.length_cons] at hlen
      omega

theorem dirPart_append_lastSegment (f : String) :
    f.data = dirPart f.data ++ (lastSegment f).data ∧
    ((dirPart f.data).reverse = [] ∨ ∃ r1, (dirPart f.data).reverse = '/' :: r1) ∧
    '/' ∉ (lastSegment f).data := by
  unfold dirPart lastSegment
  refine ⟨?_, ?_, ?_⟩
  · have := congrArg List.reverse
      (List.takeWhile_append_dropWhile (fun c => c != '/') f.data.reverse)
    rw [List.reverse_append, List.reverse_reverse] at this
    exact this.symm
  · rw [List.reverse_reverse]
    rcases hd : f.data.reverse.dropWhile (fun c => c != '/') with _ | ⟨a, rest⟩
    · exact Or.inl rfl
    · right
      have ha := List.head_dropWhile_not (fun c => c != '/') f.data.reverse
      simp only [hd] at ha
      have : a = '/' := by simpa using ha (by simp)
      exact ⟨rest, by rw [this]⟩
  · intro hmem
    have := List.mem_takeWhile_imp (List.mem_reverse.1 hmem)
    simp at this

/-- The loop of `ModuleName` returns for every file name, given fuel for its length, and
returns the name cut at the first dot of its last path element. -/
theorem stripExts_cut (fuel : Nat) (filename : String) (hfuel : filename.length ≤ fuel) :
    stripExts fuel filename (pathExt filename) = some (cutAtFirstDot filename) := by
  obtain ⟨hsplit, hdir, hslash⟩ := dirPart_append_lastSegment filename
  have hlen : (lastSegment filename).data.length ≤ fuel := by
    have : filename.length = filename.data.length := rfl
    rw [this, hsplit, List.length_append] at hfuel
    omega
  have := stripExts_spec (dirPart filename.data) hdir fuel (lastSegment filename).data
    hslash hlen
  rw [← hsplit] at this
  exact this

theorem trimSuffix_append (s suffix : String) (h : suffix.data <:+ s.data) :
    trimSuffix s suffix ++ suffix = s := by
  unfold trimSuffix
  rw [if_pos h]
  apply String.ext
  rw [String.data_append]
  obtain ⟨t, ht⟩ := h
  simp only
  rw [← ht]
  simp

/-- The replacement of one character by another, as `strings.ReplaceAll` does it with
one-character arguments. -/
theorem replaceScan_char (a b : Char) :
    ∀ s : List Char, replaceScan [a] [b] 0 s = s.map (fun c => if c = a then b else c)
  | [] => by simp [replaceScan]
  | c :: s => by
    rw [replaceScan, if_neg (by simp)]
    by_cases hc : c = a
    · have hp : [a].isPrefixOf (c :: s) = true := by simp [List.isPrefixOf, hc]
      rw [if_pos hp]
      simp only [List.length_singleton, Nat.sub_self, List.map_cons, if_pos hc,
        List.singleton_append]
      rw [replaceScan_char a b s]
    · have hp : ¬ [a].isPrefixOf (c :: s) = true := by
        simp only [List.isPrefixOf, Bool.and_true, beq_iff_eq]
        exact fun h => hc h.symm
      rw [if_neg hp, List.map_cons, if_neg hc, replaceScan_char a b s]

theorem slashesToDots_eq_ReplaceAll (s : String) : slashesToDots s = ReplaceAll s "/" "." := by
  unfold slashesToDots ReplaceAll
  rw [show "/".data = ['/'] from rfl, show ".".data = ['.'] from rfl, replaceScan_char]

theorem dotsToSlashes_eq_ReplaceAll (s : String) : dotsToSlashes s = ReplaceAll s "." "/" := by
  unfold dotsToSlashes ReplaceAll
  rw [show "/".data = ['/'] from rfl, show ".".data = ['.'] from rfl, replaceScan_char]

theorem slashesToDots_eq_empty (s : String) : slashesToDots s = "" ↔ s = "" := by
  unfold slashesToDots
  constructor
  · intro h
    have := congrArg String.data h
    simp only at this
    exact String.ext (List.map_eq_nil_iff.1 this)
  · intro h
    rw [h]
    rfl

/-- C25. `ModuleName` returns for every file name, and returns `ok = true` exactly when
the final extension of the name, as `path.Ext` gives it, is `.py` or `.so`, which is when
the name ends in `.py` or in `.so`; the type is then `py` or `so`. For every other name it
returns the empty name, the empty type and false. -/
theorem ModuleName_ok (fuel : Nat) (filename : String) (hfuel : filename.length ≤ fuel) :
    ∃ name typ ok, ModuleName fuel filename = some (name, typ, ok) ∧
      (ok = true ↔ pathExt filename = ".py" ∨ pathExt filename = ".so") ∧
      (pathExt filename = ".py" → typ = "py") ∧
      (pathExt filename = ".so" → typ = "so") ∧
      (pathExt filename ≠ ".py" → pathExt filename ≠ ".so" →
        name = "" ∧ typ = "" ∧ ok = false) ∧
      (pathExt filename = ".py" ↔ ".py".data <:+ filename.data) ∧
      (pathExt filename = ".so" ↔ ".so".data <:+ filename.data) := by
  have hpy : pathExt filename = ".py" ↔ ".py".data <:+ filename.data :=
    pathExt_eq_iff filename ['p', 'y'] (by decide)
  have hso : pathExt filename = ".so" ↔ ".so".data <:+ filename.data :=
    pathExt_eq_iff filename ['s', 'o'] (by decide)
  unfold ModuleName
  simp only
  by_cases h1 : pathExt filename = ".py"
  · rw [if_pos h1]
    by_cases h2 : filename = "__init__.py"
    · rw [if_pos h2]
      exact ⟨_, _, _, rfl, by simp [h1], fun _ => rfl, by rw [h1]; decide,
        fun h => absurd h1 h, hpy, hso⟩
    · rw [if_neg h2]
      exact ⟨_, _, _, rfl, by simp [h1], fun _ => rfl, by rw [h1]; decide,
        fun h => absurd h1 h, hpy, hso⟩
  · rw [if_neg h1]
    by_cases h2 : pathExt filename = ".so"
    · rw [if_pos h2, stripExts_cut fuel filename hfuel]
      exact ⟨_, _, _, rfl, by simp [h2], fun h => absurd h h1, fun _ => rfl,
        fun _ h => absurd h2 h, hpy, hso⟩
    · rw [if_neg h2]
      exact ⟨_, _, _, rfl, by simp [h1, h2], fun h => absurd h h1, fun h => absurd h h2,
        fun _ _ => ⟨rfl, rfl, rfl⟩, hpy, hso⟩

/-- The file names of `TestModuleName`, and a name with a directory. -/
theorem ModuleName_ok_witness :
    ModuleName 17 "foo.build-info.so" = some ("foo", "so", true) ∧
    ModuleName 0 "foo.py" = some ("foo", "py", true) ∧
    ModuleName 0 "foo.bar" = some ("", "", false) ∧
    ModuleName 0 "foo" = some ("", "", false) ∧
    ModuleName 0 "" = some ("", "", false) ∧
    ∃ name typ ok, ModuleName 17 "foo.build-info.so" = some (name, typ, ok) ∧
      (ok = true ↔ pathExt "foo.build-info.so" = ".py" ∨ pathExt "foo.build-info.so" = ".so") ∧
      (pathExt "foo.build-info.so" = ".py" → typ = "py") ∧
      (pathExt "foo.build-info.so" = ".so" → typ = "so") ∧
      (pathExt "foo.build-info.so" ≠ ".py" → pathExt "foo.build-info.so" ≠ ".so" →
        name = "" ∧ typ = "" ∧ ok = false) ∧
      (pathExt "foo.build-info.so" = ".py" ↔ ".py".data <:+ "foo.build-info.so".data) ∧
      (pathExt "foo.build-info.so" = ".so" ↔ ".so".data <:+ "foo.build-info.so".data) :=
  ⟨by decide, by decide, by decide, by decide, by decide,
   ModuleName_ok 17 "foo.build-info.so" (by decide)⟩

/-- C26. For a file name with final extension `.py`, `ModuleName` returns the name without
that extension, and the empty name for `__init__.py`. For a file name with final extension
`.so` it returns the name cut at the first dot of its last path element. The loop that
strips the extensions returns for every file name, within as many iterations as the name
has characters. -/
theorem ModuleName_name (fuel : Nat) (filename : String) (hfuel : filename.length ≤ fuel) :
    (pathExt filename = ".py" →
      ∃ name, ModuleName fuel filename = some (name, "py", true) ∧
        (filename = "__init__.py" → name = "") ∧
        (filename ≠ "__init__.py" → name ++ ".py" = filename)) ∧
    (pathExt filename = ".so" →
      ModuleName fuel filename = some (cutAtFirstDot filename, "so", true)) ∧
    stripExts fuel filename (pathExt filename) = some (cutAtFirstDot filename) := by
  refine ⟨?_, ?_, stripExts_cut fuel filename hfuel⟩
  · intro h1
    unfold ModuleName
    simp only
    rw [if_pos h1]
    by_cases h2 : filename = "__init__.py"
    · rw [if_pos h2]
      exact ⟨_, rfl, fun _ => rfl, fun h => absurd h2 h⟩
    · rw [if_neg h2]
      refine ⟨_, rfl, fun h => absurd h h2, fun _ => ?_⟩
      rw [h1]
      exact trimSuffix_append filename ".py"
        ((pathExt_eq_iff filename ['p', 'y'] (by decide)).1 h1)
  · intro h2
    have h1 : ¬ pathExt filename = ".py" := by
      rw [h2]; decide
    unfold ModuleName
    simp only
    rw [if_neg h1, if_pos h2, stripExts_cut fuel filename hfuel]

/-- The file name `foo.build-info.so` of `TestModuleName` gives `foo`; a name in a
directory whose name has a dot is cut in its last element only. -/
theorem ModuleName_name_witness :
    ModuleName 17 "foo.build-info.so" = some ("foo", "so", true) ∧
    ModuleName 10 "a.b/c.d.so" = some ("a.b/c", "so", true) ∧
    ModuleName 0 "__init__.py" = some ("", "py", true) ∧
    ModuleName 0 "foo.bar.py" = some ("foo.bar", "py", true) ∧
    ((pathExt "foo.build-info.so" = ".py" →
      ∃ name, ModuleName 17 "foo.build-info.so" = some (name, "py", true) ∧
        ("foo.build-info.so" = "__init__.py" → name = "") ∧
        ("foo.build-info.so" ≠ "__init__.py" → name ++ ".py" = "foo.build-info.so")) ∧
    (pathExt "foo.build-info.so" = ".so" →
      ModuleName 17 "foo.build-info.so" =
        some (cutAtFirstDot "foo.build-info.so", "so", true)) ∧
    stripExts 17 "foo.build-info.so" (pathExt "foo.build-info.so") =
      some (cutAtFirstDot "foo.build-info.so")) :=
  ⟨by decide, by decide, by decide, by decide,
   ModuleName_name 17 "foo.build-info.so" (by decide)⟩

/-- C27. `ImportSpec` panics exactly when the package path and the module name are both
blank. Otherwise it returns the package path with every slash replaced by a dot, joined to
the module name by one dot, when both are not blank, and the one that is not blank (the
package path with its slashes replaced) otherwise. -/
theorem ImportSpec_spec (pkgPath moduleName : String) :
    (ImportSpec pkgPath moduleName = none ↔ pkgPath = "" ∧ moduleName = "") ∧
    (pkgPath ≠ "" → moduleName ≠ "" →
      ImportSpec pkgPath moduleName = some (slashesToDots pkgPath ++ "." ++ moduleName)) ∧
    (pkgPath ≠ "" → moduleName = "" →
      ImportSpec pkgPath moduleName = some (slashesToDots pkgPath)) ∧
    (pkgPath = "" → moduleName ≠ "" → ImportSpec pkgPath moduleName = some moduleName) ∧
    slashesToDots pkgPath = ReplaceAll pkgPath "/" "." := by
  refine ⟨?_, ?_, ?_, ?_, slashesToDots_eq_ReplaceAll pkgPath⟩
  · unfold ImportSpec
    by_cases h : pkgPath = "" ∧ moduleName = ""
    · rw [if_pos h]; simp [h]
    · rw [if_neg h]
      constructor
      · intro hc
        exfalso
        by_cases hm : moduleName = "" <;> simp [hm] at hc
      · intro hc
        exact absurd hc h
  · intro hp hm
    have hd : slashesToDots pkgPath ≠ "" := fun hc => hp ((slashesToDots_eq_empty _).1 hc)
    unfold ImportSpec
    rw [if_neg (fun h => hp h.1)]
    simp only [ne_eq, hp, not_false_eq_true, if_true, hm, hd]
  · intro hp hm
    unfold ImportSpec
    rw [if_neg (fun h => hp h.1)]
    simp [hp, hm]
  · intro hp hm
    unfold ImportSpec
    rw [if_neg (fun h => hm h.2)]
    simp [hp, hm]

/-! ## `readExternalModuleMapTSV` -/

theorem recordSpec_some (record : List String) (key : String)
    (h : recordSpec record = some key) :
    ∃ dist pkg moduleName typ tail, record = dist :: pkg :: moduleName :: typ :: tail ∧
      ImportSpec pkg moduleName = some key := by
  unfold recordSpec at h
  split at h
  · exact ⟨_, _, _, _, _, rfl, h⟩
  · simp at h

/-- The body of the loop on a record that yields no specifier: a panic. -/
theorem tsvStep_none (namePrefix : String) (res : ExternalModuleMap) (record : List String)
    (h : recordSpec record = none) : tsvStep namePrefix res record = .panic := by
  unfold recordSpec at h
  unfold tsvStep
  split
  · rename_i dist pkg moduleName typ tail
    simp only at h
    rw [h]
  · rfl

/-- The body of the loop on a record that yields the specifier `key`. -/
theorem tsvStep_some (namePrefix : String) (res : ExternalModuleMap)
    (dist pkg moduleName typ : String) (tail : List String) (key : String)
    (h : ImportSpec pkg moduleName = some key) :
    tsvStep namePrefix res (dist :: pkg :: moduleName :: typ :: tail) =
      match res.lookup key with
      | some val => if val.ModuleType = typ then .duplicate key val.Dist dist else .ok res
      | none => .ok (res ++ [(key, tsvEntry namePrefix dist pkg moduleName typ)]) := by
  unfold tsvStep
  simp only [h]

theorem firstRecord_append_singleton (pre : List (List String)) (record : List String)
    (key : String) :
    firstRecord (pre ++ [record]) key =
      match firstRecord pre key with
      | some first => some first
      | none => if recordSpec record = some key then some record else none := by
  unfold firstRecord
  rw [List.find?_append]
  cases List.find? (fun record => decide (recordSpec record = some key)) pre with
  | some first => rfl
  | none =>
    by_cases hk : recordSpec record = some key
    · simp [List.find?_cons, hk]
    · simp [List.find?_cons, hk]

/-- One iteration of the loop that does not fail keeps the map the map of the firsts. -/
theorem holdsFirsts_step (namePrefix : String) (pre : List (List String))
    (res res1 : ExternalModuleMap) (record : List String)
    (hinv : holdsFirsts namePrefix pre res)
    (hstep : tsvStep namePrefix res record = .ok res1) :
    holdsFirsts namePrefix (pre ++ [record]) res1 ∧
    ∃ key, recordSpec record = some key ∧
      ∀ first, firstRecord pre key = some first → recordKind first ≠ recordKind record := by
  cases hspec : recordSpec record with
  | none =>
    rw [tsvStep_none namePrefix res record hspec] at hstep
    exact absurd hstep (by simp)
  | some k =>
    obtain ⟨dist, pkg, moduleName, typ, tail, hrec, himp⟩ := recordSpec_some record k hspec
    subst hrec
    rw [tsvStep_some namePrefix res dist pkg moduleName typ tail k himp] at hstep
    have hk := hinv k
    cases hlook : res.lookup k with
    | some val =>
      rw [hlook] at hstep hk
      simp only at hstep
      by_cases hty : val.ModuleType = typ
      · rw [if_pos hty] at hstep
        exact absurd hstep (by simp)
      · rw [if_neg hty] at hstep
        have hres : res1 = res := by
          injection hstep with h
          exact h.symm
        subst hres
        refine ⟨?_, k, rfl, ?_⟩
        · intro key
          rw [firstRecord_append_singleton, hinv key]
          cases hf : firstRecord pre key with
          | some first => rfl
          | none =>
            by_cases hkey : recordSpec (dist :: pkg :: moduleName :: typ :: tail) = some key
            · have : k = key := by
                rw [hspec] at hkey
                exact Option.some.inj hkey
              subst this
              rw [hf] at hk
              simp at hk
            · simp [hkey]
        · intro first hfirst hkind
          rw [hfirst] at hk
          obtain ⟨d, p, m, t, tl, hf, _⟩ : ∃ d p m t tl, first = d :: p :: m :: t :: tl ∧
              ImportSpec p m = some k := by
            have := List.find?_some hfirst
            exact recordSpec_some first k (by simpa using this)
          subst hf
          simp only [recordEntry, Option.some_bind, Option.some.injEq] at hk
          apply hty
          rw [hk]
          simp only [recordKind, Option.some.injEq] at hkind
          exact hkind
    | none =>
      rw [hlook] at hstep hk
      simp only at hstep
      have hres : res1 = res ++ [(k, tsvEntry namePrefix dist pkg moduleName typ)] := by
        injection hstep with h
        exact h.symm
      subst hres
      have hnofirst : firstRecord pre k = none := by
        cases hf : firstRecord pre k with
        | none => rfl
        | some first =>
          rw [hf] at hk
          obtain ⟨d, p, m, t, tl, hfr, _⟩ : ∃ d p m t tl, first = d :: p :: m :: t :: tl ∧
              ImportSpec p m = some k := by
            have := List.find?_some hf
            exact recordSpec_some first k (by simpa using this)
          subst hfr
          simp [recordEntry] at hk
      refine ⟨?_, k, rfl, ?_⟩
      · intro key
        rw [firstRecord_append_singleton,
          lookup_append_new k key _ res (by rw [hlook]; rfl)]
        by_cases hkey : key = k
        · subst hkey
          rw [if_pos rfl, hnofirst]
          simp [hspec, recordEntry]
        · rw [if_neg hkey, hinv key]
          have hne : ¬ recordSpec (dist :: pkg :: moduleName :: typ :: tail) = some key := by
            rw [hspec]
            intro hc
            exact hkey (Option.some.inj hc).symm
          cases hf : firstRecord pre key with
          | some first => rfl
          | none => simp [hne]
      · intro first hfirst
        rw [hnofirst] at hfirst
        exact absurd hfirst (by simp)

theorem tsvLoop_cons_ok (namePrefix : String) (record : List String)
    (rest : List (List String)) (res res1 : ExternalModuleMap)
    (h : tsvStep namePrefix res record = .ok res1) :
    tsvLoop namePrefix (record :: rest) res = tsvLoop namePrefix rest res1 := by
  rw [tsvLoop, h]

theorem tsvLoop_cons_inv (namePrefix : String) (record : List String)
    (rest : List (List String)) (res res2 : ExternalModuleMap)
    (h : tsvLoop namePrefix (record :: rest) res = .ok res2) :
    ∃ res1, tsvStep namePrefix res record = .ok res1 ∧
      tsvLoop namePrefix rest res1 = .ok res2 := by
  rw [tsvLoop] at h
  cases hstep : tsvStep namePrefix res record with
  | ok res1 =>
    rw [hstep] at h
    exact ⟨res1, rfl, h⟩
  | csvError err => rw [hstep] at h; exact absurd h (by simp)
  | duplicate a b c => rw [hstep] at h; exact absurd h (by simp)
  | panic => rw [hstep] at h; exact absurd h (by simp)

/-- A run of the loop that returns a map: every record yields a specifier, the map is the
map of the firsts, and no record has the kind of the first record of its specifier. -/
theorem tsvLoop_ok (namePrefix : String) :
    ∀ (records pre : List (List String)) (res res2 : ExternalModuleMap),
      holdsFirsts namePrefix pre res →
      tsvLoop namePrefix records res = .ok res2 →
      holdsFirsts namePrefix (pre ++ records) res2 ∧
      (∀ record ∈ records, (recordSpec record).isSome = true) ∧
      ¬ clashIn pre records := by
  intro records
  induction records with
  | nil =>
    intro pre res res2 hinv hrun
    rw [tsvLoop] at hrun
    have : res2 = res := by
      injection hrun with h
      exact h.symm
    subst this
    refine ⟨by simpa using hinv, by simp, ?_⟩
    rintro ⟨before, record, after, _, _, hsplit, _⟩
    simp at hsplit
  | cons record rest ih =>
    intro pre res res2 hinv hrun
    obtain ⟨res1, hstep, hrest⟩ := tsvLoop_cons_inv namePrefix record rest res res2 hrun
    obtain ⟨hinv1, k, hspec, hkind⟩ := holdsFirsts_step namePrefix pre res res1 record hinv hstep
    obtain ⟨hinv2, hwf, hclash⟩ := ih (pre ++ [record]) res1 res2 hinv1 hrest
    refine ⟨by simpa using hinv2, ?_, ?_⟩
    · intro r hr
      rcases List.mem_cons.1 hr with h | h
      · rw [h, hspec]; rfl
      · exact hwf r h
    · rintro ⟨before, r, after, key, first, hsplit, hkey, hfirst, hsame⟩
      cases before with
      | nil =>
        simp only [List.nil_append, List.cons.injEq] at hsplit
        obtain ⟨h1, _⟩ := hsplit
        subst h1
        rw [hspec] at hkey
        have : k = key := Option.some.inj hkey
        subst this
        rw [List.append_nil] at hfirst
        exact hkind first hfirst hsame
      | cons b before =>
        simp only [List.cons_append, List.cons.injEq] at hsplit
        obtain ⟨h1, h2⟩ := hsplit
        subst h1
        apply hclash
        exact ⟨before, r, after, key, first, h2, hkey, by simpa using hfirst, hsame⟩

theorem readTSV_ok (allRecords : List (List String)) (namePrefix : String)
    (res : ExternalModuleMap)
    (h : readExternalModuleMapTSV (.ok allRecords) namePrefix = .ok res) :
    holdsFirsts namePrefix allRecords res ∧
    (∀ record ∈ allRecords, (recordSpec record).isSome = true) ∧
    ¬ clashIn [] allRecords := by
  have := tsvLoop_ok namePrefix allRecords [] [] res (fun key => by simp [firstRecord]) h
  simpa using this

/-- The first record for a key yields the key. -/
theorem firstRecord_spec (records : List (List String)) (key : String) (first : List String)
    (h : firstRecord records key = some first) :
    first ∈ records ∧ recordSpec first = some key := by
  unfold firstRecord at h
  exact ⟨List.mem_of_find?_eq_some h, by simpa using List.find?_some h⟩

theorem firstRecord_isSome (records : List (List String)) (record : List String)
    (key : String) (hmem : record ∈ records) (hspec : recordSpec record = some key) :
    (firstRecord records key).isSome = true := by
  unfold firstRecord
  rw [List.find?_isSome]
  exact ⟨record, hmem, by simpa using hspec⟩

theorem dotsToSlashes_eq_empty (s : String) : dotsToSlashes s = "" ↔ s = "" := by
  unfold dotsToSlashes
  constructor
  · intro h
    have := congrArg String.data h
    simp only at this
    exact String.ext (List.map_eq_nil_iff.1 this)
  · intro h
    rw [h]
    rfl

theorem slashesToDots_dotsToSlashes (s : String) :
    slashesToDots (dotsToSlashes s) = slashesToDots s := by
  unfold slashesToDots dotsToSlashes
  simp only [List.map_map]
  congr 1
  apply List.map_congr_left
  intro c _
  by_cases h1 : c = '.'
  · subst h1; simp
  · by_cases h2 : c = '/'
    · subst h2; simp
    · simp [h1, h2]

/-- The key under which a record is stored is also the specifier of the path and the module
of its entry. -/
theorem ImportSpec_dotsToSlashes (pkg moduleName : String) :
    ImportSpec (dotsToSlashes pkg) moduleName = ImportSpec pkg moduleName := by
  unfold ImportSpec
  simp only [dotsToSlashes_eq_empty, slashesToDots_dotsToSlashes, ne_eq]

/-- C28. When `readExternalModuleMapTSV` returns a map for the records of a manifest, each
entry of the map has the target `@` + prefix + `Dist` + `//:pkg`, is made of the columns of
a record of the manifest, with the dots of the package path replaced by slashes, and
stands under the key `ImportSpec(PkgPath, Module)`; and the specifier of every record is
a key of the map. -/
theorem readTSV_entries (allRecords : List (List String)) (namePrefix : String)
    (res : ExternalModuleMap)
    (h : readExternalModuleMapTSV (.ok allRecords) namePrefix = .ok res) :
    (∀ key entry, res.lookup key = some entry →
      entry.BazelTarget = "@" ++ namePrefix ++ entry.Dist ++ "//:pkg" ∧
      ImportSpec entry.PkgPath entry.Module = some key ∧
      ∃ dist pkg moduleName typ tail, dist :: pkg :: moduleName :: typ :: tail ∈ allRecords ∧
        entry.Dist = dist ∧ entry.PkgPath = ReplaceAll pkg "." "/" ∧
        entry.Module = moduleName ∧ entry.ModuleType = typ ∧
        ImportSpec pkg moduleName = some key) ∧
    (∀ record ∈ allRecords, ∃ dist pkg moduleName typ tail key,
      record = dist :: pkg :: moduleName :: typ :: tail ∧
      ImportSpec pkg moduleName = some key ∧ (res.lookup key).isSome = true) := by
  obtain ⟨hfirsts, hwf, _⟩ := readTSV_ok allRecords namePrefix res h
  constructor
  · intro key entry hlook
    rw [hfirsts key] at hlook
    cases hf : firstRecord allRecords key with
    | none => rw [hf] at hlook; simp at hlook
    | some first =>
      rw [hf] at hlook
      obtain ⟨hmem, hspec⟩ := firstRecord_spec allRecords key first hf
      obtain ⟨dist, pkg, moduleName, typ, tail, hrec, himp⟩ := recordSpec_some first key hspec
      subst hrec
      simp only [recordEntry, Option.some_bind, Option.some.injEq] at hlook
      subst hlook
      refine ⟨rfl, ?_, dist, pkg, moduleName, typ, tail, hmem, rfl, ?_, rfl, rfl, himp⟩
      · show ImportSpec (dotsToSlashes pkg) moduleName = some key
        rw [ImportSpec_dotsToSlashes, himp]
      · exact dotsToSlashes_eq_ReplaceAll pkg
  · intro record hmem
    cases hspec : recordSpec record with
    | none =>
      have := hwf record hmem
      rw [hspec] at this
      simp at this
    | some key =>
      obtain ⟨dist, pkg, moduleName, typ, tail, hrec, himp⟩ := recordSpec_some record key hspec
      refine ⟨dist, pkg, moduleName, typ, tail, key, hrec, himp, ?_⟩
      rw [hfirsts key]
      have hsome := firstRecord_isSome allRecords record key hmem hspec
      cases hf : firstRecord allRecords key with
      | none => rw [hf] at hsome; simp at hsome
      | some first =>
        obtain ⟨_, hfs⟩ := firstRecord_spec allRecords key first hf
        obtain ⟨d, p, m, t, tl, hfr, _⟩ := recordSpec_some first key hfs
        subst hfr
        simp [recordEntry]

/-- The manifest of `TestReadManifest`, with the prefix `pre_`. -/
theorem readTSV_entries_witness :
    readExternalModuleMapTSV (.ok testRecords) "pre_" = .ok
      [ ("pkg1.pkg2.mod", { Dist := "dist1", PkgPath := "pkg1/pkg2", Module := "mod",
                            BazelTarget := "@pre_dist1//:pkg", ModuleType := "py" }),
        ("mod", { Dist := "dist2", PkgPath := "", Module := "mod",
                  BazelTarget := "@pre_dist2//:pkg", ModuleType := "so" }),
        ("pkg", { Dist := "dist3", PkgPath := "pkg", Module := "",
                  BazelTarget := "@pre_dist3//:pkg", ModuleType := "py" }) ] ∧
    ∃ res, readExternalModuleMapTSV (.ok testRecords) "pre_" = .ok res ∧
    (∀ key entry, res.lookup key = some entry →
      entry.BazelTarget = "@" ++ "pre_" ++ entry.Dist ++ "//:pkg" ∧
      ImportSpec entry.PkgPath entry.Module = some key ∧
      ∃ dist pkg moduleName typ tail, dist :: pkg :: moduleName :: typ :: tail ∈ testRecords ∧
        entry.Dist = dist ∧ entry.PkgPath = ReplaceAll pkg "." "/" ∧
        entry.Module = moduleName ∧ entry.ModuleType = typ ∧
        ImportSpec pkg moduleName = some key) ∧
    (∀ record ∈ testRecords, ∃ dist pkg moduleName typ tail key,
      record = dist :: pkg :: moduleName :: typ :: tail ∧
      ImportSpec pkg moduleName = some key ∧ (res.lookup key).isSome = true) :=
  ⟨by decide, _, rfl, readTSV_entries testRecords "pre_" _ rfl⟩

/-- The body of the loop on a record whose specifier has a first record already. -/
theorem tsvStep_first (namePrefix : String) (pre : List (List String))
    (res : ExternalModuleMap) (record first : List String) (key : String)
    (hinv : holdsFirsts namePrefix pre res) (hspec : recordSpec record = some key)
    (hfirst : firstRecord pre key = some first) :
    (recordKind first = recordKind record →
      ∃ dist1 dist2, tsvStep namePrefix res record = .duplicate key dist1 dist2) ∧
    (recordKind first ≠ recordKind record → tsvStep namePrefix res record = .ok res) := by
  obtain ⟨dist, pkg, moduleName, typ, tail, hrec, himp⟩ := recordSpec_some record key hspec
  subst hrec
  obtain ⟨_, hfs⟩ := firstRecord_spec pre key first hfirst
  obtain ⟨d, p, m, t, tl, hfr, _⟩ := recordSpec_some first key hfs
  subst hfr
  have hlook : res.lookup key = some (tsvEntry namePrefix d p m t) := by
    rw [hinv key, hfirst]
    rfl
  rw [tsvStep_some namePrefix res dist pkg moduleName typ tail key himp, hlook]
  simp only [recordKind, Option.some.injEq, tsvEntry]
  constructor
  · intro h
    rw [if_pos h]
    exact ⟨_, _, rfl⟩
  · intro h
    rw [if_neg (fun hc => h (congrArg some hc))]

/-- The body of the loop on the first record for a specifier. -/
theorem tsvStep_new (namePrefix : String) (pre : List (List String))
    (res : ExternalModuleMap) (record : List String) (key : String)
    (hinv : holdsFirsts namePrefix pre res) (hspec : recordSpec record = some key)
    (hfirst : firstRecord pre key = none) :
    ∃ entry, recordEntry namePrefix record = some entry ∧
      tsvStep namePrefix res record = .ok (res ++ [(key, entry)]) := by
  obtain ⟨dist, pkg, moduleName, typ, tail, hrec, himp⟩ := recordSpec_some record key hspec
  subst hrec
  have hlook : res.lookup key = none := by
    rw [hinv key, hfirst]
    rfl
  rw [tsvStep_some namePrefix res dist pkg moduleName typ tail key himp, hlook]
  exact ⟨_, rfl, rfl⟩

/-- A record that does not clash with the records before it can be counted among them. -/
theorem clashIn_cons (pre rest : List (List String)) (record : List String) (key : String)
    (hspec : recordSpec record = some key)
    (hno : ∀ first, firstRecord pre key = some first → recordKind first ≠ recordKind record) :
    clashIn pre (record :: rest) ↔ clashIn (pre ++ [record]) rest := by
  constructor
  · rintro ⟨before, r, after, k, first, hsplit, hkey, hfirst, hsame⟩
    cases before with
    | nil =>
      simp only [List.nil_append, List.cons.injEq] at hsplit
      obtain ⟨h1, _⟩ := hsplit
      subst h1
      rw [hspec] at hkey
      have : key = k := Option.some.inj hkey
      subst this
      rw [List.append_nil] at hfirst
      exact absurd hsame (hno first hfirst)
    | cons b before =>
      simp only [List.cons_append, List.cons.injEq] at hsplit
      obtain ⟨h1, h2⟩ := hsplit
      subst h1
      exact ⟨before, r, after, k, first, h2, hkey, by simpa using hfirst, hsame⟩
  · rintro ⟨before, r, after, k, first, hsplit, hkey, hfirst, hsame⟩
    exact ⟨record :: before, r, after, k, first, by rw [hsplit]; rfl, hkey,
      by simpa using hfirst, hsame⟩

/-- On records that all yield a specifier, the loop ends with the error on duplicate
entries exactly when some record clashes with the first record of its specifier, and
returns a map otherwise. -/
theorem tsvLoop_duplicate (namePrefix : String) :
    ∀ (records pre : List (List String)) (res : ExternalModuleMap),
      holdsFirsts namePrefix pre res →
      (∀ record ∈ records, (recordSpec record).isSome = true) →
      ((∃ key dist1 dist2, tsvLoop namePrefix records res = .duplicate key dist1 dist2) ↔
        clashIn pre records) ∧
      (¬ clashIn pre records → ∃ res2, tsvLoop namePrefix records res = .ok res2) := by
  intro records
  induction records with
  | nil =>
    intro pre res _ _
    have hno : ¬ clashIn pre [] := by
      rintro ⟨before, record, after, _, _, hsplit, _⟩
      simp at hsplit
    refine ⟨⟨?_, fun h => absurd h hno⟩, fun _ => ⟨res, rfl⟩⟩
    rintro ⟨_, _, _, h⟩
    rw [tsvLoop] at h
    exact absurd h (by simp)
  | cons record rest ih =>
    intro pre res hinv hwf
    have hwfr := hwf record (List.mem_cons_self _ _)
    have hwfrest : ∀ r ∈ rest, (recordSpec r).isSome = true :=
      fun r hr => hwf r (List.mem_cons_of_mem _ hr)
    obtain ⟨key, hspec⟩ := Option.isSome_iff_exists.1 hwfr
    by_cases hclash : ∃ first, firstRecord pre key = some first ∧
        recordKind first = recordKind record
    · obtain ⟨first, hfirst, hsame⟩ := hclash
      obtain ⟨d1, d2, hstep⟩ :=
        (tsvStep_first namePrefix pre res record first key hinv hspec hfirst).1 hsame
      have hcl : clashIn pre (record :: rest) :=
        ⟨[], record, rest, key, first, rfl, hspec, by simpa using hfirst, hsame⟩
      have hrun : tsvLoop namePrefix (record :: rest) res = .duplicate key d1 d2 := by
        rw [tsvLoop, hstep]
      exact ⟨⟨fun _ => hcl, fun _ => ⟨_, _, _, hrun⟩⟩, fun h => absurd hcl h⟩
    · have hno : ∀ first, firstRecord pre key = some first →
          recordKind first ≠ recordKind record :=
        fun first hf hs => hclash ⟨first, hf, hs⟩
      have hstep : ∃ res1, tsvStep namePrefix res record = .ok res1 := by
        cases hf : firstRecord pre key with
        | some first =>
          exact ⟨res, (tsvStep_first namePrefix pre res record first key hinv hspec hf).2
            (hno first hf)⟩
        | none =>
          obtain ⟨entry, _, h⟩ := tsvStep_new namePrefix pre res record key hinv hspec hf
          exact ⟨_, h⟩
      obtain ⟨res1, hstep⟩ := hstep
      obtain ⟨hinv1, _⟩ := holdsFirsts_step namePrefix pre res res1 record hinv hstep
      rw [tsvLoop_cons_ok namePrefix record rest res res1 hstep,
        clashIn_cons pre rest record key hspec hno]
      exact ih (pre ++ [record]) res1 hinv1 hwfrest

theorem tsvLoop_append (namePrefix : String) (after : List (List String)) :
    ∀ (before : List (List String)) (res : ExternalModuleMap),
      tsvLoop namePrefix (before ++ after) res =
        match tsvLoop namePrefix before res with
        | .ok res1 => tsvLoop namePrefix after res1
        | failure => failure
  | [], res => by simp [tsvLoop]
  | record :: before, res => by
    rw [List.cons_append, tsvLoop, tsvLoop]
    cases hstep : tsvStep namePrefix res record with
    | ok res1 => exact tsvLoop_append namePrefix after before res1
    | csvError err => rfl
    | duplicate a b c => rfl
    | panic => rfl

/-- C29 as stated fails. In `mixedKindRecords` the second and the third record yield the
same specifier and have the same kind `so`, and `readExternalModuleMapTSV` returns a map,
with the entry of the first record: a record is compared with the entry stored for its
specifier only, which is that of the first record. -/
theorem same_kind_records_tolerated :
    recordSpec ["d2", "pkg", "", "so"] = recordSpec ["d3", "pkg", "", "so"] ∧
    recordKind ["d2", "pkg", "", "so"] = recordKind ["d3", "pkg", "", "so"] ∧
    mixedKindRecords = [["d1", "pkg", "", "py"], ["d2", "pkg", "", "so"], ["d3", "pkg", "", "so"]] ∧
    readExternalModuleMapTSV (.ok mixedKindRecords) "" = .ok
      [("pkg", { Dist := "d1", PkgPath := "pkg", Module := "", BazelTarget := "@d1//:pkg",
                 ModuleType := "py" })] ∧
    ¬ ∃ key dist1 dist2,
      readExternalModuleMapTSV (.ok mixedKindRecords) "" = .duplicate key dist1 dist2 := by
  refine ⟨by decide, by decide, rfl, by decide, ?_⟩
  rintro ⟨key, dist1, dist2, h⟩
  have hok : readExternalModuleMapTSV (.ok mixedKindRecords) "" = .ok
      [("pkg", { Dist := "d1", PkgPath := "pkg", Module := "", BazelTarget := "@d1//:pkg",
                 ModuleType := "py" })] := by decide
  rw [hok] at h
  exact absurd h (by simp)

/-- C29, amended. For every manifest whose records all have four columns and a package
path or a module name, `readExternalModuleMapTSV` fails with the error on duplicate entries
exactly when some record has the import specifier and the module kind of the first record
of the manifest with that specifier; otherwise it returns a map. Records that share a
specifier and a kind with one another, and not with the first record of the specifier, are
tolerated. -/
theorem readTSV_duplicate (allRecords : List (List String)) (namePrefix : String)
    (hwf : ∀ record ∈ allRecords, (recordSpec record).isSome = true) :
    ((∃ key dist1 dist2,
        readExternalModuleMapTSV (.ok allRecords) namePrefix = .duplicate key dist1 dist2) ↔
      clashIn [] allRecords) ∧
    (¬ clashIn [] allRecords →
      ∃ res, readExternalModuleMapTSV (.ok allRecords) namePrefix = .ok res) :=
  tsvLoop_duplicate namePrefix allRecords [] [] (fun key => by simp [firstRecord]) hwf

/-- A third record of the specifier and the kind of the first one, behind a record of
another kind: the error names the distributions of the first and the third record. -/
theorem readTSV_duplicate_witness :
    readExternalModuleMapTSV
      (.ok [["d1", "pkg", "", "py"], ["d2", "pkg", "", "so"], ["d3", "pkg", "", "py"]]) "" =
      .duplicate "pkg" "d1" "d3" ∧
    (((∃ key dist1 dist2,
        readExternalModuleMapTSV
          (.ok [["d1", "pkg", "", "py"], ["d2", "pkg", "", "so"], ["d3", "pkg", "", "py"]]) "" =
          .duplicate key dist1 dist2) ↔
      clashIn [] [["d1", "pkg", "", "py"], ["d2", "pkg", "", "so"], ["d3", "pkg", "", "py"]]) ∧
    (¬ clashIn [] [["d1", "pkg", "", "py"], ["d2", "pkg", "", "so"], ["d3", "pkg", "", "py"]] →
      ∃ res, readExternalModuleMapTSV
        (.ok [["d1", "pkg", "", "py"], ["d2", "pkg", "", "so"], ["d3", "pkg", "", "py"]]) "" =
        .ok res)) :=
  ⟨by decide,
   readTSV_duplicate [["d1", "pkg", "", "py"], ["d2", "pkg", "", "so"], ["d3", "pkg", "", "py"]]
    "" (by decide)⟩

/-- C30. When `readExternalModuleMapTSV` returns a map, the entry under each import
specifier is the entry made of the first record of the manifest with that specifier. A
further record with a specifier that a record before it has, and of another kind than the
first record of that specifier, is tolerated and changes nothing: with it the function
returns the same map. -/
theorem readTSV_first_kept (allRecords : List (List String)) (namePrefix : String)
    (res : ExternalModuleMap)
    (h : readExternalModuleMapTSV (.ok allRecords) namePrefix = .ok res) :
    (∀ key, res.lookup key = (firstRecord allRecords key).bind (recordEntry namePrefix)) ∧
    ∀ before after record key first, allRecords = before ++ after →
      recordSpec record = some key → firstRecord before key = some first →
      recordKind first ≠ recordKind record →
      readExternalModuleMapTSV (.ok (before ++ record :: after)) namePrefix = .ok res := by
  refine ⟨(readTSV_ok allRecords namePrefix res h).1, ?_⟩
  intro before after record key first hsplit hspec hfirst hkind
  subst hsplit
  have hrun : tsvLoop namePrefix (before ++ after) [] = .ok res := h
  rw [tsvLoop_append] at hrun
  show tsvLoop namePrefix (before ++ record :: after) [] = .ok res
  rw [tsvLoop_append]
  cases hb : tsvLoop namePrefix before [] with
  | ok res1 =>
    rw [hb] at hrun
    simp only at hrun ⊢
    obtain ⟨hinv, _, _⟩ := tsvLoop_ok namePrefix before [] [] res1
      (fun key => by simp [firstRecord]) hb
    have hstep := (tsvStep_first namePrefix before res1 record first key
      (by simpa using hinv) hspec hfirst).2 hkind
    rw [tsvLoop_cons_ok namePrefix record after res1 res1 hstep]
    exact hrun
  | csvError err => rw [hb] at hrun; exact absurd hrun (by simp)
  | duplicate a b c => rw [hb] at hrun; exact absurd hrun (by simp)
  | panic => rw [hb] at hrun; exact absurd hrun (by simp)

/-- The records of `mixedKindRecords`: the map holds the entry of the first record, and a
further record of kind `so` changes nothing. -/
theorem readTSV_first_kept_witness :
    readExternalModuleMapTSV (.ok mixedKindRecords) "pip_" = .ok
      [("pkg", { Dist := "d1", PkgPath := "pkg", Module := "", BazelTarget := "@pip_d1//:pkg",
                 ModuleType := "py" })] ∧
    ∃ res, readExternalModuleMapTSV (.ok mixedKindRecords) "pip_" = .ok res ∧
    (∀ key, res.lookup key = (firstRecord mixedKindRecords key).bind (recordEntry "pip_")) ∧
    ∀ before after record key first, mixedKindRecords = before ++ after →
      recordSpec record = some key → firstRecord before key = some first →
      recordKind first ≠ recordKind record →
      readExternalModuleMapTSV (.ok (before ++ record :: after)) "pip_" = .ok res :=
  ⟨by decide, _, rfl, readTSV_first_kept mixedKindRecords "pip_" _ rfl⟩

/-! ## The analysis of a package -/

theorem perm_pair {α : Type} (a b : α) (l : List α) (h : l.Perm [a, b]) :
    l = [a, b] ∨ l = [b, a] := by
  have hlen := h.length_eq
  match l, hlen with
  | [x, y], _ =>
    have hx : x ∈ [a, b] := h.subset (List.mem_cons_self _ _)
    have hy : y ∈ [a, b] := h.subset (List.mem_cons_of_mem _ (List.mem_cons_self _ _))
    have ha : a ∈ [x, y] := h.symm.subset (List.mem_cons_self _ _)
    have hb : b ∈ [x, y] := h.symm.subset (List.mem_cons_of_mem _ (List.mem_cons_self _ _))
    simp only [List.mem_cons, List.mem_singleton, List.not_mem_nil, or_false] at hx hy ha hb
    rcases hx with rfl | rfl
    · rcases hy with rfl | rfl
      · rcases hb with rfl | rfl <;> exact Or.inl rfl
      · exact Or.inl rfl
    · rcases hy with rfl | rfl
      · exact Or.inr rfl
      · rcases ha with rfl | rfl <;> exact Or.inl rfl

/-- The result of `Parse` on a file that holds one `import` of one name. -/
theorem Parse_single_import (order : List String → List String)
    (hperm : ∀ l, (order l).Perm l) (fuel : Nat) (name : String) :
    Parse order (fuel + 1) [.Import [name]] = some ⟨[name], false⟩ := by
  have horder : order [name] = [name] := List.perm_singleton.1 (hperm [name])
  have hwalk : walkStmts (fuel + 1) [.Import [name]] initialState =
      some { noteVisit initialState (.Import [name]) with importedSet := [name] } := by
    simp [walkStmts, Walk_Import, initialState, setInsert]
  rw [Parse_eq order (fuel + 1) _ _ hwalk]
  simp only [horder]
  rfl

/-- On a package in which the `InPkgDeps` of every module are closed already, the second
loop of `analyzePythonPackage` changes nothing. -/
theorem closeAll_of_closed (order : List ModId → List ModId) (fuel : Nat) (pkg : Pkg)
    (hcl : ∀ m, ∀ y ∈ depsOf pkg m, ∀ z ∈ depsOf pkg y, z ∈ depsOf pkg m ∨ z = m) :
    ∀ qs : List ModId, closeAll order (fuel + 1) pkg qs = some pkg := by
  intro qs
  unfold closeAll
  apply foldlM_option_const
  intro m _
  exact DepsClosure_of_closed order fuel pkg m (hcl m)

/-- The analysis of the package at the Python root whose files are `first.py`, which
imports `second`, and `second.py`, which imports `first`: the two modules hold one
another in their `InPkgDeps`, and neither has an external import. -/
theorem analyze_cycle_ab (ranges : Ranges) (himports : ∀ l, (ranges.imports l).Perm l)
    (hprocess : ∀ l, (ranges.process l).Perm l) (fuel : Nat) (files : Files)
    (ha : files.source "a.py" = some [.Import ["b"]])
    (hb : files.source "b.py" = some [.Import ["a"]]) (subDirs : List String) :
    analyzePythonPackage ranges (fuel + 1) files "" subDirs ["a.py", "b.py"] =
      .ok ([rootModule "a" "b" [1] [], rootModule "b" "a" [0] []], [0, 1]) := by
  have hcollect : collectFiles ranges (fuel + 1) files "" ["a.py", "b.py"]
      { importSpecs := [], moduleMap := [], pkg := [] } =
      .ok { importSpecs := ["a", "b"], moduleMap := [("a", 0), ("b", 1)],
            pkg := [rootModule "a" "b" [] [], rootModule "b" "a" [] []] } := by
    have h1 : ModuleName (fuel + 1) "a.py" = some ("a", "py", true) := rfl
    have h2 : ModuleName (fuel + 1) "b.py" = some ("b", "py", true) := rfl
    simp only [collectFiles, collectFile, h1, h2, ha, hb,
      Parse_single_import ranges.imports himports fuel]
    rfl
  unfold analyzePythonPackage
  rw [hcollect]
  simp only
  have hproc : ∀ subPackages : List String,
      processAll [rootModule "a" "b" [] [], rootModule "b" "a" [] []] [("a", 0), ("b", 1)]
        subPackages (ranges.process [0, 1]) =
      [rootModule "a" "b" [1] [], rootModule "b" "a" [0] []] := by
    intro subPackages
    rcases perm_pair 0 1 _ (hprocess [0, 1]) with h | h <;> rw [h] <;> rfl
  rw [show List.map Prod.snd [("a", 0), ("b", 1)] = [0, 1] from rfl, hproc,
    closeAll_of_closed ranges.deps fuel _ (by
      intro m y hy z hz
      match m with
      | 0 =>
        have : y = 1 := by simpa [depsOf, rootModule] using hy
        subst this
        right
        simpa [depsOf, rootModule] using hz
      | 1 =>
        have : y = 0 := by simpa [depsOf, rootModule] using hy
        subst this
        right
        simpa [depsOf, rootModule] using hz
      | n + 2 => simp [depsOf] at hy)]
  rfl

theorem analyze_cycle_ba (ranges : Ranges) (himports : ∀ l, (ranges.imports l).Perm l)
    (hprocess : ∀ l, (ranges.process l).Perm l) (fuel : Nat) (files : Files)
    (ha : files.source "a.py" = some [.Import ["b"]])
    (hb : files.source "b.py" = some [.Import ["a"]]) (subDirs : List String) :
    analyzePythonPackage ranges (fuel + 1) files "" subDirs ["b.py", "a.py"] =
      .ok ([rootModule "b" "a" [1] [], rootModule "a" "b" [0] []], [1, 0]) := by
  have hcollect : collectFiles ranges (fuel + 1) files "" ["b.py", "a.py"]
      { importSpecs := [], moduleMap := [], pkg := [] } =
      .ok { importSpecs := ["b", "a"], moduleMap := [("b", 0), ("a", 1)],
            pkg := [rootModule "b" "a" [] [], rootModule "a" "b" [] []] } := by
    have h1 : ModuleName (fuel + 1) "a.py" = some ("a", "py", true) := rfl
    have h2 : ModuleName (fuel + 1) "b.py" = some ("b", "py", true) := rfl
    simp only [collectFiles, collectFile, h1, h2, ha, hb,
      Parse_single_import ranges.imports himports fuel]
    rfl
  unfold analyzePythonPackage
  rw [hcollect]
  simp only
  have hproc : ∀ subPackages : List String,
      processAll [rootModule "b" "a" [] [], rootModule "a" "b" [] []] [("b", 0), ("a", 1)]
        subPackages (ranges.process [0, 1]) =
      [rootModule "b" "a" [1] [], rootModule "a" "b" [0] []] := by
    intro subPackages
    rcases perm_pair 0 1 _ (hprocess [0, 1]) with h | h <;> rw [h] <;> rfl
  rw [show List.map Prod.snd [("b", 0), ("a", 1)] = [0, 1] from rfl, hproc,
    closeAll_of_closed ranges.deps fuel _ (by
      intro m y hy z hz
      match m with
      | 0 =>
        have : y = 1 := by simpa [depsOf, rootModule] using hy
        subst this
        right
        simpa [depsOf, rootModule] using hz
      | 1 =>
        have : y = 0 := by simpa [depsOf, rootModule] using hy
        subst this
        right
        simpa [depsOf, rootModule] using hz
      | n + 2 => simp [depsOf] at hy)]
  rfl

theorem cycle_rule (order : List ModId → List ModId) (hperm : ∀ l, (order l).Perm l)
    (pkg : Pkg) (name imp : String) (dep : ModId) (other relRoot : String)
    (hname : ruleBaseName (rootModule name imp [dep] []) = name)
    (hother : (deref pkg dep).Filename = other)
    (hsorted : sortStrings [name ++ ".py", other] = ["a.py", "b.py"]) :
    (GenerateRule order pkg (rootModule name imp [dep] []) "\x7bmodule_name\x7d" relRoot).Name
      = name ∧
    (GenerateRule order pkg (rootModule name imp [dep] []) "\x7bmodule_name\x7d"
      relRoot).AttrStrings "srcs" = ["a.py", "b.py"] := by
  constructor
  · rw [GenerateRule_Name, hname]
    apply String.ext
    have := replaceScan_intercalate '{' "module_name\x7d".data name.data [[], []] (by simp)
    simpa [List.intercalate] using this
  · rw [GenerateRule_srcs, ruleSrcs_eq]
    have horder : order [dep] = [dep] := List.perm_singleton.1 (hperm [dep])
    show sortStrings ((name ++ ".py") :: (order [dep]).map _) = _
    rw [horder, List.map_singleton, hother, hsorted]

/-- C24 as stated fails. Under the package path `pkg`, the files `a.py` with `import b`
and `b.py` with `import a` give two rules `a` and `b` whose `srcs` are `a.py` alone and
`b.py` alone, and each module has an external import: the modules have the specifiers
`pkg.a` and `pkg.b`, which the imports `b` and `a` are not. -/
theorem cycle_in_named_package :
    ∃ rules pkg modules,
      GenerateRules insertionRanges 3 cycleFiles "pkg" "\x7bmodule_name\x7d" ".." []
        ["a.py", "b.py"] [] = .ok (rules, pkg, modules) ∧
      rules.map (fun r => (r.Name, r.AttrStrings "srcs")) =
        [("a", ["a.py"]), ("b", ["b.py"])] ∧
      modules.map (fun m => ((deref pkg m).ImportSpec, (deref pkg m).ExPkgImports)) =
        [("pkg.a", ["b"]), ("pkg.b", ["a"])] :=
  ⟨_, _, _, rfl, by decide, by decide⟩

/-- C24, amended. For the package at the Python root, whose package path is empty, the
files `a.py` holding only `import b` and `b.py` holding only `import a` produce two rules
named `a` and `b`, each with `srcs` `a.py`, `b.py`, and each of the two modules has an
empty list of external imports: in whatever order the files are listed and the `range`
loops run, and whatever the subdirectories are. -/
theorem cycle_at_root (ranges : Ranges) (himports : ∀ l, (ranges.imports l).Perm l)
    (hprocess : ∀ l, (ranges.process l).Perm l) (hsrcs : ∀ l, (ranges.srcs l).Perm l)
    (fuel : Nat) (hfuel : 0 < fuel) (files : Files)
    (ha : files.source "a.py" = some [.Import ["b"]])
    (hb : files.source "b.py" = some [.Import ["a"]])
    (relRoot : String) (subDirs regularFiles genFiles : List String)
    (hfiles : (regularFiles ++ genFiles).Perm ["a.py", "b.py"]) :
    ∃ ruleA ruleB pkg moduleA moduleB,
      GenerateRules ranges fuel files "" "\x7bmodule_name\x7d" relRoot subDirs regularFiles
        genFiles = .ok ([ruleA, ruleB], pkg, [moduleA, moduleB]) ∧
      ruleA.Name = "a" ∧ ruleB.Name = "b" ∧
      ruleA.AttrStrings "srcs" = ["a.py", "b.py"] ∧
      ruleB.AttrStrings "srcs" = ["a.py", "b.py"] ∧
      (deref pkg moduleA).Filename = "a.py" ∧ (deref pkg moduleB).Filename = "b.py" ∧
      (deref pkg moduleA).ExPkgImports = [] ∧ (deref pkg moduleB).ExPkgImports = [] := by
  obtain ⟨n, rfl⟩ : ∃ n, fuel = n + 1 := ⟨fuel - 1, by omega⟩
  unfold GenerateRules
  rw [if_neg (by decide)]
  rcases perm_pair _ _ _ hfiles with hf | hf
  · rw [hf, analyze_cycle_ab ranges himports hprocess n files ha hb subDirs]
    obtain ⟨h1, h2⟩ := cycle_rule ranges.srcs hsrcs
      [rootModule "a" "b" [1] [], rootModule "b" "a" [0] []] "a" "b" 1 "b.py" relRoot
      (by decide) rfl (by decide)
    obtain ⟨h3, h4⟩ := cycle_rule ranges.srcs hsrcs
      [rootModule "a" "b" [1] [], rootModule "b" "a" [0] []] "b" "a" 0 "a.py" relRoot
      (by decide) rfl (by decide)
    exact ⟨_, _, _, _, _, rfl, h1, h3, h2, h4, rfl, rfl, rfl, rfl⟩
  · rw [hf, analyze_cycle_ba ranges himports hprocess n files ha hb subDirs]
    obtain ⟨h1, h2⟩ := cycle_rule ranges.srcs hsrcs
      [rootModule "b" "a" [1] [], rootModule "a" "b" [0] []] "a" "b" 0 "b.py" relRoot
      (by decide) rfl (by decide)
    obtain ⟨h3, h4⟩ := cycle_rule ranges.srcs hsrcs
      [rootModule "b" "a" [1] [], rootModule "a" "b" [0] []] "b" "a" 1 "a.py" relRoot
      (by decide) rfl (by decide)
    exact ⟨_, _, _, _, _, rfl, h1, h3, h2, h4, rfl, rfl, rfl, rfl⟩

/-- The two files listed with `b.py` first, the second as a generated file, and every
`range` in reverse order. -/
theorem cycle_at_root_witness :
    ∃ ruleA ruleB pkg moduleA moduleB,
      GenerateRules reverseRanges 3 cycleFiles "" "\x7bmodule_name\x7d" "." ["sub"] ["b.py"]
        ["a.py"] = .ok ([ruleA, ruleB], pkg, [moduleA, moduleB]) ∧
      ruleA.Name = "a" ∧ ruleB.Name = "b" ∧
      ruleA.AttrStrings "srcs" = ["a.py", "b.py"] ∧
      ruleB.AttrStrings "srcs" = ["a.py", "b.py"] ∧
      (deref pkg moduleA).Filename = "a.py" ∧ (deref pkg moduleB).Filename = "b.py" ∧
      (deref pkg moduleA).ExPkgImports = [] ∧ (deref pkg moduleB).ExPkgImports = [] :=
  cycle_at_root reverseRanges (fun l => List.reverse_perm l) (fun l => List.reverse_perm l)
    (fun l => List.reverse_perm l) 3 (by decide) cycleFiles rfl rfl "." ["sub"] ["b.py"]
    ["a.py"] (by decide)

/-! ## The recognition of conditionals on `TYPE_CHECKING` -/

theorem isTypeCheckingConditional_eq (imported : List String) :
    ∀ (test : Expr) (body orelse : List Stmt),
      isTypeCheckingConditional imported test body orelse =
        if typeCheckingTest imported (stripNots test body orelse).1 = true then
          (true, (stripNots test body orelse).2.2)
        else (false, [])
  | .UnaryOp op operand, body, orelse => by
    by_cases hop : op = .Not
    · have := isTypeCheckingConditional_eq imported operand orelse body
      simpa only [isTypeCheckingConditional, stripNots, hop, if_true] using this
    · simp [isTypeCheckingConditional, stripNots, typeCheckingTest, hop]
  | .Attribute value attr, body, orelse => by
    cases value <;> simp only [isTypeCheckingConditional, stripNots, typeCheckingTest] <;>
      repeat' split
    all_goals simp_all
  | .Name id, body, orelse => by
    simp only [isTypeCheckingConditional, stripNots, typeCheckingTest]
    repeat' split
    all_goals simp_all
  | .Compare _ _ _, body, orelse => by
    simp [isTypeCheckingConditional, stripNots, typeCheckingTest]
  | .Str _, body, orelse => by simp [isTypeCheckingConditional, stripNots, typeCheckingTest]
  | .Other, body, orelse => by simp [isTypeCheckingConditional, stripNots, typeCheckingTest]

/-- C35. `isTypeCheckingConditional` recognises a conditional exactly when the test, with
its leading `not` operators removed, is the attribute `typing.TYPE_CHECKING` while `typing`
is in the imported set, or the bare name `TYPE_CHECKING` while `typing.TYPE_CHECKING` is in
the imported set; the branch it returns is then the else branch after the swaps, one for
each `not`. In every other case it returns false and the walk of the conditional makes the
main check and walks the body and the else branch. -/
theorem isTypeCheckingConditional_recognises (imported : List String) (test : Expr)
    (body orelse : List Stmt) :
    ((isTypeCheckingConditional imported test body orelse).1 = true ↔
      typeCheckingTest imported (stripNots test body orelse).1 = true) ∧
    (typeCheckingTest imported (stripNots test body orelse).1 = true →
      isTypeCheckingConditional imported test body orelse =
        (true, (stripNots test body orelse).2.2)) ∧
    (typeCheckingTest imported (stripNots test body orelse).1 = false →
      isTypeCheckingConditional imported test body orelse = (false, []) ∧
      ∀ (fuel : Nat) (st : WalkState), st.importedSet = imported →
        Walk (fuel + 1) (.If test body orelse) st =
          walkStmts fuel (body ++ orelse)
            { noteVisit st (.If test body orelse) with
              HasMainNameCheck := st.HasMainNameCheck || isMainNameCheck test }) := by
  have heq := isTypeCheckingConditional_eq imported test body orelse
  refine ⟨?_, ?_, ?_⟩
  · rw [heq]
    by_cases h : typeCheckingTest imported (stripNots test body orelse).1 = true
    · simp [h]
    · simp [h]
  · intro h
    rw [heq, if_pos h]
  · intro h
    have hres : isTypeCheckingConditional imported test body orelse = (false, []) := by
      rw [heq, if_neg (by simp [h])]
    refine ⟨hres, ?_⟩
    intro fuel st hst
    apply Walk_If_plain
    rw [hst, hres]

/-- Two leading `not` operators swap the branches twice: the conditional is recognised and
the branch returned is the else branch. -/
theorem doubleNegation_recognised :
    isTypeCheckingConditional ["typing"] doubleNegationTest [.Import ["mod1"]]
      [.Import ["mod2"]] = (true, [.Import ["mod2"]]) ∧
    isTypeCheckingConditional [] doubleNegationTest [.Import ["mod1"]]
      [.Import ["mod2"]] = (false, []) := by
  constructor <;> rfl

/-! ## `readInternalModuleList` -/

/-- Go `strings.TrimSpace` removes a run of white space at the start and one at the end,
and what is left neither starts nor ends with white space. -/
theorem TrimSpace_spec (s : String) :
    ∃ pre post, s.data = pre ++ (TrimSpace s).data ++ post ∧
      (∀ c ∈ pre, isSpace c = true) ∧ (∀ c ∈ post, isSpace c = true) ∧
      (∀ c, (TrimSpace s).data.head? = some c → isSpace c = false) ∧
      (∀ c, (TrimSpace s).data.getLast? = some c → isSpace c = false) := by
  let d := s.data.dropWhile isSpace
  have hs : s.data = s.data.takeWhile isSpace ++ d := (List.takeWhile_append_dropWhile _ _).symm
  have hd : d = (d.reverse.dropWhile isSpace).reverse ++ (d.reverse.takeWhile isSpace).reverse := by
    rw [← List.reverse_append, List.takeWhile_append_dropWhile, List.reverse_reverse]
  have ht : (TrimSpace s).data = (d.reverse.dropWhile isSpace).reverse := rfl
  have hlast : ∀ c, (TrimSpace s).data.getLast? = some c → isSpace c = false := by
    intro c hc
    rw [ht, List.getLast?_reverse] at hc
    have := List.head?_dropWhile_not isSpace d.reverse
    rw [hc] at this
    simpa using this
  refine ⟨s.data.takeWhile isSpace, (d.reverse.takeWhile isSpace).reverse, ?_, ?_, ?_, ?_, hlast⟩
  · rw [ht, List.append_assoc, ← hd]
    exact hs
  · intro c hc
    exact (List.mem_takeWhile_imp hc)
  · intro c hc
    exact (List.mem_takeWhile_imp (List.mem_reverse.1 hc))
  · intro c hc
    have hhead : d.head? = some c := by
      rw [hd, ← ht]
      cases hdata : (TrimSpace s).data with
      | nil => rw [hdata] at hc; simp at hc
      | cons a t => rw [hdata] at hc; simpa using hc
    have := List.head?_dropWhile_not isSpace s.data
    rw [show List.dropWhile isSpace s.data = d from rfl, hhead] at this
    simpa using this

theorem HasPrefix_hash (line : String) :
    HasPrefix line "#" = true ↔ line.data.head? = some '#' := by
  unfold HasPrefix
  cases hdata : line.data with
  | nil => simp [List.isPrefixOf]
  | cons c rest =>
    show ['#'].isPrefixOf (c :: rest) = true ↔ _
    simp only [List.isPrefixOf, Bool.and_true, beq_iff_eq, List.head?_cons, Option.some.injEq]
    exact eq_comm

theorem readInternalModuleList_loop (s : String) :
    ∀ (lines res : List String),
      s ∈ lines.foldl
          (fun res line =>
            if HasPrefix line "#" = true then res else setInsert res (TrimSpace line)) res ↔
        s ∈ res ∨ ∃ line ∈ lines, line.data.head? ≠ some '#' ∧ s = TrimSpace line := by
  intro lines
  induction lines with
  | nil => intro res; simp
  | cons line rest ih =>
    intro res
    rw [List.foldl_cons, ih]
    by_cases hc : HasPrefix line "#" = true
    · rw [if_pos hc]
      have hh := (HasPrefix_hash line).1 hc
      constructor
      · rintro (h | ⟨l, hl, hn, he⟩)
        · exact Or.inl h
        · exact Or.inr ⟨l, List.mem_cons_of_mem _ hl, hn, he⟩
      · rintro (h | ⟨l, hl, hn, he⟩)
        · exact Or.inl h
        · rcases List.mem_cons.1 hl with rfl | hl
          · exact absurd hh hn
          · exact Or.inr ⟨l, hl, hn, he⟩
    · rw [if_neg hc, mem_setInsert]
      have hh : line.data.head? ≠ some '#' := fun h => hc ((HasPrefix_hash line).2 h)
      constructor
      · rintro ((h | h) | ⟨l, hl, hn, he⟩)
        · exact Or.inl h
        · exact Or.inr ⟨line, List.mem_cons_self _ _, hh, h⟩
        · exact Or.inr ⟨l, List.mem_cons_of_mem _ hl, hn, he⟩
      · rintro (h | ⟨l, hl, hn, he⟩)
        · exact Or.inl (Or.inl h)
        · rcases List.mem_cons.1 hl with rfl | hl
          · exact Or.inl (Or.inr he)
          · exact Or.inr ⟨l, hl, hn, he⟩

theorem readInternalModuleList_nodup :
    ∀ (lines res : List String), res.Nodup →
      (lines.foldl
          (fun res line =>
            if HasPrefix line "#" = true then res else setInsert res (TrimSpace line))
          res).Nodup := by
  intro lines
  induction lines with
  | nil => intro res h; exact h
  | cons line rest ih =>
    intro res h
    rw [List.foldl_cons]
    apply ih
    by_cases hc : HasPrefix line "#" = true
    · rw [if_pos hc]; exact h
    · rw [if_neg hc]; exact nodup_setInsert _ _ h

/-- C32. The set that `readInternalModuleList` returns holds a string exactly when it is
the trimmed form of a line that does not start with `#`; the trimmed form of a line is the
line without the white space at its start and at its end. The set has no repetition, and
the error returned is that of the scanner. The lines are those that the scanner yields. -/
theorem readInternalModuleList_set (lines : List String) (scanErr : Option String) :
    (∀ s, s ∈ (readInternalModuleList lines scanErr).1 ↔
      ∃ line ∈ lines, line.data.head? ≠ some '#' ∧ s = TrimSpace line) ∧
    (∀ line : String, ∃ pre post, line.data = pre ++ (TrimSpace line).data ++ post ∧
      (∀ c ∈ pre, isSpace c = true) ∧ (∀ c ∈ post, isSpace c = true) ∧
      (∀ c, (TrimSpace line).data.head? = some c → isSpace c = false) ∧
      (∀ c, (TrimSpace line).data.getLast? = some c → isSpace c = false)) ∧
    (readInternalModuleList lines scanErr).1.Nodup ∧
    (readInternalModuleList lines scanErr).2 = scanErr := by
  refine ⟨?_, TrimSpace_spec, ?_, rfl⟩
  · intro s
    have := readInternalModuleList_loop s lines []
    simpa [readInternalModuleList] using this
  · exact readInternalModuleList_nodup lines [] List.nodup_nil

/-- A list of five lines, with a comment, a blank line and a line whose `#` stands behind
white space: the blank line gives the empty string and the last but one gives `#x`. -/
theorem readInternalModuleList_example :
    ScanLines "os\r\n# c\n  sys  \n\n #x\nlast" = ["os", "# c", "  sys  ", "", " #x", "last"] ∧
    readInternalModuleList (ScanLines "os\r\n# c\n  sys  \n\n #x\nlast") none =
      (["os", "sys", "", "#x", "last"], none) := by
  constructor <;> decide

/-! ## `readExternalModuleMapYaml` -/

theorem mem_of_lookup {β : Type} (key : String) (value : β) :
    ∀ m : List (String × β), m.lookup key = some value → (key, value) ∈ m
  | [], h => by simp at h
  | (k, v) :: rest, h => by
    by_cases hk : key = k
    · subst hk
      simp only [List.lookup_cons, beq_self_eq_true, Option.some.injEq] at h
      rw [h]
      exact List.mem_cons_self _ _
    · have hne : (key == k) = false := by simpa using hk
      simp only [List.lookup_cons, hne] at h
      exact List.mem_cons_of_mem _ (mem_of_lookup key value rest h)

theorem mapSet_forall {β : Type} (P : β → Prop) (m : List (String × β)) (key : String)
    (value : β) (hm : ∀ e ∈ m, P e.2) (hv : P value) : ∀ e ∈ mapSet m key value, P e.2 := by
  unfold mapSet
  split
  · intro e he
    rw [List.mem_map] at he
    obtain ⟨e0, he0, rfl⟩ := he
    split
    · exact hv
    · exact hm e0 he0
  · intro e he
    rcases List.mem_append.1 he with he | he
    · exact hm e he
    · rw [List.mem_singleton.1 he]
      exact hv

theorem yamlLoop_no_target :
    ∀ (entries : List (String × String)) (res : ExternalModuleMap),
      (∀ e ∈ res, e.2.BazelTarget = "") →
      ∀ e ∈ entries.foldl
          (fun res kv =>
            mapSet res kv.1
              { Dist := kv.2, PkgPath := "", Module := "", BazelTarget := "", ModuleType := "" })
          res,
        e.2.BazelTarget = "" := by
  intro entries
  induction entries with
  | nil => intro res h; exact h
  | cons kv rest ih =>
    intro res h
    rw [List.foldl_cons]
    exact ih _ (mapSet_forall (fun e => e.BazelTarget = "") res kv.1 _ h rfl)

/-- An import found in a map whose entries have no target: the search succeeds with the
empty target, and the loop of `Resolve` leaves `deps` and the report as they are. -/
theorem resolveImport_through_map (labelString : Label → String) (ix : RuleIndex)
    (externalModuleMap : ExternalModuleMap) (internalModuleList : List String) (imp : String)
    (hmap : ∀ key entry, externalModuleMap.lookup key = some entry → entry.BazelTarget = "")
    (h : resolvesThroughMap ix externalModuleMap internalModuleList imp) :
    findRuleByImportFuzzy labelString imp ix externalModuleMap internalModuleList = ("", true) ∧
    ∀ st, resolveImport labelString ix externalModuleMap internalModuleList st imp = st := by
  have hfind : ∀ key, ix key = [] → (externalModuleMap.lookup key).isSome = true →
      findRuleByImport labelString key ix externalModuleMap internalModuleList = ("", true) := by
    intro key hix hsome
    cases hl : externalModuleMap.lookup key with
    | none => rw [hl] at hsome; simp at hsome
    | some entry =>
      simp [findRuleByImport, hix, hl, hmap key entry hl]
  have hfuzzy :
      findRuleByImportFuzzy labelString imp ix externalModuleMap internalModuleList =
        ("", true) := by
    rcases h with ⟨hix, hsome⟩ | ⟨hix, hnone, hint, hext, hixp, hsome⟩
    · simp [findRuleByImportFuzzy, hfind imp hix hsome]
    · have h1 : findRuleByImport labelString imp ix externalModuleMap internalModuleList =
          ("", false) := by
        simp [findRuleByImport, hix, hnone, hint]
      simp [findRuleByImportFuzzy, h1, hext, hfind _ hixp hsome]
  refine ⟨hfuzzy, ?_⟩
  intro st
  simp [resolveImport, hfuzzy]

/-- C40. Every entry of a map that `readExternalModuleMapYaml` returns has an empty
`BazelTarget`. For an import that resolves through such an entry, `findRuleByImportFuzzy`
succeeds with the empty target, and the body of the loop of `Resolve` leaves the
dependencies and the list of unresolved imports as they were. -/
theorem yaml_entries_add_no_dependency
    (order : List (String × String) → List (String × String))
    (decode : Except String Container) (namePrefix : String) (res : ExternalModuleMap)
    (h : readExternalModuleMapYaml order decode namePrefix = .value res) :
    (∀ key entry, res.lookup key = some entry → entry.BazelTarget = "") ∧
    ∀ (labelString : Label → String) (ix : RuleIndex) (internalModuleList : List String)
      (imp : String), resolvesThroughMap ix res internalModuleList imp →
      findRuleByImportFuzzy labelString imp ix res internalModuleList = ("", true) ∧
      ∀ st, resolveImport labelString ix res internalModuleList st imp = st := by
  have hmap : ∀ key entry, res.lookup key = some entry → entry.BazelTarget = "" := by
    intro key entry hl
    unfold readExternalModuleMapYaml at h
    cases decode with
    | error err => simp at h
    | ok c =>
      cases hm : c.Manifest with
      | none => simp [hm] at h
      | some modulesMapping =>
        simp only [hm, Outcome.value.injEq] at h
        have := yamlLoop_no_target (order modulesMapping) [] (by simp) (key, entry)
          (by rw [h]; exact mem_of_lookup key entry res hl)
        exact this
  exact ⟨hmap, fun labelString ix internalModuleList imp himp =>
    resolveImport_through_map labelString ix res internalModuleList imp hmap himp⟩

/-- The manifest that maps `numpy` to `numpy` and `yaml` to `PyYAML`: the import of
`numpy.linalg`, found under `numpy`, adds no dependency and is not reported. -/
theorem yaml_entries_add_no_dependency_witness :
    readExternalModuleMapYaml id (.ok testContainer) "pip_" = .value
      [ ("numpy", { Dist := "numpy", PkgPath := "", Module := "", BazelTarget := "",
                    ModuleType := "" }),
        ("yaml", { Dist := "PyYAML", PkgPath := "", Module := "", BazelTarget := "",
                   ModuleType := "" }) ] ∧
    resolveImport gazelleLabelString (fun _ => [])
      [ ("numpy", { Dist := "numpy", PkgPath := "", Module := "", BazelTarget := "",
                    ModuleType := "" }),
        ("yaml", { Dist := "PyYAML", PkgPath := "", Module := "", BazelTarget := "",
                   ModuleType := "" }) ] [] { deps := ["//pkg"], log := [] } "numpy.linalg" =
      { deps := ["//pkg"], log := [] } ∧
    ∃ res, readExternalModuleMapYaml id (.ok testContainer) "pip_" = .value res ∧
      (∀ key entry, res.lookup key = some entry → entry.BazelTarget = "") ∧
      ∀ (labelString : Label → String) (ix : RuleIndex) (internalModuleList : List String)
        (imp : String), resolvesThroughMap ix res internalModuleList imp →
        findRuleByImportFuzzy labelString imp ix res internalModuleList = ("", true) ∧
        ∀ st, resolveImport labelString ix res internalModuleList st imp = st :=
  ⟨by decide, by decide, _, rfl,
    yaml_entries_add_no_dependency id (.ok testContainer) "pip_" _ rfl⟩

/-! ## Malformed records of a manifest -/

/-- The body of the loop panics on the records that yield no specifier, and on no other. -/
theorem tsvStep_panic_iff (namePrefix : String) (res : ExternalModuleMap)
    (record : List String) :
    tsvStep namePrefix res record = .panic ↔ recordSpec record = none := by
  constructor
  · intro h
    cases hspec : recordSpec record with
    | none => rfl
    | some key =>
      obtain ⟨dist, pkg, moduleName, typ, tail, hrec, himp⟩ := recordSpec_some record key hspec
      subst hrec
      rw [tsvStep_some namePrefix res dist pkg moduleName typ tail key himp] at h
      cases hl : res.lookup key with
      | none => rw [hl] at h; simp at h
      | some val =>
        rw [hl] at h
        by_cases hv : val.ModuleType = typ
        · simp [hv] at h
        · simp [hv] at h
  · exact tsvStep_none namePrefix res record

/-- A run of the loop that panics: the records before some record are read without a
failure, and that record yields no specifier. -/
theorem tsvLoop_panic (namePrefix : String) :
    ∀ (records : List (List String)) (res : ExternalModuleMap),
      tsvLoop namePrefix records res = .panic →
      ∃ before record after res1, records = before ++ record :: after ∧
        tsvLoop namePrefix before res = .ok res1 ∧ recordSpec record = none
  | [], res, h => by simp [tsvLoop] at h
  | record :: rest, res, h => by
    rw [tsvLoop] at h
    cases hstep : tsvStep namePrefix res record with
    | ok res1 =>
      rw [hstep] at h
      obtain ⟨before, r, after, res2, hrec, hrun, hspec⟩ := tsvLoop_panic namePrefix rest res1 h
      refine ⟨record :: before, r, after, res2, by rw [hrec]; rfl, ?_, hspec⟩
      rw [tsvLoop_cons_ok namePrefix record before res res1 hstep]
      exact hrun
    | csvError err => rw [hstep] at h; exact absurd h (by simp)
    | duplicate a b c => rw [hstep] at h; exact absurd h (by simp)
    | panic =>
      exact ⟨[], record, rest, res, rfl, rfl, (tsvStep_panic_iff namePrefix res record).1 hstep⟩

/-- C31 fails. `readExternalModuleMapTSV` ends in a Go panic exactly when the manifest has
a record with fewer than four columns, or with a blank package path and a blank module
name, and the records before it are read without an error: the record is indexed, and
`ImportSpec` called, without a check. A manifest whose only record has three columns, and
one whose only record has both columns blank, make it panic. -/
theorem readTSV_panics (allRecords : List (List String)) (namePrefix : String) :
    (readExternalModuleMapTSV (.ok allRecords) namePrefix = .panic ↔
      ∃ before record after, allRecords = before ++ record :: after ∧
        recordSpec record = none ∧
        (∀ r ∈ before, (recordSpec r).isSome = true) ∧ ¬ clashIn [] before) ∧
    readExternalModuleMapTSV (.ok [["dist", "pkg", "mod"]]) namePrefix = .panic ∧
    readExternalModuleMapTSV (.ok [["dist", "", "", "py"]]) namePrefix = .panic := by
  refine ⟨⟨?_, ?_⟩, rfl, rfl⟩
  · intro h
    obtain ⟨before, record, after, res1, hrec, hrun, hspec⟩ :=
      tsvLoop_panic namePrefix allRecords [] h
    obtain ⟨_, hwf, hno⟩ := readTSV_ok before namePrefix res1 hrun
    exact ⟨before, record, after, hrec, hspec, hwf, hno⟩
  · rintro ⟨before, record, after, hrec, hspec, hwf, hno⟩
    obtain ⟨res1, hrun⟩ :=
      (tsvLoop_duplicate namePrefix before [] [] (fun key => by simp [firstRecord]) hwf).2 hno
    show tsvLoop namePrefix allRecords [] = .panic
    rw [hrec, tsvLoop_append, hrun]
    show tsvLoop namePrefix (record :: after) res1 = .panic
    rw [tsvLoop, tsvStep_none namePrefix res1 record hspec]

/-! ## `CheckFlags` and `Configure` -/

/-- The target of every entry of a map that `readExternalModuleMapTSV` returns. -/
theorem readTSV_target (allRecords : List (List String)) (namePrefix : String)
    (res : ExternalModuleMap)
    (h : readExternalModuleMapTSV (.ok allRecords) namePrefix = .ok res)
    (key : String) (entry : ExternalModule) (hl : res.lookup key = some entry) :
    entry.BazelTarget = "@" ++ namePrefix ++ entry.Dist ++ "//:pkg" := by
  obtain ⟨hfirsts, _, _⟩ := readTSV_ok allRecords namePrefix res h
  rw [hfirsts key] at hl
  cases hf : firstRecord allRecords key with
  | none => rw [hf] at hl; simp at hl
  | some first =>
    rw [hf] at hl
    obtain ⟨_, hspec⟩ := firstRecord_spec allRecords key first hf
    obtain ⟨dist, pkg, moduleName, typ, tail, hrec, _⟩ := recordSpec_some first key hspec
    subst hrec
    simp only [recordEntry, Option.some_bind, Option.some.injEq] at hl
    subst hl
    rfl

/-- A tab-separated manifest that `readExternalModuleMapPath` loads: the targets are made
with the prefix it is given. -/
theorem readExternalModuleMapPath_target (sys : System) (path namePrefix : String)
    (res : ExternalModuleMap) (hext : pathExt path ≠ ".yaml" ∧ pathExt path ≠ ".yml")
    (h : readExternalModuleMapPath sys path namePrefix = .value res)
    (key : String) (entry : ExternalModule) (hl : res.lookup key = some entry) :
    entry.BazelTarget = "@" ++ namePrefix ++ entry.Dist ++ "//:pkg" := by
  unfold readExternalModuleMapPath at h
  cases hopen : sys.Open path with
  | error err => simp [hopen] at h
  | ok f =>
    simp only [hopen, hext.1, hext.2, or_self, if_false] at h
    cases hread : f.readAll with
    | error err => simp [hread, readExternalModuleMapTSV, Loaded.toOutcome] at h
    | ok allRecords =>
      rw [hread] at h
      cases hres : readExternalModuleMapTSV (.ok allRecords) namePrefix with
      | ok res1 =>
        simp only [hres, Loaded.toOutcome, Outcome.value.injEq] at h
        subst h
        exact readTSV_target allRecords namePrefix res1 hres key entry hl
      | csvError err => simp [hres, Loaded.toOutcome] at h
      | duplicate a b c => simp [hres, Loaded.toOutcome] at h
      | panic => simp [hres, Loaded.toOutcome] at h

/-- What `CheckFlags` stores: the prefix of the flags, and the external module map loaded
with the prefix of the zero value of `Configuration`, which is empty. -/
theorem CheckFlags_value (sys : System) (repoRoot : String) (initial0 config : Configuration)
    (h : CheckFlags sys repoRoot initial0 = .value config) :
    config.ExternalRepoNamePrefix = initial0.ExternalRepoNamePrefix ∧
    (initial0.ExternalModuleMapPath = "" →
      config.ExternalModuleMap = initial0.ExternalModuleMap) ∧
    (initial0.ExternalModuleMapPath ≠ "" →
      readExternalModuleMapPath sys (pathJoin [repoRoot, initial0.ExternalModuleMapPath]) "" =
        .value config.ExternalModuleMap) := by
  unfold CheckFlags at h
  have hstep : ∀ (config1 : Configuration),
      config1.ExternalRepoNamePrefix = initial0.ExternalRepoNamePrefix →
      config1.ExternalModuleMapPath = initial0.ExternalModuleMapPath →
      config1.ExternalModuleMap = initial0.ExternalModuleMap →
      (if config1.ExternalModuleMapPath ≠ "" then
        match readExternalModuleMapPath sys (pathJoin [repoRoot, config1.ExternalModuleMapPath])
            Configuration.zero.ExternalRepoNamePrefix with
        | .value m => Outcome.value { config1 with ExternalModuleMap := m }
        | .error err => .error err
        | .panic => .panic
      else .value config1) = .value config →
      config.ExternalRepoNamePrefix = initial0.ExternalRepoNamePrefix ∧
      (initial0.ExternalModuleMapPath = "" →
        config.ExternalModuleMap = initial0.ExternalModuleMap) ∧
      (initial0.ExternalModuleMapPath ≠ "" →
        readExternalModuleMapPath sys (pathJoin [repoRoot, initial0.ExternalModuleMapPath])
          "" = .value config.ExternalModuleMap) := by
    intro config1 h1 h2 h3 hrun
    rw [h2] at hrun
    by_cases hp : initial0.ExternalModuleMapPath = ""
    · rw [if_neg (by simpa using hp)] at hrun
      simp only [Outcome.value.injEq] at hrun
      subst hrun
      exact ⟨h1, fun _ => h3, fun hne => absurd hp hne⟩
    · rw [if_pos hp] at hrun
      have hzero : Configuration.zero.ExternalRepoNamePrefix = "" := rfl
      rw [hzero] at hrun
      cases hread : readExternalModuleMapPath sys
          (pathJoin [repoRoot, initial0.ExternalModuleMapPath]) "" with
      | value m =>
        rw [hread] at hrun
        simp only [Outcome.value.injEq] at hrun
        subst hrun
        exact ⟨h1, fun he => absurd he hp, fun _ => rfl⟩
      | error err => rw [hread] at hrun; simp at hrun
      | panic => rw [hread] at hrun; simp at hrun
  dsimp only at h
  by_cases hi : initial0.InternalModuleListPath = ""
  · rw [if_neg (not_not.2 hi)] at h
    exact hstep initial0 rfl rfl rfl h
  · rw [if_pos hi] at h
    cases hread : readInternalModuleListPath sys
        (pathJoin [repoRoot, initial0.InternalModuleListPath]) with
    | value l =>
      rw [hread] at h
      exact hstep { initial0 with InternalModuleList := l } rfl rfl rfl h
    | error err => rw [hread] at h; simp at h
    | panic => rw [hread] at h; simp at h

/-- C34 fails. `CheckFlags` swaps `pc.initial` for the zero value and then reads the prefix
from `pc.initial`: the tab-separated manifest is loaded with the empty prefix, whatever the
value of the flag `py-external-repo-name-prefix`, which the configuration stored still
holds. Each entry has the target `@` + distribution + `//:pkg`. -/
theorem CheckFlags_drops_prefix (sys : System) (repoRoot : String)
    (enable : Bool)
    (rootDir internalModulesPath externalModulesPath externalRepoNamePrefix nameTemplate :
      String)
    (config : Configuration)
    (hext : pathExt (pathJoin [repoRoot, externalModulesPath]) ≠ ".yaml" ∧
      pathExt (pathJoin [repoRoot, externalModulesPath]) ≠ ".yml")
    (h : CheckFlags sys repoRoot
      (RegisterFlags enable rootDir internalModulesPath externalModulesPath
        externalRepoNamePrefix nameTemplate) = .value config) :
    config.ExternalRepoNamePrefix = externalRepoNamePrefix ∧
    ∀ key entry, config.ExternalModuleMap.lookup key = some entry →
      entry.BazelTarget = "@" ++ entry.Dist ++ "//:pkg" := by
  obtain ⟨h1, h2, h3⟩ := CheckFlags_value sys repoRoot _ config h
  refine ⟨h1, ?_⟩
  intro key entry hl
  by_cases hp : externalModulesPath = ""
  · have hmap : config.ExternalModuleMap = [] := h2 hp
    rw [hmap] at hl
    simp at hl
  · have := readExternalModuleMapPath_target sys _ "" config.ExternalModuleMap hext (h3 hp)
      key entry hl
    simpa using this

/-- The flags `-py-external-modules-path=modules.txt -py-external-repo-name-prefix=pip_`:
the configuration holds the prefix `pip_`, and the target of `numpy` is `@numpy//:pkg`,
not `@pip_numpy//:pkg`. -/
theorem CheckFlags_drops_prefix_witness :
    CheckFlags testSystem "repo"
        (RegisterFlags true "" "" "modules.txt" "pip_" "\x7bmodule_name\x7d") = .value
      { Enable := true, RootDir := "", PythonPackagePath := "", InternalModuleList := [],
        InternalModuleListPath := "",
        ExternalModuleMap :=
          [("numpy", { Dist := "numpy", PkgPath := "numpy", Module := "",
                       BazelTarget := "@numpy//:pkg", ModuleType := "py" })],
        ExternalModuleMapPath := "modules.txt", ExternalRepoNamePrefix := "pip_",
        NameTemplate := "\x7bmodule_name\x7d" } ∧
    ∃ config, CheckFlags testSystem "repo"
        (RegisterFlags true "" "" "modules.txt" "pip_" "\x7bmodule_name\x7d") =
        .value config ∧
      config.ExternalRepoNamePrefix = "pip_" ∧
      ∀ key entry, config.ExternalModuleMap.lookup key = some entry →
        entry.BazelTarget = "@" ++ entry.Dist ++ "//:pkg" :=
  ⟨by decide, _, rfl,
    CheckFlags_drops_prefix testSystem "repo" true "" "" "modules.txt" "pip_"
      "\x7bmodule_name\x7d" _ (by decide) rfl⟩

theorem configureLoop_internal (rel value : String) (st : Configuring) :
    configureLoop rel [⟨directiveInternalModuleListPath, value⟩] st = .value
      { config :=
          { st.config with
            InternalModuleList :=
              if st.config.InternalModuleListPath ≠ value ∧ st.config.InternalModuleListPath = ""
              then [] else st.config.InternalModuleList,
            InternalModuleListPath := value },
        readInternalModuleList :=
          if st.config.InternalModuleListPath ≠ value ∧ st.config.InternalModuleListPath ≠ ""
          then true else st.readInternalModuleList,
        readExternalModuleMap := st.readExternalModuleMap } := by
  have hk1 : directiveInternalModuleListPath ≠ directiveExtension := by decide
  have hk2 : directiveInternalModuleListPath ≠ directiveRoot := by decide
  simp only [configureLoop, configureStep, if_neg hk1, if_neg hk2, if_true]
  obtain ⟨⟨enable, rootDir, pkgPath, list, listPath, map, mapPath, repoPrefix, template⟩,
    r1, r2⟩ := st
  by_cases h1 : listPath = value
  · subst h1
    simp
  · by_cases h2 : listPath = ""
    · subst h2
      simp [h1]
    · simp [h1, h2]

theorem configureLoop_external (rel value : String) (st : Configuring) :
    configureLoop rel [⟨directiveExternalModuleMapPath, value⟩] st = .value
      { config :=
          { st.config with
            ExternalModuleMap :=
              if st.config.ExternalModuleMapPath ≠ value ∧ st.config.ExternalModuleMapPath = ""
              then [] else st.config.ExternalModuleMap,
            ExternalModuleMapPath := value },
        readInternalModuleList := st.readInternalModuleList,
        readExternalModuleMap :=
          if st.config.ExternalModuleMapPath ≠ value ∧ st.config.ExternalModuleMapPath ≠ ""
          then true else st.readExternalModuleMap } := by
  have hk1 : directiveExternalModuleMapPath ≠ directiveExtension := by decide
  have hk2 : directiveExternalModuleMapPath ≠ directiveRoot := by decide
  have hk3 : directiveExternalModuleMapPath ≠ directiveInternalModuleListPath := by decide
  simp only [configureLoop, configureStep, if_neg hk1, if_neg hk2, if_neg hk3, if_true]
  obtain ⟨⟨enable, rootDir, pkgPath, list, listPath, map, mapPath, repoPrefix, template⟩,
    r1, r2⟩ := st
  by_cases h1 : mapPath = value
  · subst h1
    simp
  · by_cases h2 : mapPath = ""
    · subst h2
      simp [h1]
    · simp [h1, h2]


/-- C36 fails. After `Configure` has handled one directive that names the path of a table:
the path stored is that of the directive; with the path inherited the table is the
inherited one; with another path, and a path inherited that is not empty, the table is
read from the path of the directive; with another path and no path inherited, which is
the case of the first directive for a table not given by a flag, the table is emptied and
the file is not read. So it is for the internal module list and for the external module
map. -/
theorem Configure_table_path (sys : System) (repoRoot : String) (config0 : Configuration)
    (rel value : String) :
    (∀ config,
      Configure sys repoRoot config0 rel [⟨directiveInternalModuleListPath, value⟩] =
        .value config →
      config.InternalModuleListPath = value ∧
      (config0.InternalModuleListPath = value →
        config.InternalModuleList = config0.InternalModuleList) ∧
      (config0.InternalModuleListPath ≠ value → config0.InternalModuleListPath ≠ "" →
        readInternalModuleListPath sys (pathJoin [repoRoot, value]) =
          .value config.InternalModuleList) ∧
      (config0.InternalModuleListPath ≠ value → config0.InternalModuleListPath = "" →
        config.InternalModuleList = [])) ∧
    (∀ config,
      Configure sys repoRoot config0 rel [⟨directiveExternalModuleMapPath, value⟩] =
        .value config →
      config.ExternalModuleMapPath = value ∧
      (config0.ExternalModuleMapPath = value →
        config.ExternalModuleMap = config0.ExternalModuleMap) ∧
      (config0.ExternalModuleMapPath ≠ value → config0.ExternalModuleMapPath ≠ "" →
        readExternalModuleMapPath sys (pathJoin [repoRoot, value])
          config0.ExternalRepoNamePrefix = .value config.ExternalModuleMap) ∧
      (config0.ExternalModuleMapPath ≠ value → config0.ExternalModuleMapPath = "" →
        config.ExternalModuleMap = [])) := by
  constructor
  · intro config h
    unfold Configure at h
    rw [configureLoop_internal] at h
    dsimp only at h
    cases hrel : sys.Rel config0.RootDir rel with
    | error err =>
      exfalso
      by_cases h1 : config0.InternalModuleListPath = value
      · simp [h1, hrel] at h
      · by_cases h2 : config0.InternalModuleListPath = ""
        · simp [h1, h2, hrel] at h
        · simp only [h1, h2, ne_eq, not_false_eq_true, and_self, if_true] at h
          cases hread : readInternalModuleListPath sys (pathJoin [repoRoot, value]) with
          | value l => simp [hread, hrel] at h
          | error err => simp [hread] at h
          | panic => simp [hread] at h
    | ok rootRel =>
      by_cases h1 : config0.InternalModuleListPath = value
      · simp only [h1, ne_eq, not_true_eq_false, false_and, if_false, Bool.false_eq_true,
          hrel, Outcome.value.injEq] at h
        subst h
        exact ⟨rfl, fun _ => rfl, fun hc => absurd h1 hc, fun hc => absurd h1 hc⟩
      · by_cases h2 : config0.InternalModuleListPath = ""
        · simp only [h1, h2, ne_eq, not_false_eq_true, not_true_eq_false, and_false, and_true,
            if_true, if_false, Bool.false_eq_true, hrel, Outcome.value.injEq] at h
          subst h
          have h1' : ¬ "" = value := fun hc => h1 (h2.trans hc)
          exact ⟨rfl, fun hc => absurd hc h1, fun _ hc => absurd h2 hc, fun _ _ => if_pos h1'⟩
        · simp only [h1, h2, ne_eq, not_false_eq_true, and_self, and_false, if_true,
            if_false] at h
          cases hread : readInternalModuleListPath sys (pathJoin [repoRoot, value]) with
          | value l =>
            simp only [hread, Bool.false_eq_true, if_false, hrel, Outcome.value.injEq] at h
            subst h
            exact ⟨rfl, fun hc => absurd hc h1, fun _ _ => rfl, fun _ hc => absurd hc h2⟩
          | error err => simp [hread] at h
          | panic => simp [hread] at h
  · intro config h
    unfold Configure at h
    rw [configureLoop_external] at h
    dsimp only at h
    cases hrel : sys.Rel config0.RootDir rel with
    | error err =>
      exfalso
      by_cases h1 : config0.ExternalModuleMapPath = value
      · simp [h1, hrel] at h
      · by_cases h2 : config0.ExternalModuleMapPath = ""
        · simp [h1, h2, hrel] at h
        · simp only [h1, h2, ne_eq, not_false_eq_true, and_self, if_true, Bool.false_eq_true,
            if_false] at h
          cases hread : readExternalModuleMapPath sys (pathJoin [repoRoot, value])
              config0.ExternalRepoNamePrefix with
          | value l => simp [hread, hrel] at h
          | error err => simp [hread] at h
          | panic => simp [hread] at h
    | ok rootRel =>
      by_cases h1 : config0.ExternalModuleMapPath = value
      · simp only [h1, ne_eq, not_true_eq_false, false_and, if_false, Bool.false_eq_true,
          hrel, Outcome.value.injEq] at h
        subst h
        exact ⟨rfl, fun _ => rfl, fun hc => absurd h1 hc, fun hc => absurd h1 hc⟩
      · by_cases h2 : config0.ExternalModuleMapPath = ""
        · simp only [h1, h2, ne_eq, not_false_eq_true, not_true_eq_false, and_false, and_true,
            if_true, if_false, Bool.false_eq_true, hrel, Outcome.value.injEq] at h
          subst h
          have h1' : ¬ "" = value := fun hc => h1 (h2.trans hc)
          exact ⟨rfl, fun hc => absurd hc h1, fun _ hc => absurd h2 hc, fun _ _ => if_pos h1'⟩
        · simp only [h1, h2, ne_eq, not_false_eq_true, and_self, and_false, if_true,
            if_false, Bool.false_eq_true] at h
          cases hread : readExternalModuleMapPath sys (pathJoin [repoRoot, value])
              config0.ExternalRepoNamePrefix with
          | value l =>
            simp only [hread, hrel, Outcome.value.injEq] at h
            subst h
            exact ⟨rfl, fun hc => absurd hc h1, fun _ _ => rfl, fun _ hc => absurd hc h2⟩
          | error err => simp [hread] at h
          | panic => simp [hread] at h

/-- The directive `py_internal_module_list_path modules.txt` in the build file of the root,
with no flag given: the file holds `os` and `sys`, and the configuration of the directory
holds the path and an empty list. -/
theorem Configure_table_path_witness :
    readInternalModuleListPath testSystem "repo/modules.txt" = .value ["os", "sys"] ∧
    Configure testSystem "repo" defaultConfiguration ""
        [⟨directiveInternalModuleListPath, "modules.txt"⟩] =
      .value { defaultConfiguration with
        InternalModuleListPath := "modules.txt", InternalModuleList := [] } ∧
    Configure testSystem "repo" defaultConfiguration ""
        [⟨directiveExternalModuleMapPath, "modules.txt"⟩] =
      .value { defaultConfiguration with
        ExternalModuleMapPath := "modules.txt", ExternalModuleMap := [] } ∧
    ({ defaultConfiguration with
        InternalModuleListPath := "modules.txt",
        InternalModuleList := [] } : Configuration).InternalModuleList = [] :=
  ⟨by decide, by decide, by decide,
    ((Configure_table_path testSystem "repo" defaultConfiguration "" "modules.txt").1
      { defaultConfiguration with
        InternalModuleListPath := "modules.txt", InternalModuleList := [] }
      (by decide)).2.2.2 (by decide) (by decide)⟩

/-! ## `moduleForFilename` -/

/-- C37 fails. For a top-level `__init__.py`, `moduleForFilename` calls `ImportSpec` with a
blank package path and a blank module name and ends in its panic, where the test expects
an empty package, an empty module and the type `py`. Of the seventeen cases of
`TestModuleForFilename`, fifteen give the package, module and type that the test expects,
and the two cases of a top-level `__init__.py` panic. The first component is lowered before
it is compared with the name of the dist-info directory, which is not lowered: under a
dist-info directory whose name has a capital letter a module is found. -/
theorem moduleForFilename_top_level_init (toLower : String → String) (fuel : Nat)
    (distInfoDir dataDir : String) :
    (toLower "__init__.py" ≠ distInfoDir → toLower "__init__.py" ≠ dataDir →
      moduleForFilename toLower fuel "__init__.py" distInfoDir dataDir = .panic) ∧
    wheelTestCases.map
        (fun c => wheelModule (moduleForFilename lowerASCII 32 c.1 c.2.1 c.2.2)) =
      [ some ("", "", ""),
        none,
        some ("", "a", "py"),
        some ("", "a", "so"),
        some ("pkg", "", "py"),
        some ("pkg1.pkg2", "", "py"),
        some ("pkg", "a", "py"),
        some ("pkg", "a", "so"),
        some ("pkg", "a", "so"),
        some ("pkg1.pkg2", "a", "py"),
        some ("pkg1.pkg2", "a", "so"),
        some ("", "", ""),
        some ("", "", ""),
        some ("", "a", "py"),
        some ("", "a", "py"),
        some ("pkg", "a", "py"),
        none ] ∧
    moduleForFilename lowerASCII 32 "__init__.py" "" "" = .panic ∧
    moduleForFilename lowerASCII 32 "data/platlib/__init__.py" "" "data" = .panic ∧
    moduleForFilename lowerASCII 32 "PyYAML-6.0.dist-info/x.py" "PyYAML-6.0.dist-info"
        "PyYAML-6.0.data" =
      .ok ("PyYAML-6.0.dist-info", "x", "py", "PyYAML-6.0.dist-info.x") := by
  refine ⟨?_, by decide, by decide, by decide, by decide⟩
  intro h1 h2
  have hsplit : Split "__init__.py" = ["__init__.py"] := by decide
  have hext : pathExt "__init__.py" = ".py" := by decide
  have hname : ModuleName fuel "__init__.py" = some ("", "py", true) := by
    simp [ModuleName, hext]
  simp only [moduleForFilename, hsplit, if_neg h1, if_neg h2, List.getLast?_singleton, hname]
  decide

/-! ## Rule names within a package -/

theorem ReplaceAll_default (name : String) :
    ReplaceAll "\x7bmodule_name\x7d" "\x7bmodule_name\x7d" name = name := by
  have h := replaceScan_intercalate '{' "module_name\x7d".data name.data [[], []]
    (by simp)
  have h1 : ("\x7bmodule_name\x7d".data).intercalate [[], []] = "\x7bmodule_name\x7d".data := by
    decide
  have h2 : name.data.intercalate [[], []] = name.data := by
    simp [List.intercalate, List.intersperse]
  apply String.ext
  show replaceScan "\x7bmodule_name\x7d".data name.data 0 "\x7bmodule_name\x7d".data = name.data
  have h3 : ('{' :: "module_name\x7d".data) = "\x7bmodule_name\x7d".data := by decide
  rw [h3, h1, h2] at h
  exact h

theorem string_ne_append (p s : String) (hs : s ≠ "") : p ≠ p ++ s := by
  intro h
  have hd := congrArg String.data h
  rw [String.data_append] at hd
  have hl := congrArg List.length hd
  rw [List.length_append] at hl
  have : s.data.length = 0 := by omega
  exact hs (String.ext (List.length_eq_zero.1 this))

theorem string_append_cancel (p a b : String) (h : p ++ a = p ++ b) : a = b := by
  have hd := congrArg String.data h
  rw [String.data_append, String.data_append] at hd
  exact String.ext (List.append_cancel_left hd)

theorem name_cases (n : String) :
    n = "" ∨ n = "__main__" ∨ n = "__test__" ∨ (n ≠ "" ∧ n ≠ "__main__" ∧ n ≠ "__test__") := by
  by_cases h1 : n = ""
  · exact Or.inl h1
  · by_cases h2 : n = "__main__"
    · exact Or.inr (Or.inl h2)
    · by_cases h3 : n = "__test__"
      · exact Or.inr (Or.inr (Or.inl h3))
      · exact Or.inr (Or.inr (Or.inr ⟨h1, h2, h3⟩))

theorem base_clash (P n1 n2 : String) (hne : n1 ≠ n2) :
    ((if n1 = "" then P else if n1 = "__main__" then P ++ "_bin"
        else if n1 = "__test__" then P ++ "_test" else n1) =
      (if n2 = "" then P else if n2 = "__main__" then P ++ "_bin"
        else if n2 = "__test__" then P ++ "_test" else n2)) ↔
    (((if n2 = "" then some P else if n2 = "__main__" then some (P ++ "_bin")
        else if n2 = "__test__" then some (P ++ "_test") else none) = none ∧
      (if n1 = "" then some P else if n1 = "__main__" then some (P ++ "_bin")
        else if n1 = "__test__" then some (P ++ "_test") else none) = some n2) ∨
     ((if n1 = "" then some P else if n1 = "__main__" then some (P ++ "_bin")
        else if n1 = "__test__" then some (P ++ "_test") else none) = none ∧
      (if n2 = "" then some P else if n2 = "__main__" then some (P ++ "_bin")
        else if n2 = "__test__" then some (P ++ "_test") else none) = some n1)) := by
  have hb1 : P ≠ P ++ "_bin" := string_ne_append _ _ (by decide)
  have hb2 : P ≠ P ++ "_test" := string_ne_append _ _ (by decide)
  have hb3 : P ++ "_bin" ≠ P ++ "_test" :=
    fun h => absurd (string_append_cancel _ _ _ h) (by decide)
  rcases name_cases n1 with rfl | rfl | rfl | ⟨a1, a2, a3⟩ <;>
    rcases name_cases n2 with rfl | rfl | rfl | ⟨b1, b2, b3⟩
  all_goals first
    | exact absurd rfl hne
    | (simp [hb1, hb2, hb3, hb1.symm, hb2.symm, hb3.symm]; done)
    | (simp [*]; done)
    | (simp [*]; exact eq_comm)

/-- Two modules of one package with different bare names have the same base name exactly
when one of them takes from the package the name that the other has as its bare name. -/
theorem ruleBaseName_eq_iff (m1 m2 : Module) (hpkg : m1.PkgPath = m2.PkgPath)
    (hne : m1.Name ≠ m2.Name) :
    ruleBaseName m1 = ruleBaseName m2 ↔ takesNameOf m1 m2 ∨ takesNameOf m2 m1 := by
  unfold takesNameOf packageDerivedName ruleBaseName
  rw [hpkg]
  exact base_clash (pathBase m2.PkgPath) m1.Name m2.Name hne


/-- C39 fails. In the package `foo` with the files `__init__.py` and `foo.py`,
`GenerateRules` with the default template emits two rules of the name `foo`, one with the
source `__init__.py` and one with the source `foo.py`: the package-root module, whose bare
name is empty, takes the name of the package, which is the bare name of the module of
`foo.py`. -/
theorem init_and_foo_share_name :
    (match GenerateRules insertionRanges 8 initAndFooFiles "foo" "\x7bmodule_name\x7d" ".."
        [] ["__init__.py", "foo.py"] [] with
      | .ok (rules, pkg, modules) =>
        some (rules.map Rule.Name, modules.map (fun m => (deref pkg m).Name),
          rules.map (fun r => r.AttrStrings "srcs"))
      | _ => none) =
    some (["foo", "foo"], ["", "foo"], [["__init__.py"], ["foo.py"]]) := by
  decide

/-- The pairs of modules that `GenerateRule` gives one name. With the default name
template, two modules of one package with different bare names get the same rule name
exactly when one of them is the package-root module, `__main__` or `__test__` and the name
it takes from the package (the name of the package, that name with `_bin`, that name with
`_test`) is the bare name of the other, a module that keeps its bare name. Among modules of
one package with pairwise different bare names, none of which takes the name of another, no
two rules have the same name. -/
theorem GenerateRule_name_clash (order : List ModId → List ModId) (pkg : Pkg)
    (m1 m2 : Module) (relPythonRoot : String)
    (hpkg : m1.PkgPath = m2.PkgPath) (hne : m1.Name ≠ m2.Name) :
    ((GenerateRule order pkg m1 "\x7bmodule_name\x7d" relPythonRoot).Name =
        (GenerateRule order pkg m2 "\x7bmodule_name\x7d" relPythonRoot).Name ↔
      takesNameOf m1 m2 ∨ takesNameOf m2 m1) ∧
    ∀ modules : List Module,
      (∀ a ∈ modules, ∀ b ∈ modules, a.PkgPath = b.PkgPath) →
      (modules.map Module.Name).Nodup →
      (∀ a ∈ modules, ∀ b ∈ modules, ¬ takesNameOf a b) →
      (modules.map
        (fun m => (GenerateRule order pkg m "\x7bmodule_name\x7d" relPythonRoot).Name)).Nodup := by
  have hname : ∀ m : Module,
      (GenerateRule order pkg m "\x7bmodule_name\x7d" relPythonRoot).Name = ruleBaseName m := by
    intro m
    rw [GenerateRule_Name, ReplaceAll_default]
  constructor
  · rw [hname, hname]
    exact ruleBaseName_eq_iff m1 m2 hpkg hne
  · intro modules hsame hnodup hclash
    apply List.Nodup.map_on _ (List.Nodup.of_map _ hnodup)
    intro a ha b hb hab
    by_contra hne1
    have hnames : a.Name ≠ b.Name := fun h => hne1 (List.inj_on_of_nodup_map hnodup ha hb h)
    rw [hname, hname] at hab
    rcases (ruleBaseName_eq_iff a b (hsame a ha b hb) hnames).1 hab with h | h
    · exact hclash a ha b hb h
    · exact hclash b hb a ha h

/-- The modules of `__init__.py` and of `foo.py` in the package `pkg/foo`: both rules have
the name `foo`. -/
theorem GenerateRule_name_clash_witness :
    (GenerateRule id [] (mkModule "pkg/foo" "" "pkg.foo" []) "\x7bmodule_name\x7d" "../..").Name
      = "foo" ∧
    (GenerateRule id [] (mkModule "pkg/foo" "foo" "pkg.foo.foo" []) "\x7bmodule_name\x7d"
      "../..").Name = "foo" ∧
    takesNameOf (mkModule "pkg/foo" "" "pkg.foo" []) (mkModule "pkg/foo" "foo" "pkg.foo.foo" []) ∧
    (((GenerateRule id [] (mkModule "pkg/foo" "" "pkg.foo" []) "\x7bmodule_name\x7d"
          "../..").Name =
        (GenerateRule id [] (mkModule "pkg/foo" "foo" "pkg.foo.foo" []) "\x7bmodule_name\x7d"
          "../..").Name ↔
      takesNameOf (mkModule "pkg/foo" "" "pkg.foo" [])
          (mkModule "pkg/foo" "foo" "pkg.foo.foo" []) ∨
        takesNameOf (mkModule "pkg/foo" "foo" "pkg.foo.foo" [])
          (mkModule "pkg/foo" "" "pkg.foo" [])) ∧
    ∀ modules : List Module,
      (∀ a ∈ modules, ∀ b ∈ modules, a.PkgPath = b.PkgPath) →
      (modules.map Module.Name).Nodup →
      (∀ a ∈ modules, ∀ b ∈ modules, ¬ takesNameOf a b) →
      (modules.map
        (fun m => (GenerateRule id [] m "\x7bmodule_name\x7d" "../..").Name)).Nodup) :=
  ⟨by decide, by decide, by unfold takesNameOf; decide,
    GenerateRule_name_clash id [] (mkModule "pkg/foo" "" "pkg.foo" [])
      (mkModule "pkg/foo" "foo" "pkg.foo.foo" []) "../.." rfl (by decide)⟩

/-! ## The first loop of `analyzePythonPackage` -/

theorem ModuleName_py (fuel : Nat) (filename : String) (h : pathExt filename = ".py") :
    ModuleName fuel filename = some (pyModuleName filename, "py", true) := by
  unfold ModuleName pyModuleName
  simp only [h, if_true]
  by_cases hi : filename = "__init__.py"
  · simp [hi]
  · simp [hi]

theorem ModuleName_not_py (fuel : Nat) (filename : String) (h : pathExt filename ≠ ".py")
    (hfuel : filename.length ≤ fuel) :
    ∃ name typ ok, ModuleName fuel filename = some (name, typ, ok) ∧
      (ok = false ∨ typ ≠ "py") := by
  unfold ModuleName
  simp only [h, if_false]
  by_cases hso : pathExt filename = ".so"
  · simp only [hso, if_true]
    have := stripExts_cut fuel filename hfuel
    rw [hso] at this
    rw [this]
    exact ⟨_, _, _, rfl, Or.inr (by decide)⟩
  · simp only [hso, if_false]
    exact ⟨_, _, _, rfl, Or.inl rfl⟩

theorem Parse_total (order : List String → List String) (fuel : Nat) (tree : List Stmt)
    (hfuel : depthList tree ≤ fuel) : ∃ res, Parse order fuel tree = some res := by
  obtain ⟨st, _, hrun, _⟩ := walkStmts_total fuel tree initialState hfuel
  exact ⟨_, Parse_eq order fuel tree st hrun⟩

/-- The body of the first loop on a file that is not accepted: nothing changes. -/
theorem collectFile_skip (ranges : Ranges) (fuel : Nat) (files : Files) (pkgPath : String)
    (st : Collected) (filename : String) (hfuel : filename.length ≤ fuel)
    (h : acceptedFile files filename = false) :
    collectFile ranges fuel files pkgPath st filename = .ok st := by
  unfold collectFile
  by_cases hext : pathExt filename = ".py"
  · rw [ModuleName_py fuel filename hext]
    have hsrc : files.source filename = none := by
      unfold acceptedFile at h
      cases hs : files.source filename with
      | none => rfl
      | some tree => simp [hext, hs] at h
    simp [hsrc]
  · obtain ⟨name, typ, ok, hm, hor⟩ := ModuleName_not_py fuel filename hext hfuel
    rw [hm]
    simp only
    rw [if_pos hor]

/-- The body of the first loop on an accepted file: a panic if the file has no import
specifier, and a new module otherwise. -/
theorem collectFile_accepted (ranges : Ranges) (fuel : Nat) (files : Files) (pkgPath : String)
    (st : Collected) (filename : String)
    (hdepth : ∀ tree, files.source filename = some tree → depthList tree ≤ fuel)
    (h : acceptedFile files filename = true) :
    (fileSpec pkgPath filename = none →
      collectFile ranges fuel files pkgPath st filename = .panic) ∧
    (∀ spec, fileSpec pkgPath filename = some spec →
      ∃ md : Module, md.core = (spec, pkgPath, pyModuleName filename, filename) ∧
        md.InPkgDeps = [] ∧
        collectFile ranges fuel files pkgPath st filename = .ok
          { importSpecs := st.importSpecs ++ [spec],
            moduleMap := mapSet st.moduleMap spec st.pkg.length,
            pkg := st.pkg ++ [md] }) := by
  unfold acceptedFile at h
  simp only [Bool.and_eq_true, decide_eq_true_eq] at h
  obtain ⟨hext, hsome⟩ := h
  cases hs : files.source filename with
  | none => rw [hs] at hsome; simp at hsome
  | some tree =>
    obtain ⟨res, hres⟩ := Parse_total ranges.imports fuel tree (hdepth tree hs)
    unfold collectFile fileSpec
    rw [ModuleName_py fuel filename hext]
    simp only [hs, hres]
    constructor
    · intro hnone
      simp [hnone]
    · intro spec hspec
      simp only [hspec]
      exact ⟨{ Imports := res.Imports, HasMainNameCheck := res.HasMainNameCheck,
               ImportSpec := spec, PkgPath := pkgPath, Name := pyModuleName filename,
               Filename := filename, InPkgDeps := [], ExPkgImports := [] }, rfl, rfl, rfl⟩

/-! ## What the analysis leaves unchanged -/

theorem core_modify (f : Module → Module) (hf : ∀ md, (f md).core = md.core) (pkg : Pkg)
    (m : ModId) : (pkg.modify f m).map Module.core = pkg.map Module.core := by
  apply List.ext_getElem?
  intro x
  rw [List.getElem?_map, List.getElem?_map]
  by_cases h : x = m
  · rw [h, List.getElem?_modify_eq]
    cases pkg[m]? with
    | none => rfl
    | some md => simp [hf]
  · rw [List.getElem?_modify_ne _ _ (Ne.symm h)]

theorem core_ProcessImports (pkg : Pkg) (m : ModId) (moduleMap : ModuleMap)
    (subPackages : List String) :
    (ProcessImports pkg m moduleMap subPackages).map Module.core = pkg.map Module.core := by
  unfold ProcessImports
  apply core_modify
  intro md
  rw [ProcessImportsModule_closed]
  rfl

theorem core_processAll (moduleMap : ModuleMap) (subPackages : List String) :
    ∀ (ps : List ModId) (pkg : Pkg),
      (processAll pkg moduleMap subPackages ps).map Module.core = pkg.map Module.core := by
  intro ps
  induction ps with
  | nil => intro pkg; rfl
  | cons p rest ih =>
    intro pkg
    unfold processAll at ih ⊢
    rw [List.foldl_cons, ih, core_ProcessImports]

theorem core_addDep (pkg : Pkg) (m dep : ModId) :
    (addDep pkg m dep).map Module.core = pkg.map Module.core := by
  unfold addDep
  apply core_modify
  intro md
  rfl

/-- A fold whose steps keep a quantity keeps it. -/
theorem foldlM_option_keeps {σ α β : Type} (f : σ → α → Option σ) (q : σ → β)
    (hstep : ∀ s a s', f s a = some s' → q s' = q s) :
    ∀ (l : List α) (s s' : σ), l.foldlM f s = some s' → q s' = q s := by
  intro l
  induction l with
  | nil =>
    intro s s' h
    simp only [List.foldlM_nil] at h
    have : s = s' := by simpa using h
    rw [this]
  | cons a rest ih =>
    intro s s' h
    rw [List.foldlM_cons] at h
    cases hf : f s a with
    | none => rw [hf] at h; simp at h
    | some s1 =>
      rw [hf] at h
      have h1 : rest.foldlM f s1 = some s' := by simpa using h
      rw [ih s1 s' h1, hstep s a s1 hf]

theorem core_depsClosureHelper (order : List ModId → List ModId) (m : ModId) :
    ∀ (fuel : Nat) (pkg : Pkg) (dep : ModId) (r : Pkg),
      depsClosureHelper order m fuel pkg dep = some r →
      r.map Module.core = pkg.map Module.core := by
  intro fuel
  induction fuel with
  | zero => intro pkg dep r h; simp [depsClosureHelper] at h
  | succ fuel ih =>
    intro pkg dep r h
    rw [depsClosureHelper] at h
    refine foldlM_option_keeps _ (fun p : Pkg => p.map Module.core) ?_ _ _ _ h
    intro cur depdep s' hs
    by_cases c1 : depdep ∉ depsOf cur dep
    · rw [if_pos c1] at hs
      have : cur = s' := by simpa using hs
      rw [this]
    · rw [if_neg c1] at hs
      by_cases c2 : depdep ∈ depsOf cur m ∨ depdep = m
      · rw [if_pos c2] at hs
        have : cur = s' := by simpa using hs
        rw [this]
      · rw [if_neg c2] at hs
        show s'.map Module.core = cur.map Module.core
        rw [ih _ _ _ hs, core_addDep]

theorem core_DepsClosure (order : List ModId → List ModId) (fuel : Nat) (pkg : Pkg)
    (m : ModId) (r : Pkg) (h : DepsClosure order fuel pkg m = some r) :
    r.map Module.core = pkg.map Module.core := by
  unfold DepsClosure at h
  refine foldlM_option_keeps _ (fun p : Pkg => p.map Module.core) ?_ _ _ _ h
  intro cur dep s' hs
  by_cases c1 : dep ∉ depsOf cur m
  · rw [if_pos c1] at hs
    have : cur = s' := by simpa using hs
    rw [this]
  · rw [if_neg c1] at hs
    exact core_depsClosureHelper order m fuel cur dep s' hs

theorem core_closeAll (order : List ModId → List ModId) (fuel : Nat) (pkg : Pkg)
    (qs : List ModId) (r : Pkg) (h : closeAll order fuel pkg qs = some r) :
    r.map Module.core = pkg.map Module.core := by
  unfold closeAll at h
  exact foldlM_option_keeps _ (fun p : Pkg => p.map Module.core)
    (fun cur m s' hs => core_DepsClosure order fuel cur m s' hs) _ _ _ h

/-- The module behind a pointer has the core that stands at its place in the list of the
cores. -/
theorem core_deref (pkg : Pkg) (cores : List (String × String × String × String))
    (h : pkg.map Module.core = cores) (i : Nat) (c : String × String × String × String)
    (hc : cores[i]? = some c) : (deref pkg i).core = c := by
  rw [← h, List.getElem?_map] at hc
  unfold deref
  cases hp : pkg[i]? with
  | none => rw [hp] at hc; simp at hc
  | some md =>
    rw [hp] at hc
    simpa using hc

/-! ## Maps built by zipping keys with values -/

theorem lookup_zip_none {β : Type} (key : String) :
    ∀ (keys : List String) (vals : List β), key ∉ keys → (keys.zip vals).lookup key = none
  | [], _, _ => by simp
  | _ :: _, [], _ => by simp
  | k :: ks, v :: vs, h => by
    have hk : key ≠ k := fun hc => h (by rw [hc]; exact List.mem_cons_self _ _)
    have hks : key ∉ ks := fun hc => h (List.mem_cons_of_mem _ hc)
    have hne : (key == k) = false := by simpa using hk
    rw [List.zip_cons_cons, List.lookup_cons, hne]
    exact lookup_zip_none key ks vs hks

theorem lookup_zip_getElem {β : Type} :
    ∀ (keys : List String) (vals : List β) (i : Nat) (k : String) (v : β),
      keys.Nodup → keys[i]? = some k → vals[i]? = some v → (keys.zip vals).lookup k = some v
  | [], _, _, _, _, _, hk, _ => by simp at hk
  | _ :: _, [], _, _, _, _, _, hv => by simp at hv
  | k0 :: ks, v0 :: vs, 0, k, v, _, hk, hv => by
    simp only [List.getElem?_cons_zero, Option.some.injEq] at hk hv
    subst hk; subst hv
    simp [List.lookup_cons]
  | k0 :: ks, v0 :: vs, i + 1, k, v, hnd, hk, hv => by
    simp only [List.getElem?_cons_succ] at hk hv
    have hmem : k ∈ ks := List.getElem?_mem hk
    have hne : k ≠ k0 := by
      intro hc
      rw [hc] at hmem
      exact (List.nodup_cons.1 hnd).1 hmem
    have hb : (k == k0) = false := by simpa using hne
    rw [List.zip_cons_cons, List.lookup_cons, hb]
    exact lookup_zip_getElem ks vs i k v (List.nodup_cons.1 hnd).2 hk hv

theorem filterMap_lookup_zip {β : Type} :
    ∀ (keys : List String) (vals : List β), keys.Nodup → keys.length = vals.length →
      keys.filterMap (fun k => (keys.zip vals).lookup k) = vals
  | [], [], _, _ => rfl
  | [], _ :: _, _, h => by simp at h
  | _ :: _, [], _, h => by simp at h
  | k :: ks, v :: vs, hnd, hlen => by
    have hnd' := List.nodup_cons.1 hnd
    have ih := filterMap_lookup_zip ks vs hnd'.2 (by simpa using hlen)
    rw [List.zip_cons_cons, List.filterMap_cons]
    simp only [List.lookup_cons, beq_self_eq_true]
    congr 1
    rw [← ih]
    apply List.filterMap_congr
    intro x hx
    have hne : x ≠ k := by
      intro hc
      rw [hc] at hx
      exact hnd'.1 hx
    have hb : (x == k) = false := by simpa using hne
    rw [hb, ih]

theorem mapSet_fresh {β : Type} (m : List (String × β)) (key : String) (value : β)
    (h : m.lookup key = none) : mapSet m key value = m ++ [(key, value)] := by
  unfold mapSet
  rw [h]
  simp

/-! ## The first loop of `analyzePythonPackage`, on a list of files -/

theorem collectedFrom_length {pkgPath : String} {done : List String} {st : Collected}
    (h : CollectedFrom pkgPath done st) : st.pkg.length = done.length := by
  have := congrArg List.length h.cores
  simpa using this

/-- The first loop on files whose import specifiers are defined and pairwise distinct: it
returns, with one module more for each accepted file. -/
theorem collectFiles_ok (ranges : Ranges) (fuel : Nat) (files : Files) (pkgPath : String) :
    ∀ (fs pre : List String) (st : Collected),
      CollectedFrom pkgPath pre st →
      (∀ f ∈ fs, f.length ≤ fuel) →
      (∀ f ∈ fs, ∀ tree, files.source f = some tree → depthList tree ≤ fuel) →
      (∀ f ∈ fs, acceptedFile files f = true → fileSpec pkgPath f ≠ none) →
      ((pre ++ fs.filter (acceptedFile files)).map
        (fun f => (fileSpec pkgPath f).getD "")).Nodup →
      ∃ st', collectFiles ranges fuel files pkgPath fs st = .ok st' ∧
        CollectedFrom pkgPath (pre ++ fs.filter (acceptedFile files)) st' := by
  intro fs
  induction fs with
  | nil =>
    intro pre st hinv _ _ _ _
    exact ⟨st, rfl, by simpa using hinv⟩
  | cons f rest ih =>
    intro pre st hinv hlen hdepth hspec hnd
    have hlen' : ∀ g ∈ rest, g.length ≤ fuel := fun g hg => hlen g (List.mem_cons_of_mem _ hg)
    have hdepth' : ∀ g ∈ rest, ∀ tree, files.source g = some tree → depthList tree ≤ fuel :=
      fun g hg => hdepth g (List.mem_cons_of_mem _ hg)
    have hspec' : ∀ g ∈ rest, acceptedFile files g = true → fileSpec pkgPath g ≠ none :=
      fun g hg => hspec g (List.mem_cons_of_mem _ hg)
    cases hacc : acceptedFile files f with
    | false =>
      have hfilter : (f :: rest).filter (acceptedFile files) =
          rest.filter (acceptedFile files) := by
        rw [List.filter_cons, hacc]; rfl
      rw [hfilter] at hnd ⊢
      rw [collectFiles,
        collectFile_skip ranges fuel files pkgPath st f (hlen f (List.mem_cons_self _ _)) hacc]
      exact ih pre st hinv hlen' hdepth' hspec' hnd
    | true =>
      have hfilter : (f :: rest).filter (acceptedFile files) =
          f :: rest.filter (acceptedFile files) := by
        rw [List.filter_cons, hacc]; rfl
      rw [hfilter] at hnd ⊢
      have hassoc : pre ++ f :: rest.filter (acceptedFile files) =
          (pre ++ [f]) ++ rest.filter (acceptedFile files) := by simp
      rw [hassoc] at hnd ⊢
      cases hfs : fileSpec pkgPath f with
      | none => exact absurd hfs (hspec f (List.mem_cons_self _ _) hacc)
      | some spec =>
        obtain ⟨md, hcore, hdeps, hrun⟩ :=
          (collectFile_accepted ranges fuel files pkgPath st f
            (hdepth f (List.mem_cons_self _ _)) hacc).2 spec hfs
        rw [collectFiles, hrun]
        apply ih (pre ++ [f]) _ _ hlen' hdepth' hspec' hnd
        have hn := collectedFrom_length hinv
        have hnew : spec ∉ pre.map (fun f => (fileSpec pkgPath f).getD "") := by
          have h1 : ((pre ++ [f]).map (fun f => (fileSpec pkgPath f).getD "")).Nodup := by
            rw [List.map_append] at hnd
            exact (List.nodup_append.1 hnd).1
          rw [List.map_append, List.nodup_append] at h1
          intro hc
          exact h1.2.2 hc (by simp [hfs])
        constructor
        · simp [hinv.specs, hfs]
        · show mapSet st.moduleMap spec st.pkg.length = _
          rw [mapSet_fresh _ _ _ (by rw [hinv.map]; exact lookup_zip_none spec _ _ hnew),
            hinv.map, hn]
          rw [List.map_append, List.length_append, List.length_singleton, List.range_succ,
            List.zip_append (by simp)]
          simp [hfs]
        · show (st.pkg ++ [md]).map Module.core = _
          rw [List.map_append, hinv.cores, List.map_append]
          simp [hcore, hfs]
        · intro x hx
          rcases List.mem_append.1 hx with hx | hx
          · exact hinv.fresh x hx
          · rw [List.mem_singleton.1 hx]; exact hdeps

/-- The first loop ends in a panic exactly when an accepted file has no import specifier,
and never for lack of fuel when the fuel covers the file names and the syntax trees. -/
theorem collectFiles_panic_iff (ranges : Ranges) (fuel : Nat) (files : Files)
    (pkgPath : String) :
    ∀ (fs : List String) (st : Collected),
      (∀ f ∈ fs, f.length ≤ fuel) →
      (∀ f ∈ fs, ∀ tree, files.source f = some tree → depthList tree ≤ fuel) →
      (collectFiles ranges fuel files pkgPath fs st = .panic ↔
        ∃ f ∈ fs, acceptedFile files f = true ∧ fileSpec pkgPath f = none) ∧
      collectFiles ranges fuel files pkgPath fs st ≠ .noFuel := by
  intro fs
  induction fs with
  | nil =>
    intro st _ _
    simp [collectFiles]
  | cons f rest ih =>
    intro st hlen hdepth
    have hlen' : ∀ g ∈ rest, g.length ≤ fuel := fun g hg => hlen g (List.mem_cons_of_mem _ hg)
    have hdepth' : ∀ g ∈ rest, ∀ tree, files.source g = some tree → depthList tree ≤ fuel :=
      fun g hg => hdepth g (List.mem_cons_of_mem _ hg)
    cases hacc : acceptedFile files f with
    | false =>
      rw [collectFiles,
        collectFile_skip ranges fuel files pkgPath st f (hlen f (List.mem_cons_self _ _)) hacc]
      obtain ⟨h1, h2⟩ := ih st hlen' hdepth'
      refine ⟨?_, h2⟩
      show collectFiles ranges fuel files pkgPath rest st = .panic ↔ _
      rw [h1]
      constructor
      · rintro ⟨g, hg, hga, hgs⟩
        exact ⟨g, List.mem_cons_of_mem _ hg, hga, hgs⟩
      · rintro ⟨g, hg, hga, hgs⟩
        rcases List.mem_cons.1 hg with rfl | hg
        · rw [hacc] at hga; simp at hga
        · exact ⟨g, hg, hga, hgs⟩
    | true =>
      have hcf := collectFile_accepted ranges fuel files pkgPath st f
        (hdepth f (List.mem_cons_self _ _)) hacc
      cases hfs : fileSpec pkgPath f with
      | none =>
        rw [collectFiles, hcf.1 hfs]
        exact ⟨⟨fun _ => ⟨f, List.mem_cons_self _ _, hacc, hfs⟩, fun _ => rfl⟩, by simp⟩
      | some spec =>
        obtain ⟨md, _, _, hrun⟩ := hcf.2 spec hfs
        rw [collectFiles, hrun]
        obtain ⟨h1, h2⟩ := ih
          { importSpecs := st.importSpecs ++ [spec],
            moduleMap := mapSet st.moduleMap spec st.pkg.length,
            pkg := st.pkg ++ [md] } hlen' hdepth'
        refine ⟨?_, h2⟩
        show collectFiles ranges fuel files pkgPath rest _ = .panic ↔ _
        rw [h1]
        constructor
        · rintro ⟨g, hg, hga, hgs⟩
          exact ⟨g, List.mem_cons_of_mem _ hg, hga, hgs⟩
        · rintro ⟨g, hg, hga, hgs⟩
          rcases List.mem_cons.1 hg with rfl | hg
          · rw [hfs] at hgs; simp at hgs
          · exact ⟨g, hg, hga, hgs⟩

/-! ## The panic of `ImportSpec` in the analysis -/

theorem fileSpec_eq_none (pkgPath filename : String) :
    fileSpec pkgPath filename = none ↔ pkgPath = "" ∧ pyModuleName filename = "" := by
  unfold fileSpec ImportSpec
  constructor
  · intro h
    by_contra hc
    rw [if_neg hc] at h
    by_cases hm : pyModuleName filename = ""
    · simp [hm] at h
    · simp [hm] at h
  · intro h
    rw [if_pos h]

/-- With fuel for the file names and the syntax trees, `analyzePythonPackage` ends in a
panic exactly when the package path is empty and an accepted file has a blank module
name. -/
theorem analyze_panic_iff (ranges : Ranges) (fuel : Nat) (files : Files)
    (pkgPath : String) (subDirs filenames : List String)
    (hlen : ∀ f ∈ filenames, f.length ≤ fuel)
    (hdepth : ∀ f ∈ filenames, ∀ tree, files.source f = some tree → depthList tree ≤ fuel) :
    analyzePythonPackage ranges fuel files pkgPath subDirs filenames = .panic ↔
      pkgPath = "" ∧ ∃ f ∈ filenames, acceptedFile files f = true ∧ pyModuleName f = "" := by
  obtain ⟨hiff, _⟩ := collectFiles_panic_iff ranges fuel files pkgPath filenames
    { importSpecs := [], moduleMap := [], pkg := [] } hlen hdepth
  have hstep : analyzePythonPackage ranges fuel files pkgPath subDirs filenames = .panic ↔
      collectFiles ranges fuel files pkgPath filenames
        { importSpecs := [], moduleMap := [], pkg := [] } = .panic := by
    unfold analyzePythonPackage
    cases hc : collectFiles ranges fuel files pkgPath filenames
        { importSpecs := [], moduleMap := [], pkg := [] } with
    | panic => simp
    | noFuel => simp
    | ok st =>
      simp only
      cases closeAll ranges.deps fuel
        (processAll st.pkg st.moduleMap
          (subDirs.foldl
            (fun set subdir => if files.hasInit subdir then setInsert set subdir else set) [])
          (ranges.process (st.moduleMap.map Prod.snd)))
        (ranges.close (st.moduleMap.map Prod.snd)) <;> simp
  rw [hstep, hiff]
  constructor
  · rintro ⟨f, hf, hacc, hspec⟩
    obtain ⟨hp, hm⟩ := (fileSpec_eq_none pkgPath f).1 hspec
    exact ⟨hp, f, hf, hacc, hm⟩
  · rintro ⟨hp, f, hf, hacc, hm⟩
    exact ⟨f, hf, hacc, (fileSpec_eq_none pkgPath f).2 ⟨hp, hm⟩⟩

/-- C38 fails. With fuel for the file names and the syntax trees, `analyzePythonPackage`
ends in the panic of `ImportSpec` exactly when the package path is empty and an accepted
file has a blank module name; in particular it panics for the Python root directory, whose
package path is empty, when the directory holds an `__init__.py` that parses. -/
theorem analyze_root_init_panics (ranges : Ranges) (fuel : Nat) (files : Files)
    (pkgPath : String) (subDirs filenames : List String)
    (hlen : ∀ f ∈ filenames, f.length ≤ fuel)
    (hdepth : ∀ f ∈ filenames, ∀ tree, files.source f = some tree → depthList tree ≤ fuel) :
    (analyzePythonPackage ranges fuel files pkgPath subDirs filenames = .panic ↔
      pkgPath = "" ∧ ∃ f ∈ filenames, acceptedFile files f = true ∧ pyModuleName f = "") ∧
    ("__init__.py" ∈ filenames → (files.source "__init__.py").isSome = true →
      analyzePythonPackage ranges fuel files "" subDirs filenames = .panic) := by
  refine ⟨analyze_panic_iff ranges fuel files pkgPath subDirs filenames hlen hdepth, ?_⟩
  intro hmem hsrc
  rw [analyze_panic_iff ranges fuel files "" subDirs filenames hlen hdepth]
  refine ⟨rfl, "__init__.py", hmem, ?_, by decide⟩
  unfold acceptedFile
  rw [hsrc]
  decide

/-- The Python root directory with an `__init__.py`: the analysis panics. -/
theorem analyze_root_init_panics_witness :
    analyzePythonPackage insertionRanges 16 initOnlyFiles "" [] ["__init__.py"] = .panic ∧
    ((analyzePythonPackage insertionRanges 16 initOnlyFiles "" [] ["__init__.py"] = .panic ↔
      "" = "" ∧ ∃ f ∈ ["__init__.py"], acceptedFile initOnlyFiles f = true ∧
        pyModuleName f = "") ∧
    ("__init__.py" ∈ ["__init__.py"] → (initOnlyFiles.source "__init__.py").isSome = true →
      analyzePythonPackage insertionRanges 16 initOnlyFiles "" [] ["__init__.py"] = .panic)) :=
  ⟨by decide,
    analyze_root_init_panics insertionRanges 16 initOnlyFiles "" [] ["__init__.py"]
      (by decide)
      (by
        intro f hf tree hs
        rw [List.mem_singleton.1 hf] at hs
        have : tree = [] := by
          have h : initOnlyFiles.source "__init__.py" = some [] := rfl
          rw [h] at hs
          exact (Option.some.inj hs).symm
        rw [this]
        decide)⟩

/-! ## The modules that `analyzePythonPackage` returns -/

theorem findInPkgImport_mem (md : Module) (imp : String) (moduleMap : ModuleMap)
    (subPackages : List String) (w : ModId)
    (h : findInPkgImport md imp moduleMap subPackages = some w) :
    w ∈ moduleMap.map Prod.snd := by
  have hl : ∀ key, moduleMap.lookup key = some w → w ∈ moduleMap.map Prod.snd :=
    fun key hk => List.mem_map.2 ⟨(key, w), mem_of_lookup key w moduleMap hk, rfl⟩
  unfold findInPkgImport at h
  simp only at h
  split at h
  · simp at h
  · cases h1 : moduleMap.lookup imp with
    | some dep =>
      rw [h1] at h
      simp only [Option.some.injEq] at h
      subst h
      exact hl imp h1
    | none =>
      rw [h1] at h
      cases h2 : moduleMap.lookup (trimSuffix imp (pathExt imp)) with
      | some dep =>
        rw [h2] at h
        simp only [Option.some.injEq] at h
        subst h
        exact hl _ h2
      | none => rw [h2] at h; simp at h

/-- After the first two loops every pointer in an `InPkgDeps` is a value of the map. -/
theorem depsOf_processAll_mem (pkg : Pkg) (moduleMap : ModuleMap) (subPackages : List String)
    (ps : List ModId) (hfresh : ∀ md ∈ pkg, md.InPkgDeps = []) (x w : ModId)
    (h : w ∈ depsOf (processAll pkg moduleMap subPackages ps) x) :
    w ∈ moduleMap.map Prod.snd := by
  rw [mem_depsOf_processAll] at h
  rcases h with h | ⟨_, md, _, imp, _, hf⟩
  · have hnil : depsOf pkg x = [] := by
      unfold depsOf
      cases hget : pkg[x]? with
      | none => rfl
      | some md => exact hfresh md (List.getElem?_mem hget)
    rw [hnil] at h
    simp at h
  · exact findInPkgImport_mem md imp moduleMap subPackages w hf

theorem fuelBound_le (pkg : Pkg) (n : Nat) (h : ∀ x w, w ∈ depsOf pkg x → w < n) :
    fuelBound pkg ≤ n + 1 := by
  unfold fuelBound
  rw [← List.card_toFinset]
  apply Nat.succ_le_succ
  have hsub : (allDeps pkg).toFinset ⊆ Finset.range n := by
    intro w hw
    rw [List.mem_toFinset, mem_allDeps] at hw
    obtain ⟨x, hx⟩ := hw
    exact Finset.mem_range.2 (h x w hx)
  calc (allDeps pkg).toFinset.card ≤ (Finset.range n).card := Finset.card_le_card hsub
    _ = n := Finset.card_range n

theorem map_range_eq {α : Type} (l : List α) (g : Nat → α)
    (h : ∀ i a, l[i]? = some a → g i = a) : (List.range l.length).map g = l := by
  apply List.ext_getElem?
  intro i
  rw [List.getElem?_map]
  by_cases hi : i < l.length
  · rw [List.getElem?_range hi, List.getElem?_eq_getElem hi]
    simp only [Option.map_some', Option.some.injEq]
    exact h i _ (List.getElem?_eq_getElem hi)
  · have hle : l.length ≤ i := Nat.le_of_not_lt hi
    rw [List.getElem?_eq_none hle, List.getElem?_eq_none (by simpa using hle)]
    rfl

theorem filterMap_map_eq (lk : String → Option Nat) (g : Nat → String) :
    ∀ l : List String, (∀ s ∈ l, ∃ i, lk s = some i ∧ g i = s) →
      (l.filterMap lk).map g = l
  | [], _ => rfl
  | s :: rest, h => by
    obtain ⟨i, hi, hg⟩ := h s (List.mem_cons_self _ _)
    rw [List.filterMap_cons, hi]
    simp only [List.map_cons, hg]
    rw [filterMap_map_eq lk g rest (fun t ht => h t (List.mem_cons_of_mem _ ht))]

/-! ## Imports of a subpackage -/

/-- The specifier of the subpackage `s` of a package is `D.s` for the dotted path `D` of the
package, and `s` for the package at the Python root, whose path is empty. -/
theorem ImportSpec_subpackage (pkgPath s : String) (hne : s ≠ "") :
    ImportSpec pkgPath s =
      some (if pkgPath = "" then s else slashesToDots pkgPath ++ "." ++ s) := by
  unfold ImportSpec
  by_cases hp : pkgPath = ""
  · simp [hp, hne]
  · have hd : slashesToDots pkgPath ≠ "" := fun h => hp ((slashesToDots_eq_empty pkgPath).1 h)
    simp [hp, hne, hd, String.append_assoc]

/-- A specifier without a dot, for a module at the Python root: `findInPkgImport` makes no
test for a subpackage and returns what the module map holds for the specifier. -/
theorem findInPkgImport_no_dot (md : Module) (s : String) (moduleMap : ModuleMap)
    (subPackages : List String) (hseg : ∀ c ∈ s.data, c ≠ '.') :
    findInPkgImport md s moduleMap subPackages = moduleMap.lookup s := by
  unfold findInPkgImport
  simp only [ext_of_no_dot s hseg, trimSuffix_empty, ne_eq, not_true_eq_false, false_and,
    if_false]
  cases moduleMap.lookup s <;> rfl

/-- C6 fails at the Python root. For a module of a package and the specifier of a known
subpackage `s` of the package: in a package whose path is not empty the specifier is `D.s`
and `findInPkgImport` returns no module, whatever the module map holds. In the package at
the Python root, whose path is empty, the specifier is `s`; `path.Ext` finds no last
segment, the test for a subpackage is not made, and `findInPkgImport` returns what the
module map holds for `s`, the module of `s.py` if the root has one. -/
theorem subpackage_import_external (md : Module) (s : String) (moduleMap : ModuleMap)
    (subPackages : List String) (hs : s ∈ subPackages)
    (hseg : ∀ c ∈ s.data, c ≠ '.' ∧ c ≠ '/') (hne : s ≠ "") :
    ∃ spec, ImportSpec md.PkgPath s = some spec ∧
      (md.PkgPath ≠ "" → spec = slashesToDots md.PkgPath ++ "." ++ s ∧
        findInPkgImport md spec moduleMap subPackages = none) ∧
      (md.PkgPath = "" → spec = s ∧
        findInPkgImport md spec moduleMap subPackages = moduleMap.lookup s) := by
  refine ⟨_, ImportSpec_subpackage md.PkgPath s hne, ?_, ?_⟩
  · intro hp
    rw [if_neg hp]
    refine ⟨rfl, ?_⟩
    have hdata : slashesToDots md.PkgPath ++ "." ++ s
        = ⟨(slashesToDots md.PkgPath).data ++ '.' :: s.data⟩ := by
      apply String.ext
      simp [String.data_append]
    obtain ⟨hext, htrim⟩ := ext_of_parts (slashesToDots md.PkgPath).data s.data hseg
    rw [hdata]
    unfold findInPkgImport
    simp only [hext, htrim]
    rw [if_pos]
    refine ⟨?_, trivial, ?_⟩
    · intro h
      have := congrArg String.data h
      simp at this
    · exact hs
  · intro hp
    rw [if_pos hp]
    exact ⟨rfl, findInPkgImport_no_dot md s moduleMap subPackages (fun c hc => (hseg c hc).1)⟩

/-- The test case, `pkg1.pkg2.subpkg1` imported inside `pkg1/pkg2`, is external, also when
the module map has a module of that very specifier. At the Python root, with a
subpackage `subpkg1` and a module of the file `subpkg1.py`, the import of `subpkg1` is
taken for the module. -/
theorem subpackage_import_external_witness :
    findInPkgImport (mkModule "pkg1/pkg2" "" "pkg1.pkg2" []) "pkg1.pkg2.subpkg1"
      (("pkg1.pkg2.subpkg1", 1) :: testModuleMap) testSubPackages = none ∧
    findInPkgImport (mkModule "" "main" "main" ["subpkg1"]) "subpkg1"
      [("main", 0), ("subpkg1", 1)] testSubPackages = some 1 ∧
    ∃ spec, ImportSpec (mkModule "" "main" "main" ["subpkg1"]).PkgPath "subpkg1" = some spec ∧
      ((mkModule "" "main" "main" ["subpkg1"]).PkgPath ≠ "" →
        spec = slashesToDots (mkModule "" "main" "main" ["subpkg1"]).PkgPath ++ "." ++ "subpkg1" ∧
        findInPkgImport (mkModule "" "main" "main" ["subpkg1"]) spec
          [("main", 0), ("subpkg1", 1)] testSubPackages = none) ∧
      ((mkModule "" "main" "main" ["subpkg1"]).PkgPath = "" → spec = "subpkg1" ∧
        findInPkgImport (mkModule "" "main" "main" ["subpkg1"]) spec
            [("main", 0), ("subpkg1", 1)] testSubPackages =
          List.lookup "subpkg1" [("main", 0), ("subpkg1", 1)]) :=
  ⟨by decide, by decide,
   subpackage_import_external (mkModule "" "main" "main" ["subpkg1"]) "subpkg1"
    [("main", 0), ("subpkg1", 1)] testSubPackages (by decide) (by decide) (by decide)⟩

/-! ## The statements that the walk visits -/

theorem stripNots_branch :
    ∀ (test : Expr) (body orelse : List Stmt),
      (stripNots test body orelse).2.2 = if swapsBranches test = true then body else orelse
  | .UnaryOp op operand, body, orelse => by
    by_cases hop : op = .Not
    · have := stripNots_branch operand orelse body
      simp only [stripNots, swapsBranches, hop, if_true]
      rw [this]
      cases swapsBranches operand <;> simp
    · simp [stripNots, swapsBranches, hop]
  | .Attribute _ _, body, orelse => by simp [stripNots, swapsBranches]
  | .Name _, body, orelse => by simp [stripNots, swapsBranches]
  | .Compare _ _ _, body, orelse => by simp [stripNots, swapsBranches]
  | .Str _, body, orelse => by simp [stripNots, swapsBranches]
  | .Other, body, orelse => by simp [stripNots, swapsBranches]

theorem visitsList_append :
    ∀ (a b : List Stmt) (imported : List String),
      visitsList (a ++ b) imported =
        ((visitsList a imported).1 ++ (visitsList b (visitsList a imported).2).1,
          (visitsList b (visitsList a imported).2).2)
  | [], b, imported => by simp [visitsList]
  | s :: a, b, imported => by
    rw [List.cons_append, visitsList, visitsList_append a b, visitsList]
    simp [List.append_assoc]

/-- The state of the walk behind the statements `trace`, visited from the state `st`, with
the imported set `imported` behind them. -/
theorem walkStmts_exact (fuel : Nat)
    (ih : ∀ (s : Stmt) (st : WalkState), s.depth ≤ fuel →
      Walk fuel s st = some
        { importedSet := (s.visits st.importedSet).2,
          HasMainNameCheck := st.HasMainNameCheck || (s.visits st.importedSet).1.any mainGuard,
          visited := st.visited ++ (s.visits st.importedSet).1 }) :
    ∀ (l : List Stmt) (st : WalkState), depthList l ≤ fuel →
      walkStmts fuel l st = some
        { importedSet := (visitsList l st.importedSet).2,
          HasMainNameCheck :=
            st.HasMainNameCheck || (visitsList l st.importedSet).1.any mainGuard,
          visited := st.visited ++ (visitsList l st.importedSet).1 } := by
  intro l
  induction l with
  | nil =>
    intro st _
    cases st
    simp [walkStmts, visitsList]
  | cons s rest ihl =>
    intro st hd
    rw [depthList] at hd
    have hs : s.depth ≤ fuel := le_trans (le_max_left _ _) hd
    have hr : depthList rest ≤ fuel := le_trans (le_max_right _ _) hd
    have h1 := ih s st hs
    have h2 := ihl
      { importedSet := (s.visits st.importedSet).2,
        HasMainNameCheck := st.HasMainNameCheck || (s.visits st.importedSet).1.any mainGuard,
        visited := st.visited ++ (s.visits st.importedSet).1 } hr
    unfold walkStmts at h2 ⊢
    rw [List.foldlM_cons, h1]
    simp only [Option.some_bind, Option.bind_eq_bind] at h2 ⊢
    rw [h2, visitsList]
    simp [List.any_append, Bool.or_assoc, List.append_assoc]

/-- The walk of a statement with fuel for its depth: it returns, the statements visited are
those of `Stmt.visits`, and the flag is set exactly when one of them is a main guard. -/
theorem walk_exact :
    ∀ (fuel : Nat) (s : Stmt) (st : WalkState), s.depth ≤ fuel →
      Walk fuel s st = some
        { importedSet := (s.visits st.importedSet).2,
          HasMainNameCheck := st.HasMainNameCheck || (s.visits st.importedSet).1.any mainGuard,
          visited := st.visited ++ (s.visits st.importedSet).1 } := by
  intro fuel
  induction fuel with
  | zero =>
    intro s st h
    have := stmt_depth_pos s
    omega
  | succ fuel ih =>
    intro s st hd
    have hlist := walkStmts_exact fuel ih
    cases s with
    | Import names =>
      rw [Walk_Import]
      simp [Stmt.visits, noteVisit, mainGuard]
    | ImportFrom module names =>
      rw [Walk_ImportFrom]
      simp [Stmt.visits, noteVisit, mainGuard]
    | Other children =>
      rw [Stmt.depth] at hd
      rw [Walk_Other, hlist children _ (by omega)]
      simp [Stmt.visits, noteVisit, mainGuard]
    | If test body orelse =>
      rw [Stmt.depth] at hd
      have hb : depthList body ≤ fuel := by
        have := le_max_left (depthList body) (depthList orelse); omega
      have ho : depthList orelse ≤ fuel := by
        have := le_max_right (depthList body) (depthList orelse); omega
      have heq := isTypeCheckingConditional_eq st.importedSet test body orelse
      by_cases hrec : typeCheckingTest st.importedSet (stripNots test body orelse).1 = true
      · rw [if_pos hrec] at heq
        have hmain : isMainNameCheck test = false := by
          cases hm : isMainNameCheck test with
          | false => rfl
          | true =>
            have := isTypeCheckingConditional_of_mainCheck st.importedSet test body orelse hm
            rw [heq] at this
            simp at this
        rw [Walk_If_recognised fuel test body orelse _ st heq, stripNots_branch]
        by_cases hsw : swapsBranches test = true
        · rw [if_pos hsw, hlist body _ hb]
          simp [Stmt.visits, hrec, hsw, noteVisit, mainGuard, hmain]
        · rw [if_neg hsw, hlist orelse _ ho]
          simp [Stmt.visits, hrec, hsw, noteVisit, mainGuard, hmain]
      · rw [if_neg hrec] at heq
        have hfalse : (isTypeCheckingConditional st.importedSet test body orelse).1 = false := by
          rw [heq]
        rw [Walk_If_plain fuel test body orelse st hfalse,
          hlist (body ++ orelse) _ (by rw [depthList_append]; exact max_le hb ho),
          visitsList_append]
        simp [Stmt.visits, hrec, noteVisit, mainGuard, List.any_append, Bool.or_assoc,
          List.append_assoc]
theorem typeCheckingTest_shape (imported : List String) :
    ∀ (test : Expr) (body orelse : List Stmt),
      typeCheckingTest imported (stripNots test body orelse).1 = true →
      mayBeTypeChecking test = true := by
  intro test body orelse h
  apply isTypeCheckingConditional_shape imported test body orelse
  rw [isTypeCheckingConditional_eq, if_pos h]

theorem outerList_sub_visitsList (fuel : Nat)
    (ih : ∀ (s : Stmt) (imported : List String), s.depth ≤ fuel →
      ∀ x ∈ s.outer, x ∈ (s.visits imported).1) :
    ∀ (l : List Stmt) (imported : List String), depthList l ≤ fuel →
      ∀ x ∈ outerList l, x ∈ (visitsList l imported).1 := by
  intro l
  induction l with
  | nil =>
    intro imported _ x hx
    simp [outerList] at hx
  | cons s rest ihl =>
    intro imported hd x hx
    rw [depthList] at hd
    have hs : s.depth ≤ fuel := le_trans (le_max_left _ _) hd
    have hr : depthList rest ≤ fuel := le_trans (le_max_right _ _) hd
    rw [outerList, List.mem_append] at hx
    rw [visitsList]
    simp only [List.mem_append]
    rcases hx with hx | hx
    · exact Or.inl (ih s imported hs x hx)
    · exact Or.inr (ihl _ hr x hx)

/-- A statement in no branch of a conditional of the shape of a `TYPE_CHECKING` check is
visited, whatever has been imported. -/
theorem outer_sub_visits :
    ∀ (fuel : Nat) (s : Stmt) (imported : List String), s.depth ≤ fuel →
      ∀ x ∈ s.outer, x ∈ (s.visits imported).1 := by
  intro fuel
  induction fuel with
  | zero =>
    intro s imported h
    have := stmt_depth_pos s
    omega
  | succ fuel ih =>
    intro s imported hd x hx
    have hlist := outerList_sub_visitsList fuel ih
    cases s with
    | Import names => simpa [Stmt.outer, Stmt.visits] using hx
    | ImportFrom module names => simpa [Stmt.outer, Stmt.visits] using hx
    | Other children =>
      rw [Stmt.depth] at hd
      rw [Stmt.outer, List.mem_cons] at hx
      rw [Stmt.visits]
      simp only [List.mem_cons]
      rcases hx with hx | hx
      · exact Or.inl hx
      · exact Or.inr (hlist children imported (by omega) x hx)
    | If test body orelse =>
      rw [Stmt.depth] at hd
      have hb : depthList body ≤ fuel := by
        have := le_max_left (depthList body) (depthList orelse); omega
      have ho : depthList orelse ≤ fuel := by
        have := le_max_right (depthList body) (depthList orelse); omega
      rw [Stmt.outer] at hx
      by_cases hshape : mayBeTypeChecking test = true
      · rw [if_pos hshape, List.mem_singleton] at hx
        rw [Stmt.visits]
        split
        · split <;> simp [hx]
        · simp [hx]
      · rw [if_neg hshape, List.mem_cons, List.mem_append] at hx
        have hrec : ¬ typeCheckingTest imported (stripNots test body orelse).1 = true :=
          fun h => hshape (typeCheckingTest_shape imported test body orelse h)
        rw [Stmt.visits, if_neg hrec]
        simp only [List.mem_cons, List.mem_append]
        rcases hx with hx | hx | hx
        · exact Or.inl hx
        · exact Or.inr (Or.inl (hlist body imported hb x hx))
        · exact Or.inr (Or.inr (hlist orelse _ ho x hx))

/-- What `Parse` reads off the walk: with fuel for the depth of the tree the walk returns,
the statements it visits are those of `visitsList`, and the statements that `walkStmts_total`
describes are the same. -/
theorem walk_trace (fuel : Nat) (tree : List Stmt) (hfuel : depthList tree ≤ fuel) :
    ∃ st, walkStmts fuel tree initialState = some st ∧
      st.visited = (visitsList tree []).1 ∧
      st.HasMainNameCheck = (visitsList tree []).1.any mainGuard ∧
      (∀ x ∈ (visitsList tree []).1, x ∈ subsList tree) ∧
      ((∀ x ∈ subsList tree, tcShaped x = false) → (visitsList tree []).1 = subsList tree) := by
  obtain ⟨st, new, hrun, hw⟩ := walkStmts_total fuel tree initialState hfuel
  have hex := walkStmts_exact fuel (walk_exact fuel) tree initialState hfuel
  rw [hrun] at hex
  have hst := Option.some.inj hex
  have hvis : st.visited = (visitsList tree []).1 := by rw [hst]; rfl
  have hnew : new = (visitsList tree []).1 := by
    have h := hw.visited
    rw [hvis] at h
    simpa [initialState] using h.symm
  refine ⟨st, hrun, hvis, by rw [hst]; rfl, ?_, ?_⟩
  · intro x hx
    exact hw.sub x (hnew ▸ hx)
  · intro hno
    rw [← hnew]
    exact hw.full hno

/-- C12, amended. With fuel for the depth of the tree `Parse` returns, and
`HasMainNameCheck` is true exactly when a conditional testing `__name__ == "__main__"` is
among the statements of `visitsList`: the statements of the tree, at every depth, apart
from those in the branch of a recognised `TYPE_CHECKING` conditional that holds what runs
under type checking only. These are statements of the tree, and among them is every
statement that lies in no branch of a conditional of the shape of a `TYPE_CHECKING` check:
a main guard at top level, or under functions, classes and other conditionals only, sets
the flag, whatever else the tree holds. In a tree with no conditional of that shape they
are all the statements of the tree, and for a tree with no main guard at all the flag is
false. -/
theorem Parse_mainCheck (order : List String → List String) (fuel : Nat)
    (tree : List Stmt) (hfuel : depthList tree ≤ fuel) :
    ∃ r, Parse order fuel tree = some r ∧
      (walkStmts fuel tree initialState).map (fun st => st.visited) =
        some (visitsList tree []).1 ∧
      (r.HasMainNameCheck = true ↔
        ∃ s ∈ (visitsList tree []).1, ∃ body orelse, s = .If mainTest body orelse) ∧
      (∀ s ∈ (visitsList tree []).1, s ∈ subsList tree) ∧
      (∀ s ∈ outerList tree, s ∈ (visitsList tree []).1) ∧
      ((∃ s ∈ outerList tree, ∃ body orelse, s = .If mainTest body orelse) →
        r.HasMainNameCheck = true) ∧
      ((∀ s ∈ subsList tree, tcShaped s = false) →
        (r.HasMainNameCheck = true ↔
          ∃ s ∈ subsList tree, ∃ body orelse, s = .If mainTest body orelse)) ∧
      ((¬ ∃ s ∈ subsList tree, ∃ body orelse, s = .If mainTest body orelse) →
        r.HasMainNameCheck = false) := by
  obtain ⟨st, hrun, hvis, hmain, hsub, hfull⟩ := walk_trace fuel tree hfuel
  have houter : ∀ s ∈ outerList tree, s ∈ (visitsList tree []).1 :=
    outerList_sub_visitsList fuel (outer_sub_visits fuel) tree [] hfuel
  have hflag : st.HasMainNameCheck = true ↔
      ∃ s ∈ (visitsList tree []).1, ∃ body orelse, s = .If mainTest body orelse := by
    rw [hmain]
    simp only [List.any_eq_true, mainGuard_iff]
  refine ⟨_, Parse_eq order fuel tree st hrun, by rw [hrun, ← hvis]; rfl, hflag, hsub, houter,
    ?_, ?_, ?_⟩
  · rintro ⟨s, hs, hguard⟩
    exact hflag.2 ⟨s, houter s hs, hguard⟩
  · intro hno
    show st.HasMainNameCheck = true ↔ _
    rw [hflag, hfull hno]
  · intro hnone
    show st.HasMainNameCheck = false
    cases hm : st.HasMainNameCheck with
    | false => rfl
    | true =>
      obtain ⟨s, hs, hguard⟩ := hflag.1 hm
      exact absurd ⟨s, hsub s hs, hguard⟩ hnone

/-- A `TYPE_CHECKING` conditional followed by a main guard at top level yields
`HasMainNameCheck = true`, as does the source `if __name__ == "__main__": main()` of
`TestParse`. -/
theorem Parse_mainCheck_witness :
    Parse id 2 mainSource = some ⟨[], true⟩ ∧
    Parse id 3 typeCheckingThenMain = some ⟨["typing.TYPE_CHECKING"], true⟩ ∧
    (visitsList typeCheckingThenMain []).1 =
      [ .ImportFrom "typing" ["TYPE_CHECKING"],
        .If (.Name "TYPE_CHECKING") [.Import ["mod1"]] [],
        .If mainTest [.Other []] [], .Other [] ] ∧
    depthList typeCheckingThenMain ≤ 3 ∧
    ∃ r, Parse id 3 typeCheckingThenMain = some r ∧
      (walkStmts 3 typeCheckingThenMain initialState).map (fun st => st.visited) =
        some (visitsList typeCheckingThenMain []).1 ∧
      (r.HasMainNameCheck = true ↔
        ∃ s ∈ (visitsList typeCheckingThenMain []).1,
          ∃ body orelse, s = .If mainTest body orelse) ∧
      (∀ s ∈ (visitsList typeCheckingThenMain []).1, s ∈ subsList typeCheckingThenMain) ∧
      (∀ s ∈ outerList typeCheckingThenMain, s ∈ (visitsList typeCheckingThenMain []).1) ∧
      ((∃ s ∈ outerList typeCheckingThenMain, ∃ body orelse, s = .If mainTest body orelse) →
        r.HasMainNameCheck = true) ∧
      ((∀ s ∈ subsList typeCheckingThenMain, tcShaped s = false) →
        (r.HasMainNameCheck = true ↔
          ∃ s ∈ subsList typeCheckingThenMain,
            ∃ body orelse, s = .If mainTest body orelse)) ∧
      ((¬ ∃ s ∈ subsList typeCheckingThenMain,
          ∃ body orelse, s = .If mainTest body orelse) →
        r.HasMainNameCheck = false) :=
  ⟨by decide, by decide, by rfl, by decide,
    Parse_mainCheck id 3 typeCheckingThenMain (by decide)⟩

/-! ## What the loops of the analysis keep of a module -/

theorem keeps_modify {β : Type} (q : Module → β) (f : Module → Module)
    (hf : ∀ md, q (f md) = q md) (pkg : Pkg) (m : ModId) :
    (pkg.modify f m).map q = pkg.map q := by
  apply List.ext_getElem?
  intro x
  rw [List.getElem?_map, List.getElem?_map]
  by_cases h : x = m
  · rw [h, List.getElem?_modify_eq]
    cases pkg[m]? with
    | none => rfl
    | some md => simp [hf]
  · rw [List.getElem?_modify_ne _ _ (Ne.symm h)]

theorem keeps_depsClosureHelper {β : Type} (q : Module → β)
    (hq : ∀ (md : Module) (deps : List ModId), q { md with InPkgDeps := deps } = q md)
    (order : List ModId → List ModId) (m : ModId) :
    ∀ (fuel : Nat) (pkg : Pkg) (dep : ModId) (r : Pkg),
      depsClosureHelper order m fuel pkg dep = some r → r.map q = pkg.map q := by
  intro fuel
  induction fuel with
  | zero => intro pkg dep r h; simp [depsClosureHelper] at h
  | succ fuel ih =>
    intro pkg dep r h
    rw [depsClosureHelper] at h
    refine foldlM_option_keeps _ (fun p : Pkg => p.map q) ?_ _ _ _ h
    intro cur depdep s' hs
    by_cases c1 : depdep ∉ depsOf cur dep
    · rw [if_pos c1] at hs
      have : cur = s' := by simpa using hs
      rw [this]
    · rw [if_neg c1] at hs
      by_cases c2 : depdep ∈ depsOf cur m ∨ depdep = m
      · rw [if_pos c2] at hs
        have : cur = s' := by simpa using hs
        rw [this]
      · rw [if_neg c2] at hs
        show s'.map q = cur.map q
        rw [ih _ _ _ hs]
        unfold addDep
        exact keeps_modify q _ (fun md => hq md _) cur m

theorem keeps_DepsClosure {β : Type} (q : Module → β)
    (hq : ∀ (md : Module) (deps : List ModId), q { md with InPkgDeps := deps } = q md)
    (order : List ModId → List ModId) (fuel : Nat) (pkg : Pkg)
    (m : ModId) (r : Pkg) (h : DepsClosure order fuel pkg m = some r) :
    r.map q = pkg.map q := by
  unfold DepsClosure at h
  refine foldlM_option_keeps _ (fun p : Pkg => p.map q) ?_ _ _ _ h
  intro cur dep s' hs
  by_cases c1 : dep ∉ depsOf cur m
  · rw [if_pos c1] at hs
    have : cur = s' := by simpa using hs
    rw [this]
  · rw [if_neg c1] at hs
    exact keeps_depsClosureHelper q hq order m fuel cur dep s' hs

/-- The loop of `DepsClosure` writes nothing but `InPkgDeps`. -/
theorem keeps_closeAll {β : Type} (q : Module → β)
    (hq : ∀ (md : Module) (deps : List ModId), q { md with InPkgDeps := deps } = q md)
    (order : List ModId → List ModId) (fuel : Nat) (pkg : Pkg)
    (qs : List ModId) (r : Pkg) (h : closeAll order fuel pkg qs = some r) :
    r.map q = pkg.map q := by
  unfold closeAll at h
  exact foldlM_option_keeps _ (fun p : Pkg => p.map q)
    (fun cur m s' hs => keeps_DepsClosure q hq order fuel cur m s' hs) _ _ _ h

/-- The loop of `ProcessImports`, on pointers that `range` produces once each: it replaces
each module pointed to by what `ProcessImports` makes of it, and no other. -/
theorem getElem?_processAll (moduleMap : ModuleMap) (subPackages : List String) :
    ∀ (ps : List ModId) (pkg : Pkg), ps.Nodup → ∀ i,
      (processAll pkg moduleMap subPackages ps)[i]? =
        if i ∈ ps then
          (pkg[i]?).map (fun md => ProcessImportsModule md moduleMap subPackages)
        else pkg[i]? := by
  intro ps
  induction ps with
  | nil => intro pkg _ i; simp [processAll]
  | cons p rest ih =>
    intro pkg hnd i
    obtain ⟨hp, hrest⟩ := List.nodup_cons.1 hnd
    unfold processAll at ih ⊢
    rw [List.foldl_cons, ih _ hrest, getElem?_ProcessImports]
    by_cases hir : i ∈ rest
    · have hne : i ≠ p := fun hc => hp (hc ▸ hir)
      simp [hir, hne]
    · by_cases hip : i = p
      · subst hip
        simp [hir, hp]
      · simp [hir, hip]

theorem getElem?_deref (pkg : Pkg) (i : ModId) (md : Module) (h : pkg[i]? = some md) :
    deref pkg i = md := by
  unfold deref
  rw [h]
  rfl

theorem getElem?_of_map_eq {β : Type} (q : Module → β) (pkg pkg' : Pkg)
    (h : pkg'.map q = pkg.map q) (i : ModId) (md : Module) (hmd : pkg[i]? = some md) :
    ∃ md', pkg'[i]? = some md' ∧ q md' = q md := by
  have h1 := congrArg (fun l => l[i]?) h
  simp only [List.getElem?_map, hmd, Option.map_some'] at h1
  cases h2 : pkg'[i]? with
  | none => rw [h2] at h1; simp at h1
  | some md' =>
    rw [h2] at h1
    exact ⟨md', rfl, by simpa using h1⟩

theorem directDep_congr (pkg pkg' : Pkg) (moduleMap : ModuleMap) (subPackages : List String)
    (h : pkg'.map (fun md => (md.Imports, md.PkgPath)) =
      pkg.map (fun md => (md.Imports, md.PkgPath))) (a b : ModId) :
    directDep pkg' moduleMap subPackages a b ↔ directDep pkg moduleMap subPackages a b := by
  unfold directDep
  constructor
  · rintro ⟨md', hmd', imp, himp, hf⟩
    obtain ⟨md, hmd, hq⟩ := getElem?_of_map_eq _ pkg' pkg h.symm a md' hmd'
    have h1 : md.Imports = md'.Imports := congrArg Prod.fst hq
    have h2 : md.PkgPath = md'.PkgPath := congrArg Prod.snd hq
    exact ⟨md, hmd, imp, h1 ▸ himp, by rw [findInPkgImport_congr md' md h2]; exact hf⟩
  · rintro ⟨md, hmd, imp, himp, hf⟩
    obtain ⟨md', hmd', hq⟩ := getElem?_of_map_eq _ pkg pkg' h a md hmd
    have h1 : md'.Imports = md.Imports := congrArg Prod.fst hq
    have h2 : md'.PkgPath = md.PkgPath := congrArg Prod.snd hq
    exact ⟨md', hmd', imp, h1 ▸ himp, by rw [findInPkgImport_congr md md' h2]; exact hf⟩

/-! ## The first loop of `analyzePythonPackage`: what it reads from the files -/

theorem collectFile_parsed (ranges : Ranges) (fuel : Nat) (files : Files) (pkgPath : String)
    (st st' : Collected) (filename : String)
    (h : collectFile ranges fuel files pkgPath st filename = .ok st')
    (hst : Parsed ranges fuel files st.pkg) : Parsed ranges fuel files st'.pkg := by
  unfold collectFile at h
  cases hm : ModuleName fuel filename with
  | none => rw [hm] at h; simp at h
  | some r =>
    obtain ⟨moduleName, moduleType, ok⟩ := r
    rw [hm] at h
    simp only at h
    by_cases hok : ok = false ∨ moduleType ≠ "py"
    · rw [if_pos hok] at h
      have : st = st' := by simpa using h
      rw [← this]; exact hst
    · rw [if_neg hok] at h
      cases hs : files.source filename with
      | none =>
        rw [hs] at h
        have : st = st' := by simpa using h
        rw [← this]; exact hst
      | some tree =>
        rw [hs] at h
        simp only at h
        cases hp : Parse ranges.imports fuel tree with
        | none => rw [hp] at h; simp at h
        | some res =>
          rw [hp] at h
          simp only at h
          cases hi : ImportSpec pkgPath moduleName with
          | none => rw [hi] at h; simp at h
          | some importSpec =>
            rw [hi] at h
            simp only [Ran.ok.injEq] at h
            rw [← h]
            intro md hmd
            rcases List.mem_append.1 hmd with hmd | hmd
            · exact hst md hmd
            · rw [List.mem_singleton.1 hmd]
              exact ⟨rfl, tree, hs, hp⟩

theorem collectFiles_parsed (ranges : Ranges) (fuel : Nat) (files : Files)
    (pkgPath : String) :
    ∀ (fs : List String) (st st' : Collected),
      collectFiles ranges fuel files pkgPath fs st = .ok st' →
      Parsed ranges fuel files st.pkg → Parsed ranges fuel files st'.pkg := by
  intro fs
  induction fs with
  | nil =>
    intro st st' h hst
    rw [collectFiles] at h
    have : st = st' := by simpa using h
    rw [← this]; exact hst
  | cons f rest ih =>
    intro st st' h hst
    rw [collectFiles] at h
    cases hc : collectFile ranges fuel files pkgPath st f with
    | ok st1 =>
      rw [hc] at h
      exact ih st1 st' h (collectFile_parsed ranges fuel files pkgPath st st1 f hc hst)
    | panic => rw [hc] at h; simp at h
    | noFuel => rw [hc] at h; simp at h

/-- The set `subPackages`: the subdirectories that hold an `__init__.py`. -/
theorem mem_subPackages (files : Files) (d : String) :
    ∀ (subDirs acc : List String),
      d ∈ subDirs.foldl
          (fun set subdir => if files.hasInit subdir then setInsert set subdir else set) acc ↔
        d ∈ acc ∨ (d ∈ subDirs ∧ files.hasInit d = true) := by
  intro subDirs
  induction subDirs with
  | nil => intro acc; simp
  | cons s rest ih =>
    intro acc
    rw [List.foldl_cons, ih]
    by_cases hs : files.hasInit s = true
    · rw [if_pos hs]
      unfold setInsert
      by_cases hmem : s ∈ acc
      · rw [if_pos hmem]
        constructor
        · rintro (h | ⟨h1, h2⟩)
          · exact Or.inl h
          · exact Or.inr ⟨List.mem_cons_of_mem _ h1, h2⟩
        · rintro (h | ⟨h1, h2⟩)
          · exact Or.inl h
          · rcases List.mem_cons.1 h1 with rfl | h1
            · exact Or.inl hmem
            · exact Or.inr ⟨h1, h2⟩
      · rw [if_neg hmem]
        simp only [List.mem_append, List.mem_singleton, List.mem_cons, List.not_mem_nil,
          or_false]
        constructor
        · rintro ((h | h) | ⟨h1, h2⟩)
          · exact Or.inl h
          · exact Or.inr ⟨Or.inl h, h ▸ hs⟩
          · exact Or.inr ⟨Or.inr h1, h2⟩
        · rintro (h | ⟨h1 | h1, h2⟩)
          · exact Or.inl (Or.inl h)
          · exact Or.inl (Or.inr h1)
          · exact Or.inr ⟨h1, h2⟩
    · rw [if_neg hs]
      simp only [List.mem_cons]
      constructor
      · rintro (h | ⟨h1, h2⟩)
        · exact Or.inl h
        · exact Or.inr ⟨Or.inr h1, h2⟩
      · rintro (h | ⟨h1 | h1, h2⟩)
        · exact Or.inl h
        · rw [h1] at h2; exact absurd h2 hs
        · exact Or.inr ⟨h1, h2⟩
/-! ## Files of one package with one import specifier -/

theorem pyModuleName_append (f : String) (hext : pathExt f = ".py") (hne : f ≠ "__init__.py") :
    pyModuleName f ++ ".py" = f := by
  unfold pyModuleName
  rw [if_neg hne]
  apply trimSuffix_append
  exact (pathExt_eq_iff f ['p', 'y'] (by decide)).1 hext

theorem pyModuleName_eq_empty (f : String) (hext : pathExt f = ".py")
    (h : pyModuleName f = "") : f = "__init__.py" ∨ f = ".py" := by
  by_cases hne : f = "__init__.py"
  · exact Or.inl hne
  · right
    have := pyModuleName_append f hext hne
    rw [h] at this
    exact this.symm

/-- Two Python source files with one module name are `.py` and `__init__.py`, or one
file. -/
theorem pyModuleName_inj (f g : String) (hf : pathExt f = ".py") (hg : pathExt g = ".py")
    (hf' : f ≠ ".py") (hg' : g ≠ ".py") (h : pyModuleName f = pyModuleName g) : f = g := by
  by_cases hfi : f = "__init__.py"
  · have h1 : pyModuleName g = "" := by rw [← h, hfi]; rfl
    rcases pyModuleName_eq_empty g hg h1 with h2 | h2
    · rw [hfi, h2]
    · exact absurd h2 hg'
  · by_cases hgi : g = "__init__.py"
    · have h1 : pyModuleName f = "" := by rw [h, hgi]; rfl
      rcases pyModuleName_eq_empty f hf h1 with h2 | h2
      · exact absurd h2 hfi
      · exact absurd h2 hf'
    · rw [← pyModuleName_append f hf hfi, ← pyModuleName_append g hg hgi, h]

/-- Within one package, two module names with one import specifier are one name. -/
theorem ImportSpec_inj (pkgPath a b : String)
    (h : ImportSpec pkgPath a = ImportSpec pkgPath b) : a = b := by
  unfold ImportSpec at h
  by_cases hp : pkgPath = ""
  · subst hp
    by_cases ha : a = "" <;> by_cases hb : b = "" <;> simp [ha, hb] at h
    · rw [ha, hb]
    · exact h
  · have hd : slashesToDots pkgPath ≠ "" := fun hc => hp ((slashesToDots_eq_empty pkgPath).1 hc)
    by_cases ha : a = "" <;> by_cases hb : b = ""
    · rw [ha, hb]
    · simp only [hp, ha, hb, false_and, if_false, ne_eq, not_false_eq_true, if_true,
        not_true_eq_false, Option.some.injEq, hd] at h
      rw [String.append_assoc] at h
      have hne : "." ++ b ≠ "" := by
        intro hc
        have := congrArg String.length hc
        simp only [String.length_append, String.length_empty, Nat.add_eq_zero] at this
        exact absurd this.1 (by decide)
      exact absurd h (string_ne_append _ _ hne)
    · simp only [hp, ha, hb, false_and, if_false, ne_eq, not_false_eq_true, if_true,
        not_true_eq_false, Option.some.injEq, hd] at h
      rw [String.append_assoc] at h
      have hne : "." ++ a ≠ "" := by
        intro hc
        have := congrArg String.length hc
        simp only [String.length_append, String.length_empty, Nat.add_eq_zero] at this
        exact absurd this.1 (by decide)
      exact absurd h.symm (string_ne_append _ _ hne)
    · simp only [hp, ha, hb, false_and, and_false, if_false, ne_eq, not_false_eq_true, if_true,
        Option.some.injEq, hd] at h
      exact string_append_cancel _ a b h

/-- Distinct files of a package, the file `.py` not among the accepted ones, have
distinct import specifiers. -/
theorem fileSpecs_nodup (files : Files) (pkgPath : String) (filenames : List String)
    (hnodup : filenames.Nodup)
    (hdot : ∀ f ∈ filenames, acceptedFile files f = true → f ≠ ".py") :
    ((filenames.filter (acceptedFile files)).map (fileSpec pkgPath)).Nodup := by
  apply List.Nodup.map_on _ (hnodup.filter _)
  intro f hf g hg h
  obtain ⟨hf1, hf2⟩ := List.mem_filter.1 hf
  obtain ⟨hg1, hg2⟩ := List.mem_filter.1 hg
  have hfe : pathExt f = ".py" := by
    unfold acceptedFile at hf2
    simp only [Bool.and_eq_true, decide_eq_true_eq] at hf2
    exact hf2.1
  have hge : pathExt g = ".py" := by
    unfold acceptedFile at hg2
    simp only [Bool.and_eq_true, decide_eq_true_eq] at hg2
    exact hg2.1
  exact pyModuleName_inj f g hfe hge (hdot f hf1 hf2) (hdot g hg1 hg2)
    (ImportSpec_inj pkgPath _ _ h)

/-- The accepted files of a package have import specifiers, unless the package path is
empty and `__init__.py` or `.py` is accepted. -/
theorem fileSpecs_defined (files : Files) (pkgPath : String) (filenames : List String)
    (hdot : ∀ f ∈ filenames, acceptedFile files f = true → f ≠ ".py")
    (hroot : pkgPath = "" → ∀ f ∈ filenames, acceptedFile files f = true → f ≠ "__init__.py") :
    ∀ f ∈ filenames, acceptedFile files f = true → fileSpec pkgPath f ≠ none := by
  intro f hf hacc hnone
  obtain ⟨hp, hm⟩ := (fileSpec_eq_none pkgPath f).1 hnone
  have hfe : pathExt f = ".py" := by
    unfold acceptedFile at hacc
    simp only [Bool.and_eq_true, decide_eq_true_eq] at hacc
    exact hacc.1
  rcases pyModuleName_eq_empty f hfe hm with h | h
  · exact hroot hp f hf hacc h
  · exact hdot f hf hacc h
/-! ## The modules that `analyzePythonPackage` returns: imports and dependencies -/

theorem keeps_processAll {β : Type} (q : Module → β)
    (hq : ∀ (md : Module) (deps : List ModId) (ex : List String),
      q { md with InPkgDeps := deps, ExPkgImports := ex } = q md)
    (moduleMap : ModuleMap) (subPackages : List String) :
    ∀ (ps : List ModId) (pkg : Pkg),
      (processAll pkg moduleMap subPackages ps).map q = pkg.map q := by
  intro ps
  induction ps with
  | nil => intro pkg; rfl
  | cons p rest ih =>
    intro pkg
    unfold processAll at ih ⊢
    rw [List.foldl_cons, ih]
    unfold ProcessImports
    apply keeps_modify
    intro md
    rw [ProcessImportsModule_closed]
    exact hq md _ _

/-- A key of a map built by zipping keys with the numbers from zero stands at the place of
its value. -/
theorem lookup_zip_range (keys : List String) (key : String) (m : Nat)
    (h : (keys.zip (List.range keys.length)).lookup key = some m) : keys[m]? = some key := by
  have hmem := mem_of_lookup key m _ h
  obtain ⟨i, hi⟩ := List.getElem?_of_mem hmem
  rw [List.getElem?_zip_eq_some] at hi
  obtain ⟨h1, h2⟩ := hi
  have hlt : i < keys.length := by
    by_contra hc
    rw [List.getElem?_eq_none (Nat.le_of_not_lt hc)] at h1
    simp at h1
  rw [List.getElem?_range hlt] at h2
  have : i = m := by simpa using h2
  rw [← this]
  exact h1

/-- What `Parse` returns, read off the tree: with fuel for the depth of the tree it returns;
the flag is set exactly when a main guard is among the statements of `visitsList`; and, if
`range` produces every key of `importedSet` once, the imports are the specifiers
that the import statements among them contribute. -/
theorem Parse_visits (order : List String → List String) (fuel : Nat) (tree : List Stmt)
    (hfuel : depthList tree ≤ fuel) :
    ∃ r, Parse order fuel tree = some r ∧
      r.HasMainNameCheck = (visitsList tree []).1.any mainGuard ∧
      ((∀ l, (order l).Perm l) →
        ∀ spec, spec ∈ r.Imports ↔ ∃ s ∈ (visitsList tree []).1, spec ∈ contributes s) := by
  obtain ⟨st, new, hrun, hw⟩ := walkStmts_total fuel tree initialState hfuel
  have hex := walkStmts_exact fuel (walk_exact fuel) tree initialState hfuel
  rw [hrun] at hex
  have hst := Option.some.inj hex
  have hvis : st.visited = (visitsList tree []).1 := by rw [hst]; rfl
  have hnew : new = (visitsList tree []).1 := by
    have h := hw.visited
    rw [hvis] at h
    simpa [initialState] using h.symm
  refine ⟨_, Parse_eq order fuel tree st hrun, by rw [hst]; rfl, ?_⟩
  intro hperm spec
  show spec ∈ sortStrings (order st.importedSet) ↔ _
  rw [(sortStrings_perm _).mem_iff, (hperm _).mem_iff, hw.imported, hnew]
  simp [initialState]

/-- A module after the two loops over the map: `ProcessImports` has run on it once, and
`DepsClosure` has written nothing but `InPkgDeps`. -/
theorem module_after_loops (order : List ModId → List ModId) (fuel : Nat) (pkg0 pkg2 : Pkg)
    (moduleMap : ModuleMap) (subPackages : List String) (ps qs : List ModId)
    (hps : ps.Nodup)
    (hrun : closeAll order fuel (processAll pkg0 moduleMap subPackages ps) qs = some pkg2)
    (m : ModId) (hm : m ∈ ps) (md0 : Module) (hmd0 : pkg0[m]? = some md0) :
    (deref pkg2 m).Imports = md0.Imports ∧
    (deref pkg2 m).HasMainNameCheck = md0.HasMainNameCheck ∧
    (deref pkg2 m).Filename = md0.Filename ∧
    (deref pkg2 m).PkgPath = md0.PkgPath ∧
    (deref pkg2 m).ExPkgImports = md0.ExPkgImports ++ md0.Imports.filter
      (fun imp => (findInPkgImport md0 imp moduleMap subPackages).isNone) := by
  have h1 : (processAll pkg0 moduleMap subPackages ps)[m]? =
      some (ProcessImportsModule md0 moduleMap subPackages) := by
    rw [getElem?_processAll moduleMap subPackages ps pkg0 hps m, if_pos hm, hmd0]
    rfl
  have hk := keeps_closeAll
    (fun md : Module =>
      (md.Imports, md.HasMainNameCheck, md.Filename, md.PkgPath, md.ExPkgImports))
    (fun _ _ => rfl) order fuel _ qs pkg2 hrun
  obtain ⟨md2, hmd2, hq⟩ := getElem?_of_map_eq _ _ pkg2 hk m _ h1
  rw [getElem?_deref pkg2 m md2 hmd2]
  rw [ProcessImportsModule_closed] at hq
  simp only [Prod.mk.injEq] at hq
  exact hq

/-- The analysis of a package whose accepted files have import specifiers, pairwise
distinct, with each `range` over the map producing every key once: it returns, and the
modules returned stand for the accepted files, each with the imports that `Parse` finds in
its file, with those that `findInPkgImport` does not resolve as its external imports, and
with the modules that it reaches along direct dependencies as its `InPkgDeps`. -/
theorem analyze_spec (ranges : Ranges)
    (hprocess : ∀ l, (ranges.process l).Perm l)
    (hdeps : ∀ l x, x ∈ l → x ∈ ranges.deps l) (hclose : ∀ l x, x ∈ l → x ∈ ranges.close l)
    (fuel : Nat) (files : Files) (pkgPath : String) (subDirs filenames : List String)
    (hlen : ∀ f ∈ filenames, f.length ≤ fuel)
    (hdepth : ∀ f ∈ filenames, ∀ tree, files.source f = some tree → depthList tree ≤ fuel)
    (hcount : filenames.length < fuel)
    (hspec : ∀ f ∈ filenames, acceptedFile files f = true → fileSpec pkgPath f ≠ none)
    (hnd : ((filenames.filter (acceptedFile files)).map (fileSpec pkgPath)).Nodup) :
    ∃ pkg modules moduleMap subPackages,
      analyzePythonPackage ranges fuel files pkgPath subDirs filenames = .ok (pkg, modules) ∧
      (modules.map (fun m => (deref pkg m).Filename)).Perm
        (filenames.filter (acceptedFile files)) ∧
      modules.Nodup ∧
      List.Sorted (fun a b => strLt a b = true)
        (modules.map (fun m => (deref pkg m).ImportSpec)) ∧
      (∀ m ∈ modules, (deref pkg m).PkgPath = pkgPath ∧
        (deref pkg m).Name = pyModuleName (deref pkg m).Filename ∧
        fileSpec pkgPath (deref pkg m).Filename = some (deref pkg m).ImportSpec) ∧
      (∀ key m, moduleMap.lookup key = some m ↔
        m ∈ modules ∧ (deref pkg m).ImportSpec = key) ∧
      (∀ d, d ∈ subPackages ↔ d ∈ subDirs ∧ files.hasInit d = true) ∧
      (∀ m ∈ modules, ∃ tree, files.source (deref pkg m).Filename = some tree ∧
        Parse ranges.imports fuel tree =
          some ⟨(deref pkg m).Imports, (deref pkg m).HasMainNameCheck⟩ ∧
        (deref pkg m).HasMainNameCheck = (visitsList tree []).1.any mainGuard ∧
        ((∀ l, (ranges.imports l).Perm l) → ∀ spec, spec ∈ (deref pkg m).Imports ↔
          ∃ s ∈ (visitsList tree []).1, spec ∈ contributes s)) ∧
      (∀ m ∈ modules, (deref pkg m).ExPkgImports = (deref pkg m).Imports.filter
        (fun imp => (findInPkgImport (deref pkg m) imp moduleMap subPackages).isNone)) ∧
      (∀ m ∈ modules, ∀ w, w ∈ depsOf pkg m →
        w ∈ modules ∧ Relation.TransGen (directDep pkg moduleMap subPackages) m w) ∧
      (∀ m ∈ modules, ∀ w, w ≠ m →
        Relation.TransGen (directDep pkg moduleMap subPackages) m w → w ∈ depsOf pkg m) := by
  -- the accepted files and their specifiers
  have hdone_spec : ∀ f ∈ filenames.filter (acceptedFile files),
      fileSpec pkgPath f = some ((fileSpec pkgPath f).getD "") := by
    intro f hf
    obtain ⟨hf1, hf2⟩ := List.mem_filter.1 hf
    cases hs : fileSpec pkgPath f with
    | none => exact absurd hs (hspec f hf1 hf2)
    | some s => rfl
  have hnd' : ((filenames.filter (acceptedFile files)).map
      (fun f => (fileSpec pkgPath f).getD "")).Nodup := by
    have : (filenames.filter (acceptedFile files)).map (fun f => (fileSpec pkgPath f).getD "") =
        ((filenames.filter (acceptedFile files)).map (fileSpec pkgPath)).map
          (fun o => o.getD "") := by
      rw [List.map_map]; rfl
    rw [this]
    apply List.Nodup.map_on _ hnd
    intro x hx y hy hxy
    obtain ⟨f, hf, rfl⟩ := List.mem_map.1 hx
    obtain ⟨g, hg, rfl⟩ := List.mem_map.1 hy
    rw [hdone_spec f hf, hdone_spec g hg]
    exact congrArg some hxy
  -- the first loop
  obtain ⟨st, hrun, hinv⟩ := collectFiles_ok ranges fuel files pkgPath filenames []
    { importSpecs := [], moduleMap := [], pkg := [] }
    ⟨rfl, rfl, rfl, by simp⟩ hlen hdepth hspec (by simpa using hnd')
  have hparsed : Parsed ranges fuel files st.pkg :=
    collectFiles_parsed ranges fuel files pkgPath filenames _ st hrun
      (fun md hmd => by simp at hmd)
  rw [List.nil_append] at hinv
  generalize hdone : filenames.filter (acceptedFile files) = done at hinv hnd' hdone_spec ⊢
  have hn : st.pkg.length = done.length := collectedFrom_length hinv
  have hids : st.moduleMap.map Prod.snd = List.range done.length := by
    rw [hinv.map]
    exact List.map_snd_zip _ _ (by simp)
  -- the loops over the map
  generalize hsp : subDirs.foldl
      (fun set subdir => if files.hasInit subdir then setInsert set subdir else set) [] = sp
  have hpsperm : (ranges.process (st.moduleMap.map Prod.snd)).Perm (List.range done.length) := by
    rw [← hids]; exact hprocess _
  have hpsnd : (ranges.process (st.moduleMap.map Prod.snd)).Nodup :=
    hpsperm.nodup_iff.2 (List.nodup_range _)
  have hpsmem : ∀ m, m < st.pkg.length → m ∈ ranges.process (st.moduleMap.map Prod.snd) := by
    intro m hm
    exact hpsperm.symm.subset (List.mem_range.2 (hn ▸ hm))
  have hbound : ∀ x w, w ∈ depsOf (processAll st.pkg st.moduleMap sp
      (ranges.process (st.moduleMap.map Prod.snd))) x → w < done.length := by
    intro x w hw
    have := depsOf_processAll_mem st.pkg st.moduleMap _ _ hinv.fresh x w hw
    rw [hids] at this
    exact List.mem_range.1 this
  have hcnt : done.length ≤ filenames.length := by
    rw [← hdone]
    exact List.length_filter_le _ _
  have hfuel : fuelBound (processAll st.pkg st.moduleMap sp
      (ranges.process (st.moduleMap.map Prod.snd))) ≤ fuel :=
    le_trans (fuelBound_le _ _ hbound) (by omega)
  have hedge := depEdge_processAll st.pkg st.moduleMap sp
    (ranges.process (st.moduleMap.map Prod.snd)) hinv.fresh hpsmem
  obtain ⟨pkg2, hrun2, _, hsound, hcl⟩ := closeAll_spec ranges.deps hdeps fuel
    (directDep st.pkg st.moduleMap sp)
    (ranges.close (st.moduleMap.map Prod.snd))
    (processAll st.pkg st.moduleMap sp (ranges.process (st.moduleMap.map Prod.snd)))
    (fun x y h => (hedge x y).2 h) (fun x y h => Relation.TransGen.single ((hedge x y).1 h))
    hfuel
  have hcores : pkg2.map Module.core =
      done.map (fun f => ((fileSpec pkgPath f).getD "", pkgPath, pyModuleName f, f)) := by
    rw [core_closeAll _ _ _ _ _ hrun2, core_processAll, hinv.cores]
  have hdirect : ∀ a b, directDep pkg2 st.moduleMap sp a b ↔
      directDep st.pkg st.moduleMap sp a b := by
    apply directDep_congr
    rw [keeps_closeAll (fun md : Module => (md.Imports, md.PkgPath)) (fun _ _ => rfl)
        _ _ _ _ _ hrun2,
      keeps_processAll (fun md : Module => (md.Imports, md.PkgPath)) (fun _ _ _ => rfl)]
  have htrans : ∀ a b, Relation.TransGen (directDep pkg2 st.moduleMap sp) a b ↔
      Relation.TransGen (directDep st.pkg st.moduleMap sp) a b := by
    have hfun : directDep pkg2 st.moduleMap sp = directDep st.pkg st.moduleMap sp := by
      funext a b
      exact propext (hdirect a b)
    intro a b
    rw [hfun]
  have hcore : ∀ i f, done[i]? = some f →
      (deref pkg2 i).core = ((fileSpec pkgPath f).getD "", pkgPath, pyModuleName f, f) := by
    intro i f hf
    apply core_deref pkg2 _ hcores i
    rw [List.getElem?_map, hf]
    rfl
  have hlook : ∀ i f, done[i]? = some f →
      st.moduleMap.lookup ((fileSpec pkgPath f).getD "") = some i := by
    intro i f hf
    rw [hinv.map]
    apply lookup_zip_getElem _ _ i _ _ hnd'
    · rw [List.getElem?_map, hf]; rfl
    · have hi : i < done.length := by
        by_contra hc
        rw [List.getElem?_eq_none (Nat.le_of_not_lt hc)] at hf
        simp at hf
      exact List.getElem?_range hi
  have hperm : ((sortStrings st.importSpecs).filterMap
      (fun spec => st.moduleMap.lookup spec)).Perm (List.range done.length) := by
    have h1 : (st.importSpecs.filterMap (fun spec => st.moduleMap.lookup spec)) =
        List.range done.length := by
      rw [hinv.specs, hinv.map]
      exact filterMap_lookup_zip _ _ hnd' (by simp)
    rw [← h1]
    exact (sortStrings_perm st.importSpecs).filterMap _
  have hlt : ∀ m ∈ (sortStrings st.importSpecs).filterMap
      (fun spec => st.moduleMap.lookup spec), m < done.length :=
    fun m hm => List.mem_range.1 (hperm.subset hm)
  have hmem : ∀ m ∈ (sortStrings st.importSpecs).filterMap
      (fun spec => st.moduleMap.lookup spec), ∃ f, done[m]? = some f := by
    intro m hm
    have hlt1 : m < done.length := hlt m hm
    exact ⟨done[m], List.getElem?_eq_getElem hlt1⟩
  have hafter : ∀ m ∈ (sortStrings st.importSpecs).filterMap
      (fun spec => st.moduleMap.lookup spec), ∃ md0, md0 ∈ st.pkg ∧
        (deref pkg2 m).Imports = md0.Imports ∧
        (deref pkg2 m).HasMainNameCheck = md0.HasMainNameCheck ∧
        (deref pkg2 m).Filename = md0.Filename ∧
        (deref pkg2 m).PkgPath = md0.PkgPath ∧
        (deref pkg2 m).ExPkgImports = md0.ExPkgImports ++ md0.Imports.filter
          (fun imp => (findInPkgImport md0 imp st.moduleMap sp).isNone) := by
    intro m hm
    have hlt0 : m < st.pkg.length := by rw [hn]; exact hlt m hm
    exact ⟨st.pkg[m], List.getElem_mem _,
      module_after_loops ranges.deps fuel st.pkg pkg2 st.moduleMap sp _ _ hpsnd hrun2 m
        (hpsmem m hlt0) _ (List.getElem?_eq_getElem hlt0)⟩
  refine ⟨pkg2, (sortStrings st.importSpecs).filterMap (fun spec => st.moduleMap.lookup spec),
    st.moduleMap, sp, ?_, ?_, ?_, ?_, ?_, ?_, ?_, ?_, ?_, ?_, ?_⟩
  · unfold analyzePythonPackage
    rw [hrun]
    simp only
    rw [hsp, hrun2]
  · have h1 : (List.range done.length).map (fun m => (deref pkg2 m).Filename) = done :=
      map_range_eq done _ (fun i f hf => by
        have := hcore i f hf
        exact congrArg (fun c => c.2.2.2) this)
    rw [← h1]
    exact hperm.map _
  · exact hperm.nodup_iff.2 (List.nodup_range _)
  · have h1 : ((sortStrings st.importSpecs).filterMap
        (fun spec => st.moduleMap.lookup spec)).map (fun m => (deref pkg2 m).ImportSpec) =
        sortStrings st.importSpecs := by
      apply filterMap_map_eq
      intro s hs
      have hs1 : s ∈ st.importSpecs := (sortStrings_perm st.importSpecs).subset hs
      rw [hinv.specs] at hs1
      obtain ⟨f, hf, rfl⟩ := List.mem_map.1 hs1
      obtain ⟨i, hi⟩ := List.getElem?_of_mem hf
      exact ⟨i, hlook i f hi, congrArg (fun c => c.1) (hcore i f hi)⟩
    rw [h1]
    apply sortStrings_strict
    rw [hinv.specs]
    exact hnd'
  · intro m hm
    obtain ⟨f, hf⟩ := hmem m hm
    have hc := hcore m f hf
    have hfile : (deref pkg2 m).Filename = f := congrArg (fun c => c.2.2.2) hc
    have hname : (deref pkg2 m).Name = pyModuleName f := congrArg (fun c => c.2.2.1) hc
    have hpath : (deref pkg2 m).PkgPath = pkgPath := congrArg (fun c => c.2.1) hc
    have hsp' : (deref pkg2 m).ImportSpec = (fileSpec pkgPath f).getD "" :=
      congrArg (fun c => c.1) hc
    refine ⟨hpath, by rw [hname, hfile], ?_⟩
    rw [hfile, hsp']
    exact hdone_spec f (List.getElem?_mem hf)
  · intro key m
    constructor
    · intro hk
      rw [hinv.map] at hk
      have hlen' : (done.map (fun f => (fileSpec pkgPath f).getD "")).length = done.length := by
        simp
      rw [← hlen'] at hk
      have hkey := lookup_zip_range _ key m hk
      rw [List.getElem?_map] at hkey
      cases hf : done[m]? with
      | none => rw [hf] at hkey; simp at hkey
      | some f =>
        rw [hf] at hkey
        have hkey' : (fileSpec pkgPath f).getD "" = key := by simpa using hkey
        have hm : m < done.length := by
          by_contra hc
          rw [List.getElem?_eq_none (Nat.le_of_not_lt hc)] at hf
          simp at hf
        refine ⟨hperm.symm.subset (List.mem_range.2 hm), ?_⟩
        rw [← hkey']
        exact congrArg (fun c => c.1) (hcore m f hf)
    · rintro ⟨hm, hkey⟩
      obtain ⟨f, hf⟩ := hmem m hm
      have hImp : (deref pkg2 m).ImportSpec = (fileSpec pkgPath f).getD "" :=
        congrArg (fun c => c.1) (hcore m f hf)
      rw [← hkey, hImp]
      exact hlook m f hf
  · intro d
    rw [← hsp, mem_subPackages]
    simp
  · intro m hm
    obtain ⟨md0, hmd0, h1, h2, h3, _, _⟩ := hafter m hm
    obtain ⟨_, tree, htree, hparse⟩ := hparsed md0 hmd0
    obtain ⟨f, hf⟩ := hmem m hm
    have hfile : (deref pkg2 m).Filename = f := congrArg (fun c => c.2.2.2) (hcore m f hf)
    have hfmem : f ∈ filenames := by
      have : f ∈ done := List.getElem?_mem hf
      rw [← hdone] at this
      exact (List.mem_filter.1 this).1
    have htree' : files.source f = some tree := by rw [← hfile, h3]; exact htree
    obtain ⟨r, hr, hflag, himp⟩ := Parse_visits ranges.imports fuel tree
      (hdepth f hfmem tree htree')
    rw [hparse] at hr
    have hr' := Option.some.inj hr
    refine ⟨tree, by rw [h3]; exact htree, by rw [h1, h2]; exact hparse, ?_, ?_⟩
    · rw [h2, ← hflag, ← hr']
    · intro hperm spec
      rw [h1, ← himp hperm spec, ← hr']
  · intro m hm
    obtain ⟨md0, hmd0, h1, _, _, h4, h5⟩ := hafter m hm
    rw [h5, (hparsed md0 hmd0).1, List.nil_append, h1]
    have hfun : (fun imp => (findInPkgImport (deref pkg2 m) imp st.moduleMap sp).isNone) =
        (fun imp => (findInPkgImport md0 imp st.moduleMap sp).isNone) := by
      funext imp
      rw [findInPkgImport_congr md0 (deref pkg2 m) h4]
    rw [hfun]
  · intro m _ w hw
    have ht := hsound m w hw
    refine ⟨?_, (htrans m w).2 ht⟩
    have hlast : ∃ x, directDep st.pkg st.moduleMap sp x w := by
      cases ht with
      | single h => exact ⟨_, h⟩
      | tail _ h => exact ⟨_, h⟩
    obtain ⟨x, md, _, imp, _, hf⟩ := hlast
    have := findInPkgImport_mem md imp st.moduleMap sp w hf
    rw [hids] at this
    exact hperm.symm.subset this
  · intro m hm w hne ht
    have hq : m ∈ ranges.close (st.moduleMap.map Prod.snd) := by
      apply hclose
      rw [hids]
      exact List.mem_range.2 (hlt m hm)
    rcases hcl m hq w ((htrans m w).1 ht) with h | h
    · exact h
    · exact absurd h hne
theorem depth_bound (files : Files) (fs : List String) (fuel : Nat)
    (h : ∀ f ∈ fs, ((files.source f).map depthList).getD 0 ≤ fuel) :
    ∀ f ∈ fs, ∀ tree, files.source f = some tree → depthList tree ≤ fuel := by
  intro f hf tree hs
  have := h f hf
  rw [hs] at this
  exact this

/-- The failing input of C33. `ModuleName` accepts the file `.py` with type `py` and the
empty module name, which is the module name of `__init__.py`. In the package `pkg` with the
files `.py` and `__init__.py`, both parsed, the two files have the import specifier `pkg`:
the module of `__init__.py` takes the place of the module of `.py` in the map, and the
analysis returns the module of `__init__.py` twice and no module for `.py`. -/
theorem dot_py_and_init_share_specifier :
    ModuleName 16 ".py" = some ("", "py", true) ∧
    ModuleName 16 "__init__.py" = some ("", "py", true) ∧
    [".py", "__init__.py"].filter (acceptedFile dotPyFiles) = [".py", "__init__.py"] ∧
    (match analyzePythonPackage insertionRanges 16 dotPyFiles "pkg" [] [".py", "__init__.py"] with
      | .ok (pkg, modules) => some (modules, modules.map (fun m => (deref pkg m).Filename))
      | _ => none) = some ([1, 1], ["__init__.py", "__init__.py"]) := by
  refine ⟨by decide, by decide, by decide, by decide⟩

/-- C33 holds of every package and every list of distinct file names, two cases apart: the
file `.py` is accepted, which `ModuleName` takes for a module with the name of
`__init__.py`; or the package path is empty and `__init__.py` is accepted, for which
`ImportSpec` panics. In every other case, with fuel for the file names, the syntax trees
and the closure, and with each `range` over the map producing every key,
`analyzePythonPackage` returns. The accepted files are those that `ModuleName` accepts with
type `py` and whose parse succeeds; a file whose parse fails is not accepted, it has no
module, and the modules of the other files are returned all the same. The modules returned
are pairwise distinct and their file names are the accepted files, one module for each;
they are sorted by import specifier, strictly; each has the package path of the package,
the module name of its file and the import specifier of its file. The map `moduleMap`
holds each of them under its import specifier and nothing else, and `subPackages` holds
the subdirectories with an `__init__.py`. Each module has been processed: it holds
the imports and the main check that `Parse` returns for its file, which are the imports
and the main guard among the statements of `visitsList`; its external imports
are those of its imports that `findInPkgImport` does not resolve, and its `InPkgDeps` hold
modules returned only, each reached along direct dependencies, and every module other than
itself that is so reached. -/
theorem analyzePythonPackage_modules (ranges : Ranges)
    (hprocess : ∀ l, (ranges.process l).Perm l)
    (hdeps : ∀ l x, x ∈ l → x ∈ ranges.deps l) (hclose : ∀ l x, x ∈ l → x ∈ ranges.close l)
    (fuel : Nat) (files : Files) (pkgPath : String) (subDirs filenames : List String)
    (hlen : ∀ f ∈ filenames, f.length ≤ fuel)
    (hdepth : ∀ f ∈ filenames, ∀ tree, files.source f = some tree → depthList tree ≤ fuel)
    (hcount : filenames.length < fuel)
    (hnodup : filenames.Nodup)
    (hdot : ∀ f ∈ filenames, acceptedFile files f = true → f ≠ ".py")
    (hroot : pkgPath = "" →
      ∀ f ∈ filenames, acceptedFile files f = true → f ≠ "__init__.py") :
    (∀ f, acceptedFile files f = true ↔
      (∃ name, ModuleName fuel f = some (name, "py", true)) ∧ (files.source f).isSome = true) ∧
    ∃ pkg modules moduleMap subPackages,
      analyzePythonPackage ranges fuel files pkgPath subDirs filenames = .ok (pkg, modules) ∧
      (modules.map (fun m => (deref pkg m).Filename)).Perm
        (filenames.filter (acceptedFile files)) ∧
      modules.Nodup ∧
      List.Sorted (fun a b => strLt a b = true)
        (modules.map (fun m => (deref pkg m).ImportSpec)) ∧
      (∀ m ∈ modules, (deref pkg m).PkgPath = pkgPath ∧
        (deref pkg m).Name = pyModuleName (deref pkg m).Filename ∧
        fileSpec pkgPath (deref pkg m).Filename = some (deref pkg m).ImportSpec) ∧
      (∀ key m, moduleMap.lookup key = some m ↔
        m ∈ modules ∧ (deref pkg m).ImportSpec = key) ∧
      (∀ d, d ∈ subPackages ↔ d ∈ subDirs ∧ files.hasInit d = true) ∧
      (∀ m ∈ modules, ∃ tree, files.source (deref pkg m).Filename = some tree ∧
        Parse ranges.imports fuel tree =
          some ⟨(deref pkg m).Imports, (deref pkg m).HasMainNameCheck⟩ ∧
        (deref pkg m).HasMainNameCheck = (visitsList tree []).1.any mainGuard ∧
        ((∀ l, (ranges.imports l).Perm l) → ∀ spec, spec ∈ (deref pkg m).Imports ↔
          ∃ s ∈ (visitsList tree []).1, spec ∈ contributes s)) ∧
      (∀ m ∈ modules, (deref pkg m).ExPkgImports = (deref pkg m).Imports.filter
        (fun imp => (findInPkgImport (deref pkg m) imp moduleMap subPackages).isNone)) ∧
      (∀ m ∈ modules, ∀ w, w ∈ depsOf pkg m →
        w ∈ modules ∧ Relation.TransGen (directDep pkg moduleMap subPackages) m w) ∧
      (∀ m ∈ modules, ∀ w, w ≠ m →
        Relation.TransGen (directDep pkg moduleMap subPackages) m w → w ∈ depsOf pkg m) := by
  refine ⟨?_, analyze_spec ranges hprocess hdeps hclose fuel files pkgPath subDirs filenames
    hlen hdepth hcount (fileSpecs_defined files pkgPath filenames hdot hroot)
    (fileSpecs_nodup files pkgPath filenames hnodup hdot)⟩
  intro f
  unfold acceptedFile
  rw [Bool.and_eq_true, decide_eq_true_eq]
  constructor
  · rintro ⟨hext, hsrc⟩
    exact ⟨⟨_, ModuleName_py fuel f hext⟩, hsrc⟩
  · rintro ⟨⟨name, hname⟩, hsrc⟩
    refine ⟨?_, hsrc⟩
    by_contra hext
    unfold ModuleName at hname
    simp only [hext, if_false] at hname
    by_cases hso : pathExt f = ".so"
    · simp only [hso, if_true] at hname
      cases hst : stripExts fuel f ".so" with
      | none => rw [hst] at hname; simp at hname
      | some n => rw [hst] at hname; simp at hname
    · simp [hso] at hname

/-- The package `pkg` with `c.py`, `broken.py`, which does not parse, a `README.md`,
`a.py` and `b.py`, and with the subdirectory `sub`: the modules of `a.py`, `b.py` and
`c.py` are returned, in this order; the module of `a.py` holds those of `b.py` and `c.py`
in its `InPkgDeps` and has `numpy` and the subpackage `pkg.sub` as external imports. -/
theorem analyzePythonPackage_modules_witness :
    (match analyzePythonPackage insertionRanges 16 analysisFiles "pkg" ["sub", "doc"]
        ["c.py", "broken.py", "README.md", "a.py", "b.py"] with
      | .ok (pkg, modules) =>
        some (modules, modules.map (fun m => (deref pkg m).Filename),
          modules.map (fun m => depsOf pkg m))
      | _ => none) = some ([1, 2, 0], ["a.py", "b.py", "c.py"], [[2, 0], [0], []]) ∧
    (match analyzePythonPackage insertionRanges 16 analysisFiles "pkg" ["sub", "doc"]
        ["c.py", "broken.py", "README.md", "a.py", "b.py"] with
      | .ok (pkg, modules) =>
        some (modules.map (fun m => (deref pkg m).Imports),
          modules.map (fun m => (deref pkg m).ExPkgImports))
      | _ => none) =
      some ([["numpy", "pkg.b", "pkg.sub"], ["pkg.c"], []], [["numpy", "pkg.sub"], [], []]) ∧
    ((∀ f, acceptedFile analysisFiles f = true ↔
      (∃ name, ModuleName 16 f = some (name, "py", true)) ∧
        (analysisFiles.source f).isSome = true) ∧
    ∃ pkg modules moduleMap subPackages,
      analyzePythonPackage insertionRanges 16 analysisFiles "pkg" ["sub", "doc"]
        ["c.py", "broken.py", "README.md", "a.py", "b.py"] = .ok (pkg, modules) ∧
      (modules.map (fun m => (deref pkg m).Filename)).Perm
        (["c.py", "broken.py", "README.md", "a.py", "b.py"].filter
          (acceptedFile analysisFiles)) ∧
      modules.Nodup ∧
      List.Sorted (fun a b => strLt a b = true)
        (modules.map (fun m => (deref pkg m).ImportSpec)) ∧
      (∀ m ∈ modules, (deref pkg m).PkgPath = "pkg" ∧
        (deref pkg m).Name = pyModuleName (deref pkg m).Filename ∧
        fileSpec "pkg" (deref pkg m).Filename = some (deref pkg m).ImportSpec) ∧
      (∀ key m, moduleMap.lookup key = some m ↔
        m ∈ modules ∧ (deref pkg m).ImportSpec = key) ∧
      (∀ d, d ∈ subPackages ↔ d ∈ ["sub", "doc"] ∧ analysisFiles.hasInit d = true) ∧
      (∀ m ∈ modules, ∃ tree, analysisFiles.source (deref pkg m).Filename = some tree ∧
        Parse insertionRanges.imports 16 tree =
          some ⟨(deref pkg m).Imports, (deref pkg m).HasMainNameCheck⟩ ∧
        (deref pkg m).HasMainNameCheck = (visitsList tree []).1.any mainGuard ∧
        ((∀ l, (insertionRanges.imports l).Perm l) → ∀ spec, spec ∈ (deref pkg m).Imports ↔
          ∃ s ∈ (visitsList tree []).1, spec ∈ contributes s)) ∧
      (∀ m ∈ modules, (deref pkg m).ExPkgImports = (deref pkg m).Imports.filter
        (fun imp => (findInPkgImport (deref pkg m) imp moduleMap subPackages).isNone)) ∧
      (∀ m ∈ modules, ∀ w, w ∈ depsOf pkg m →
        w ∈ modules ∧ Relation.TransGen (directDep pkg moduleMap subPackages) m w) ∧
      (∀ m ∈ modules, ∀ w, w ≠ m →
        Relation.TransGen (directDep pkg moduleMap subPackages) m w → w ∈ depsOf pkg m)) :=
  ⟨by decide, by decide,
    analyzePythonPackage_modules insertionRanges (fun l => List.Perm.refl l)
      (fun _ _ h => h) (fun _ _ h => h) 16
      analysisFiles "pkg" ["sub", "doc"] ["c.py", "broken.py", "README.md", "a.py", "b.py"]
      (by decide) (depth_bound analysisFiles _ 16 (by decide)) (by decide) (by decide)
      (by decide) (fun h => absurd h (by decide))⟩

end GazellePython
